import Mathlib

/-!
# hfst-ospell search engine: a shallow embedding

The definitions below embed the parts of `ospell.cc`, `ospell.h` and
`hfst-ol.cc` that the verified properties are about.

Modelling conventions.
* `SymbolNumber` (16-bit) and `TransitionTableIndex` (32-bit) are natural
  numbers; arithmetic that can wrap is written with an explicit `% 2 ^ 32`.
* `ValueNumber` (signed 16-bit) is an integer; a value computed in `int`
  (`-1*op.Value()`, `++val_num`) is narrowed by `i16` where the source stores
  it in a `ValueNumber`.
* `Weight` is a `float` in the source.  It is embedded as an exact integer
  quantity: only its order, `+` and `std::min` are used by the search.
  Rounding, NaN and overflow to infinity are outside the embedding.
* The index table and the transition table are lists of decoded cells; a
  read at a position `>= size` returns the sentinel, as in the source.
* A `std::vector` used as a stack (`TreeNodeQueue`) is a list whose head is
  the back of the vector.
* Loops that may not terminate (the depth-first searches) take a fuel
  argument and return `none` when it runs out.
* A byte is the character with that code: a C string or `std::string` is the
  list of its bytes before the terminating NUL, and a `char **` cursor is the
  list of the bytes from the cursor up to the NUL together with the number
  of bytes by which a call advances it.
-/

namespace hfst_ospell

/-! ## Primitive types and constants -/

/-- Modelled from the spec: the typedefs are in `hfst-ol.h`, which is not
among the sources; the spec calls `SymbolNumber` an unsigned 16-bit
identifier into the alphabet. -/
abbrev SymbolNumber := Nat

/-- Modelled from the spec: an unsigned 32-bit index into the index table or
the transition table. -/
abbrev TransitionTableIndex := Nat

/-- Modelled from the spec: the value of a flag-diacritic feature, which the
spec gives as a signed 16-bit integer (`value: i16`).  It is embedded as an
integer in the range `-32768 .. 32767` (`ValueNumber.InRange`); arithmetic on
it is done in `int` and narrowed by `i16` where the source stores the result
in a `ValueNumber`. -/
abbrev ValueNumber := Int

/-- The `float` weight of the source, embedded as an exact integer. -/
abbrev Weight := Int

abbrev SymbolVector := List SymbolNumber

/-- Modelled from the spec: a vector of signed small integers, one per
feature; `0` is unset, `v > 0` positively set, `-v` negatively set.  The
elements are value numbers, so signed 16-bit integers: a computed value is
narrowed by `i16` when it is stored in the vector. -/
abbrev FlagDiacriticState := List ValueNumber

abbrev KeyTable := List String

/-- Modelled from the spec: `NO_SYMBOL` is declared in `hfst-ol.h`, which is
not among the sources; the spec gives the value `0xFFFF`. -/
def NO_SYMBOL : SymbolNumber := 65535

/-- Modelled from the spec: `NO_TABLE_INDEX` is declared in `hfst-ol.h`; the
spec gives the value `0xFFFFFFFF`. -/
def NO_TABLE_INDEX : TransitionTableIndex := 4294967295

/-- Modelled from the spec: `TARGET_TABLE` is declared in `hfst-ol.h`; the
spec gives the value `2^31`. -/
def TARGET_TABLE : TransitionTableIndex := 2147483648

/-- The value of `std::numeric_limits<Weight>::max()` for a 32-bit float,
`(2 - 2^-23) * 2^127`, which is an integer. -/
def WEIGHT_MAX : Weight := 340282346638528859811704183484516925440

/-- Wrap-around of unsigned 32-bit arithmetic. -/
def u32 (n : Nat) : Nat := n % 4294967296

/-- Conversion of an `int` to a signed 16-bit integer, as done when the
result of a computation in `int` is stored in a `ValueNumber`: the value in
`-32768 .. 32767` that differs from `v` by a multiple of `2 ^ 16`. -/
def i16 (v : Int) : ValueNumber := (v + 32768) % 65536 - 32768

/-- The values that a `ValueNumber` can hold. -/
def ValueNumber.InRange (v : ValueNumber) : Prop := -32768 ≤ v ∧ v ≤ 32767

/-- Conversion of an `int` to `size_t` (64-bit), as done implicitly when an
`int` is compared with a container size. -/
def size_t_of_int (n : Int) : Nat := (n % 18446744073709551616).toNat

/-! ## Flag diacritics -/

/-- Modelled from the spec: the six flag-diacritic operators (the `enum` is
in `hfst-ol.h`). -/
inductive FlagDiacriticOperator where
  | P | N | R | D | C | U
  deriving DecidableEq, Repr

/-- Modelled from the spec: an operation with its feature and value, as read
through `Operation()`, `Feature()` and `Value()` in `ospell.cc`. -/
structure FlagDiacriticOperation where
  operation : FlagDiacriticOperator
  feature : SymbolNumber
  value : ValueNumber
  deriving DecidableEq, Repr

abbrev OperationMap := List (SymbolNumber × FlagDiacriticOperation)

/-! ## C strings, the string map and the tokeniser (`hfst-ol.cc`)

A byte is embedded as the character with that code, so a C string or a
`std::string` is the list of its bytes before the terminating NUL, and a key
of the key table is the `String` with those characters.  A read past the
terminating NUL has no result (`none`). -/

/-- `StringSymbolMap`, a `std::map<std::string, SymbolNumber>`: an
association list with one pair per key. -/
abbrev StringSymbolMap := List (String × SymbolNumber)

namespace StringSymbolMap

/-- `map.count(key)`. -/
def count (m : StringSymbolMap) (key : String) : Nat :=
  if (m.lookup key).isSome then 1 else 0

/-- `map[key] = value`. -/
def assign : StringSymbolMap → String → SymbolNumber → StringSymbolMap
  | [], key, value => [(key, value)]
  | (k0, v0) :: rest, key, value =>
      if k0 = key then (k0, value) :: rest else (k0, v0) :: assign rest key value

/-- `map[key]` as a read.  The source only reads keys that are present; for
an absent key `operator[]` yields the value-initialised `0`. -/
def value_at (m : StringSymbolMap) (key : String) : SymbolNumber :=
  (m.lookup key).getD 0

end StringSymbolMap

/-- Modelled from the spec: the class `LetterTrie` is declared in
`hfst-ol.h`, which is not among the sources.  Its members are taken from
their uses in `hfst-ol.cc`: `letters`, child pointers indexed by a byte
(`none` for `NULL`), and `symbols`, symbol numbers indexed by a byte. -/
inductive LetterTrie where
  | mk (letters : Char → Option LetterTrie) (symbols : Char → SymbolNumber)

namespace LetterTrie

def letters : LetterTrie → Char → Option LetterTrie
  | mk l _ => l

def symbols : LetterTrie → Char → SymbolNumber
  | mk _ s => s

/-- Modelled from the spec: the constructor `LetterTrie()` of `hfst-ol.h`,
all child pointers `NULL` and all symbols `NO_SYMBOL`. -/
def fresh : LetterTrie := mk (fun _ => none) (fun _ => NO_SYMBOL)

/-- `LetterTrie::add_string(p, symbol_key)` for the non-empty C string
`c :: rest` at `p`. -/
def add_string : LetterTrie → Char → List Char → SymbolNumber → LetterTrie
  | mk letters symbols, c, [], symbol_key =>
      mk letters (fun b => if b = c then symbol_key else symbols b)
  | mk letters symbols, c, c1 :: rest, symbol_key =>
      let child := match letters c with
        | none => fresh
        | some t => t
      mk (fun b => if b = c then some (add_string child c1 rest symbol_key) else letters b)
        symbols

/-- `LetterTrie::find_key(p)` on the bytes `line` that `*p` points to: the
symbol returned and the number of bytes by which `*p` has advanced.  At the
terminating NUL (`[]`) a non-null child for the byte 0 would make the
recursive call read past the terminator. -/
def find_key : LetterTrie → List Char → Option (SymbolNumber × Nat)
  | t, [] =>
      match t.letters (Char.ofNat 0) with
      | none => some (t.symbols (Char.ofNat 0), 1)
      | some _ => none
  | t, c :: rest =>
      match t.letters c with
      | none => some (t.symbols c, 1)
      | some child =>
          match find_key child rest with
          | none => none
          | some (s, advanced) =>
            if s = NO_SYMBOL then some (t.symbols c, 1 + advanced - 1)
            else some (s, 1 + advanced)

/-- `LetterTrie::has_key_starting_with`. -/
def has_key_starting_with (t : LetterTrie) (c : Char) : Bool := (t.letters c).isSome

end LetterTrie

/-- Modelled from the spec: the class `Encoder` is declared in `hfst-ol.h`;
its members are taken from their uses in `hfst-ol.cc`: the table
`ascii_symbols` of `UCHAR_MAX + 1` symbol numbers and the trie `letters`. -/
structure Encoder where
  ascii_symbols : Char → SymbolNumber
  letters : LetterTrie

namespace Encoder

/-- The members as the constructor initialises them, before it calls
`read_input_symbols`. -/
def fresh : Encoder := ⟨fun _ => NO_SYMBOL, LetterTrie.fresh⟩

/-- `Encoder::read_input_symbol(const char * s, const int s_num)`;
`static_cast<SymbolNumber>(s_num)` is the residue modulo `2 ^ 16`. -/
def read_input_symbol (e : Encoder) (s : List Char) (s_num : Int) : Encoder :=
  match s with
  | [] => e
  | c :: rest =>
    let key : SymbolNumber := (s_num % 65536).toNat
    let e : Encoder :=
      if rest = [] ∧ c.toNat ≤ 127 ∧ e.letters.has_key_starting_with c = false then
        { e with ascii_symbols := fun b => if b = c then key else e.ascii_symbols b }
      else if c.toNat ≤ 127 ∧ e.ascii_symbols c ≠ NO_SYMBOL then
        { e with ascii_symbols := fun b => if b = c then NO_SYMBOL else e.ascii_symbols b }
      else e
    { e with letters := e.letters.add_string c rest key }

/-- The loop of `Encoder::read_input_symbols` from symbol `k` on, for
`count` more symbols; `kt->at(k)` throws when `k` is not an index of the key
table. -/
def read_input_symbols_from (kt : KeyTable) : Nat → SymbolNumber → Encoder → Option Encoder
  | 0, _, e => some e
  | count + 1, k, e =>
    match kt.get? k with
    | none => none
    | some s => read_input_symbols_from kt count (k + 1) (e.read_input_symbol s.toList k)

/-- `Encoder::read_input_symbols`. -/
def read_input_symbols (e : Encoder) (kt : KeyTable) (number_of_input_symbols : SymbolNumber) :
    Option Encoder :=
  read_input_symbols_from kt number_of_input_symbols 0 e

/-- The constructor `Encoder(kt, number_of_input_symbols)`. -/
def create (kt : KeyTable) (number_of_input_symbols : SymbolNumber) : Option Encoder :=
  fresh.read_input_symbols kt number_of_input_symbols

/-- `Encoder::find_key(p)` on the bytes `line` that `*p` points to: the
symbol returned and the number of bytes by which `*p` has advanced. -/
def find_key (e : Encoder) (line : List Char) : Option (SymbolNumber × Nat) :=
  if e.ascii_symbols (line.headD (Char.ofNat 0)) = NO_SYMBOL then e.letters.find_key line
  else some (e.ascii_symbols (line.headD (Char.ofNat 0)), 1)

/-- The encoder after the calls `read_input_symbol(s, s_num)` for the pairs
of `calls`, in order, on a new encoder. -/
def of_calls (calls : List (List Char × Int)) : Encoder :=
  calls.foldl (fun e c => e.read_input_symbol c.1 c.2) fresh

end Encoder

/-! ## Tables (`hfst-ol.cc`) -/

structure TransitionIndex where
  input_symbol : SymbolNumber
  first_transition_index : TransitionTableIndex
  deriving DecidableEq, Repr

structure Transition where
  input_symbol : SymbolNumber
  output_symbol : SymbolNumber
  target_index : TransitionTableIndex
  transition_weight : Weight
  deriving DecidableEq, Repr

structure TransducerAlphabet where
  kt : KeyTable
  operations : OperationMap
  unknown_symbol : SymbolNumber
  identity_symbol : SymbolNumber
  flag_state_size : Nat
  orig_symbol_count : Nat
  string_to_symbol : StringSymbolMap := []
  deriving Repr

/-- The transducer as the search sees it: alphabet, index table, transition
table.  `infinite_weight` is the constant `INFINITE_WEIGHT` of `hfst-ol.h`
(not among the sources) and `weight_of_bits` is the reinterpretation of a
32-bit word as a float done by `IndexTable::final_weight`; both are taken as
parameters. -/
structure Transducer where
  alphabet : TransducerAlphabet
  indices : List TransitionIndex
  transitions : List Transition
  infinite_weight : Weight
  weight_of_bits : Nat → Weight
  encoder : Encoder := Encoder.fresh

namespace TransducerAlphabet

def is_flag (a : TransducerAlphabet) (symbol : SymbolNumber) : Bool :=
  (a.operations.lookup symbol).isSome

def get_unknown (a : TransducerAlphabet) : SymbolNumber := a.unknown_symbol
def get_identity (a : TransducerAlphabet) : SymbolNumber := a.identity_symbol
def get_orig_symbol_count (a : TransducerAlphabet) : Nat := a.orig_symbol_count
def get_state_size (a : TransducerAlphabet) : Nat := a.flag_state_size

end TransducerAlphabet

/-- `operations->operator[](symbol)`: the stored operation; a missing key
yields the default-constructed operation. -/
def OperationMap.at (m : OperationMap) (symbol : SymbolNumber) : FlagDiacriticOperation :=
  (m.lookup symbol).getD ⟨FlagDiacriticOperator.P, NO_SYMBOL, 0⟩

namespace Transducer

/-- `IndexTable::input_symbol`. -/
def indices_input_symbol (t : Transducer) (i : TransitionTableIndex) : SymbolNumber :=
  match t.indices.get? i with
  | some c => c.input_symbol
  | none => NO_SYMBOL

/-- `IndexTable::target`. -/
def indices_target (t : Transducer) (i : TransitionTableIndex) : TransitionTableIndex :=
  match t.indices.get? i with
  | some c => c.first_transition_index
  | none => NO_TABLE_INDEX

/-- `IndexTable::final`. -/
def indices_final (t : Transducer) (i : TransitionTableIndex) : Bool :=
  t.indices_input_symbol i == NO_SYMBOL && t.indices_target i != NO_TABLE_INDEX

/-- `IndexTable::final_weight`. -/
def indices_final_weight (t : Transducer) (i : TransitionTableIndex) : Weight :=
  match t.indices.get? i with
  | some c => t.weight_of_bits c.first_transition_index
  | none => t.infinite_weight

/-- `TransitionTable::input_symbol`. -/
def transitions_input_symbol (t : Transducer) (i : TransitionTableIndex) : SymbolNumber :=
  match t.transitions.get? i with
  | some c => c.input_symbol
  | none => NO_SYMBOL

/-- `TransitionTable::output_symbol`. -/
def transitions_output_symbol (t : Transducer) (i : TransitionTableIndex) : SymbolNumber :=
  match t.transitions.get? i with
  | some c => c.output_symbol
  | none => NO_SYMBOL

/-- `TransitionTable::target`. -/
def transitions_target (t : Transducer) (i : TransitionTableIndex) : TransitionTableIndex :=
  match t.transitions.get? i with
  | some c => c.target_index
  | none => NO_TABLE_INDEX

/-- `TransitionTable::weight`. -/
def transitions_weight (t : Transducer) (i : TransitionTableIndex) : Weight :=
  match t.transitions.get? i with
  | some c => c.transition_weight
  | none => t.infinite_weight

/-- `TransitionTable::final`. -/
def transitions_final (t : Transducer) (i : TransitionTableIndex) : Bool :=
  t.transitions_input_symbol i == NO_SYMBOL &&
    t.transitions_output_symbol i == NO_SYMBOL &&
    t.transitions_target i == 1

def is_flag (t : Transducer) (symbol : SymbolNumber) : Bool := t.alphabet.is_flag symbol
def get_unknown (t : Transducer) : SymbolNumber := t.alphabet.get_unknown
def get_identity (t : Transducer) : SymbolNumber := t.alphabet.get_identity
def get_state_size (t : Transducer) : Nat := t.alphabet.get_state_size
def get_key_table (t : Transducer) : KeyTable := t.alphabet.kt
def get_operations (t : Transducer) : OperationMap := t.alphabet.operations

/-- `Transducer::next`. -/
def next (t : Transducer) (i : TransitionTableIndex) (symbol : SymbolNumber) :
    TransitionTableIndex :=
  if i ≥ TARGET_TABLE then i - TARGET_TABLE + 1
  else u32 (t.indices_target (u32 (i + 1 + symbol)) + 4294967296 - TARGET_TABLE)

/-- `Transducer::has_transitions`. -/
def has_transitions (t : Transducer) (i : TransitionTableIndex) (symbol : SymbolNumber) : Bool :=
  if symbol = NO_SYMBOL then false
  else if i ≥ TARGET_TABLE then t.transitions_input_symbol (i - TARGET_TABLE) == symbol
  else t.indices_input_symbol (u32 (i + symbol)) == symbol

/-- `Transducer::has_epsilons_or_flags`. -/
def has_epsilons_or_flags (t : Transducer) (i : TransitionTableIndex) : Bool :=
  if i ≥ TARGET_TABLE then
    t.transitions_input_symbol (i - TARGET_TABLE) == 0 ||
      t.is_flag (t.transitions_input_symbol (i - TARGET_TABLE))
  else t.indices_input_symbol i == 0

/-- `Transducer::is_final`. -/
def is_final (t : Transducer) (i : TransitionTableIndex) : Bool :=
  if i ≥ TARGET_TABLE then t.transitions_final (i - TARGET_TABLE) else t.indices_final i

/-- `Transducer::final_weight`. -/
def final_weight (t : Transducer) (i : TransitionTableIndex) : Weight :=
  if i ≥ TARGET_TABLE then t.transitions_weight (i - TARGET_TABLE) else t.indices_final_weight i

end Transducer

/-- `STransition` of `ospell.h`. -/
structure STransition where
  index : TransitionTableIndex
  symbol : SymbolNumber
  weight : Weight
  deriving DecidableEq, Repr

namespace Transducer

/-- `Transducer::take_epsilons`. -/
def take_epsilons (t : Transducer) (i : TransitionTableIndex) : STransition :=
  if t.transitions_input_symbol i ≠ 0 then ⟨0, NO_SYMBOL, 0⟩
  else ⟨t.transitions_target i, t.transitions_output_symbol i, t.transitions_weight i⟩

/-- `Transducer::take_epsilons_and_flags`. -/
def take_epsilons_and_flags (t : Transducer) (i : TransitionTableIndex) : STransition :=
  if t.transitions_input_symbol i ≠ 0 ∧ t.is_flag (t.transitions_input_symbol i) = false then
    ⟨0, NO_SYMBOL, 0⟩
  else ⟨t.transitions_target i, t.transitions_output_symbol i, t.transitions_weight i⟩

/-- `Transducer::take_non_epsilons`. -/
def take_non_epsilons (t : Transducer) (i : TransitionTableIndex) (symbol : SymbolNumber) :
    STransition :=
  if t.transitions_input_symbol i ≠ symbol then ⟨0, NO_SYMBOL, 0⟩
  else ⟨t.transitions_target i, t.transitions_output_symbol i, t.transitions_weight i⟩

end Transducer

/-! ## Search nodes (`ospell.h`, `ospell.cc`) -/

structure TreeNode where
  string : SymbolVector
  input_state : Nat
  mutator_state : TransitionTableIndex
  lexicon_state : TransitionTableIndex
  flag_state : FlagDiacriticState
  weight : Weight
  deriving DecidableEq, Repr

namespace TreeNode

/-- The constructor `TreeNode(FlagDiacriticState start_state)`. -/
def start (start_state : FlagDiacriticState) : TreeNode :=
  ⟨[], 0, 0, 0, start_state, 0⟩

/-- `TreeNode::update_lexicon`. -/
def update_lexicon (n : TreeNode) (symbol : SymbolNumber)
    (next_lexicon : TransitionTableIndex) (weight : Weight) : TreeNode :=
  ⟨if symbol ≠ 0 then n.string ++ [symbol] else n.string,
    n.input_state, n.mutator_state, next_lexicon, n.flag_state, n.weight + weight⟩

/-- `TreeNode::update_mutator`. -/
def update_mutator (n : TreeNode) (next_mutator : TransitionTableIndex) (weight : Weight) :
    TreeNode :=
  ⟨n.string, n.input_state, next_mutator, n.lexicon_state, n.flag_state, n.weight + weight⟩

/-- `TreeNode::update` with five arguments. -/
def update (n : TreeNode) (symbol : SymbolNumber) (next_input : Nat)
    (next_mutator next_lexicon : TransitionTableIndex) (weight : Weight) : TreeNode :=
  ⟨if symbol ≠ 0 then n.string ++ [symbol] else n.string,
    next_input, next_mutator, next_lexicon, n.flag_state, n.weight + weight⟩

/-- `TreeNode::try_compatible_with`: the returned flag and the node after the
call (the method updates `flag_state` in place).  `-1*op.Value()` is computed
in `int` and narrowed to the 16-bit element it is stored in; the other
stores write a `ValueNumber` as it is. -/
def try_compatible_with (n : TreeNode) (op : FlagDiacriticOperation) : Bool × TreeNode :=
  match op.operation with
  | FlagDiacriticOperator.P =>
      (true, { n with flag_state := n.flag_state.set op.feature op.value })
  | FlagDiacriticOperator.N =>
      (true, { n with flag_state := n.flag_state.set op.feature (i16 (-1 * op.value)) })
  | FlagDiacriticOperator.R =>
      if op.value = 0 then (decide (n.flag_state.getD op.feature 0 ≠ 0), n)
      else (decide (n.flag_state.getD op.feature 0 = op.value), n)
  | FlagDiacriticOperator.D =>
      if op.value = 0 then (decide (n.flag_state.getD op.feature 0 = 0), n)
      else (decide (n.flag_state.getD op.feature 0 ≠ op.value), n)
  | FlagDiacriticOperator.C =>
      (true, { n with flag_state := n.flag_state.set op.feature 0 })
  | FlagDiacriticOperator.U =>
      if n.flag_state.getD op.feature 0 = 0 ∨
          n.flag_state.getD op.feature 0 = op.value ∨
          (n.flag_state.getD op.feature 0 < 0 ∧
            n.flag_state.getD op.feature 0 * -1 ≠ op.value) then
        (true, { n with flag_state := n.flag_state.set op.feature op.value })
      else (false, n)

end TreeNode

/-! ## Result containers -/

abbrev StringWeightPair := String × Weight
abbrev StringWeightVector := List StringWeightPair

/-- `std::map<std::string, Weight>`: the entries in ascending key order. -/
abbrev StringWeightMap := List (String × Weight)

/-- `CorrectionQueue`: the pairs held by the priority queue, in the order in
which they were pushed. -/
abbrev CorrectionQueue := List StringWeightPair

/-- `outputs.count(key) == 0 || outputs[key] > weight` followed by
`outputs[key] = weight`: insert the pair when the key is new or the stored
weight is greater. -/
def StringWeightMap.insert_if_better : StringWeightMap → String → Weight → StringWeightMap
  | [], k, w => [(k, w)]
  | (k0, w0) :: rest, k, w =>
      if k < k0 then (k, w) :: (k0, w0) :: rest
      else if k = k0 then (if w0 > w then (k0, w) :: rest else (k0, w0) :: rest)
      else (k0, w0) :: StringWeightMap.insert_if_better rest k w

/-- The test `count(key) == 0 || map[key] > weight` alone. -/
def StringWeightMap.is_better (m : StringWeightMap) (k : String) (w : Weight) : Bool :=
  match m.lookup k with
  | none => true
  | some w0 => decide (w0 > w)

/-- `WeightQueue` of `ospell.h`: a `std::list<Weight>`, front first. -/
abbrev WeightQueue := List Weight

namespace WeightQueue

/-- `WeightQueue::push`. -/
def push : WeightQueue → Weight → WeightQueue
  | [], w => [w]
  | x :: xs, w => if x > w then w :: x :: xs else x :: push xs w

/-- `WeightQueue::pop`. -/
def pop (q : WeightQueue) : WeightQueue := q.dropLast

/-- `WeightQueue::get_lowest`. -/
def get_lowest (q : WeightQueue) : Weight :=
  match q.head? with
  | none => WEIGHT_MAX
  | some w => w

/-- `WeightQueue::get_highest`. -/
def get_highest (q : WeightQueue) : Weight :=
  match q.getLast? with
  | none => WEIGHT_MAX
  | some w => w

end WeightQueue

/-- `stringify` of `ospell.cc`. -/
def stringify (key_table : KeyTable) (symbol_vector : SymbolVector) : String :=
  symbol_vector.foldl
    (fun s it => if it < key_table.length then s ++ key_table.getD it "" else s) ""

/-! ## The speller -/

inductive LimitingBehaviour where
  | None | MaxWeight | Nbest | Beam | MaxWeightNbest | MaxWeightBeam | NbestBeam
  | MaxWeightNbestBeam
  deriving DecidableEq, Repr

inductive Mode where
  | Check | Correct | Lookup
  deriving DecidableEq, Repr

/-- `CacheContainer` of `ospell.h`; `nodes` front first. -/
structure CacheContainer where
  nodes : List TreeNode
  results_len_0 : StringWeightVector
  results_len_1 : StringWeightVector
  empty : Bool
  deriving Repr

/-- The constructor `CacheContainer()`. -/
def CacheContainer.fresh : CacheContainer := ⟨[], [], [], true⟩

/-- The members of `Speller` that the searches read or write.  `queue` has
the back of the vector at its head.  `mutator` is `none` for a null
pointer. -/
structure Speller where
  mutator : Option Transducer
  lexicon : Transducer
  input : SymbolVector
  queue : List TreeNode
  next_node : TreeNode
  limit : Weight
  best_suggestion : Weight
  nbest_queue : WeightQueue
  alphabet_translator : SymbolVector
  cache : List CacheContainer
  limiting : LimitingBehaviour
  mode : Mode
  max_time : Weight
  call_counter : Nat
  limit_reached : Bool

namespace Speller

/-- `Speller::get_state_size`. -/
def get_state_size (S : Speller) : Nat := S.lexicon.get_state_size % 65536

/-- `Speller::is_under_weight_limit`. -/
def is_under_weight_limit (S : Speller) (w : Weight) : Bool :=
  if S.limiting = LimitingBehaviour.Nbest then decide (w < S.limit) else decide (w ≤ S.limit)

/-- `Speller::set_limiting_behaviour`. -/
def set_limiting_behaviour (S : Speller) (nbest : Int) (maxweight beam : Weight) : Speller :=
  let S := { S with limiting := LimitingBehaviour.None, limit := WEIGHT_MAX,
                    best_suggestion := WEIGHT_MAX }
  if maxweight ≥ 0 ∧ nbest > 0 ∧ beam ≥ 0 then
    { S with limiting := LimitingBehaviour.MaxWeightNbestBeam, limit := maxweight }
  else if maxweight ≥ 0 ∧ nbest > 0 ∧ beam < 0 then
    { S with limiting := LimitingBehaviour.MaxWeightNbest, limit := maxweight }
  else if maxweight ≥ 0 ∧ beam ≥ 0 ∧ nbest = 0 then
    { S with limiting := LimitingBehaviour.MaxWeightBeam, limit := maxweight }
  else if maxweight < 0 ∧ nbest > 0 ∧ beam ≥ 0 then
    { S with limiting := LimitingBehaviour.NbestBeam }
  else if maxweight ≥ 0 ∧ nbest = 0 ∧ beam < 0 then
    { S with limiting := LimitingBehaviour.MaxWeight, limit := maxweight }
  else if maxweight < 0 ∧ nbest > 0 ∧ beam < 0 then
    { S with limiting := LimitingBehaviour.Nbest }
  else if maxweight < 0 ∧ nbest = 0 ∧ beam ≥ 0 then
    { S with limiting := LimitingBehaviour.Beam }
  else S

/-- `Speller::adjust_weight_limits`. -/
def adjust_weight_limits (S : Speller) (nbest : Int) (beam : Weight) : Speller :=
  if S.limiting = LimitingBehaviour.MaxWeight then S
  else if S.limiting = LimitingBehaviour.Nbest ∧ S.nbest_queue.length ≥ size_t_of_int nbest then
    { S with limit := S.nbest_queue.get_highest }
  else if S.limiting = LimitingBehaviour.MaxWeightNbest ∧
      S.nbest_queue.length ≥ size_t_of_int nbest then
    { S with limit := min S.limit S.nbest_queue.get_lowest }
  else if S.limiting = LimitingBehaviour.Beam ∧ S.best_suggestion < WEIGHT_MAX then
    { S with limit := S.best_suggestion + beam }
  else if S.limiting = LimitingBehaviour.NbestBeam then
    if S.best_suggestion < WEIGHT_MAX then
      if S.nbest_queue.length ≥ size_t_of_int nbest then
        { S with limit := min (S.best_suggestion + beam) S.nbest_queue.get_lowest }
      else { S with limit := S.best_suggestion + beam }
    else S
  else if S.limiting = LimitingBehaviour.MaxWeightBeam then
    if S.best_suggestion < WEIGHT_MAX then
      { S with limit := min (S.best_suggestion + beam) S.limit }
    else S
  else if S.limiting = LimitingBehaviour.MaxWeightNbestBeam then
    let limit1 :=
      if S.best_suggestion < WEIGHT_MAX then min S.limit (S.best_suggestion + beam)
      else S.limit
    if S.nbest_queue.length ≥ size_t_of_int nbest then
      { S with limit := min limit1 S.nbest_queue.get_lowest }
    else { S with limit := limit1 }
  else S

/-- The `while` loop of `Speller::lexicon_epsilons`, entered at transition
`next`.  The loop ends at the first cell whose `take_epsilons_and_flags`
symbol is `NO_SYMBOL`, at the latest at the end of the table; `fuel` bounds
the number of cells visited. -/
def lexicon_epsilons_loop : Nat → TransitionTableIndex → Speller → Speller
  | 0, _, S => S
  | fuel + 1, next, S =>
    let i_s := S.lexicon.take_epsilons_and_flags next
    if i_s.symbol = NO_SYMBOL then S
    else
      let S1 :=
        if S.is_under_weight_limit (S.next_node.weight + i_s.weight) then
          if S.lexicon.transitions_input_symbol next = 0 then
            let n := S.next_node.update_lexicon (if S.mode = Mode.Correct then 0 else i_s.symbol)
              i_s.index i_s.weight
            { S with queue := n :: S.queue }
          else
            let old_flags := S.next_node.flag_state
            let r := S.next_node.try_compatible_with
              (S.lexicon.get_operations.at (S.lexicon.transitions_input_symbol next))
            if r.1 then
              { S with queue := r.2.update_lexicon 0 i_s.index i_s.weight :: S.queue,
                       next_node := { r.2 with flag_state := old_flags } }
            else { S with next_node := r.2 }
        else S
      lexicon_epsilons_loop fuel (next + 1) S1

/-- `Speller::lexicon_epsilons`. -/
def lexicon_epsilons (S : Speller) : Speller :=
  if S.lexicon.has_epsilons_or_flags (u32 (S.next_node.lexicon_state + 1)) = false then S
  else
    let next := S.lexicon.next S.next_node.lexicon_state 0
    lexicon_epsilons_loop (S.lexicon.transitions.length + 1 - next) next S

/-- The `while` loop of `Speller::queue_lexicon_arcs`.  A read of `input`
past its end is given the value `NO_SYMBOL`. -/
def queue_lexicon_arcs_loop (input_sym : SymbolNumber) (mutator_state : TransitionTableIndex)
    (mutator_weight : Weight) (input_increment : Nat) :
    Nat → TransitionTableIndex → Speller → Speller
  | 0, _, S => S
  | fuel + 1, next, S =>
    let i_s := S.lexicon.take_non_epsilons next input_sym
    if i_s.symbol = NO_SYMBOL then S
    else
      let sym := if i_s.symbol = S.lexicon.get_identity then
          S.input.getD S.next_node.input_state NO_SYMBOL else i_s.symbol
      let S1 :=
        if S.is_under_weight_limit (S.next_node.weight + i_s.weight + mutator_weight) then
          let n := S.next_node.update (if S.mode = Mode.Correct then input_sym else sym)
            (S.next_node.input_state + input_increment) mutator_state i_s.index
            (i_s.weight + mutator_weight)
          { S with queue := n :: S.queue }
        else S
      queue_lexicon_arcs_loop input_sym mutator_state mutator_weight input_increment
        fuel (next + 1) S1

/-- `Speller::queue_lexicon_arcs`. -/
def queue_lexicon_arcs (S : Speller) (input_sym : SymbolNumber)
    (mutator_state : TransitionTableIndex) (mutator_weight : Weight)
    (input_increment : Nat) : Speller :=
  let next := S.lexicon.next S.next_node.lexicon_state input_sym
  queue_lexicon_arcs_loop input_sym mutator_state mutator_weight input_increment
    (S.lexicon.transitions.length + 1 - next) next S

/-- The unknown/identity fallback shared by `lexicon_consume`,
`mutator_epsilons` and `queue_mutator_arcs`: the two guarded calls of
`queue_lexicon_arcs`. -/
def lexicon_fallback (S : Speller) (mutator_state : TransitionTableIndex)
    (mutator_weight : Weight) (input_increment : Nat) : Speller :=
  let S1 :=
    if S.lexicon.get_unknown ≠ NO_SYMBOL ∧
        S.lexicon.has_transitions (u32 (S.next_node.lexicon_state + 1)) S.lexicon.get_unknown
          = true then
      S.queue_lexicon_arcs S.lexicon.get_unknown mutator_state mutator_weight input_increment
    else S
  if S1.lexicon.get_identity ≠ NO_SYMBOL ∧
      S1.lexicon.has_transitions (u32 (S1.next_node.lexicon_state + 1)) S1.lexicon.get_identity
        = true then
    S1.queue_lexicon_arcs S1.lexicon.get_identity mutator_state mutator_weight input_increment
  else S1

/-- `Speller::lexicon_consume`.  A read of `alphabet_translator` past its
end is given the value `NO_SYMBOL`. -/
def lexicon_consume (S : Speller) : Speller :=
  let input_state := S.next_node.input_state
  if input_state ≥ S.input.length then S
  else
    let this_input :=
      if S.mutator.isSome ∧ S.mode ≠ Mode.Check then
        S.alphabet_translator.getD (S.input.getD input_state NO_SYMBOL) NO_SYMBOL
      else S.input.getD input_state NO_SYMBOL
    if S.lexicon.has_transitions (u32 (S.next_node.lexicon_state + 1)) this_input = false then
      if this_input ≥ S.lexicon.alphabet.get_orig_symbol_count then
        S.lexicon_fallback S.next_node.mutator_state 0 1
      else S
    else S.queue_lexicon_arcs this_input S.next_node.mutator_state 0 1

/-- The `while` loop of `Speller::mutator_epsilons` over the mutator `m`. -/
def mutator_epsilons_loop (m : Transducer) : Nat → TransitionTableIndex → Speller → Speller
  | 0, _, S => S
  | fuel + 1, next_m, S =>
    let mutator_i_s := m.take_epsilons next_m
    if mutator_i_s.symbol = NO_SYMBOL then S
    else
      let translated := S.alphabet_translator.getD mutator_i_s.symbol NO_SYMBOL
      let S1 : Speller :=
        if mutator_i_s.symbol = 0 then
          if S.is_under_weight_limit (S.next_node.weight + mutator_i_s.weight) then
            let n := S.next_node.update_mutator mutator_i_s.index mutator_i_s.weight
            { S with queue := n :: S.queue }
          else S
        else if S.lexicon.has_transitions (u32 (S.next_node.lexicon_state + 1)) translated
            = false then
          if translated ≥ S.lexicon.alphabet.get_orig_symbol_count then
            S.lexicon_fallback mutator_i_s.index mutator_i_s.weight 0
          else S
        else S.queue_lexicon_arcs translated mutator_i_s.index mutator_i_s.weight 0
      mutator_epsilons_loop m fuel (next_m + 1) S1

/-- `Speller::mutator_epsilons`, for the mutator `m`. -/
def mutator_epsilons (S : Speller) (m : Transducer) : Speller :=
  if m.has_transitions (u32 (S.next_node.mutator_state + 1)) 0 = false then S
  else
    let next_m := m.next S.next_node.mutator_state 0
    mutator_epsilons_loop m (m.transitions.length + 1 - next_m) next_m S

/-- The `while` loop of `Speller::queue_mutator_arcs`. -/
def queue_mutator_arcs_loop (m : Transducer) (input_sym : SymbolNumber) :
    Nat → TransitionTableIndex → Speller → Speller
  | 0, _, S => S
  | fuel + 1, next_m, S =>
    let mutator_i_s := m.take_non_epsilons next_m input_sym
    if mutator_i_s.symbol = NO_SYMBOL then S
    else
      let translated := S.alphabet_translator.getD mutator_i_s.symbol NO_SYMBOL
      let S1 : Speller :=
        if mutator_i_s.symbol = 0 then
          if S.is_under_weight_limit (S.next_node.weight + mutator_i_s.weight) then
            let n := S.next_node.update 0 (S.next_node.input_state + 1) mutator_i_s.index
              S.next_node.lexicon_state mutator_i_s.weight
            { S with queue := n :: S.queue }
          else S
        else if S.lexicon.has_transitions (u32 (S.next_node.lexicon_state + 1)) translated
            = false then
          if translated ≥ S.lexicon.alphabet.get_orig_symbol_count then
            S.lexicon_fallback mutator_i_s.index mutator_i_s.weight 1
          else S
        else S.queue_lexicon_arcs translated mutator_i_s.index mutator_i_s.weight 1
      queue_mutator_arcs_loop m input_sym fuel (next_m + 1) S1

/-- `Speller::queue_mutator_arcs`. -/
def queue_mutator_arcs (S : Speller) (m : Transducer) (input_sym : SymbolNumber) : Speller :=
  let next_m := m.next S.next_node.mutator_state input_sym
  queue_mutator_arcs_loop m input_sym (m.transitions.length + 1 - next_m) next_m S

/-- `Speller::consume_input`. -/
def consume_input (S : Speller) (m : Transducer) : Speller :=
  if S.next_node.input_state ≥ S.input.length then S
  else
    let input_sym := S.input.getD S.next_node.input_state NO_SYMBOL
    if m.has_transitions (u32 (S.next_node.mutator_state + 1)) input_sym = false then
      if input_sym ≥ m.alphabet.get_orig_symbol_count then
        let S1 : Speller :=
          if m.get_identity ≠ NO_SYMBOL ∧
              m.has_transitions (u32 (S.next_node.mutator_state + 1)) m.get_identity = true then
            S.queue_mutator_arcs m m.get_identity
          else S
        if m.get_unknown ≠ NO_SYMBOL ∧
            m.has_transitions (u32 (S1.next_node.mutator_state + 1)) m.get_unknown = true then
          S1.queue_mutator_arcs m m.get_unknown
        else S1
      else S
    else S.queue_mutator_arcs m input_sym

/-- The start node `TreeNode(FlagDiacriticState(get_state_size(), 0))`. -/
def start_node (S : Speller) : TreeNode := TreeNode.start (List.replicate S.get_state_size 0)

/-- An update of `cache[i]` in place. -/
def cache_update (cache : List CacheContainer) (i : Nat) (f : CacheContainer → CacheContainer) :
    List CacheContainer :=
  match cache.get? i with
  | none => cache
  | some c => cache.set i (f c)

/-- The body of the `while` loop of `Speller::build_cache`, run on the
speller whose `next_node` is the node just popped. -/
def build_cache_body (m : Transducer) (first_sym : SymbolNumber) (S : Speller)
    (corrections_len_0 corrections_len_1 : StringWeightMap) :
    Speller × StringWeightMap × StringWeightMap :=
  let S : Speller := S.lexicon_epsilons
  let S : Speller := S.mutator_epsilons m
  let complete := m.is_final S.next_node.mutator_state &&
    S.lexicon.is_final S.next_node.lexicon_state
  let weight := S.next_node.weight + S.lexicon.final_weight S.next_node.lexicon_state +
    m.final_weight S.next_node.mutator_state
  let string := stringify S.lexicon.get_key_table S.next_node.string
  let corrections_len_0 :=
    if complete ∧ S.next_node.input_state = 0 then
      corrections_len_0.insert_if_better string weight
    else corrections_len_0
  let corrections_len_1 :=
    if complete ∧ S.next_node.input_state ≠ 0 then
      corrections_len_1.insert_if_better string weight
    else corrections_len_1
  let S : Speller :=
    if S.next_node.input_state = 1 then
      let cache := cache_update S.cache first_sym
        (fun c => { c with nodes := c.nodes ++ [S.next_node] })
      { S with cache := cache }
    else S
  let S : Speller :=
    if first_sym > 0 ∧ S.next_node.input_state = 0 then S.consume_input m else S
  (S, corrections_len_0, corrections_len_1)

/-- The `while` loop of `Speller::build_cache`; `none` when the fuel runs out
before the queue is empty. -/
def build_cache_loop (m : Transducer) (first_sym : SymbolNumber) :
    Nat → Speller → StringWeightMap → StringWeightMap →
      Option (Speller × StringWeightMap × StringWeightMap)
  | 0, S, corrections_len_0, corrections_len_1 =>
    if S.queue.isEmpty then some (S, corrections_len_0, corrections_len_1) else none
  | fuel + 1, S, corrections_len_0, corrections_len_1 =>
    match S.queue with
    | [] => some (S, corrections_len_0, corrections_len_1)
    | node :: rest =>
      let r := build_cache_body m first_sym { S with next_node := node, queue := rest }
        corrections_len_0 corrections_len_1
      build_cache_loop m first_sym fuel r.1 r.2.1 r.2.2

/-- `Speller::build_cache`. -/
def build_cache (S : Speller) (m : Transducer) (first_sym : SymbolNumber) (fuel : Nat) :
    Option Speller :=
  let S : Speller := { S with queue := [S.start_node], limit := WEIGHT_MAX }
  match build_cache_loop m first_sym fuel S [] [] with
  | none => none
  | some (S, corrections_len_0, corrections_len_1) =>
    let cache := cache_update S.cache first_sym
      (fun c => { c with results_len_0 := corrections_len_0,
                         results_len_1 := corrections_len_1, empty := false })
    some { S with cache := cache }

/-- The first `for` loop over the cached results in `Speller::correct`. -/
def note_results (nbest : Int) : StringWeightVector → Speller → Speller
  | [], S => S
  | it :: rest, S =>
    let S : Speller := { S with best_suggestion := min S.best_suggestion it.2 }
    let S : Speller :=
      if nbest > 0 then
        let q := S.nbest_queue.push it.2
        { S with nbest_queue := if q.length > size_t_of_int nbest then q.pop else q }
      else S
    note_results nbest rest S

/-- The `for` loop that moves the accepted corrections into the
`CorrectionQueue`; it is the same at both places in `Speller::correct`. -/
def collect_results (nbest : Int) :
    List (String × Weight) → Speller → CorrectionQueue → Speller × CorrectionQueue
  | [], S, correction_queue => (S, correction_queue)
  | it :: rest, S, correction_queue =>
    if it.2 ≤ S.limit ∧
        (nbest = 0 ∨
          (it.2 ≤ S.nbest_queue.get_highest ∧
            correction_queue.length < size_t_of_int nbest ∧
            S.nbest_queue.length > 0)) then
      collect_results nbest rest
        (if nbest ≠ 0 then { S with nbest_queue := S.nbest_queue.pop } else S)
        (correction_queue ++ [it])
    else collect_results nbest rest S correction_queue

/-- The body of the main `while` loop of `Speller::correct` after the time
check, run on the speller whose `next_node` is the node just popped; every
`continue` of the source is a return here. -/
def correct_body (m : Transducer) (nbest : Int) (maxweight beam : Weight) (S : Speller)
    (corrections : StringWeightMap) : Speller × StringWeightMap :=
  let S : Speller := S.set_limiting_behaviour nbest maxweight beam
  let S : Speller := S.adjust_weight_limits nbest beam
  if S.next_node.weight > S.limit then (S, corrections)
  else
    let S : Speller :=
      if S.next_node.input_state > 1 then S.lexicon_epsilons.mutator_epsilons m else S
    if S.next_node.input_state = S.input.length then
      if m.is_final S.next_node.mutator_state = true ∧
          S.lexicon.is_final S.next_node.lexicon_state = true then
        let weight := S.next_node.weight +
          S.lexicon.final_weight S.next_node.lexicon_state +
          m.final_weight S.next_node.mutator_state
        if weight > S.limit then (S, corrections)
        else
          let string := stringify S.lexicon.get_key_table S.next_node.string
          if corrections.is_better string weight = true then
            let S : Speller := { S with best_suggestion := min S.best_suggestion weight }
            let S : Speller :=
              if nbest > 0 then
                let q := S.nbest_queue.push weight
                let q := if q.length > size_t_of_int nbest then q.pop else q
                { S with nbest_queue := q }
              else S
            (S, corrections.insert_if_better string weight)
          else (S, corrections)
      else (S, corrections)
    else (S.consume_input m, corrections)

/-- The main `while` loop of `Speller::correct`.  `clock_exceeded c` tells
whether the elapsed processor time is over `max_time` when it is sampled with
`call_counter = c`.  The result is `none` when the fuel runs out. -/
def correct_loop (m : Transducer) (nbest : Int) (maxweight beam : Weight)
    (clock_exceeded : Nat → Bool) :
    Nat → Speller → StringWeightMap → Option (Speller × StringWeightMap)
  | 0, S, corrections => if S.queue.isEmpty then some (S, corrections) else none
  | fuel + 1, S, corrections =>
    match S.queue with
    | [] => some (S, corrections)
    | node :: rest =>
      let S : Speller :=
        if S.max_time > 0 then { S with call_counter := S.call_counter + 1 } else S
      if S.max_time > 0 ∧
          (S.limit_reached = true ∨
            (S.call_counter % 1000000 = 0 ∧ clock_exceeded S.call_counter = true)) then
        some ({ S with limit_reached := true }, corrections)
      else
        let r := correct_body m nbest maxweight beam { S with next_node := node, queue := rest }
          corrections
        correct_loop m nbest maxweight beam clock_exceeded fuel r.1 r.2

/-- The opening statements of `Speller::correct` (after `init_input`): the
mode, the time cutoff, the limiting behaviour and the empty `nbest_queue`. -/
def correct_prepare (S : Speller) (nbest : Int) (maxweight beam : Weight)
    (time_cutoff : Weight) : Speller :=
  let S : Speller := { S with mode := Mode.Correct, max_time := 0 }
  let S : Speller :=
    if time_cutoff > 0 then
      { S with max_time := time_cutoff, call_counter := 0, limit_reached := false }
    else S
  let S : Speller := S.set_limiting_behaviour nbest maxweight beam
  { S with nbest_queue := [] }

/-- `first_input` of `Speller::correct`: `(input.size() == 0) ? 0 : input[0]`. -/
def first_input (S : Speller) : SymbolNumber :=
  if S.input.length = 0 then 0 else S.input.getD 0 NO_SYMBOL

/-- The branch `input.size() <= 1` of `Speller::correct`: the answer is taken
from the cache. -/
def correct_cached (S : Speller) (nbest : Int) (maxweight beam : Weight) :
    CorrectionQueue × Speller :=
  let results :=
    if S.input.length = 0 then (S.cache.getD S.first_input CacheContainer.fresh).results_len_0
    else (S.cache.getD S.first_input CacheContainer.fresh).results_len_1
  let S : Speller := note_results nbest results S
  let S : Speller := S.set_limiting_behaviour nbest maxweight beam
  let S : Speller := S.adjust_weight_limits nbest beam
  let r := collect_results nbest results S []
  (r.2, r.1)

/-- The branch `input.size() > 1` of `Speller::correct`: the search from the
cached nodes, then the collection of the results. -/
def correct_search (S : Speller) (m : Transducer) (nbest : Int) (maxweight beam : Weight)
    (clock_exceeded : Nat → Bool) (fuel : Nat) : Option (CorrectionQueue × Speller) :=
  let S : Speller :=
    { S with queue := (S.cache.getD S.first_input CacheContainer.fresh).nodes.reverse }
  match correct_loop m nbest maxweight beam clock_exceeded fuel S [] with
  | none => none
  | some (S, corrections) =>
    let S : Speller := S.adjust_weight_limits nbest beam
    let r := collect_results nbest corrections S []
    some (r.2, r.1)

/-- The cache look-up of `Speller::correct`: `build_cache(first_input)` when
`cache[first_input].empty`. -/
def correct_cache (S : Speller) (m : Transducer) (fuel : Nat) : Option Speller :=
  if (S.cache.getD S.first_input CacheContainer.fresh).empty then
    S.build_cache m S.first_input fuel
  else some S

/-- `Speller::correct`, from the point where `init_input(line)` has returned
true and left the symbol vector in `S.input` (when it returns false the
source returns an empty queue at once).  `fuel` bounds the iterations of each
of the two search loops; the queue and the speller afterwards are returned.
A call without a mutator dereferences a null pointer in the source and has no
result here. -/
def correct (S : Speller) (nbest : Int) (maxweight beam : Weight) (time_cutoff : Weight)
    (clock_exceeded : Nat → Bool) (fuel : Nat) : Option (CorrectionQueue × Speller) :=
  match S.mutator with
  | none => none
  | some m =>
    match (S.correct_prepare nbest maxweight beam time_cutoff).correct_cache m fuel with
    | none => none
    | some S =>
      if S.input.length ≤ 1 then some (S.correct_cached nbest maxweight beam)
      else S.correct_search m nbest maxweight beam clock_exceeded fuel

/-- The `while` loop of `Speller::check`. -/
def check_loop : Nat → Speller → Option (Bool × Speller)
  | 0, S => if S.queue.isEmpty then some (false, S) else none
  | fuel + 1, S =>
    match S.queue with
    | [] => some (false, S)
    | node :: rest =>
      let S : Speller := { S with next_node := node, queue := rest }
      if S.next_node.input_state = S.input.length ∧
          S.lexicon.is_final S.next_node.lexicon_state = true then
        some (true, S)
      else check_loop fuel S.lexicon_epsilons.lexicon_consume

/-- `Speller::check`, from the point where `init_input(line)` has returned
true and left the symbol vector in `S.input` (when it returns false the
source returns false at once). -/
def check (S : Speller) (fuel : Nat) : Option (Bool × Speller) :=
  let S : Speller := { S with mode := Mode.Check }
  check_loop fuel { S with queue := [S.start_node], limit := WEIGHT_MAX }

end Speller

/-! ## Loading an alphabet (`hfst-ol.cc`) -/

namespace TransducerAlphabet

/-- `TransducerAlphabet::has_string`. -/
def has_string (a : TransducerAlphabet) (s : String) : Bool :=
  a.string_to_symbol.count s != 0

/-- `TransducerAlphabet::add_symbol(std::string & sym)`;
`static_cast<SymbolNumber>(kt.size())` is the residue modulo `2 ^ 16`. -/
def add_symbol (a : TransducerAlphabet) (sym : String) : TransducerAlphabet :=
  { a with string_to_symbol := a.string_to_symbol.assign sym (a.kt.length % 65536),
           kt := a.kt ++ [sym] }

/-- The local variables of `TransducerAlphabet::read` together with the
alphabet under construction. -/
structure ReadState where
  alphabet : TransducerAlphabet
  feature_bucket : StringSymbolMap
  value_bucket : List (String × ValueNumber)
  val_num : ValueNumber
  feat_num : SymbolNumber

/-- The operator selected by `switch (line[1])`; `P` when no case matches. -/
def flag_operator (c : Option Char) : FlagDiacriticOperator :=
  if c = some 'N' then FlagDiacriticOperator.N
  else if c = some 'R' then FlagDiacriticOperator.R
  else if c = some 'D' then FlagDiacriticOperator.D
  else if c = some 'C' then FlagDiacriticOperator.C
  else if c = some 'U' then FlagDiacriticOperator.U
  else FlagDiacriticOperator.P

/-- The feature name collected by the first `for` loop over a flag
diacritic: the bytes from position 3 up to the next `.` or `@`. -/
def flag_feature (line : List Char) : List Char :=
  (line.drop 3).takeWhile (fun c => c != '.' && c != '@')

/-- The value name collected by the second `for` loop: when the first loop
stopped at a `.`, the bytes after it up to the next `@`. -/
def flag_value (line : List Char) : List Char :=
  match (line.drop 3).dropWhile (fun c => c != '.' && c != '@') with
  | '.' :: rest => rest.takeWhile (fun c => c != '@')
  | _ => []

/-- The body of the `for` loop of `TransducerAlphabet::read` for symbol
number `k` and the C string `line`.  The two overloads differ only in the
key stored for the unknown and the identity symbol: the stream reader
(`from_file`) stores the string, the in-memory reader the empty string.
`++feat_num` and `++val_num` wrap around in 16 bits, unsigned and signed. -/
def read_symbol (from_file : Bool) (k : SymbolNumber) (line : String) (st : ReadState) :
    ReadState :=
  let l := line.toList
  if l.head? = some '@' ∧ l.getLast? = some '@' then
    if l.length ≥ 5 ∧ l.get? 2 = some '.' then
      let feat := String.mk (flag_feature l)
      let val := String.mk (flag_value l)
      let op := flag_operator (l.get? 1)
      let st : ReadState :=
        if st.feature_bucket.count feat = 0 then
          { st with feature_bucket := st.feature_bucket.assign feat st.feat_num,
                    feat_num := (st.feat_num + 1) % 65536 }
        else st
      let st : ReadState :=
        if (st.value_bucket.lookup val).isNone then
          { st with value_bucket := st.value_bucket ++ [(val, st.val_num)],
                    val_num := i16 (st.val_num + 1) }
        else st
      let operation : FlagDiacriticOperation :=
        ⟨op, st.feature_bucket.value_at feat, (st.value_bucket.lookup val).getD 0⟩
      let operations :=
        if (st.alphabet.operations.lookup k).isSome then st.alphabet.operations
        else st.alphabet.operations ++ [(k, operation)]
      { st with alphabet := { st.alphabet with operations := operations,
                                               kt := st.alphabet.kt ++ [""] } }
    else if line = "@_UNKNOWN_SYMBOL_@" then
      { st with alphabet := { st.alphabet with unknown_symbol := k,
                                               kt := st.alphabet.kt ++ [if from_file then line else ""] } }
    else if line = "@_IDENTITY_SYMBOL_@" then
      { st with alphabet := { st.alphabet with identity_symbol := k,
                                               kt := st.alphabet.kt ++ [if from_file then line else ""] } }
    else
      { st with alphabet := { st.alphabet with kt := st.alphabet.kt ++ [""] } }
  else
    { st with alphabet := { st.alphabet with kt := st.alphabet.kt ++ [line],
                                             string_to_symbol := st.alphabet.string_to_symbol.assign line k } }

/-- The `for` loop of `TransducerAlphabet::read` from symbol `k` on, for
`count` more symbols, over the C strings `raw` still to be read.  When the
strings run out the stream reader throws and the in-memory reader reads past
its buffer; neither has a result. -/
def read_loop (from_file : Bool) : List String → SymbolNumber → Nat → ReadState → Option ReadState
  | _, _, 0, st => some st
  | [], _, _ + 1, _ => none
  | line :: raw, k, count + 1, st =>
      read_loop from_file raw (k + 1) count (read_symbol from_file k line st)

/-- `TransducerAlphabet::read(FILE *, number_of_symbols)` for `from_file`
and `TransducerAlphabet::read(char **, number_of_symbols)` otherwise, on the
C strings `raw` that the input holds, the first being the one of epsilon. -/
def read (from_file : Bool) (a : TransducerAlphabet) (raw : List String)
    (number_of_symbols : SymbolNumber) : Option TransducerAlphabet :=
  match raw with
  | [] => none
  | _ :: raw =>
    let st : ReadState :=
      { alphabet := { a with kt := a.kt ++ [""] }, feature_bucket := [],
        value_bucket := [("", 0)], val_num := 1, feat_num := 0 }
    match read_loop from_file raw 1 (number_of_symbols - 1) st with
    | none => none
    | some st =>
      some { st.alphabet with flag_state_size := st.feature_bucket.length % 65536 }

/-- The constructors `TransducerAlphabet(FILE *, number_of_symbols)` and
`TransducerAlphabet(char **, number_of_symbols)`. -/
def create (from_file : Bool) (raw : List String) (number_of_symbols : SymbolNumber) :
    Option TransducerAlphabet :=
  read from_file
    { kt := [], operations := [], unknown_symbol := NO_SYMBOL, identity_symbol := NO_SYMBOL,
      flag_state_size := 0, orig_symbol_count := number_of_symbols, string_to_symbol := [] }
    raw number_of_symbols

end TransducerAlphabet

/-! ## Construction of the speller and tokenisation of a line (`ospell.cc`) -/

/-- `nByte_utf8`, on the byte with the code of `c`. -/
def nByte_utf8 (c : Char) : Nat :=
  let c := c.toNat % 256
  if c ≤ 127 then 1
  else if c &&& (128 + 64 + 32 + 16) = 128 + 64 + 32 + 16 then 4
  else if c &&& (128 + 64 + 32) = 128 + 64 + 32 then 3
  else if c &&& (128 + 64) = 128 + 64 then 2
  else 0

/-- `AnalysisQueue`: the pairs held by the priority queue, in the order in
which they were pushed. -/
abbrev AnalysisQueue := List StringWeightPair

namespace Speller

/-- The `for` loop of `Speller::build_alphabet_translator` over the key table
`from_keys` of the mutator; the counter `i` is a 16-bit `SymbolNumber`. -/
def build_alphabet_translator_loop (from_keys : KeyTable) :
    Nat → SymbolNumber → Speller → Option Speller
  | 0, i, S => if i < from_keys.length then none else some S
  | fuel + 1, i, S =>
    if i < from_keys.length then
      let sym := from_keys.getD i ""
      if S.lexicon.alphabet.string_to_symbol.count sym ≠ 1 then
        let lexicon_key : SymbolNumber := S.lexicon.alphabet.kt.length % 65536
        let lexicon : Transducer :=
          { S.lexicon with
              encoder := S.lexicon.encoder.read_input_symbol sym.toList lexicon_key
              alphabet := S.lexicon.alphabet.add_symbol sym }
        build_alphabet_translator_loop from_keys fuel ((i + 1) % 65536)
          { S with lexicon := lexicon
                   alphabet_translator := S.alphabet_translator ++ [lexicon_key] }
      else
        build_alphabet_translator_loop from_keys fuel ((i + 1) % 65536)
          { S with alphabet_translator :=
                     S.alphabet_translator ++ [S.lexicon.alphabet.string_to_symbol.value_at sym] }
    else some S

/-- `Speller::build_alphabet_translator` for the mutator `m`. -/
def build_alphabet_translator (S : Speller) (m : Transducer) (fuel : Nat) : Option Speller :=
  build_alphabet_translator_loop m.alphabet.kt fuel 1
    { S with alphabet_translator := S.alphabet_translator ++ [0] }

/-- The constructor `Speller(mutator_ptr, lexicon_ptr)`.  The members
`best_suggestion` and `nbest_queue` are not in the initialiser list; they are
given the values that `correct` sets before it reads them. -/
def create (mutator : Option Transducer) (lexicon : Transducer) (fuel : Nat) : Option Speller :=
  let S : Speller :=
    { mutator := mutator, lexicon := lexicon, input := [], queue := [],
      next_node := TreeNode.start (List.replicate (lexicon.get_state_size % 65536) 0),
      limit := WEIGHT_MAX, best_suggestion := WEIGHT_MAX, nbest_queue := [],
      alphabet_translator := [], cache := [], limiting := LimitingBehaviour.None,
      mode := Mode.Correct, max_time := -1, call_counter := 0, limit_reached := false }
  match mutator with
  | none => some S
  | some m =>
    match S.build_alphabet_translator m fuel with
    | none => none
    | some S => some { S with cache := List.replicate m.alphabet.kt.length CacheContainer.fresh }

/-- `Speller::add_symbol_to_alphabet_translator`. -/
def add_symbol_to_alphabet_translator (S : Speller) (to_sym : SymbolNumber) : Speller :=
  { S with alphabet_translator := S.alphabet_translator ++ [to_sym] }

/-- The encoder that `Speller::init_input` tokenises with: the mutator's when
there is a mutator and the mode is not `Check`, the lexicon's otherwise. -/
def input_encoder (S : Speller) : Encoder :=
  match S.mutator with
  | some m => if S.mode ≠ Mode.Check then m.encoder else S.lexicon.encoder
  | none => S.lexicon.encoder

/-- The branch of `Speller::init_input` that registers the `bytes` first
bytes of `line` as a new symbol in the alphabets; `k` is the value that the
failed `find_key` left in the variable `k`. -/
def add_input_symbol (S : Speller) (k : SymbolNumber) (new_symbol : List Char) : Speller :=
  let new_symbol_string := String.mk new_symbol
  let S : Speller := { S with cache := S.cache ++ [CacheContainer.fresh] }
  let lexicon_alphabet :=
    if ¬ S.lexicon.alphabet.has_string new_symbol_string then
      S.lexicon.alphabet.add_symbol new_symbol_string
    else S.lexicon.alphabet
  let k_lexicon := lexicon_alphabet.string_to_symbol.value_at new_symbol_string
  let lexicon : Transducer :=
    { S.lexicon with alphabet := lexicon_alphabet
                     encoder := S.lexicon.encoder.read_input_symbol new_symbol k_lexicon }
  let S : Speller := { S with lexicon := lexicon }
  match S.mutator with
  | none => { S with input := S.input ++ [k] }
  | some m =>
    let mutator_alphabet :=
      if ¬ m.alphabet.has_string new_symbol_string then m.alphabet.add_symbol new_symbol_string
      else m.alphabet
    let k := mutator_alphabet.string_to_symbol.value_at new_symbol_string
    let m : Transducer :=
      { m with alphabet := mutator_alphabet
               encoder := m.encoder.read_input_symbol new_symbol k }
    let S : Speller := { S with mutator := some m }
    let S : Speller :=
      if k ≥ S.alphabet_translator.length then S.add_symbol_to_alphabet_translator k_lexicon
      else S
    { S with input := S.input ++ [k] }

/-- The `while` loop of `Speller::init_input` on the bytes `line` that
`*inpointer` points to.  There is no result when a read passes the
terminating NUL: in `find_key`, or when fewer bytes are left than
`nByte_utf8` tells to copy, so that the pointer is moved past the NUL. -/
def init_input_loop : Nat → Speller → List Char → Option (Bool × Speller)
  | _, S, [] => some (true, S)
  | 0, _, _ :: _ => none
  | fuel + 1, S, c :: rest =>
    match S.input_encoder.find_key (c :: rest) with
    | none => none
    | some (k, advanced) =>
      if k = NO_SYMBOL then
        let bytes_to_tokenize := nByte_utf8 c
        if bytes_to_tokenize = 0 then some (false, S)
        else if (c :: rest).length < bytes_to_tokenize then none
        else
          init_input_loop fuel (S.add_input_symbol k ((c :: rest).take bytes_to_tokenize))
            ((c :: rest).drop bytes_to_tokenize)
      else init_input_loop fuel { S with input := S.input ++ [k] } ((c :: rest).drop advanced)

/-- `Speller::init_input`; every iteration of its loop consumes a byte, so
the length of the line bounds their number. -/
def init_input (S : Speller) (line : List Char) : Option (Bool × Speller) :=
  init_input_loop line.length { S with input := [] } line

/-- The `while` loop of `Speller::analyse`. -/
def analyse_loop : Nat → Speller → StringWeightMap → Option (Speller × StringWeightMap)
  | 0, S, outputs => if S.queue.isEmpty then some (S, outputs) else none
  | fuel + 1, S, outputs =>
    match S.queue with
    | [] => some (S, outputs)
    | node :: rest =>
      let S : Speller := { S with next_node := node, queue := rest }
      let outputs :=
        if S.next_node.input_state = S.input.length ∧
            S.lexicon.is_final S.next_node.lexicon_state = true then
          outputs.insert_if_better (stringify S.lexicon.get_key_table S.next_node.string)
            (S.next_node.weight + S.lexicon.final_weight S.next_node.lexicon_state)
        else outputs
      analyse_loop fuel S.lexicon_epsilons.lexicon_consume outputs

/-- `Speller::analyse`, from the point where `init_input(line)` has returned
true and left the symbol vector in `S.input`. -/
def analyse (S : Speller) (fuel : Nat) : Option (AnalysisQueue × Speller) :=
  let S : Speller := { S with mode := Mode.Lookup }
  match analyse_loop fuel { S with queue := [S.start_node] } [] with
  | none => none
  | some (S, outputs) => some (outputs, S)

/-- `Speller::check(line)` with its call of `init_input`. -/
def check_line (S : Speller) (line : List Char) (fuel : Nat) : Option (Bool × Speller) :=
  match init_input { S with mode := Mode.Check } line with
  | none => none
  | some (false, S) => some (false, S)
  | some (true, S) => S.check fuel

/-- `Speller::correct(line, nbest, maxweight, beam, time_cutoff)` with its
call of `init_input`. -/
def correct_line (S : Speller) (line : List Char) (nbest : Int) (maxweight beam : Weight)
    (time_cutoff : Weight) (clock_exceeded : Nat → Bool) (fuel : Nat) :
    Option (CorrectionQueue × Speller) :=
  match init_input { S with mode := Mode.Correct } line with
  | none => none
  | some (false, S) => some ([], S)
  | some (true, S) => S.correct nbest maxweight beam time_cutoff clock_exceeded fuel

/-- `Speller::analyse(line, nbest)` with its call of `init_input`. -/
def analyse_line (S : Speller) (line : List Char) (fuel : Nat) :
    Option (AnalysisQueue × Speller) :=
  match init_input { S with mode := Mode.Lookup } line with
  | none => none
  | some (false, S) => some ([], S)
  | some (true, S) => S.analyse fuel

end Speller

/-! ## Specification-level definitions used by the theorems -/

namespace Speller

/-- `S'` differs from `S` at most in the members `queue` and `next_node`:
the footprint of the expansion steps. -/
def SearchFrame (S S' : Speller) : Prop :=
  ∃ q n, S' = { S with queue := q, next_node := n }

/-- `S'` differs from `S` at most in `queue`, `next_node`, `limit` and
`cache`: the footprint of `build_cache`. -/
def CacheFrame (S S' : Speller) : Prop :=
  ∃ q n l c, S' = { S with queue := q, next_node := n, limit := l, cache := c }

end Speller

/-! ## The successors of a node, as lists

The expansion steps push nodes on `queue` one by one.  The functions below
give the pushed nodes as a list, first push first; the theorems relate them
to the stateful definitions above and to the transition relation. -/

/-- The comparison made by `Speller::is_under_weight_limit`, as a function of
the two members it reads. -/
def under_limit (limiting : LimitingBehaviour) (limit : Weight) (w : Weight) : Bool :=
  if limiting = LimitingBehaviour.Nbest then decide (w < limit) else decide (w ≤ limit)

/-- The nodes pushed by the loop of `lexicon_epsilons` for the node `n`,
scanning the transition table from cell `next`. -/
def eps_nodes (T : Transducer) (mode : Mode) (under : Weight → Bool) (n : TreeNode) :
    Nat → TransitionTableIndex → List TreeNode
  | 0, _ => []
  | fuel + 1, next =>
    let i_s := T.take_epsilons_and_flags next
    if i_s.symbol = NO_SYMBOL then []
    else
      let r := n.try_compatible_with (T.get_operations.at (T.transitions_input_symbol next))
      let here :=
        if under (n.weight + i_s.weight) = true then
          if T.transitions_input_symbol next = 0 then
            [n.update_lexicon (if mode = Mode.Correct then 0 else i_s.symbol) i_s.index
              i_s.weight]
          else if r.1 = true then [r.2.update_lexicon 0 i_s.index i_s.weight]
          else []
        else []
      here ++ eps_nodes T mode under n fuel (next + 1)

/-- The nodes pushed by the loop of `queue_lexicon_arcs` for the node `n`. -/
def arc_nodes (T : Transducer) (mode : Mode) (under : Weight → Bool) (input : SymbolVector)
    (n : TreeNode) (input_sym : SymbolNumber) (mutator_state : TransitionTableIndex)
    (mutator_weight : Weight) (input_increment : Nat) :
    Nat → TransitionTableIndex → List TreeNode
  | 0, _ => []
  | fuel + 1, next =>
    let i_s := T.take_non_epsilons next input_sym
    if i_s.symbol = NO_SYMBOL then []
    else
      let sym := if i_s.symbol = T.get_identity then input.getD n.input_state NO_SYMBOL
        else i_s.symbol
      let here :=
        if under (n.weight + i_s.weight + mutator_weight) = true then
          [n.update (if mode = Mode.Correct then input_sym else sym)
            (n.input_state + input_increment) mutator_state i_s.index
            (i_s.weight + mutator_weight)]
        else []
      here ++ arc_nodes T mode under input n input_sym mutator_state mutator_weight
        input_increment fuel (next + 1)

namespace Speller

/-- The nodes pushed by `lexicon_epsilons`. -/
def eps_successors (S : Speller) : List TreeNode :=
  if S.lexicon.has_epsilons_or_flags (u32 (S.next_node.lexicon_state + 1)) = false then []
  else
    eps_nodes S.lexicon S.mode (under_limit S.limiting S.limit) S.next_node
      (S.lexicon.transitions.length + 1 - S.lexicon.next S.next_node.lexicon_state 0)
      (S.lexicon.next S.next_node.lexicon_state 0)

/-- The nodes pushed by `queue_lexicon_arcs`. -/
def arc_successors (S : Speller) (input_sym : SymbolNumber)
    (mutator_state : TransitionTableIndex) (mutator_weight : Weight)
    (input_increment : Nat) : List TreeNode :=
  arc_nodes S.lexicon S.mode (under_limit S.limiting S.limit) S.input S.next_node input_sym
    mutator_state mutator_weight input_increment
    (S.lexicon.transitions.length + 1 - S.lexicon.next S.next_node.lexicon_state input_sym)
    (S.lexicon.next S.next_node.lexicon_state input_sym)

/-- The nodes pushed by the unknown/identity fallback. -/
def fallback_successors (S : Speller) (mutator_state : TransitionTableIndex)
    (mutator_weight : Weight) (input_increment : Nat) : List TreeNode :=
  (if S.lexicon.get_unknown ≠ NO_SYMBOL ∧
      S.lexicon.has_transitions (u32 (S.next_node.lexicon_state + 1)) S.lexicon.get_unknown
        = true then
    S.arc_successors S.lexicon.get_unknown mutator_state mutator_weight input_increment
  else []) ++
  (if S.lexicon.get_identity ≠ NO_SYMBOL ∧
      S.lexicon.has_transitions (u32 (S.next_node.lexicon_state + 1)) S.lexicon.get_identity
        = true then
    S.arc_successors S.lexicon.get_identity mutator_state mutator_weight input_increment
  else [])

/-- The nodes pushed by `lexicon_consume`. -/
def consume_successors (S : Speller) : List TreeNode :=
  if S.next_node.input_state ≥ S.input.length then []
  else
    let this_input :=
      if S.mutator.isSome ∧ S.mode ≠ Mode.Check then
        S.alphabet_translator.getD (S.input.getD S.next_node.input_state NO_SYMBOL) NO_SYMBOL
      else S.input.getD S.next_node.input_state NO_SYMBOL
    if S.lexicon.has_transitions (u32 (S.next_node.lexicon_state + 1)) this_input = false then
      if this_input ≥ S.lexicon.alphabet.get_orig_symbol_count then
        S.fallback_successors S.next_node.mutator_state 0 1
      else []
    else S.arc_successors this_input S.next_node.mutator_state 0 1

end Speller

/-! ## The transition relation of the lexicon

A declarative reading of the optimized-lookup tables: the transitions that
leave a state are the cells of a group of consecutive cells of the
transition table, and a path is a sequence of such transitions. -/

namespace Transducer

/-- Cell `p` belongs to the group of epsilon-or-flag cells that starts at
cell `start`: every cell from `start` to `p` is an epsilon or flag
transition. -/
def eps_run (T : Transducer) (start p : Nat) : Prop :=
  start ≤ p ∧ ∀ j, start ≤ j → j ≤ p → (T.take_epsilons_and_flags j).symbol ≠ NO_SYMBOL

/-- Cell `p` belongs to the group of cells with input symbol `a` that starts
at cell `start`. -/
def sym_run (T : Transducer) (a : SymbolNumber) (start p : Nat) : Prop :=
  start ≤ p ∧ ∀ j, start ≤ j → j ≤ p → (T.take_non_epsilons j a).symbol ≠ NO_SYMBOL

end Transducer

/-- At node `n` the lexicon may read the next input symbol through arcs with
input symbol `a`: either `a` is that symbol and the state has transitions
for it, or the symbol has no transitions, is not an original symbol
(`>= orig_symbol_count`), and `a` is the unknown or the identity symbol of
the lexicon, present and with transitions. -/
def lexicon_reads (T : Transducer) (input : SymbolVector) (n : TreeNode) (a : SymbolNumber) :
    Prop :=
  n.input_state < input.length ∧
    T.has_transitions (u32 (n.lexicon_state + 1)) a = true ∧
    (a = input.getD n.input_state NO_SYMBOL ∨
      (T.has_transitions (u32 (n.lexicon_state + 1)) (input.getD n.input_state NO_SYMBOL)
          = false ∧
        input.getD n.input_state NO_SYMBOL ≥ T.alphabet.get_orig_symbol_count ∧
        ((a = T.get_unknown ∧ T.get_unknown ≠ NO_SYMBOL) ∨
          (a = T.get_identity ∧ T.get_identity ≠ NO_SYMBOL))))

/-- One transition of the lexicon `T` on the input `input`, between search
nodes, as taken in Check mode.  `guard` is a condition on the weight
accumulated after the transition.
* `epsilon`: an epsilon-input transition; the input position stays.
* `flag`: a flag-input transition whose operation succeeds under
  `try_compatible_with`; the flag state is the updated one.
* `arc`: a transition that reads the next input symbol (directly or through
  the unknown/identity fallback); the input position advances by one. -/
inductive LexStep (T : Transducer) (input : SymbolVector) (guard : Weight → Prop) :
    TreeNode → TreeNode → Prop
  | epsilon (n : TreeNode) (p : Nat)
      (h_state : T.has_epsilons_or_flags (u32 (n.lexicon_state + 1)) = true)
      (h_run : T.eps_run (T.next n.lexicon_state 0) p)
      (h_eps : T.transitions_input_symbol p = 0)
      (h_guard : guard (n.weight + (T.take_epsilons_and_flags p).weight)) :
      LexStep T input guard n
        (n.update_lexicon (T.take_epsilons_and_flags p).symbol
          (T.take_epsilons_and_flags p).index (T.take_epsilons_and_flags p).weight)
  | flag (n : TreeNode) (p : Nat)
      (h_state : T.has_epsilons_or_flags (u32 (n.lexicon_state + 1)) = true)
      (h_run : T.eps_run (T.next n.lexicon_state 0) p)
      (h_flag : T.transitions_input_symbol p ≠ 0)
      (h_ok : (n.try_compatible_with
        (T.get_operations.at (T.transitions_input_symbol p))).1 = true)
      (h_guard : guard (n.weight + (T.take_epsilons_and_flags p).weight)) :
      LexStep T input guard n
        ((n.try_compatible_with
            (T.get_operations.at (T.transitions_input_symbol p))).2.update_lexicon 0
          (T.take_epsilons_and_flags p).index (T.take_epsilons_and_flags p).weight)
  | arc (n : TreeNode) (a : SymbolNumber) (p : Nat)
      (h_reads : lexicon_reads T input n a)
      (h_run : T.sym_run a (T.next n.lexicon_state a) p)
      (h_guard : guard (n.weight + (T.take_non_epsilons p a).weight + 0)) :
      LexStep T input guard n
        (n.update
          (if (T.take_non_epsilons p a).symbol = T.get_identity then
            input.getD n.input_state NO_SYMBOL
          else (T.take_non_epsilons p a).symbol)
          (n.input_state + 1) n.mutator_state (T.take_non_epsilons p a).index
          ((T.take_non_epsilons p a).weight + 0))

/-- The node `n` lies at the end of an accepting path: the input is used up
and the lexicon state is final. -/
def lex_accepting (T : Transducer) (input : SymbolVector) (n : TreeNode) : Prop :=
  n.input_state = input.length ∧ T.is_final n.lexicon_state = true

/-- There is a path of lexicon transitions from the node `start` that spells
the input and ends in a final state, every transition satisfying `guard`. -/
def LexAccepts (T : Transducer) (input : SymbolVector) (guard : Weight → Prop)
    (start : TreeNode) : Prop :=
  ∃ n, Relation.ReflTransGen (LexStep T input guard) start n ∧ lex_accepting T input n

namespace Speller

/-- The members that the loop of `check` reads and never writes have the
given values. -/
def CheckCtx (T : Transducer) (input : SymbolVector) (lg : LimitingBehaviour) (L : Weight)
    (S : Speller) : Prop :=
  S.mode = Mode.Check ∧ S.lexicon = T ∧ S.input = input ∧ S.limiting = lg ∧ S.limit = L

/-- The loop of `check` works off the nodes `l` on top of the stack, and
everything they push, within a bounded number of iterations: it either
answers true or reaches the stack below them. -/
def Exhausts (T : Transducer) (input : SymbolVector) (lg : LimitingBehaviour) (L : Weight)
    (l : List TreeNode) : Prop :=
  ∃ N, ∀ (S : Speller) (rest : List TreeNode), CheckCtx T input lg L S → S.queue = l ++ rest →
    ∀ fuel, (∃ S', check_loop (N + fuel) S = some (true, S')) ∨
      (∃ S2, CheckCtx T input lg L S2 ∧ S2.queue = rest ∧
        check_loop (N + fuel) S = check_loop fuel S2)

/-- A speller state in the context of `check` whose current node is `n`. -/
def check_ctx_speller (T : Transducer) (input : SymbolVector) (lg : LimitingBehaviour)
    (L : Weight) (n : TreeNode) : Speller :=
  { mutator := none, lexicon := T, input := input, queue := [], next_node := n, limit := L,
    best_suggestion := 0, nbest_queue := [], alphabet_translator := [], cache := [],
    limiting := lg, mode := Mode.Check, max_time := 0, call_counter := 0,
    limit_reached := false }

end Speller

/-! ## The composed search: successors and transition relation -/

/-- The nodes pushed by the loop of `queue_mutator_arcs` for the node `n`;
`fallback` and `arcs` give the nodes pushed by the unknown/identity fallback
and by `queue_lexicon_arcs`. -/
def mut_arc_nodes (m T : Transducer) (tr : SymbolVector) (under : Weight → Bool) (n : TreeNode)
    (fallback : TransitionTableIndex → Weight → List TreeNode)
    (arcs : SymbolNumber → TransitionTableIndex → Weight → List TreeNode)
    (input_sym : SymbolNumber) : Nat → TransitionTableIndex → List TreeNode
  | 0, _ => []
  | fuel + 1, next_m =>
    let mutator_i_s := m.take_non_epsilons next_m input_sym
    if mutator_i_s.symbol = NO_SYMBOL then []
    else
      let translated := tr.getD mutator_i_s.symbol NO_SYMBOL
      let here :=
        if mutator_i_s.symbol = 0 then
          if under (n.weight + mutator_i_s.weight) = true then
            [n.update 0 (n.input_state + 1) mutator_i_s.index n.lexicon_state mutator_i_s.weight]
          else []
        else if T.has_transitions (u32 (n.lexicon_state + 1)) translated = false then
          if translated ≥ T.alphabet.get_orig_symbol_count then
            fallback mutator_i_s.index mutator_i_s.weight
          else []
        else arcs translated mutator_i_s.index mutator_i_s.weight
      here ++ mut_arc_nodes m T tr under n fallback arcs input_sym fuel (next_m + 1)

namespace Speller

/-- The nodes pushed by `queue_mutator_arcs`. -/
def mutator_arc_successors (S : Speller) (m : Transducer) (input_sym : SymbolNumber) :
    List TreeNode :=
  mut_arc_nodes m S.lexicon S.alphabet_translator (under_limit S.limiting S.limit) S.next_node
    (fun ms mw => S.fallback_successors ms mw 1) (fun b ms mw => S.arc_successors b ms mw 1)
    input_sym (m.transitions.length + 1 - m.next S.next_node.mutator_state input_sym)
    (m.next S.next_node.mutator_state input_sym)

/-- The nodes pushed by `consume_input`. -/
def input_successors (S : Speller) (m : Transducer) : List TreeNode :=
  if S.next_node.input_state ≥ S.input.length then []
  else
    let input_sym := S.input.getD S.next_node.input_state NO_SYMBOL
    if m.has_transitions (u32 (S.next_node.mutator_state + 1)) input_sym = false then
      if input_sym ≥ m.alphabet.get_orig_symbol_count then
        (if m.get_identity ≠ NO_SYMBOL ∧
            m.has_transitions (u32 (S.next_node.mutator_state + 1)) m.get_identity = true then
          S.mutator_arc_successors m m.get_identity
        else []) ++
        (if m.get_unknown ≠ NO_SYMBOL ∧
            m.has_transitions (u32 (S.next_node.mutator_state + 1)) m.get_unknown = true then
          S.mutator_arc_successors m m.get_unknown
        else [])
      else []
    else S.mutator_arc_successors m input_sym

end Speller

/-- The nodes pushed by the loop of `mutator_epsilons` for the node `n`;
`fallback` and `arcs` give the nodes pushed by the unknown/identity fallback
and by `queue_lexicon_arcs`. -/
def mut_eps_nodes (m T : Transducer) (tr : SymbolVector) (under : Weight → Bool) (n : TreeNode)
    (fallback : TransitionTableIndex → Weight → List TreeNode)
    (arcs : SymbolNumber → TransitionTableIndex → Weight → List TreeNode) :
    Nat → TransitionTableIndex → List TreeNode
  | 0, _ => []
  | fuel + 1, next_m =>
    let mutator_i_s := m.take_epsilons next_m
    if mutator_i_s.symbol = NO_SYMBOL then []
    else
      let translated := tr.getD mutator_i_s.symbol NO_SYMBOL
      let here :=
        if mutator_i_s.symbol = 0 then
          if under (n.weight + mutator_i_s.weight) = true then
            [n.update_mutator mutator_i_s.index mutator_i_s.weight]
          else []
        else if T.has_transitions (u32 (n.lexicon_state + 1)) translated = false then
          if translated ≥ T.alphabet.get_orig_symbol_count then
            fallback mutator_i_s.index mutator_i_s.weight
          else []
        else arcs translated mutator_i_s.index mutator_i_s.weight
      here ++ mut_eps_nodes m T tr under n fallback arcs fuel (next_m + 1)

namespace Speller

/-- The nodes pushed by `mutator_epsilons`. -/
def mutator_eps_successors (S : Speller) (m : Transducer) : List TreeNode :=
  if m.has_transitions (u32 (S.next_node.mutator_state + 1)) 0 = false then []
  else
    mut_eps_nodes m S.lexicon S.alphabet_translator (under_limit S.limiting S.limit) S.next_node
      (fun ms mw => S.fallback_successors ms mw 0) (fun b ms mw => S.arc_successors b ms mw 0)
      (m.transitions.length + 1 - m.next S.next_node.mutator_state 0)
      (m.next S.next_node.mutator_state 0)

/-- All the nodes that the expansion steps of `correct` can push for the
current node: those of `lexicon_epsilons`, `mutator_epsilons` and
`consume_input`. -/
def successors (S : Speller) (m : Transducer) : List TreeNode :=
  S.eps_successors ++ (S.mutator_eps_successors m ++ S.input_successors m)

end Speller

/-- An arc of the error model that copies its input symbol at no cost. -/
def copy_arc (a o : SymbolNumber) (w : Weight) : Prop := o = a ∧ w = 0

/-- One step of the composed search of `correct` over the error model `m` and
the lexicon `T`, between search nodes, as taken in Correct mode; `tr` is the
alphabet translator.  `guard` is a condition on the weight accumulated after
the step and `marc` one on the arc of the error model (input symbol, output
symbol, weight).
* `epsilon`: an epsilon-input transition of the lexicon.
* `flag`: a flag-input transition of the lexicon whose operation succeeds.
* `arc`: an arc of the error model that reads the next input symbol, which
  has transitions in the state of the error model, and writes a non-epsilon
  symbol, together with an arc of the lexicon that reads the translated
  symbol, which has transitions in the state of the lexicon. -/
inductive CorrStep (m T : Transducer) (input tr : SymbolVector) (guard : Weight → Prop)
    (marc : SymbolNumber → SymbolNumber → Weight → Prop) : TreeNode → TreeNode → Prop
  | epsilon (n : TreeNode) (p : Nat)
      (h_state : T.has_epsilons_or_flags (u32 (n.lexicon_state + 1)) = true)
      (h_run : T.eps_run (T.next n.lexicon_state 0) p)
      (h_eps : T.transitions_input_symbol p = 0)
      (h_guard : guard (n.weight + (T.take_epsilons_and_flags p).weight)) :
      CorrStep m T input tr guard marc n
        (n.update_lexicon 0 (T.take_epsilons_and_flags p).index
          (T.take_epsilons_and_flags p).weight)
  | flag (n : TreeNode) (p : Nat)
      (h_state : T.has_epsilons_or_flags (u32 (n.lexicon_state + 1)) = true)
      (h_run : T.eps_run (T.next n.lexicon_state 0) p)
      (h_flag : T.transitions_input_symbol p ≠ 0)
      (h_ok : (n.try_compatible_with
        (T.get_operations.at (T.transitions_input_symbol p))).1 = true)
      (h_guard : guard (n.weight + (T.take_epsilons_and_flags p).weight)) :
      CorrStep m T input tr guard marc n
        ((n.try_compatible_with
            (T.get_operations.at (T.transitions_input_symbol p))).2.update_lexicon 0
          (T.take_epsilons_and_flags p).index (T.take_epsilons_and_flags p).weight)
  | arc (n : TreeNode) (a b : SymbolNumber) (pm pl : Nat)
      (h_input : n.input_state < input.length)
      (h_a : a = input.getD n.input_state NO_SYMBOL)
      (h_sym : a ≠ 0)
      (h_mut : m.has_transitions (u32 (n.mutator_state + 1)) a = true)
      (h_mrun : m.sym_run a (m.next n.mutator_state a) pm)
      (h_out : (m.take_non_epsilons pm a).symbol ≠ 0)
      (h_marc : marc a (m.take_non_epsilons pm a).symbol (m.take_non_epsilons pm a).weight)
      (h_b : b = tr.getD (m.take_non_epsilons pm a).symbol NO_SYMBOL)
      (h_lex : T.has_transitions (u32 (n.lexicon_state + 1)) b = true)
      (h_lrun : T.sym_run b (T.next n.lexicon_state b) pl)
      (h_guard : guard (n.weight + (T.take_non_epsilons pl b).weight +
        (m.take_non_epsilons pm a).weight)) :
      CorrStep m T input tr guard marc n
        (n.update b (n.input_state + 1) (m.take_non_epsilons pm a).index
          (T.take_non_epsilons pl b).index
          ((T.take_non_epsilons pl b).weight + (m.take_non_epsilons pm a).weight))

/-- A step of the composed search that `build_cache` takes: the weight stays
within `WEIGHT_MAX` and at most the first input symbol is consumed. -/
def CacheStep (m T : Transducer) (input tr : SymbolVector)
    (marc : SymbolNumber → SymbolNumber → Weight → Prop) (n n' : TreeNode) : Prop :=
  CorrStep m T input tr (fun w => w ≤ WEIGHT_MAX) marc n n' ∧ n'.input_state ≤ 1

/-- A step of the composed search that the main loop of `correct` takes: the
weight stays within `WEIGHT_MAX` and the step ends beyond the first input
symbol. -/
def SearchStep (m T : Transducer) (input tr : SymbolVector)
    (marc : SymbolNumber → SymbolNumber → Weight → Prop) (n n' : TreeNode) : Prop :=
  CorrStep m T input tr (fun w => w ≤ WEIGHT_MAX) marc n n' ∧ 2 ≤ n'.input_state

/-- The node `n` ends an accepting path of the composed search: the input is
used up and both states are final. -/
def corr_accepting (m T : Transducer) (input : SymbolVector) (n : TreeNode) : Prop :=
  n.input_state = input.length ∧ m.is_final n.mutator_state = true ∧
    T.is_final n.lexicon_state = true

/-- The weight with which `correct` records the node `n` when it is
accepting. -/
def corr_weight (m T : Transducer) (n : TreeNode) : Weight :=
  n.weight + T.final_weight n.lexicon_state + m.final_weight n.mutator_state

/-- The map holds the key `k` with a weight not above `w`. -/
def StringWeightMap.covers (c : StringWeightMap) (k : String) (w : Weight) : Prop :=
  ∃ w', w' ≤ w ∧ (k, w') ∈ c

namespace Speller

/-- The members that the search loops of `correct` read have the values of a
call without limits: Correct mode, no limiting behaviour, the limit at
`WEIGHT_MAX`, no time cutoff. -/
def CorrCtx (T : Transducer) (input tr : SymbolVector) (S : Speller) : Prop :=
  S.lexicon = T ∧ S.input = input ∧ S.alphabet_translator = tr ∧ S.mode = Mode.Correct ∧
    S.limiting = LimitingBehaviour.None ∧ S.limit = WEIGHT_MAX ∧ S.max_time = 0

/-- The speller after `set_limiting_behaviour` and `adjust_weight_limits` in
a call without limits. -/
def unlimited (S : Speller) : Speller :=
  { S with limiting := LimitingBehaviour.None, limit := WEIGHT_MAX,
           best_suggestion := WEIGHT_MAX }

end Speller

/-! ## A concrete speller

A lexicon over the symbols `a` (1) and `b` (2) that accepts `a` (weight 1),
`b` (weight 2), `aa` (weight 1) and `ab` (weight 2), and an error model with
one final state that reads `a` and writes `b` or `a` at weight 0. -/

/-- The alphabet `["", "a", "b"]` without flags or special symbols. -/
def demo_alphabet : TransducerAlphabet :=
  { kt := ["", "a", "b"], operations := [], unknown_symbol := NO_SYMBOL,
    identity_symbol := NO_SYMBOL, flag_state_size := 0, orig_symbol_count := 3 }

/-- The lexicon: state 0 at index cell 0, the final state reached by `a` at
index cell 4, and a final state at transition cell 4. -/
def demo_lexicon : Transducer :=
  { alphabet := demo_alphabet
    indices :=
      [⟨NO_SYMBOL, NO_TABLE_INDEX⟩, ⟨NO_SYMBOL, NO_TABLE_INDEX⟩,
        ⟨1, TARGET_TABLE + 0⟩, ⟨2, TARGET_TABLE + 1⟩,
        ⟨NO_SYMBOL, 0⟩, ⟨NO_SYMBOL, NO_TABLE_INDEX⟩,
        ⟨1, TARGET_TABLE + 2⟩, ⟨2, TARGET_TABLE + 3⟩]
    transitions :=
      [⟨1, 1, 4, 1⟩, ⟨2, 2, TARGET_TABLE + 4, 2⟩,
        ⟨1, 1, TARGET_TABLE + 4, 0⟩, ⟨2, 2, TARGET_TABLE + 4, 1⟩,
        ⟨NO_SYMBOL, NO_SYMBOL, 1, 0⟩]
    infinite_weight := WEIGHT_MAX
    weight_of_bits := fun _ => 0 }

/-- The error model: one final state at index cell 0 with the arcs `a:b` and
`a:a`, both of weight 0. -/
def demo_mutator : Transducer :=
  { alphabet := demo_alphabet
    indices :=
      [⟨NO_SYMBOL, 0⟩, ⟨NO_SYMBOL, NO_TABLE_INDEX⟩,
        ⟨1, TARGET_TABLE + 0⟩, ⟨NO_SYMBOL, NO_TABLE_INDEX⟩]
    transitions :=
      [⟨1, 2, 0, 0⟩, ⟨1, 1, 0, 0⟩, ⟨NO_SYMBOL, NO_SYMBOL, NO_TABLE_INDEX, 0⟩]
    infinite_weight := WEIGHT_MAX
    weight_of_bits := fun _ => 0 }

/-- A freshly constructed speller over the two transducers, after
`init_input` has stored `input`. -/
def demo_speller (input : SymbolVector) : Speller :=
  { mutator := some demo_mutator, lexicon := demo_lexicon, input := input, queue := [],
    next_node := TreeNode.start [], limit := WEIGHT_MAX, best_suggestion := WEIGHT_MAX,
    nbest_queue := [], alphabet_translator := [0, 1, 2],
    cache := List.replicate 3 CacheContainer.fresh, limiting := LimitingBehaviour.None,
    mode := Mode.Correct, max_time := 0, call_counter := 0, limit_reached := false }

/-- A clock that never passes the cutoff. -/
def clock_never : Nat → Bool := fun _ => false

/-- A lexicon that accepts `aa` through two arcs that each have the largest
finite weight: state 0 at index cell 0, the middle state at transition cell 1
and the final state at transition cell 3. -/
def heavy_lexicon : Transducer :=
  { alphabet := demo_alphabet
    indices :=
      [⟨NO_SYMBOL, NO_TABLE_INDEX⟩, ⟨NO_SYMBOL, NO_TABLE_INDEX⟩,
        ⟨1, TARGET_TABLE + 0⟩, ⟨NO_SYMBOL, NO_TABLE_INDEX⟩]
    transitions :=
      [⟨1, 1, TARGET_TABLE + 1, WEIGHT_MAX⟩, ⟨NO_SYMBOL, NO_SYMBOL, 0, 0⟩,
        ⟨1, 1, TARGET_TABLE + 3, WEIGHT_MAX⟩, ⟨NO_SYMBOL, NO_SYMBOL, 1, 0⟩]
    infinite_weight := WEIGHT_MAX
    weight_of_bits := fun _ => 0 }

/-- A freshly constructed speller over `heavy_lexicon` and the error model
`demo_mutator`, after `init_input` has stored `input`. -/
def heavy_speller (input : SymbolVector) : Speller :=
  { demo_speller input with lexicon := heavy_lexicon }

/-- An alphabet with the letter `a` (1) and the flag diacritics `@P.F.V@`
(2) and `@R.F.V@` (3) over one feature. -/
def flag_alphabet : TransducerAlphabet :=
  { kt := ["", "a", "", ""],
    operations := [(2, ⟨FlagDiacriticOperator.P, 0, 1⟩), (3, ⟨FlagDiacriticOperator.R, 0, 1⟩)],
    unknown_symbol := NO_SYMBOL, identity_symbol := NO_SYMBOL, flag_state_size := 1,
    orig_symbol_count := 4 }

/-- A lexicon whose only path is `@P.F.V@ a @R.F.V@`: state 0 at index cell 0
and the three other states at the transition cells 1, 3 and 5, the last one
final. -/
def flag_lexicon : Transducer :=
  { alphabet := flag_alphabet
    indices :=
      [⟨NO_SYMBOL, NO_TABLE_INDEX⟩, ⟨0, TARGET_TABLE + 0⟩, ⟨NO_SYMBOL, NO_TABLE_INDEX⟩]
    transitions :=
      [⟨2, 0, TARGET_TABLE + 1, 0⟩, ⟨NO_SYMBOL, NO_SYMBOL, 0, 0⟩,
        ⟨1, 1, TARGET_TABLE + 3, 0⟩, ⟨NO_SYMBOL, NO_SYMBOL, 0, 0⟩,
        ⟨3, 0, TARGET_TABLE + 5, 0⟩, ⟨NO_SYMBOL, NO_SYMBOL, 1, 0⟩]
    infinite_weight := WEIGHT_MAX
    weight_of_bits := fun _ => 0 }

/-- A speller over `flag_lexicon` without an error model. -/
def flag_speller (input : SymbolVector) : Speller :=
  { demo_speller input with mutator := none, lexicon := flag_lexicon, alphabet_translator := [],
                            cache := [] }

/-- The alphabet of the identity lexicon after the speller was constructed
and `init_input` met the character `x`: the file holds epsilon and
`@_IDENTITY_SYMBOL_@` (symbol 1, so `orig_symbol_count = 2`);
`build_alphabet_translator` appended the error model's string
`@_IDENTITY_SYMBOL_@` as symbol 2 and `init_input` appended `x` as
symbol 3. -/
def ident_lexicon_alphabet : TransducerAlphabet :=
  { kt := ["", "@_IDENTITY_SYMBOL_@", "@_IDENTITY_SYMBOL_@", "x"], operations := [],
    unknown_symbol := NO_SYMBOL, identity_symbol := 1, flag_state_size := 0,
    orig_symbol_count := 2 }

/-- A lexicon that accepts any one symbol outside its alphabet: an
identity arc of weight 0 from state 0 (index cell 0) to a final state
(transition cell 1). -/
def ident_lexicon : Transducer :=
  { alphabet := ident_lexicon_alphabet
    indices := [⟨NO_SYMBOL, NO_TABLE_INDEX⟩, ⟨NO_SYMBOL, NO_TABLE_INDEX⟩, ⟨1, TARGET_TABLE + 0⟩]
    transitions := [⟨1, 1, TARGET_TABLE + 1, 0⟩, ⟨NO_SYMBOL, NO_SYMBOL, 1, 0⟩]
    infinite_weight := WEIGHT_MAX
    weight_of_bits := fun _ => 0 }

/-- The alphabet of the identity error model after `init_input` met `x`:
epsilon and `@_IDENTITY_SYMBOL_@` from the file, `x` appended as symbol 2. -/
def ident_mutator_alphabet : TransducerAlphabet :=
  { kt := ["", "@_IDENTITY_SYMBOL_@", "x"], operations := [], unknown_symbol := NO_SYMBOL,
    identity_symbol := 1, flag_state_size := 0, orig_symbol_count := 2 }

/-- An error model that copies any symbol outside its alphabet at weight 0:
one final state (index cell 0) with an identity arc to itself. -/
def ident_mutator : Transducer :=
  { alphabet := ident_mutator_alphabet
    indices := [⟨NO_SYMBOL, 0⟩, ⟨NO_SYMBOL, NO_TABLE_INDEX⟩, ⟨1, TARGET_TABLE + 0⟩]
    transitions := [⟨1, 1, 0, 0⟩, ⟨NO_SYMBOL, NO_SYMBOL, NO_TABLE_INDEX, 0⟩]
    infinite_weight := WEIGHT_MAX
    weight_of_bits := fun _ => 0 }

/-- The speller over the two identity transducers after `init_input` has
tokenised the line `x` to the symbol vector `input` (the error model's symbol
2): the alphabet translator maps 1 to 2 and 2 to 3, and the cache has one
container per error-model symbol. -/
def ident_speller (input : SymbolVector) : Speller :=
  { mutator := some ident_mutator, lexicon := ident_lexicon, input := input, queue := [],
    next_node := TreeNode.start [], limit := WEIGHT_MAX, best_suggestion := WEIGHT_MAX,
    nbest_queue := [], alphabet_translator := [0, 2, 3],
    cache := List.replicate 3 CacheContainer.fresh, limiting := LimitingBehaviour.None,
    mode := Mode.Correct, max_time := 0, call_counter := 0, limit_reached := false }

/-- A lexicon that accepts `a` through an arc of the largest finite weight
into a final state whose final weight is the largest finite weight: state 0
at index cell 0, the final state at transition cell 1. -/
def costly_lexicon : Transducer :=
  { alphabet := demo_alphabet
    indices :=
      [⟨NO_SYMBOL, NO_TABLE_INDEX⟩, ⟨NO_SYMBOL, NO_TABLE_INDEX⟩,
        ⟨1, TARGET_TABLE + 0⟩, ⟨NO_SYMBOL, NO_TABLE_INDEX⟩]
    transitions :=
      [⟨1, 1, TARGET_TABLE + 1, WEIGHT_MAX⟩, ⟨NO_SYMBOL, NO_SYMBOL, 1, WEIGHT_MAX⟩]
    infinite_weight := WEIGHT_MAX
    weight_of_bits := fun _ => 0 }

/-- A freshly constructed speller over `costly_lexicon` and the error model
`demo_mutator`, after `init_input` has stored `input`. -/
def costly_speller (input : SymbolVector) : Speller :=
  { demo_speller input with lexicon := costly_lexicon }

/-- An alphabet with the letters `a` (1) and `b` (2) and the two-letter symbol
`ab` (3). -/
def split_alphabet : TransducerAlphabet :=
  { kt := ["", "a", "b", "ab"], operations := [], unknown_symbol := NO_SYMBOL,
    identity_symbol := NO_SYMBOL, flag_state_size := 0, orig_symbol_count := 4 }

/-- A lexicon that accepts the symbol `ab` at weight 5 and the symbols `a`
`b` at weight 1: state 0 at index cell 0, the state after `a` at transition
cell 2, the final state at transition cell 5. -/
def split_lexicon : Transducer :=
  { alphabet := split_alphabet
    indices :=
      [⟨NO_SYMBOL, NO_TABLE_INDEX⟩, ⟨NO_SYMBOL, NO_TABLE_INDEX⟩, ⟨1, TARGET_TABLE + 0⟩,
        ⟨NO_SYMBOL, NO_TABLE_INDEX⟩, ⟨3, TARGET_TABLE + 1⟩]
    transitions :=
      [⟨1, 1, TARGET_TABLE + 2, 1⟩, ⟨3, 3, TARGET_TABLE + 5, 5⟩,
        ⟨NO_SYMBOL, NO_SYMBOL, 0, 0⟩, ⟨2, 2, TARGET_TABLE + 5, 0⟩,
        ⟨NO_SYMBOL, NO_SYMBOL, NO_TABLE_INDEX, 0⟩, ⟨NO_SYMBOL, NO_SYMBOL, 1, 0⟩]
    infinite_weight := WEIGHT_MAX
    weight_of_bits := fun _ => 0 }

/-- An error model that only copies the symbol `ab`, at weight 0: one final
state at index cell 0. -/
def copy_mutator : Transducer :=
  { alphabet := split_alphabet
    indices :=
      [⟨NO_SYMBOL, 0⟩, ⟨NO_SYMBOL, NO_TABLE_INDEX⟩, ⟨NO_SYMBOL, NO_TABLE_INDEX⟩,
        ⟨NO_SYMBOL, NO_TABLE_INDEX⟩, ⟨3, TARGET_TABLE + 0⟩]
    transitions := [⟨3, 3, 0, 0⟩, ⟨NO_SYMBOL, NO_SYMBOL, NO_TABLE_INDEX, 0⟩]
    infinite_weight := WEIGHT_MAX
    weight_of_bits := fun _ => 0 }

/-- An error model that copies the symbol `ab` or rewrites it to the symbols
`a` `b`, both at weight 0: the final state 0 at index cell 0 with the arcs
`ab:ab` and `ab:a`, the latter to the state at transition cell 3, which has
the arc `epsilon:b` back to state 0. -/
def split_mutator : Transducer :=
  { alphabet := split_alphabet
    indices :=
      [⟨NO_SYMBOL, 0⟩, ⟨NO_SYMBOL, NO_TABLE_INDEX⟩, ⟨NO_SYMBOL, NO_TABLE_INDEX⟩,
        ⟨NO_SYMBOL, NO_TABLE_INDEX⟩, ⟨3, TARGET_TABLE + 0⟩]
    transitions :=
      [⟨3, 3, 0, 0⟩, ⟨3, 1, TARGET_TABLE + 3, 0⟩, ⟨NO_SYMBOL, NO_SYMBOL, NO_TABLE_INDEX, 0⟩,
        ⟨NO_SYMBOL, NO_SYMBOL, 0, 0⟩, ⟨0, 2, 0, 0⟩, ⟨NO_SYMBOL, NO_SYMBOL, NO_TABLE_INDEX, 0⟩]
    infinite_weight := WEIGHT_MAX
    weight_of_bits := fun _ => 0 }

/-- A freshly constructed speller over `split_lexicon` and the error model
`m`, after `init_input` has stored `input`. -/
def split_speller (m : Transducer) (input : SymbolVector) : Speller :=
  { mutator := some m, lexicon := split_lexicon, input := input, queue := [],
    next_node := TreeNode.start [], limit := WEIGHT_MAX, best_suggestion := WEIGHT_MAX,
    nbest_queue := [], alphabet_translator := [0, 1, 2, 3],
    cache := List.replicate 4 CacheContainer.fresh, limiting := LimitingBehaviour.None,
    mode := Mode.Correct, max_time := 0, call_counter := 0, limit_reached := false }

/-! ## The correction queue (`ospell.h`, `py-hfst-ospell.cpp`) -/

/-- `StringWeightComparison::operator()`; `reverse` is the member set by the
constructor, `false` by default. -/
def StringWeightComparison (reverse : Bool) (lhs rhs : StringWeightPair) : Bool :=
  if reverse then decide (lhs.2 < rhs.2) else decide (lhs.2 > rhs.2)

/-- The contract of `std::priority_queue::top` for a queue holding the pairs
`q` under the comparison `comp`: the pair returned is in the queue and `comp`
orders it before no pair of the queue. -/
def IsTop (comp : StringWeightPair → StringWeightPair → Bool)
    (q : CorrectionQueue) (t : StringWeightPair) : Prop :=
  t ∈ q ∧ ∀ y ∈ q, comp t y = false

/-- The sequences that repeated `top()` and `pop()` can produce from the
queue `q` until it is empty: each step takes a top of the pairs left and
removes one occurrence of it. -/
inductive PopOrder (comp : StringWeightPair → StringWeightPair → Bool) :
    CorrectionQueue → List StringWeightPair → Prop
  | done : PopOrder comp [] []
  | pop (q rest : CorrectionQueue) (t : StringWeightPair) (out : List StringWeightPair) :
      IsTop comp q t → q.Perm (t :: rest) → PopOrder comp rest out →
      PopOrder comp q (t :: out)

namespace CorrectionQueue

/-- An executable `top()`: of the pairs that `comp` orders before no other,
the one pushed first. -/
def top (comp : StringWeightPair → StringWeightPair → Bool) :
    CorrectionQueue → Option StringWeightPair
  | [] => none
  | x :: xs =>
      match top comp xs with
      | none => some x
      | some t => if comp x t then some t else some x

/-- Removal of the first occurrence of the pair `t`. -/
def remove (t : StringWeightPair) : CorrectionQueue → CorrectionQueue
  | [] => []
  | x :: xs => if x = t then xs else x :: remove t xs

/-- An executable `pop()`: removes the pair that `top` returns. -/
def pop (comp : StringWeightPair → StringWeightPair → Bool) (q : CorrectionQueue) :
    CorrectionQueue :=
  match top comp q with
  | none => q
  | some t => remove t q

end CorrectionQueue

/-- The loop of the Python wrapper's `Speller::suggest`:
`while (corrections.size() > 0) { results.push_back(corrections.top().first);
corrections.pop(); }`, over the executable `top` and `pop`. -/
def py_suggest_loop (comp : StringWeightPair → StringWeightPair → Bool) :
    Nat → CorrectionQueue → List StringWeightPair → Option (List StringWeightPair)
  | 0, _, _ => none
  | fuel + 1, corrections, popped =>
      if corrections.length > 0 then
        match CorrectionQueue.top comp corrections with
        | none => none
        | some t => py_suggest_loop comp fuel (CorrectionQueue.pop comp corrections) (popped ++ [t])
      else some popped

/-- The list returned by the Python wrapper's `Speller::suggest` for the
queue it got from `ZHfstOspeller::suggest`: the strings of the popped pairs. -/
def py_suggest (corrections : CorrectionQueue) (fuel : Nat) : Option (List String) :=
  (py_suggest_loop (StringWeightComparison false) fuel corrections []).map (List.map Prod.fst)

/-- The vector that the branch `input.size() <= 1` of `Speller::correct`
reads: `cache[first_input].results_len_0` for the empty input and
`cache[first_input].results_len_1` otherwise. -/
def Speller.cached_results (S : Speller) : StringWeightVector :=
  if S.input.length = 0 then (S.cache.getD S.first_input CacheContainer.fresh).results_len_0
  else (S.cache.getD S.first_input CacheContainer.fresh).results_len_1

/-- The invariant of the encoder: a byte has an entry in `ascii_symbols` only
if it is at most 127, no key of the trie longer than one byte begins with it,
and the trie holds the same symbol for the one-byte key. -/
def Encoder.Shortcut (e : Encoder) : Prop :=
  ∀ b, e.ascii_symbols b ≠ NO_SYMBOL →
    b.toNat ≤ 127 ∧ e.letters.letters b = none ∧ e.letters.symbols b = e.ascii_symbols b

/-- The symbol that the trie stores for the string `s`: `NO_SYMBOL` for the
empty string and for a string whose path is not in the trie. -/
def LetterTrie.lookup : LetterTrie → List Char → SymbolNumber
  | _, [] => NO_SYMBOL
  | t, [c] => t.symbols c
  | t, c :: c1 :: rest =>
      match t.letters c with
      | none => NO_SYMBOL
      | some child => LetterTrie.lookup child (c1 :: rest)

/-- No node of the trie has a child or a symbol for the byte 0, as in every
trie built from C strings. -/
inductive LetterTrie.NulFree : LetterTrie → Prop
  | mk (letters : Char → Option LetterTrie) (symbols : Char → SymbolNumber) :
      letters (Char.ofNat 0) = none → symbols (Char.ofNat 0) = NO_SYMBOL →
      (∀ c t, letters c = some t → LetterTrie.NulFree t) →
      LetterTrie.NulFree (LetterTrie.mk letters symbols)

/-- The symbol number that `read_input_symbol(s, s_num)` stores. -/
def Encoder.key_of (c : List Char × Int) : SymbolNumber := (c.2 % 65536).toNat

/-! ## A concrete speller with its tokeniser -/

/-- The alphabet that the stream reader loads from the two symbols epsilon
and `@_IDENTITY_SYMBOL_@`. -/
def tok_alphabet : TransducerAlphabet :=
  { kt := ["", "@_IDENTITY_SYMBOL_@"], operations := [], unknown_symbol := NO_SYMBOL,
    identity_symbol := 1, flag_state_size := 0, orig_symbol_count := 2, string_to_symbol := [] }

/-- A lexicon over `tok_alphabet` that accepts any one symbol outside its
alphabet: an identity arc of weight 0 from state 0 (index cell 0) to a final
state (transition cell 1).  Its encoder is the one that the constructor
builds from the key table. -/
def tok_lexicon : Transducer :=
  { alphabet := tok_alphabet
    indices := [⟨NO_SYMBOL, NO_TABLE_INDEX⟩, ⟨NO_SYMBOL, NO_TABLE_INDEX⟩, ⟨1, TARGET_TABLE + 0⟩]
    transitions := [⟨1, 1, TARGET_TABLE + 1, 0⟩, ⟨NO_SYMBOL, NO_SYMBOL, 1, 0⟩]
    infinite_weight := WEIGHT_MAX
    weight_of_bits := fun _ => 0
    encoder := Encoder.of_calls [([], 0), ("@_IDENTITY_SYMBOL_@".toList, 1)] }

/-- The speller that the constructor builds over `tok_lexicon` without an
error model. -/
def tok_speller : Speller :=
  { mutator := none, lexicon := tok_lexicon, input := [], queue := [],
    next_node := TreeNode.start [], limit := WEIGHT_MAX, best_suggestion := WEIGHT_MAX,
    nbest_queue := [], alphabet_translator := [], cache := [],
    limiting := LimitingBehaviour.None, mode := Mode.Correct, max_time := -1,
    call_counter := 0, limit_reached := false }

/-- The four bytes `F8 80 80 80`; `F8` is `11111000`. -/
def bad_utf8_line : List Char := [Char.ofNat 248, Char.ofNat 128, Char.ofNat 128, Char.ofNat 128]

/-- The string-to-symbol map agrees with the key table: a string mapped to
the number `k` is the key at position `k`. -/
def TransducerAlphabet.Consistent (a : TransducerAlphabet) : Prop :=
  ∀ s k, a.string_to_symbol.lookup s = some k → a.kt.get? k = some s

/-- The 65533 distinct strings `x`, `xy`, `xyy`, ... -/
def filler_symbols : List String :=
  (List.range 65533).map (fun i => String.mk ('x' :: List.replicate i 'y'))

/-- The alphabet `tok_alphabet` after `add_symbol` has appended the 65533
strings of `filler_symbols`: its key table has 65535 entries. -/
def full_alphabet : TransducerAlphabet :=
  filler_symbols.foldl TransducerAlphabet.add_symbol tok_alphabet

/-- The state of the constructor `Speller(mutator, lexicon)` before it calls
`build_alphabet_translator`, for the error model `demo_mutator` and a lexicon
with the alphabet `full_alphabet`. -/
def full_speller : Speller :=
  { tok_speller with mutator := some demo_mutator,
                     lexicon := { tok_lexicon with alphabet := full_alphabet } }

/-- The string that the spec gives for `stringify`: the concatenation, in
order, of the keys `kt[s]` of those symbols `s` of `v` with `s < kt.size()`. -/
def stringify_by_spec (kt : KeyTable) (v : SymbolVector) : String :=
  String.join ((v.filter (fun s => decide (s < kt.length))).map (fun s => kt.getD s ""))

/-- A transducer whose only transition cell has the input symbol `NO_SYMBOL`
and the target 1 but an output symbol. -/
def half_final_transducer : Transducer :=
  { alphabet := demo_alphabet
    indices := [⟨NO_SYMBOL, NO_TABLE_INDEX⟩]
    transitions := [⟨NO_SYMBOL, 1, 1, 0⟩]
    infinite_weight := WEIGHT_MAX
    weight_of_bits := fun _ => 0 }

/-- The speller `ident_speller [2]` in the given mode at the moment the
search has popped the start node. -/
def ident_speller_at_start (mode : Mode) : Speller :=
  { ident_speller [2] with next_node := (ident_speller [2]).start_node, mode := mode }

/-! ## The transducer header (`hfst-ol.cc`)

The embedding is of the build without `WORDS_BIGENDIAN`, where
`is_big_endian()` is false and the fields are read in the byte order of a
little-endian host.  A `FILE *` is the list of the bytes not yet read; a
`char **` cursor is a buffer with an integer position, and a read at a
position outside the buffer has no result. -/

/-- Modelled from the spec: the exception classes are declared in
`hfst-ol.h`, which is not among the sources; these are the two that the
header readers of `hfst-ol.cc` throw. -/
inductive HeaderError where
  | HeaderParsingException
  | TransducerTypeException
  deriving DecidableEq, Repr

/-- The bytes `header1[0 .. strlen(header1)]` that `skip_hfst3_header`
compares with: `HFST` and the terminating NUL. -/
def hfst3_marker : List Char := ['H', 'F', 'S', 'T', Char.ofNat 0]

/-- `std::string::find(needle)` on the bytes `hay` that begin at position
`i` of the string: the first position at which `needle` occurs. -/
def string_find (needle : List Char) : List Char → Nat → Option Nat
  | [], i => if needle = [] then some i else none
  | c :: hay, i =>
      if needle.isPrefixOf (c :: hay) then some i else string_find needle hay (i + 1)

/-- The first `for` loop of `skip_hfst3_header(FILE *)` over the marker bytes
still to compare: the value of `header_loc` at the exit, the value of `c`
(`none` for `EOF`) and the stream. -/
def skip_hfst3_loop_file : List Char → Nat → Option Char → List Char →
    Nat × Option Char × List Char
  | [], header_loc, c, f => (header_loc, c, f)
  | h :: marker, header_loc, _, f =>
      match f with
      | [] => (header_loc, none, [])
      | c :: f => if c ≠ h then (header_loc, some c, f)
          else skip_hfst3_loop_file marker (header_loc + 1) (some c) f

/-- `TransducerHeader::skip_hfst3_header(FILE *)`: the stream afterwards, or
the exception thrown.  `ungetc` is taken to push back any number of bytes. -/
def skip_hfst3_header_file (f : List Char) : Except HeaderError (List Char) :=
  let r := skip_hfst3_loop_file hfst3_marker 0 (some (Char.ofNat 0)) f
  if r.1 = hfst3_marker.length then
    match r.2.2 with
    | b0 :: b1 :: z :: f =>
      let remaining_header_len := b0.toNat % 256 + 256 * (b1.toNat % 256)
      if z ≠ Char.ofNat 0 then Except.error HeaderError.HeaderParsingException
      else if remaining_header_len = 0 ∨ f.length < remaining_header_len then
        Except.error HeaderError.HeaderParsingException
      else
        let headervalue := f.take remaining_header_len
        if headervalue.getLast? ≠ some (Char.ofNat 0) then
          Except.error HeaderError.HeaderParsingException
        else
          match string_find "type".toList headervalue 0 with
          | some type_field =>
            if string_find "HFST_OL".toList headervalue 0 ≠ some (type_field + 5) ∧
                string_find "HFST_OLW".toList headervalue 0 ≠ some (type_field + 5) then
              Except.error HeaderError.TransducerTypeException
            else Except.ok (f.drop remaining_header_len)
          | none => Except.ok (f.drop remaining_header_len)
    | _ => Except.error HeaderError.HeaderParsingException
  else
    let f1 := match r.2.1 with
      | some c => c :: r.2.2
      | none => r.2.2
    Except.ok (hfst3_marker.take r.1 ++ f1)

/-- The byte at position `pos` of the buffer. -/
def raw_byte (buf : List Char) (pos : Int) : Option Char :=
  if 0 ≤ pos then buf.get? pos.toNat else none

/-- The first `for` loop of `skip_hfst3_header(char **)` over the marker
bytes still to compare: the value of `header_loc` at the exit and the
position of the cursor. -/
def skip_hfst3_loop_raw (buf : List Char) : List Char → Nat → Int → Option (Nat × Int)
  | [], header_loc, pos => some (header_loc, pos)
  | h :: marker, header_loc, pos =>
      match raw_byte buf pos with
      | none => none
      | some c => if c ≠ h then some (header_loc, pos)
          else skip_hfst3_loop_raw buf marker (header_loc + 1) (pos + 1)

/-- `TransducerHeader::skip_hfst3_header(char **)`: the position of the
cursor afterwards; the branch for a missing marker decrements the cursor
once and then `header_loc` times. -/
def skip_hfst3_header_raw (buf : List Char) (pos : Int) : Option Int :=
  match skip_hfst3_loop_raw buf hfst3_marker 0 pos with
  | none => none
  | some (header_loc, pos) =>
    if header_loc = hfst3_marker.length then
      match raw_byte buf pos, raw_byte buf (pos + 1) with
      | some b0, some b1 =>
        some (pos + 2 + 1 + ((b0.toNat % 256 + 256 * (b1.toNat % 256) : Nat) : Int))
      | _, _ => none
    else some (pos - 1 - (header_loc : Int))

/-- The members of `TransducerHeader` that the constructors set. -/
structure TransducerHeader where
  number_of_input_symbols : SymbolNumber
  number_of_symbols : SymbolNumber
  size_of_transition_index_table : TransitionTableIndex
  size_of_transition_target_table : TransitionTableIndex
  number_of_states : TransitionTableIndex
  number_of_transitions : TransitionTableIndex
  weighted : Bool
  deterministic : Bool
  input_deterministic : Bool
  minimized : Bool
  cyclic : Bool
  has_epsilon_epsilon_transitions : Bool
  has_input_epsilon_transitions : Bool
  has_input_epsilon_cycles : Bool
  has_unweighted_input_epsilon_cycles : Bool
  deriving DecidableEq, Repr

/-- The little-endian value of a list of bytes. -/
def le_value : List Char → Nat
  | [] => 0
  | b :: bs => b.toNat % 256 + 256 * le_value bs

/-- A read of `n` bytes at the position `pos` of the buffer, as done through
a cast of the cursor to a pointer to an unsigned integer type. -/
def raw_read (buf : List Char) (pos : Int) (n : Nat) : Option Nat :=
  if 0 ≤ pos ∧ pos.toNat + n ≤ buf.length then some (le_value ((buf.drop pos.toNat).take n))
  else none

/-- `fread(&x, n, 1, f)` for an unsigned integer `x`: the value and the
stream afterwards, or `none` when fewer than `n` bytes are left. -/
def file_read (f : List Char) (n : Nat) : Option (Nat × List Char) :=
  if n ≤ f.length then some (le_value (f.take n), f.drop n) else none

/-- The reads of the header fields through the cursor, one after the other:
the values read, or `none` at the first read outside the buffer. -/
def raw_read_fields (buf : List Char) : Int → List Nat → Option (List Nat)
  | _, [] => some []
  | pos, n :: widths =>
    match raw_read buf pos n with
    | none => none
    | some v =>
      match raw_read_fields buf (pos + (n : Int)) widths with
      | none => none
      | some vs => some (v :: vs)

/-- The `fread` calls for the header fields, one after the other: the values
read and the stream afterwards, or `none` at the first read that fails. -/
def file_read_fields : List Char → List Nat → Option (List Nat × List Char)
  | f, [] => some ([], f)
  | f, n :: widths =>
    match file_read f n with
    | none => none
    | some (v, f) =>
      match file_read_fields f widths with
      | none => none
      | some (vs, f) => some (v :: vs, f)

namespace TransducerHeader

/-- The sizes in bytes of the fields in the order in which both constructors
read them: two symbol counts, four table counts and the nine properties,
each property an `unsigned int` that `read_property` compares with 0. -/
def field_widths : List Nat := [2, 2, 4, 4, 4, 4, 4, 4, 4, 4, 4, 4, 4, 4, 4]

/-- The header with the given values of the fields. -/
def of_fields (v : List Nat) : TransducerHeader :=
  { number_of_input_symbols := v.getD 0 0
    number_of_symbols := v.getD 1 0
    size_of_transition_index_table := v.getD 2 0
    size_of_transition_target_table := v.getD 3 0
    number_of_states := v.getD 4 0
    number_of_transitions := v.getD 5 0
    weighted := v.getD 6 0 != 0
    deterministic := v.getD 7 0 != 0
    input_deterministic := v.getD 8 0 != 0
    minimized := v.getD 9 0 != 0
    cyclic := v.getD 10 0 != 0
    has_epsilon_epsilon_transitions := v.getD 11 0 != 0
    has_input_epsilon_transitions := v.getD 12 0 != 0
    has_input_epsilon_cycles := v.getD 13 0 != 0
    has_unweighted_input_epsilon_cycles := v.getD 14 0 != 0 }

/-- The constructor `TransducerHeader(char **)`: the header and the position
of the cursor afterwards. -/
def create_raw (buf : List Char) (start : Int) : Option (TransducerHeader × Int) :=
  match skip_hfst3_header_raw buf start with
  | none => none
  | some pos =>
    match raw_read_fields buf pos field_widths with
    | none => none
    | some v => some (of_fields v, pos + 56)

/-- The reads of the constructor `TransducerHeader(FILE *)` after the call
of `skip_hfst3_header`; `none` when a read fails. -/
def read_fields (f : List Char) : Option (TransducerHeader × List Char) :=
  match file_read_fields f field_widths with
  | none => none
  | some (v, f) => some (of_fields v, f)

/-- The constructor `TransducerHeader(FILE *)`: the header and the stream
afterwards, or the exception thrown. -/
def create_file (f : List Char) : Except HeaderError (TransducerHeader × List Char) :=
  match skip_hfst3_header_file f with
  | Except.error e => Except.error e
  | Except.ok f =>
    match read_fields f with
    | none => Except.error HeaderError.HeaderParsingException
    | some r => Except.ok r

end TransducerHeader

/-- The 56 bytes of a header without HFST3 wrapper: 3 input symbols, 3
symbols, 8 index cells, 5 transition cells, 2 states, 5 transitions, the
property `weighted` set and the other eight properties clear. -/
def plain_header_bytes : List Char :=
  ([3, 0, 3, 0, 8, 0, 0, 0, 5, 0, 0, 0, 2, 0, 0, 0, 5, 0, 0, 0, 1, 0, 0, 0] ++
    List.replicate 32 0).map Char.ofNat

/-- The header that `plain_header_bytes` encodes. -/
def plain_header : TransducerHeader :=
  { number_of_input_symbols := 3, number_of_symbols := 3, size_of_transition_index_table := 8,
    size_of_transition_target_table := 5, number_of_states := 2, number_of_transitions := 5,
    weighted := true, deterministic := false, input_deterministic := false, minimized := false,
    cyclic := false, has_epsilon_epsilon_transitions := false,
    has_input_epsilon_transitions := false, has_input_epsilon_cycles := false,
    has_unweighted_input_epsilon_cycles := false }

/-- An HFST3 wrapper with the given value of the key `type`: the marker, the
length of the properties in two bytes, a NUL, and the properties `type`,
NUL, the value, NUL. -/
def hfst3_wrapper (type_value : String) : List Char :=
  hfst3_marker ++ [Char.ofNat (type_value.length + 6), Char.ofNat 0, Char.ofNat 0] ++
    "type".toList ++ [Char.ofNat 0] ++ type_value.toList ++ [Char.ofNat 0]

namespace TransducerAlphabet

/-- The strings that `TransducerAlphabet::read` takes for flag diacritics:
they begin and end with `@`, have at least five bytes, and the third byte is
a `.`. -/
def is_flag_string (line : String) : Prop :=
  (line.toList.head? = some '@' ∧ line.toList.getLast? = some '@') ∧
    (line.toList.length ≥ 5 ∧ line.toList.get? 2 = some '.')

/-- The feature name that `read` takes from a flag diacritic. -/
def feature_name (line : String) : String := String.mk (flag_feature line.toList)

/-- The invariant of the loop of `read` after the symbols `done` (number and
string) have been read: the feature bucket numbers the feature names of the
flag diacritics read so far by 0, 1, 2, ... in the order of their first
occurrence, and `operations` holds, for each flag diacritic and for no other
symbol, the operator named by its second byte and the number of its feature
name. -/
def ReadInv (st : ReadState) (done : List (Nat × String)) : Prop :=
  st.feat_num = st.feature_bucket.length ∧
  st.feature_bucket.length ≤ done.length ∧
  st.feature_bucket.map Prod.snd = List.range st.feature_bucket.length ∧
  (st.feature_bucket.map Prod.fst).Nodup ∧
  (∀ f, f ∈ st.feature_bucket.map Prod.fst ↔
    ∃ p ∈ done, is_flag_string p.2 ∧ feature_name p.2 = f) ∧
  (∀ p ∈ done, is_flag_string p.2 →
    ∃ op, st.alphabet.operations.lookup p.1 = some op ∧
      op.operation = flag_operator (p.2.toList.get? 1) ∧
      st.feature_bucket.lookup (feature_name p.2) = some op.feature) ∧
  (∀ k op, st.alphabet.operations.lookup k = some op →
    ∃ p ∈ done, p.1 = k ∧ is_flag_string p.2)

end TransducerAlphabet

namespace TransducerAlphabet

instance is_flag_string_decidable (line : String) : Decidable (is_flag_string line) := by
  unfold is_flag_string
  infer_instance

/-- The feature names of the flag diacritics among the symbols 1 to
`number_of_symbols - 1` of the C strings `raw`, in the order of the symbols
and with repetitions. -/
def flag_feature_names (raw : List String) (number_of_symbols : Nat) : List String :=
  (((raw.drop 1).take (number_of_symbols - 1)).filter
    (fun line => decide (is_flag_string line))).map feature_name

end TransducerAlphabet

/-- The C strings of an alphabet with the letter `a` (2) and three flag
diacritics over the features `A` (1 and 3) and `B` (4). -/
def flag_symbol_strings : List String := ["", "@P.A.x@", "a", "@R.A@", "@U.B.y@"]

/-- The alphabet that `read` builds from `flag_symbol_strings`. -/
def loaded_flag_alphabet : TransducerAlphabet :=
  { kt := ["", "", "a", "", ""],
    operations := [(1, ⟨FlagDiacriticOperator.P, 0, 1⟩), (3, ⟨FlagDiacriticOperator.R, 0, 0⟩),
      (4, ⟨FlagDiacriticOperator.U, 1, 2⟩)],
    unknown_symbol := NO_SYMBOL, identity_symbol := NO_SYMBOL, flag_state_size := 2,
    orig_symbol_count := 5, string_to_symbol := [("a", 2)] }

/-! ## Sequences of operations on a `WeightQueue` -/

namespace WeightQueue

end WeightQueue

/-- The speller `S` after `init_input` has tokenised a line to the symbol
vector `input`, for a line whose symbols are all known to the encoder, so
that `init_input` changes no other member. -/
def Speller.with_input (S : Speller) (input : SymbolVector) : Speller :=
  { S with input := input }

/-! ## The reads of `input` made for identity arcs

`queue_lexicon_arcs` executes `i_s.symbol = input[next_node.input_state]`
for every transition it visits whose output symbol is the identity symbol.
The functions below follow the loops of `queue_lexicon_arcs` and of
`mutator_epsilons` and list the index `next_node.input_state` of every such
read, in the order of the reads.  The loops change no member but `queue`, so
the reads are those of the speller on entry. -/

/-- The indices read by the loop of `queue_lexicon_arcs` for the node `n`,
scanning the transition table from cell `next`. -/
def identity_reads (T : Transducer) (input_sym : SymbolNumber) (n : TreeNode) :
    Nat → TransitionTableIndex → List Nat
  | 0, _ => []
  | fuel + 1, next =>
    let i_s := T.take_non_epsilons next input_sym
    if i_s.symbol = NO_SYMBOL then []
    else
      (if i_s.symbol = T.get_identity then [n.input_state] else []) ++
        identity_reads T input_sym n fuel (next + 1)

namespace Speller

/-- The indices of `input` read by `queue_lexicon_arcs(input_sym, ...)`. -/
def queue_lexicon_arcs_reads (S : Speller) (input_sym : SymbolNumber) : List Nat :=
  identity_reads S.lexicon input_sym S.next_node
    (S.lexicon.transitions.length + 1 - S.lexicon.next S.next_node.lexicon_state input_sym)
    (S.lexicon.next S.next_node.lexicon_state input_sym)

/-- The indices of `input` read by the two guarded calls of
`queue_lexicon_arcs` in the unknown/identity fallback. -/
def lexicon_fallback_reads (S : Speller) : List Nat :=
  (if S.lexicon.get_unknown ≠ NO_SYMBOL ∧
      S.lexicon.has_transitions (u32 (S.next_node.lexicon_state + 1)) S.lexicon.get_unknown
        = true then
    S.queue_lexicon_arcs_reads S.lexicon.get_unknown
  else []) ++
  (if S.lexicon.get_identity ≠ NO_SYMBOL ∧
      S.lexicon.has_transitions (u32 (S.next_node.lexicon_state + 1)) S.lexicon.get_identity
        = true then
    S.queue_lexicon_arcs_reads S.lexicon.get_identity
  else [])

/-- The indices of `input` read in the loop of `mutator_epsilons`. -/
def mutator_epsilons_reads_loop (S : Speller) (m : Transducer) :
    Nat → TransitionTableIndex → List Nat
  | 0, _ => []
  | fuel + 1, next_m =>
    let mutator_i_s := m.take_epsilons next_m
    if mutator_i_s.symbol = NO_SYMBOL then []
    else
      let translated := S.alphabet_translator.getD mutator_i_s.symbol NO_SYMBOL
      (if mutator_i_s.symbol = 0 then []
        else if S.lexicon.has_transitions (u32 (S.next_node.lexicon_state + 1)) translated
            = false then
          if translated ≥ S.lexicon.alphabet.get_orig_symbol_count then S.lexicon_fallback_reads
          else []
        else S.queue_lexicon_arcs_reads translated) ++
        mutator_epsilons_reads_loop S m fuel (next_m + 1)

/-- The indices of `input` read in `mutator_epsilons`. -/
def mutator_epsilons_reads (S : Speller) (m : Transducer) : List Nat :=
  if m.has_transitions (u32 (S.next_node.mutator_state + 1)) 0 = false then []
  else
    mutator_epsilons_reads_loop S m
      (m.transitions.length + 1 - m.next S.next_node.mutator_state 0)
      (m.next S.next_node.mutator_state 0)

/-- The speller on which `build_cache` calls `mutator_epsilons` in the first
iteration of its loop: the start node has been popped into `next_node` and
`lexicon_epsilons` has run. -/
def build_cache_first (S : Speller) : Speller :=
  ({ S with queue := [], limit := WEIGHT_MAX, next_node := S.start_node } : Speller).lexicon_epsilons

end Speller

/-- The alphabet of an error model with the one letter `z`. -/
def insert_alphabet : TransducerAlphabet :=
  { kt := ["", "z"], operations := [], unknown_symbol := NO_SYMBOL,
    identity_symbol := NO_SYMBOL, flag_state_size := 0, orig_symbol_count := 2,
    string_to_symbol := [("z", 1)] }

/-- An error model that inserts one `z` at weight 1: the final state 0 (index
cell 0) has an arc from epsilon to `z` into a final state without arcs
(transition cell 1). -/
def insert_mutator : Transducer :=
  { alphabet := insert_alphabet
    indices := [⟨NO_SYMBOL, 0⟩, ⟨0, TARGET_TABLE + 0⟩]
    transitions := [⟨0, 1, TARGET_TABLE + 1, 1⟩, ⟨NO_SYMBOL, NO_SYMBOL, 1, 0⟩]
    infinite_weight := WEIGHT_MAX
    weight_of_bits := fun _ => 0
    encoder := Encoder.of_calls [([], 0), (['z'], 1)] }

/-- The alphabet `a` without its key table: the members on which the two
readers of an alphabet agree. -/
def TransducerAlphabet.without_kt (a : TransducerAlphabet) : TransducerAlphabet :=
  { a with kt := [] }

/-- The local variables of `read` and the alphabet without its key table. -/
def TransducerAlphabet.ReadState.without_kt (st : TransducerAlphabet.ReadState) :
    TransducerAlphabet.ReadState :=
  { st with alphabet := st.alphabet.without_kt }

/-- The key that the in-memory reader stores where the stream reader stores
`key`: the empty string for the names of the unknown and the identity
symbol. -/
def TransducerAlphabet.blank_special (key : String) : String :=
  if key = "@_UNKNOWN_SYMBOL_@" ∨ key = "@_IDENTITY_SYMBOL_@" then "" else key

/-- The key that `read` appends to the key table for the C string `line`:
the empty string for a flag diacritic and for any other string between two
`@`, except that the stream reader (`from_file`) keeps the names of the
unknown and the identity symbol. -/
def TransducerAlphabet.key_of_line (from_file : Bool) (line : String) : String :=
  if line.toList.head? = some '@' ∧ line.toList.getLast? = some '@' then
    if line.toList.length ≥ 5 ∧ line.toList.get? 2 = some '.' then ""
    else if line = "@_UNKNOWN_SYMBOL_@" then (if from_file then line else "")
    else if line = "@_IDENTITY_SYMBOL_@" then (if from_file then line else "")
    else ""
  else line

/-! ## The sizes of the alphabet translator and of the cache -/

/-- Every number in the string-to-symbol map is an index of the key table,
as in every loaded alphabet. -/
def TransducerAlphabet.Bounded (a : TransducerAlphabet) : Prop :=
  ∀ p ∈ a.string_to_symbol, (p.2 : Nat) < a.kt.length

/-- The encoder is built from C strings and every symbol number in it is
below `n`, as in the encoder that the constructor of a transducer builds
from a key table with `n` entries. -/
def Encoder.Bounded (e : Encoder) (n : Nat) : Prop :=
  e.Shortcut ∧ e.letters.NulFree ∧
    ∀ s, e.letters.lookup s ≠ NO_SYMBOL → (e.letters.lookup s : Nat) < n

/-- A call of one of the three public searches of `Speller`, with the fuel
that the embedding gives to its loops. -/
inductive SpellerCall where
  | check (line : List Char) (fuel : Nat)
  | analyse (line : List Char) (fuel : Nat)
  | correct (line : List Char) (nbest : Int) (maxweight beam time_cutoff : Weight)
      (clock_exceeded : Nat → Bool) (fuel : Nat)

/-- The line given to a call. -/
def SpellerCall.line : SpellerCall → List Char
  | SpellerCall.check line _ => line
  | SpellerCall.analyse line _ => line
  | SpellerCall.correct line _ _ _ _ _ _ => line

namespace Speller

/-- The speller after the call `c`; `none` when the call has no result. -/
def call (S : Speller) : SpellerCall → Option Speller
  | SpellerCall.check line fuel => (S.check_line line fuel).map (fun r => r.2)
  | SpellerCall.analyse line fuel => (S.analyse_line line fuel).map (fun r => r.2)
  | SpellerCall.correct line nbest maxweight beam time_cutoff clock_exceeded fuel =>
      (S.correct_line line nbest maxweight beam time_cutoff clock_exceeded fuel).map
        (fun r => r.2)

/-- The speller after the calls `calls`, made in order. -/
def run_calls : List SpellerCall → Speller → Option Speller
  | [], S => some S
  | c :: calls, S =>
    match S.call c with
    | none => none
    | some S1 => run_calls calls S1

/-- The members that the searches leave alone once `init_input` has run: the
transducers, the alphabet translator, the size of the cache and the input. -/
def SizeFrame (S S' : Speller) : Prop :=
  S'.mutator = S.mutator ∧ S'.lexicon = S.lexicon ∧
    S'.alphabet_translator = S.alphabet_translator ∧ S'.cache.length = S.cache.length ∧
    S'.input = S.input

/-- The invariant of the sizes: there is an error model and, while its key
table has at most 65536 entries, the alphabet translator has one entry per
key, the cache at least one container per key, and the map and the encoder
of the error model hold only numbers of keys. -/
def Sized (S : Speller) : Prop :=
  ∃ m, S.mutator = some m ∧
    (m.alphabet.kt.length ≤ 65536 →
      S.alphabet_translator.length = m.alphabet.kt.length ∧ 1 ≤ m.alphabet.kt.length ∧
      m.alphabet.kt.length ≤ S.cache.length ∧ m.alphabet.Bounded ∧
      m.encoder.Bounded m.alphabet.kt.length)

end Speller

/-- The invariant of the loop of `init_input` in the mode `md`: the mode is
`md`, the sizes are as in `Sized`, and when `init_input` tokenises with the
encoder of the error model (`md` is not `Check`) every symbol stored in
`input` is an index of the alphabet translator. -/
def Speller.SizedInput (md : Mode) (S : Speller) : Prop :=
  S.mode = md ∧
  ∃ m, S.mutator = some m ∧
    (m.alphabet.kt.length ≤ 65536 →
      (S.alphabet_translator.length = m.alphabet.kt.length ∧ 1 ≤ m.alphabet.kt.length ∧
        m.alphabet.kt.length ≤ S.cache.length ∧ m.alphabet.Bounded ∧
        m.encoder.Bounded m.alphabet.kt.length) ∧
      (md ≠ Mode.Check → ∀ k ∈ S.input, (k : Nat) < S.alphabet_translator.length))

/-- The calls of the witness of the sizes: `correct` of the line `z` and
`check` of the line `q`. -/
def sized_calls : List SpellerCall :=
  [SpellerCall.correct ['z'] 0 (-1) (-1) 0 clock_never 100, SpellerCall.check ['q'] 100]

/-- An error model whose key table has grown to 65536 entries: the two keys
of `tok_alphabet`, the 65533 keys of `filler_symbols` and `z`.  Its encoder
knows no symbol that begins with `q`. -/
def wide_mutator : Transducer :=
  { ident_mutator with
      alphabet := full_alphabet.add_symbol "z"
      encoder := Encoder.of_calls [([], 0), ("@_IDENTITY_SYMBOL_@".toList, 1)] }

/-- A speller over `wide_mutator` in which `alphabet_translator` and `cache`
have one entry per key of the error model. -/
def wide_speller : Speller :=
  { mutator := some wide_mutator, lexicon := tok_lexicon, input := [], queue := [],
    next_node := TreeNode.start [], limit := WEIGHT_MAX, best_suggestion := WEIGHT_MAX,
    nbest_queue := [], alphabet_translator := List.replicate 65536 0,
    cache := List.replicate 65536 CacheContainer.fresh, limiting := LimitingBehaviour.None,
    mode := Mode.Correct, max_time := -1, call_counter := 0, limit_reached := false }

namespace TransducerAlphabet

/-- The value name that `read` takes from a flag diacritic. -/
def value_name (line : String) : String := String.mk (flag_value line.toList)

/-- What the loop of `read` keeps about value numbers: the next number to
give, the numbers given and the values of the operations stored are 16-bit
values. -/
def ValueInv (st : ReadState) : Prop :=
  ValueNumber.InRange st.val_num ∧ (∀ p ∈ st.value_bucket, ValueNumber.InRange p.2) ∧
    ∀ p ∈ st.alphabet.operations, ValueNumber.InRange p.2.value

end TransducerAlphabet

/-- The value name of `j` letters `v`. -/
def letters_v (j : Nat) : String := String.mk (List.replicate j 'v')

/-- The flag diacritic `@N.F.v...v@`, a negative set of the feature `F`
whose value name is `j` letters `v`. -/
def value_flag (j : Nat) : String :=
  String.mk ('@' :: 'N' :: '.' :: 'F' :: '.' :: (List.replicate j 'v' ++ ['@']))

/-- The flag diacritics `value_flag k`, `value_flag (k + 1)`, ..., `count`
of them. -/
def value_flags : Nat → Nat → List String
  | _, 0 => []
  | k, count + 1 => value_flag k :: value_flags (k + 1) count

/-- The C strings of an alphabet of 32769 symbols: epsilon and 32768
negative-set flag diacritics over one feature with pairwise different value
names. -/
def many_values_strings : List String := "" :: value_flags 1 32768

namespace TransducerAlphabet

/-- The state of the loop of `read` after epsilon and the flag diacritics
`value_flag 1`, ..., `value_flag m` have been read as the symbols 0 to `m`:
the next value number is `m + 1` narrowed to 16 bits, the value names of the
later flag diacritics and the later symbols are new, and the symbol `k` read
is the negative set of feature 0 to the value `k` narrowed to 16 bits; the
feature bucket holds `F` as feature 0 once a flag diacritic has been read. -/
def ValueFlagsInv (m : Nat) (st : ReadState) : Prop :=
  st.val_num = i16 (m + 1) ∧
  (∀ j, m < j → st.value_bucket.lookup (letters_v j) = none) ∧
  (∀ k, m < k → st.alphabet.operations.lookup k = none) ∧
  (∀ k, 1 ≤ k → k ≤ m →
    st.alphabet.operations.lookup k = some ⟨FlagDiacriticOperator.N, 0, i16 k⟩) ∧
  ((m = 0 ∧ st.feature_bucket = [] ∧ st.feat_num = 0) ∨
    (1 ≤ m ∧ st.feature_bucket = [("F", 0)]))

end TransducerAlphabet

/-! # Theorems -/


/-- C3: for a unification operation `U` with feature `F` (a valid index of
the flag state) and value `V`, `try_compatible_with` succeeds exactly when
`state[F] == 0`, or `state[F] == V`, or `state[F] < 0` and `-state[F] != V`;
on success the flag state is the old one with `state[F]` set to `V`. -/
theorem try_compatible_with_unification (n : TreeNode) (F : SymbolNumber) (V : ValueNumber)
    (hF : F < n.flag_state.length) :
    ((n.try_compatible_with ⟨FlagDiacriticOperator.U, F, V⟩).1 = true ↔
        (n.flag_state.getD F 0 = 0 ∨ n.flag_state.getD F 0 = V ∨
          (n.flag_state.getD F 0 < 0 ∧ -(n.flag_state.getD F 0) ≠ V))) ∧
      ((n.try_compatible_with ⟨FlagDiacriticOperator.U, F, V⟩).1 = true →
        (n.try_compatible_with ⟨FlagDiacriticOperator.U, F, V⟩).2.flag_state
            = n.flag_state.set F V ∧
          (n.try_compatible_with ⟨FlagDiacriticOperator.U, F, V⟩).2.flag_state.getD F 0 = V) := by
  have hneg : n.flag_state.getD F 0 * -1 = -(n.flag_state.getD F 0) := by ring
  by_cases h : n.flag_state.getD F 0 = 0 ∨ n.flag_state.getD F 0 = V ∨
      (n.flag_state.getD F 0 < 0 ∧ n.flag_state.getD F 0 * -1 ≠ V)
  · have hs : n.try_compatible_with ⟨FlagDiacriticOperator.U, F, V⟩
        = (true, { n with flag_state := n.flag_state.set F V }) := by
      simp only [TreeNode.try_compatible_with]
      rw [if_pos h]
    rw [hs]
    refine ⟨⟨fun _ => ?_, fun _ => rfl⟩, fun _ => ⟨rfl, ?_⟩⟩
    · rw [hneg] at h
      exact h
    · simp [List.getD_eq_getElem?_getD, List.getElem?_set, hF]
  · have hs : n.try_compatible_with ⟨FlagDiacriticOperator.U, F, V⟩ = (false, n) := by
      simp only [TreeNode.try_compatible_with]
      rw [if_neg h]
    rw [hs]
    refine ⟨⟨fun hc => ?_, fun hc => ?_⟩, fun hc => ?_⟩
    · simp at hc
    · rw [← hneg] at hc
      exact absurd hc h
    · simp at hc

/-- Witness of C3: the state `[-1]` (feature 0 negatively set to 1) unifies
with value 2 and becomes `[2]`. -/
theorem try_compatible_with_unification_witness :
    ((TreeNode.start [-1]).try_compatible_with ⟨FlagDiacriticOperator.U, 0, 2⟩).1 = true ∧
      ((TreeNode.start [-1]).try_compatible_with ⟨FlagDiacriticOperator.U, 0, 2⟩).2.flag_state
        = [2] :=
  ⟨by decide,
    ((try_compatible_with_unification (TreeNode.start [-1]) 0 2 (by decide)).2 (by decide)).1⟩

/-- C4: for a require operation `R` with feature `F` and value `V`,
`try_compatible_with` succeeds iff `state[F] != 0` when `V == 0` and iff
`state[F] == V` when `V != 0`; the node (so its flag state) is unchanged
whatever the outcome. -/
theorem try_compatible_with_require (n : TreeNode) (F : SymbolNumber) (V : ValueNumber) :
    ((n.try_compatible_with ⟨FlagDiacriticOperator.R, F, V⟩).1 = true ↔
        if V = 0 then n.flag_state.getD F 0 ≠ 0 else n.flag_state.getD F 0 = V) ∧
      (n.try_compatible_with ⟨FlagDiacriticOperator.R, F, V⟩).2 = n := by
  by_cases hV : V = 0 <;> simp [TreeNode.try_compatible_with, hV]

/-- C5: for a disallow operation `D` with feature `F` and value `V`,
`try_compatible_with` succeeds iff `state[F] == 0` when `V == 0` and iff
`state[F] != V` when `V != 0`; the node (so its flag state) is unchanged
whatever the outcome. -/
theorem try_compatible_with_disallow (n : TreeNode) (F : SymbolNumber) (V : ValueNumber) :
    ((n.try_compatible_with ⟨FlagDiacriticOperator.D, F, V⟩).1 = true ↔
        if V = 0 then n.flag_state.getD F 0 = 0 else n.flag_state.getD F 0 ≠ V) ∧
      (n.try_compatible_with ⟨FlagDiacriticOperator.D, F, V⟩).2 = n := by
  by_cases hV : V = 0 <;> simp [TreeNode.try_compatible_with, hV]

/-- The conversion to 16 bits yields a value that a `ValueNumber` can hold. -/
theorem i16_inRange (v : Int) : ValueNumber.InRange (i16 v) := by
  have h : -32768 ≤ (v + 32768) % 65536 - 32768 ∧ (v + 32768) % 65536 - 32768 ≤ 32767 := by
    omega
  exact h

/-- The conversion to 16 bits changes no value that a `ValueNumber` can hold. -/
theorem i16_of_inRange (v : Int) (h : ValueNumber.InRange v) : i16 v = v := by
  have h1 : -32768 ≤ v ∧ v ≤ 32767 := h
  have h2 : (v + 32768) % 65536 - 32768 = v := by omega
  exact h2

/-- The negation of a 16-bit value other than `-32768` is not changed by the
store in a 16-bit element. -/
theorem i16_neg (v : Int) (h : ValueNumber.InRange v) (hv : v ≠ -32768) :
    i16 (-1 * v) = -v := by
  have h1 : -32768 ≤ v ∧ v ≤ 32767 := h
  have h2 : (-1 * v + 32768) % 65536 - 32768 = -v := by omega
  exact h2

/-- The operations of `try_compatible_with` keep every element of the flag
state within 16 bits when the value of the operation is a 16-bit value. -/
theorem try_compatible_with_inRange (n : TreeNode) (op : FlagDiacriticOperation)
    (hn : ∀ v ∈ n.flag_state, ValueNumber.InRange v) (hop : ValueNumber.InRange op.value) :
    ∀ v ∈ (n.try_compatible_with op).2.flag_state, ValueNumber.InRange v := by
  have hset : ∀ w : ValueNumber, ValueNumber.InRange w →
      ∀ v ∈ n.flag_state.set op.feature w, ValueNumber.InRange v := by
    intro w hw v hv
    rcases List.mem_or_eq_of_mem_set hv with h | h
    · exact hn v h
    · rw [h]
      exact hw
  have h0 : ValueNumber.InRange 0 := ⟨by decide, by decide⟩
  unfold TreeNode.try_compatible_with
  cases op.operation <;> simp only [] <;> (try split_ifs) <;>
    first
      | exact hn
      | exact hset _ hop
      | exact hset _ h0
      | exact hset _ (i16_inRange _)

/-- C6 (amended): the three unconditional operations always succeed, for
every feature `F` that is a valid index of the flag state and every 16-bit
value `V`; afterwards `state[F]` is `V` for `P` and `0` for `C`, and for `N`
it is `-V` when `V` is not `-32768`, the one value whose negation is not a
16-bit value: for it `state[F]` is `-32768`. -/
theorem try_compatible_with_set_operations (n : TreeNode) (F : SymbolNumber) (V : ValueNumber)
    (hF : F < n.flag_state.length) (hV : ValueNumber.InRange V) :
    ((n.try_compatible_with ⟨FlagDiacriticOperator.P, F, V⟩).1 = true ∧
        (n.try_compatible_with ⟨FlagDiacriticOperator.P, F, V⟩).2.flag_state.getD F 0 = V) ∧
      ((n.try_compatible_with ⟨FlagDiacriticOperator.N, F, V⟩).1 = true ∧
        (V ≠ -32768 →
          (n.try_compatible_with ⟨FlagDiacriticOperator.N, F, V⟩).2.flag_state.getD F 0 = -V) ∧
        (V = -32768 →
          (n.try_compatible_with ⟨FlagDiacriticOperator.N, F, V⟩).2.flag_state.getD F 0
            = -32768)) ∧
      ((n.try_compatible_with ⟨FlagDiacriticOperator.C, F, V⟩).1 = true ∧
        (n.try_compatible_with ⟨FlagDiacriticOperator.C, F, V⟩).2.flag_state.getD F 0 = 0) := by
  have hN : (n.try_compatible_with ⟨FlagDiacriticOperator.N, F, V⟩).2.flag_state.getD F 0
      = i16 (-1 * V) := by
    simp [TreeNode.try_compatible_with, List.getD_eq_getElem?_getD, List.getElem?_set, hF]
  refine ⟨?_, ⟨rfl, fun hne => ?_, fun heq => ?_⟩, ?_⟩
  · simp [TreeNode.try_compatible_with, List.getD_eq_getElem?_getD, List.getElem?_set, hF]
  · rw [hN]
    exact i16_neg V hV hne
  · rw [hN, heq]
    decide
  · simp [TreeNode.try_compatible_with, List.getD_eq_getElem?_getD, List.getElem?_set, hF]

/-- Witness of C6 on the one-feature state `[7]` with value 3. -/
theorem try_compatible_with_set_operations_witness :
    0 < (TreeNode.start [7]).flag_state.length ∧ ValueNumber.InRange 3 ∧
      ((TreeNode.start [7]).try_compatible_with ⟨FlagDiacriticOperator.N, 0, 3⟩).2.flag_state.getD
        0 0 = -3 :=
  ⟨by decide, ⟨by decide, by decide⟩,
    (try_compatible_with_set_operations (TreeNode.start [7]) 0 3 (by decide)
      ⟨by decide, by decide⟩).2.1.2.1 (by decide)⟩

namespace Speller

/-! ## Footprint of the expansion steps -/

theorem SearchFrame.sf_refl (S : Speller) : SearchFrame S S := ⟨S.queue, S.next_node, rfl⟩

theorem SearchFrame.sf_trans {S₁ S₂ S₃ : Speller} (h₁ : SearchFrame S₁ S₂)
    (h₂ : SearchFrame S₂ S₃) : SearchFrame S₁ S₃ := by
  obtain ⟨q₁, n₁, rfl⟩ := h₁
  obtain ⟨q₂, n₂, rfl⟩ := h₂
  exact ⟨q₂, n₂, rfl⟩

theorem SearchFrame.push (S : Speller) (n : TreeNode) :
    SearchFrame S { S with queue := n :: S.queue } := ⟨n :: S.queue, S.next_node, rfl⟩

theorem SearchFrame.set_node (S : Speller) (n : TreeNode) :
    SearchFrame S { S with next_node := n } := ⟨S.queue, n, rfl⟩

theorem SearchFrame.set_both (S : Speller) (q : List TreeNode) (n : TreeNode) :
    SearchFrame S { S with queue := q, next_node := n } := ⟨q, n, rfl⟩

theorem lexicon_epsilons_loop_frame (fuel : Nat) :
    ∀ (next : TransitionTableIndex) (S : Speller),
      SearchFrame S (lexicon_epsilons_loop fuel next S) := by
  induction fuel with
  | zero => intro next S; exact SearchFrame.sf_refl S
  | succ fuel ih =>
    intro next S
    unfold lexicon_epsilons_loop
    simp only []
    split_ifs
    all_goals first
      | exact SearchFrame.sf_refl S
      | exact ih _ _

theorem lexicon_epsilons_frame (S : Speller) : SearchFrame S S.lexicon_epsilons := by
  unfold lexicon_epsilons
  split_ifs
  · exact SearchFrame.sf_refl S
  · exact lexicon_epsilons_loop_frame _ _ _

theorem queue_lexicon_arcs_loop_frame (a : SymbolNumber) (ms : TransitionTableIndex)
    (mw : Weight) (inc : Nat) (fuel : Nat) :
    ∀ (next : TransitionTableIndex) (S : Speller),
      SearchFrame S (queue_lexicon_arcs_loop a ms mw inc fuel next S) := by
  induction fuel with
  | zero => intro next S; exact SearchFrame.sf_refl S
  | succ fuel ih =>
    intro next S
    unfold queue_lexicon_arcs_loop
    simp only []
    split_ifs
    all_goals first
      | exact SearchFrame.sf_refl S
      | exact (SearchFrame.push S _).sf_trans (ih _ _)
      | exact ih _ _

theorem queue_lexicon_arcs_frame (S : Speller) (a : SymbolNumber) (ms : TransitionTableIndex)
    (mw : Weight) (inc : Nat) : SearchFrame S (S.queue_lexicon_arcs a ms mw inc) := by
  unfold queue_lexicon_arcs
  exact queue_lexicon_arcs_loop_frame _ _ _ _ _ _ _

theorem lexicon_fallback_frame (S : Speller) (ms : TransitionTableIndex) (mw : Weight)
    (inc : Nat) : SearchFrame S (S.lexicon_fallback ms mw inc) := by
  unfold lexicon_fallback
  simp only []
  split_ifs
  all_goals first
    | exact SearchFrame.sf_refl S
    | exact queue_lexicon_arcs_frame _ _ _ _ _
    | exact (queue_lexicon_arcs_frame _ _ _ _ _).sf_trans (queue_lexicon_arcs_frame _ _ _ _ _)

theorem lexicon_consume_frame (S : Speller) : SearchFrame S S.lexicon_consume := by
  unfold lexicon_consume
  simp only []
  split_ifs
  all_goals first
    | exact SearchFrame.sf_refl S
    | exact queue_lexicon_arcs_frame _ _ _ _ _
    | exact lexicon_fallback_frame _ _ _ _

theorem mutator_epsilons_loop_frame (m : Transducer) (fuel : Nat) :
    ∀ (next : TransitionTableIndex) (S : Speller),
      SearchFrame S (mutator_epsilons_loop m fuel next S) := by
  induction fuel with
  | zero => intro next S; exact SearchFrame.sf_refl S
  | succ fuel ih =>
    intro next S
    unfold mutator_epsilons_loop
    simp only []
    split_ifs
    all_goals first
      | exact SearchFrame.sf_refl S
      | exact ih _ _
      | exact (SearchFrame.push S _).sf_trans (ih _ _)
      | exact (queue_lexicon_arcs_frame _ _ _ _ _).sf_trans (ih _ _)
      | exact (lexicon_fallback_frame _ _ _ _).sf_trans (ih _ _)

theorem mutator_epsilons_frame (S : Speller) (m : Transducer) :
    SearchFrame S (S.mutator_epsilons m) := by
  unfold mutator_epsilons
  split_ifs
  · exact SearchFrame.sf_refl S
  · exact mutator_epsilons_loop_frame _ _ _ _

theorem queue_mutator_arcs_loop_frame (m : Transducer) (a : SymbolNumber) (fuel : Nat) :
    ∀ (next : TransitionTableIndex) (S : Speller),
      SearchFrame S (queue_mutator_arcs_loop m a fuel next S) := by
  induction fuel with
  | zero => intro next S; exact SearchFrame.sf_refl S
  | succ fuel ih =>
    intro next S
    unfold queue_mutator_arcs_loop
    simp only []
    split_ifs
    all_goals first
      | exact SearchFrame.sf_refl S
      | exact ih _ _
      | exact (SearchFrame.push S _).sf_trans (ih _ _)
      | exact (queue_lexicon_arcs_frame _ _ _ _ _).sf_trans (ih _ _)
      | exact (lexicon_fallback_frame _ _ _ _).sf_trans (ih _ _)

theorem queue_mutator_arcs_frame (S : Speller) (m : Transducer) (a : SymbolNumber) :
    SearchFrame S (S.queue_mutator_arcs m a) := by
  unfold queue_mutator_arcs
  exact queue_mutator_arcs_loop_frame _ _ _ _ _

theorem consume_input_frame (S : Speller) (m : Transducer) :
    SearchFrame S (S.consume_input m) := by
  unfold consume_input
  simp only []
  split_ifs
  all_goals first
    | exact SearchFrame.sf_refl S
    | exact queue_mutator_arcs_frame _ _ _
    | exact (queue_mutator_arcs_frame _ _ _).sf_trans (queue_mutator_arcs_frame _ _ _)

end Speller

namespace Speller

/-! ## Footprint of `build_cache` and of the limit computations -/

theorem SearchFrame.cacheFrame {S S' : Speller} (h : SearchFrame S S') : CacheFrame S S' := by
  obtain ⟨q, n, rfl⟩ := h
  exact ⟨q, n, S.limit, S.cache, rfl⟩

theorem CacheFrame.cf_refl (S : Speller) : CacheFrame S S :=
  ⟨S.queue, S.next_node, S.limit, S.cache, rfl⟩

theorem CacheFrame.cf_trans {S₁ S₂ S₃ : Speller} (h₁ : CacheFrame S₁ S₂)
    (h₂ : CacheFrame S₂ S₃) : CacheFrame S₁ S₃ := by
  obtain ⟨q₁, n₁, l₁, c₁, rfl⟩ := h₁
  obtain ⟨q₂, n₂, l₂, c₂, rfl⟩ := h₂
  exact ⟨q₂, n₂, l₂, c₂, rfl⟩

theorem build_cache_body_frame (m : Transducer) (first_sym : SymbolNumber) (S : Speller)
    (c0 c1 : StringWeightMap) : CacheFrame S (build_cache_body m first_sym S c0 c1).1 := by
  have h1 : SearchFrame S (S.lexicon_epsilons.mutator_epsilons m) :=
    (lexicon_epsilons_frame S).sf_trans (mutator_epsilons_frame _ m)
  unfold build_cache_body
  simp only []
  split_ifs
  · exact h1.cacheFrame.cf_trans
      (CacheFrame.cf_trans ⟨_, _, _, _, rfl⟩ (consume_input_frame _ m).cacheFrame)
  · exact h1.cacheFrame.cf_trans ⟨_, _, _, _, rfl⟩
  · exact h1.cacheFrame.cf_trans (consume_input_frame _ m).cacheFrame
  · exact h1.cacheFrame

theorem build_cache_loop_frame (m : Transducer) (first_sym : SymbolNumber) (fuel : Nat) :
    ∀ (S : Speller) (c0 c1 : StringWeightMap)
      (r : Speller × StringWeightMap × StringWeightMap),
      build_cache_loop m first_sym fuel S c0 c1 = some r → CacheFrame S r.1 := by
  induction fuel with
  | zero =>
    intro S c0 c1 r h
    unfold build_cache_loop at h
    split_ifs at h
    cases h
    exact CacheFrame.cf_refl S
  | succ fuel ih =>
    intro S c0 c1 r h
    unfold build_cache_loop at h
    split at h
    · cases h
      exact CacheFrame.cf_refl S
    · rename_i node rest hq
      have h2 := ih _ _ _ _ h
      exact CacheFrame.cf_trans (CacheFrame.cf_trans ⟨_, _, _, _, rfl⟩
        (build_cache_body_frame m first_sym _ c0 c1)) h2

theorem build_cache_frame (S : Speller) (m : Transducer) (first_sym : SymbolNumber)
    (fuel : Nat) (S' : Speller) (h : S.build_cache m first_sym fuel = some S') :
    CacheFrame S S' := by
  unfold build_cache at h
  simp only [] at h
  split at h
  · cases h
  · rename_i S1 c0 c1 heq
    cases h
    have := build_cache_loop_frame m first_sym fuel _ _ _ _ heq
    exact CacheFrame.cf_trans (CacheFrame.cf_trans ⟨_, _, _, _, rfl⟩ this) ⟨_, _, _, _, rfl⟩

end Speller

namespace Speller

/-! ## The result-collecting loops -/

theorem collect_results_length (nbest : Int) (hn : nbest ≠ 0) (xs : List (String × Weight)) :
    ∀ (S : Speller) (q : CorrectionQueue),
      q.length ≤ size_t_of_int nbest →
        (collect_results nbest xs S q).2.length ≤ size_t_of_int nbest := by
  induction xs with
  | nil => intro S q h; exact h
  | cons it rest ih =>
    intro S q h
    unfold collect_results
    split_ifs with hc
    · apply ih
      rcases hc.2 with h0 | ⟨_, h1, _⟩
      · exact absurd h0 hn
      · simp only [List.length_append, List.length_singleton]
        omega
    · exact ih _ _ h

theorem note_results_frame (nbest : Int) (xs : StringWeightVector) :
    ∀ S : Speller, ∃ b q,
      note_results nbest xs S = { S with best_suggestion := b, nbest_queue := q } := by
  induction xs with
  | nil => intro S; exact ⟨_, _, rfl⟩
  | cons it rest ih =>
    intro S
    unfold note_results
    simp only []
    split_ifs <;> exact ih _

theorem set_limiting_behaviour_frame (S : Speller) (nbest : Int) (maxweight beam : Weight) :
    ∃ lg l, S.set_limiting_behaviour nbest maxweight beam =
      { S with limiting := lg, limit := l, best_suggestion := WEIGHT_MAX } := by
  unfold set_limiting_behaviour
  simp only []
  split_ifs <;> exact ⟨_, _, rfl⟩

set_option maxHeartbeats 1000000 in
theorem adjust_weight_limits_frame (S : Speller) (nbest : Int) (beam : Weight) :
    ∃ l, S.adjust_weight_limits nbest beam = { S with limit := l } := by
  unfold adjust_weight_limits
  simp only []
  split_ifs
  all_goals exact ⟨_, rfl⟩

end Speller

namespace Speller

/-- The expansion steps done by one iteration of the main loop of `correct`
before the finality test. -/
theorem correct_expand_frame (S : Speller) (m : Transducer) :
    SearchFrame S (if S.next_node.input_state > 1 then S.lexicon_epsilons.mutator_epsilons m
      else S) := by
  split_ifs
  · have h1 := lexicon_epsilons_frame S
    have h2 := mutator_epsilons_frame S.lexicon_epsilons m
    obtain ⟨q₁, n₁, e₁⟩ := h1
    rw [e₁] at h2 ⊢
    obtain ⟨q₂, n₂, e₂⟩ := h2
    exact ⟨q₂, n₂, e₂⟩
  · exact SearchFrame.sf_refl S

end Speller

namespace Speller

theorem correct_cases (S : Speller) (nbest : Int) (maxweight beam time_cutoff : Weight)
    (clock_exceeded : Nat → Bool) (fuel : Nat) (r : CorrectionQueue × Speller)
    (h : S.correct nbest maxweight beam time_cutoff clock_exceeded fuel = some r) :
    ∃ m S1, S.mutator = some m ∧
      (S.correct_prepare nbest maxweight beam time_cutoff).correct_cache m fuel = some S1 ∧
      ((S1.input.length ≤ 1 ∧ r = S1.correct_cached nbest maxweight beam) ∨
        (¬ S1.input.length ≤ 1 ∧
          S1.correct_search m nbest maxweight beam clock_exceeded fuel = some r)) := by
  unfold correct at h
  split at h
  · cases h
  · rename_i m hm
    split at h
    · cases h
    · rename_i S1 hS1
      refine ⟨m, S1, hm, hS1, ?_⟩
      split_ifs at h with hl
      · cases h
        exact Or.inl ⟨hl, rfl⟩
      · exact Or.inr ⟨hl, h⟩

theorem correct_search_cases (S : Speller) (m : Transducer) (nbest : Int)
    (maxweight beam : Weight) (clock_exceeded : Nat → Bool) (fuel : Nat)
    (r : CorrectionQueue × Speller)
    (h : S.correct_search m nbest maxweight beam clock_exceeded fuel = some r) :
    ∃ S2 corr,
      correct_loop m nbest maxweight beam clock_exceeded fuel
        { S with queue := (S.cache.getD S.first_input CacheContainer.fresh).nodes.reverse } []
          = some (S2, corr) ∧
      r.1 = (collect_results nbest corr (S2.adjust_weight_limits nbest beam) []).2 := by
  unfold correct_search at h
  simp only [] at h
  split at h
  · cases h
  · rename_i S2 corr heq
    cases h
    exact ⟨S2, corr, heq, rfl⟩

theorem correct_cache_frame (S : Speller) (m : Transducer) (fuel : Nat) (S1 : Speller)
    (h : S.correct_cache m fuel = some S1) : CacheFrame S S1 := by
  unfold correct_cache at h
  split_ifs at h
  · exact build_cache_frame _ _ _ _ _ h
  · cases h
    exact CacheFrame.cf_refl S

theorem correct_prepare_nbest_queue (S : Speller) (nbest : Int)
    (maxweight beam time_cutoff : Weight) :
    (S.correct_prepare nbest maxweight beam time_cutoff).nbest_queue = [] := rfl

/-- C9: with `nbest = k >= 1`, whatever the weight limit, the beam, the time
cutoff and the clock, the queue returned by `correct` holds at most `k`
items. -/
theorem correct_queue_limit (S : Speller) (k : Int) (maxweight beam time_cutoff : Weight)
    (clock_exceeded : Nat → Bool) (fuel : Nat) (q : CorrectionQueue) (S' : Speller)
    (hk : 1 ≤ k)
    (h : S.correct k maxweight beam time_cutoff clock_exceeded fuel = some (q, S')) :
    (q.length : Int) ≤ k := by
  have hsz : (size_t_of_int k : Int) ≤ k := by
    unfold size_t_of_int
    omega
  have hlen : ∀ (xs : List (String × Weight)) (S0 : Speller),
      ((collect_results k xs S0 []).2.length : Int) ≤ k := by
    intro xs S0
    have := collect_results_length k (by omega) xs S0 [] (Nat.zero_le _)
    omega
  obtain ⟨m, S1, _, _, hc | hc⟩ := correct_cases _ _ _ _ _ _ _ _ h
  · have hq : q = (S1.correct_cached k maxweight beam).1 := by rw [← hc.2]
    rw [hq]
    exact hlen _ _
  · obtain ⟨S2, corr, _, hq⟩ := correct_search_cases _ _ _ _ _ _ _ _ hc.2
    rw [show q = _ from hq]
    exact hlen _ _

end Speller

namespace Speller

/-- Witness of C9 on the concrete speller: with `nbest = 1` the input `aa`
yields the single correction `aa`. -/
theorem correct_queue_limit_witness :
    ∃ q S', (demo_speller [1, 1]).correct 1 (-1) (-1) 0 clock_never 100 = some (q, S') ∧
      q = [("aa", 1)] ∧ (q.length : Int) ≤ 1 := by
  have hs : ((demo_speller [1, 1]).correct 1 (-1) (-1) 0 clock_never 100).map (fun r => r.1)
      = some [("aa", 1)] := by decide!
  cases h : (demo_speller [1, 1]).correct 1 (-1) (-1) 0 clock_never 100 with
  | none => rw [h] at hs; cases hs
  | some r =>
    obtain ⟨q, S'⟩ := r
    rw [h] at hs
    exact ⟨q, S', rfl, Option.some.inj hs,
      correct_queue_limit _ 1 (-1) (-1) 0 clock_never 100 q S' (by decide) h⟩

/-- C8 (the code does not do this): with only a beam of 0 set, `correct`
on the concrete speller returns `ab` of weight 2 next to the best correction
`aa` of weight 1, for the two-symbol input `aa` (main search loop) and
likewise `b` of weight 2 next to `a` of weight 1 for the one-symbol input `a`
(cached results), although 2 exceeds the best weight plus the beam. -/
theorem correct_beam_exceeded :
    ((demo_speller [1, 1]).correct 0 (-1) 0 0 clock_never 100).map (fun r => r.1)
        = some [("aa", 1), ("ab", 2)] ∧
      ((demo_speller [1]).correct 0 (-1) 0 0 clock_never 100).map (fun r => r.1)
        = some [("a", 1), ("b", 2)] := by
  decide!

/-- C10 (the code does not do this): on the concrete speller the search for
the input `aa` collects the two corrections `aa` (weight 1) and `ab`
(weight 2), as the call without limits shows and as the map left by the main
loop of the call with `nbest = 2` shows, but with `nbest = 2` only `aa` is
returned; the same happens for the one-symbol input `a`. -/
theorem correct_nbest_drops_correction :
    ((demo_speller [1, 1]).correct 0 (-1) (-1) 0 clock_never 100).map (fun r => r.1)
        = some [("aa", 1), ("ab", 2)] ∧
      ((((demo_speller [1, 1]).correct_prepare 2 (-1) (-1) 0).correct_cache demo_mutator
          100).bind
        (fun S => (correct_loop demo_mutator 2 (-1) (-1) clock_never 100
          { S with queue := (S.cache.getD S.first_input CacheContainer.fresh).nodes.reverse }
          []).map (fun r => r.2))) = some [("aa", 1), ("ab", 2)] ∧
      ((demo_speller [1, 1]).correct 2 (-1) (-1) 0 clock_never 100).map (fun r => r.1)
        = some [("aa", 1)] ∧
      ((demo_speller [1]).correct 2 (-1) (-1) 0 clock_never 100).map (fun r => r.1)
        = some [("a", 1)] := by
  decide!

end Speller

/-! ## The stateful expansion steps push the successor lists -/

theorem try_compatible_with_restore (n : TreeNode) (op : FlagDiacriticOperation) :
    { (n.try_compatible_with op).2 with flag_state := n.flag_state } = n := by
  unfold TreeNode.try_compatible_with
  cases op.operation <;> simp only [] <;> split_ifs <;> rfl

theorem try_compatible_with_failure (n : TreeNode) (op : FlagDiacriticOperation)
    (h : (n.try_compatible_with op).1 = false) : (n.try_compatible_with op).2 = n := by
  unfold TreeNode.try_compatible_with at h ⊢
  cases hop : op.operation <;> simp only [hop] at h ⊢ <;>
    first
      | exact absurd h (by decide)
      | (split_ifs at h ⊢ <;> rfl)

namespace Speller

theorem is_under_weight_limit_eq (S : Speller) (w : Weight) :
    S.is_under_weight_limit w = under_limit S.limiting S.limit w := rfl

theorem lexicon_epsilons_loop_eq (fuel : Nat) :
    ∀ (next : TransitionTableIndex) (S : Speller),
      lexicon_epsilons_loop fuel next S =
        { S with queue :=
                   (eps_nodes S.lexicon S.mode (under_limit S.limiting S.limit) S.next_node
                     fuel next).reverse ++ S.queue } := by
  induction fuel with
  | zero => intro next S; rfl
  | succ fuel ih =>
    intro next S
    unfold lexicon_epsilons_loop eps_nodes
    simp only [is_under_weight_limit_eq]
    split_ifs
    all_goals first
      | rfl
      | (rw [ih]
         simp only [List.reverse_append, List.reverse_cons, List.reverse_nil, List.nil_append,
           List.append_assoc, List.singleton_append, List.cons_append,
           try_compatible_with_restore]
         done)
      | (rw [ih]
         rw [try_compatible_with_failure _ _ (by simpa using ‹¬ _ = true›)]
         simp only [List.nil_append])

theorem lexicon_epsilons_eq (S : Speller) :
    S.lexicon_epsilons = { S with queue := S.eps_successors.reverse ++ S.queue } := by
  unfold lexicon_epsilons eps_successors
  split_ifs
  · rfl
  · exact lexicon_epsilons_loop_eq _ _ _

theorem queue_lexicon_arcs_loop_eq (a : SymbolNumber) (ms : TransitionTableIndex)
    (mw : Weight) (inc : Nat) (fuel : Nat) :
    ∀ (next : TransitionTableIndex) (S : Speller),
      queue_lexicon_arcs_loop a ms mw inc fuel next S =
        { S with queue :=
                   (arc_nodes S.lexicon S.mode (under_limit S.limiting S.limit) S.input
                     S.next_node a ms mw inc fuel next).reverse ++ S.queue } := by
  induction fuel with
  | zero => intro next S; rfl
  | succ fuel ih =>
    intro next S
    unfold queue_lexicon_arcs_loop arc_nodes
    simp only [is_under_weight_limit_eq]
    split_ifs
    all_goals first
      | rfl
      | (rw [ih]
         simp only [List.reverse_append, List.reverse_cons, List.reverse_nil, List.nil_append,
           List.append_assoc, List.singleton_append, List.cons_append])

theorem queue_lexicon_arcs_eq (S : Speller) (a : SymbolNumber) (ms : TransitionTableIndex)
    (mw : Weight) (inc : Nat) :
    S.queue_lexicon_arcs a ms mw inc =
      { S with queue := (S.arc_successors a ms mw inc).reverse ++ S.queue } := by
  unfold queue_lexicon_arcs arc_successors
  exact queue_lexicon_arcs_loop_eq _ _ _ _ _ _ _

theorem lexicon_fallback_eq (S : Speller) (ms : TransitionTableIndex) (mw : Weight)
    (inc : Nat) :
    S.lexicon_fallback ms mw inc =
      { S with queue := (S.fallback_successors ms mw inc).reverse ++ S.queue } := by
  unfold lexicon_fallback fallback_successors
  simp only [queue_lexicon_arcs_eq]
  split_ifs <;>
    (simp only [List.reverse_append, List.reverse_nil, List.nil_append, List.append_nil,
      List.append_assoc]; try rfl)

theorem lexicon_consume_eq (S : Speller) :
    S.lexicon_consume = { S with queue := S.consume_successors.reverse ++ S.queue } := by
  unfold lexicon_consume consume_successors
  simp only [queue_lexicon_arcs_eq, lexicon_fallback_eq]
  split_ifs <;> rfl

end Speller

/-! ## The successor lists and the transition relation -/

theorem take_epsilons_and_flags_in_range (T : Transducer) (p : Nat)
    (h : (T.take_epsilons_and_flags p).symbol ≠ NO_SYMBOL) : p < T.transitions.length := by
  by_contra hp
  have hnone : T.transitions[p]? = none := List.getElem?_eq_none (not_lt.1 hp)
  apply h
  unfold Transducer.take_epsilons_and_flags Transducer.transitions_output_symbol
  split_ifs <;> simp [hnone]

theorem take_non_epsilons_in_range (T : Transducer) (p : Nat)
    (a : SymbolNumber) (h : (T.take_non_epsilons p a).symbol ≠ NO_SYMBOL) :
    p < T.transitions.length := by
  by_contra hp
  have hnone : T.transitions[p]? = none := List.getElem?_eq_none (not_lt.1 hp)
  apply h
  unfold Transducer.take_non_epsilons Transducer.transitions_output_symbol
  split_ifs <;> simp [hnone]

/-- The node pushed for the epsilon-or-flag cell `p`, if any. -/
theorem mem_eps_nodes (T : Transducer) (mode : Mode) (under : Weight → Bool) (n n' : TreeNode)
    (fuel : Nat) :
    ∀ next : Nat,
      n' ∈ eps_nodes T mode under n fuel next ↔
        ∃ p : Nat, p < next + fuel ∧ T.eps_run next p ∧
          under (n.weight + (T.take_epsilons_and_flags p).weight) = true ∧
          ((T.transitions_input_symbol p = 0 ∧
              n' = n.update_lexicon
                (if mode = Mode.Correct then 0 else (T.take_epsilons_and_flags p).symbol)
                (T.take_epsilons_and_flags p).index (T.take_epsilons_and_flags p).weight) ∨
            (T.transitions_input_symbol p ≠ 0 ∧
              (n.try_compatible_with
                (T.get_operations.at (T.transitions_input_symbol p))).1 = true ∧
              n' = (n.try_compatible_with
                  (T.get_operations.at (T.transitions_input_symbol p))).2.update_lexicon 0
                (T.take_epsilons_and_flags p).index (T.take_epsilons_and_flags p).weight)) := by
  induction fuel with
  | zero =>
    intro next
    simp only [eps_nodes, List.not_mem_nil, false_iff]
    rintro ⟨p, hp, ⟨hle, _⟩, _⟩
    omega
  | succ fuel ih =>
    intro next
    unfold eps_nodes
    by_cases hstop : (T.take_epsilons_and_flags next).symbol = NO_SYMBOL
    · simp only [hstop, if_true, List.not_mem_nil, false_iff]
      rintro ⟨p, _, ⟨hle, hrun⟩, _⟩
      exact hrun next (le_refl _) hle hstop
    · simp only [hstop, if_false, List.mem_append, ih (next + 1)]
      constructor
      · rintro (hhere | ⟨p, hp, ⟨hle, hrun⟩, hrest⟩)
        · refine ⟨next, by omega, ⟨le_refl _, ?_⟩, ?_⟩
          · intro j h1 h2
            have : j = next := le_antisymm h2 h1
            rw [this]
            exact hstop
          · by_cases h1 : under (n.weight + (T.take_epsilons_and_flags next).weight) = true
            · rw [if_pos h1] at hhere
              refine ⟨h1, ?_⟩
              by_cases h2 : T.transitions_input_symbol next = 0
              · rw [if_pos h2] at hhere
                exact Or.inl ⟨h2, List.mem_singleton.1 hhere⟩
              · rw [if_neg h2] at hhere
                by_cases h3 : (n.try_compatible_with
                    (T.get_operations.at (T.transitions_input_symbol next))).1 = true
                · rw [if_pos h3] at hhere
                  exact Or.inr ⟨h2, h3, List.mem_singleton.1 hhere⟩
                · rw [if_neg h3] at hhere
                  simp at hhere
            · rw [if_neg h1] at hhere
              simp at hhere
        · refine ⟨p, by omega, ⟨by omega, ?_⟩, hrest⟩
          intro j h1 h2
          by_cases hj : j = next
          · rw [hj]
            exact hstop
          · exact hrun j (by omega) h2
      · rintro ⟨p, hp, ⟨hle, hrun⟩, hunder, hnode⟩
        by_cases hpn : p = next
        · left
          subst hpn
          rw [if_pos hunder]
          rcases hnode with ⟨h0, hn⟩ | ⟨h0, hok, hn⟩
          · rw [if_pos h0, hn]
            exact List.mem_singleton.2 rfl
          · rw [if_neg h0, if_pos hok, hn]
            exact List.mem_singleton.2 rfl
        · right
          exact ⟨p, by omega, ⟨by omega, fun j h1 h2 => hrun j (by omega) h2⟩, hunder, hnode⟩

/-- The node pushed for the cell `p` of the group of `input_sym`, if any. -/
theorem mem_arc_nodes (T : Transducer) (mode : Mode) (under : Weight → Bool)
    (input : SymbolVector) (n n' : TreeNode) (a : SymbolNumber) (ms : TransitionTableIndex)
    (mw : Weight) (inc : Nat) (fuel : Nat) :
    ∀ next : Nat,
      n' ∈ arc_nodes T mode under input n a ms mw inc fuel next ↔
        ∃ p : Nat, p < next + fuel ∧ T.sym_run a next p ∧
          under (n.weight + (T.take_non_epsilons p a).weight + mw) = true ∧
          n' = n.update
            (if mode = Mode.Correct then a
              else if (T.take_non_epsilons p a).symbol = T.get_identity then
                input.getD n.input_state NO_SYMBOL
              else (T.take_non_epsilons p a).symbol)
            (n.input_state + inc) ms (T.take_non_epsilons p a).index
            ((T.take_non_epsilons p a).weight + mw) := by
  induction fuel with
  | zero =>
    intro next
    simp only [arc_nodes, List.not_mem_nil, false_iff]
    rintro ⟨p, hp, ⟨hle, _⟩, _⟩
    omega
  | succ fuel ih =>
    intro next
    unfold arc_nodes
    by_cases hstop : (T.take_non_epsilons next a).symbol = NO_SYMBOL
    · simp only [hstop, if_true, List.not_mem_nil, false_iff]
      rintro ⟨p, _, ⟨hle, hrun⟩, _⟩
      exact hrun next (le_refl _) hle hstop
    · simp only [hstop, if_false, List.mem_append, ih (next + 1)]
      constructor
      · rintro (hhere | ⟨p, hp, ⟨hle, hrun⟩, hrest⟩)
        · refine ⟨next, by omega, ⟨le_refl _, ?_⟩, ?_⟩
          · intro j h1 h2
            have : j = next := le_antisymm h2 h1
            rw [this]
            exact hstop
          · by_cases h1 : under (n.weight + (T.take_non_epsilons next a).weight + mw) = true
            · rw [if_pos h1] at hhere
              exact ⟨h1, List.mem_singleton.1 hhere⟩
            · rw [if_neg h1] at hhere
              simp at hhere
        · refine ⟨p, by omega, ⟨by omega, ?_⟩, hrest⟩
          intro j h1 h2
          by_cases hj : j = next
          · rw [hj]
            exact hstop
          · exact hrun j (by omega) h2
      · rintro ⟨p, hp, ⟨hle, hrun⟩, hunder, hnode⟩
        by_cases hpn : p = next
        · left
          subst hpn
          rw [if_pos hunder, hnode]
          exact List.mem_singleton.2 rfl
        · right
          exact ⟨p, by omega, ⟨by omega, fun j h1 h2 => hrun j (by omega) h2⟩, hunder, hnode⟩


namespace Speller

theorem mem_eps_successors (S : Speller) (hmode : S.mode = Mode.Check) (n' : TreeNode) :
    n' ∈ S.eps_successors ↔
      ∃ p : Nat, S.lexicon.has_epsilons_or_flags (u32 (S.next_node.lexicon_state + 1)) = true ∧
        S.lexicon.eps_run (S.lexicon.next S.next_node.lexicon_state 0) p ∧
        under_limit S.limiting S.limit
          (S.next_node.weight + (S.lexicon.take_epsilons_and_flags p).weight) = true ∧
        ((S.lexicon.transitions_input_symbol p = 0 ∧
            n' = S.next_node.update_lexicon (S.lexicon.take_epsilons_and_flags p).symbol
              (S.lexicon.take_epsilons_and_flags p).index
              (S.lexicon.take_epsilons_and_flags p).weight) ∨
          (S.lexicon.transitions_input_symbol p ≠ 0 ∧
            (S.next_node.try_compatible_with
              (S.lexicon.get_operations.at (S.lexicon.transitions_input_symbol p))).1 = true ∧
            n' = (S.next_node.try_compatible_with
                (S.lexicon.get_operations.at
                  (S.lexicon.transitions_input_symbol p))).2.update_lexicon 0
              (S.lexicon.take_epsilons_and_flags p).index
              (S.lexicon.take_epsilons_and_flags p).weight)) := by
  have hm : ¬ S.mode = Mode.Correct := by rw [hmode]; decide
  unfold eps_successors
  by_cases hhas : S.lexicon.has_epsilons_or_flags (u32 (S.next_node.lexicon_state + 1)) = false
  · rw [if_pos hhas]
    simp only [List.not_mem_nil, false_iff]
    rintro ⟨p, h1, _⟩
    rw [hhas] at h1
    cases h1
  · rw [if_neg hhas, mem_eps_nodes]
    simp only [hm, if_false]
    have hhas' : S.lexicon.has_epsilons_or_flags (u32 (S.next_node.lexicon_state + 1)) = true := by
      simpa using hhas
    constructor
    · rintro ⟨p, _, hrun, hrest⟩
      exact ⟨p, hhas', hrun, hrest⟩
    · rintro ⟨p, _, hrun, hrest⟩
      refine ⟨p, ?_, hrun, hrest⟩
      have := take_epsilons_and_flags_in_range S.lexicon p (hrun.2 p hrun.1 (le_refl _))
      omega

theorem mem_arc_successors (S : Speller) (hmode : S.mode = Mode.Check) (a : SymbolNumber)
    (ms : TransitionTableIndex) (mw : Weight) (inc : Nat) (n' : TreeNode) :
    n' ∈ S.arc_successors a ms mw inc ↔
      ∃ p : Nat, S.lexicon.sym_run a (S.lexicon.next S.next_node.lexicon_state a) p ∧
        under_limit S.limiting S.limit
          (S.next_node.weight + (S.lexicon.take_non_epsilons p a).weight + mw) = true ∧
        n' = S.next_node.update
          (if (S.lexicon.take_non_epsilons p a).symbol = S.lexicon.get_identity then
            S.input.getD S.next_node.input_state NO_SYMBOL
          else (S.lexicon.take_non_epsilons p a).symbol)
          (S.next_node.input_state + inc) ms (S.lexicon.take_non_epsilons p a).index
          ((S.lexicon.take_non_epsilons p a).weight + mw) := by
  have hm : ¬ S.mode = Mode.Correct := by rw [hmode]; decide
  unfold arc_successors
  rw [mem_arc_nodes]
  simp only [hm, if_false]
  constructor
  · rintro ⟨p, _, hrun, hrest⟩
    exact ⟨p, hrun, hrest⟩
  · rintro ⟨p, hrun, hrest⟩
    refine ⟨p, ?_, hrun, hrest⟩
    have := take_non_epsilons_in_range S.lexicon p a (hrun.2 p hrun.1 (le_refl _))
    omega

/-- In Check mode the nodes pushed by `lexicon_epsilons` and
`lexicon_consume` for the node `next_node` are exactly its successors under
the transition relation guarded by the weight limit. -/
theorem mem_check_successors (S : Speller) (hmode : S.mode = Mode.Check) (n' : TreeNode) :
    (n' ∈ S.eps_successors ∨ n' ∈ S.consume_successors) ↔
      LexStep S.lexicon S.input (fun w => under_limit S.limiting S.limit w = true)
        S.next_node n' := by
  have hthis : (if S.mutator.isSome ∧ S.mode ≠ Mode.Check then
        S.alphabet_translator.getD (S.input.getD S.next_node.input_state NO_SYMBOL) NO_SYMBOL
      else S.input.getD S.next_node.input_state NO_SYMBOL)
      = S.input.getD S.next_node.input_state NO_SYMBOL := by
    rw [if_neg]
    rintro ⟨_, h⟩
    exact h hmode
  constructor
  · rintro (h | h)
    · obtain ⟨p, hhas, hrun, hunder, hnode⟩ := (mem_eps_successors S hmode n').1 h
      rcases hnode with ⟨h0, rfl⟩ | ⟨h0, hok, rfl⟩
      · exact LexStep.epsilon _ p hhas hrun h0 hunder
      · exact LexStep.flag _ p hhas hrun h0 hok hunder
    · unfold consume_successors at h
      simp only [hthis] at h
      split_ifs at h with h1 h2 h3
      · simp at h
      · unfold fallback_successors at h
        rcases List.mem_append.1 h with h4 | h4
        · split_ifs at h4 with h5
          · obtain ⟨p, hrun, hunder, rfl⟩ := (mem_arc_successors S hmode _ _ _ _ n').1 h4
            exact LexStep.arc _ _ p
              ⟨not_le.1 h1, h5.2, Or.inr ⟨h2, h3, Or.inl ⟨rfl, h5.1⟩⟩⟩ hrun hunder
          · simp at h4
        · split_ifs at h4 with h5
          · obtain ⟨p, hrun, hunder, rfl⟩ := (mem_arc_successors S hmode _ _ _ _ n').1 h4
            exact LexStep.arc _ _ p
              ⟨not_le.1 h1, h5.2, Or.inr ⟨h2, h3, Or.inr ⟨rfl, h5.1⟩⟩⟩ hrun hunder
          · simp at h4
      · simp at h
      · obtain ⟨p, hrun, hunder, rfl⟩ := (mem_arc_successors S hmode _ _ _ _ n').1 h
        exact LexStep.arc _ _ p ⟨not_le.1 h1, by simpa using h2, Or.inl rfl⟩ hrun hunder
  · intro h
    cases h with
    | epsilon p hhas hrun h0 hunder =>
      exact Or.inl ((mem_eps_successors S hmode _).2 ⟨p, hhas, hrun, hunder, Or.inl ⟨h0, rfl⟩⟩)
    | flag p hhas hrun h0 hok hunder =>
      exact Or.inl ((mem_eps_successors S hmode _).2
        ⟨p, hhas, hrun, hunder, Or.inr ⟨h0, hok, rfl⟩⟩)
    | arc a p hreads hrun hunder =>
      right
      obtain ⟨hlt, hhas, hsym⟩ := hreads
      unfold consume_successors
      simp only [hthis]
      rw [if_neg (not_le.2 hlt)]
      rcases hsym with rfl | ⟨hno, horig, hfb⟩
      · rw [if_neg (by simpa using hhas)]
        exact (mem_arc_successors S hmode _ _ _ _ _).2 ⟨p, hrun, hunder, rfl⟩
      · rw [if_pos hno, if_pos horig]
        unfold fallback_successors
        rcases hfb with ⟨rfl, hne⟩ | ⟨rfl, hne⟩
        · apply List.mem_append_left
          rw [if_pos ⟨hne, hhas⟩]
          exact (mem_arc_successors S hmode _ _ _ _ _).2 ⟨p, hrun, hunder, rfl⟩
        · apply List.mem_append_right
          rw [if_pos ⟨hne, hhas⟩]
          exact (mem_arc_successors S hmode _ _ _ _ _).2 ⟨p, hrun, hunder, rfl⟩

end Speller

namespace Speller

/-! ## The depth-first search of `check` -/

theorem check_expand_eq (S : Speller) :
    S.lexicon_epsilons.lexicon_consume =
      { S with queue := S.consume_successors.reverse ++ (S.eps_successors.reverse ++ S.queue) } := by
  rw [lexicon_epsilons_eq, lexicon_consume_eq]
  rfl

/-- One iteration of the loop of `check` on a non-empty queue. -/
theorem check_loop_succ (fuel : Nat) (S : Speller) (node : TreeNode) (rest : List TreeNode)
    (hq : S.queue = node :: rest) :
    check_loop (fuel + 1) S =
      if node.input_state = S.input.length ∧ S.lexicon.is_final node.lexicon_state = true then
        some (true, { S with next_node := node, queue := rest })
      else
        check_loop fuel
          { S with next_node := node,
                   queue := ({ S with next_node := node, queue := rest }).consume_successors.reverse
                     ++ (({ S with next_node := node, queue := rest }).eps_successors.reverse
                     ++ rest) } := by
  rw [check_loop]
  simp only [hq]
  rw [check_expand_eq]

theorem check_loop_sound (fuel : Nat) :
    ∀ (S : Speller) (r : Bool × Speller), S.mode = Mode.Check → check_loop fuel S = some r →
      r.1 = true →
      ∃ n ∈ S.queue, ∃ n',
        Relation.ReflTransGen
          (LexStep S.lexicon S.input (fun w => under_limit S.limiting S.limit w = true)) n n' ∧
        lex_accepting S.lexicon S.input n' := by
  induction fuel with
  | zero =>
    intro S r _ h hr
    unfold check_loop at h
    split_ifs at h
    cases h
    cases hr
  | succ fuel ih =>
    intro S r hmode h hr
    cases hq : S.queue with
    | nil =>
      unfold check_loop at h
      simp only [hq] at h
      cases h
      cases hr
    | cons node rest =>
      rw [check_loop_succ fuel S node rest hq] at h
      split_ifs at h with hacc
      · exact ⟨node, List.mem_cons_self _ _, node, Relation.ReflTransGen.refl, hacc⟩
      · have hrec : ∃ n ∈ _, ∃ n', _ ∧ _ := ih _ r (by exact hmode) h hr
        obtain ⟨n, hn, n', hpath, hfin⟩ := hrec
        rcases List.mem_append.1 hn with h1 | h1
        · have hstep := (mem_check_successors { S with next_node := node, queue := rest } hmode
            n).1 (Or.inr (List.mem_reverse.1 h1))
          exact ⟨node, List.mem_cons_self _ _, n', Relation.ReflTransGen.head hstep hpath, hfin⟩
        · rcases List.mem_append.1 h1 with h2 | h2
          · have hstep := (mem_check_successors { S with next_node := node, queue := rest }
              hmode n).1 (Or.inl (List.mem_reverse.1 h2))
            exact ⟨node, List.mem_cons_self _ _, n', Relation.ReflTransGen.head hstep hpath,
              hfin⟩
          · exact ⟨n, List.mem_cons_of_mem _ h2, n', hpath, hfin⟩

theorem check_loop_complete (fuel : Nat) :
    ∀ (S : Speller) (r : Bool × Speller), S.mode = Mode.Check → check_loop fuel S = some r →
      r.1 = false →
      ∀ n ∈ S.queue, ∀ n',
        Relation.ReflTransGen
          (LexStep S.lexicon S.input (fun w => under_limit S.limiting S.limit w = true)) n n' →
        ¬ lex_accepting S.lexicon S.input n' := by
  induction fuel with
  | zero =>
    intro S r _ h _ n hn
    unfold check_loop at h
    split_ifs at h with hq
    rw [List.isEmpty_iff] at hq
    rw [hq] at hn
    cases hn
  | succ fuel ih =>
    intro S r hmode h hr n hn n' hpath hfin
    cases hq : S.queue with
    | nil =>
      rw [hq] at hn
      cases hn
    | cons node rest =>
      rw [check_loop_succ fuel S node rest hq] at h
      split_ifs at h with hacc
      · cases h
        cases hr
      · have hrec := fun hm => ih _ r hm h hr
        replace hrec := hrec hmode
        rw [hq] at hn
        rcases List.mem_cons.1 hn with rfl | hn
        · rcases Relation.ReflTransGen.cases_head hpath with rfl | ⟨mid, hstep, hpath'⟩
          · exact hacc hfin
          · rcases (mem_check_successors { S with next_node := n, queue := rest } hmode
              mid).2 hstep with h1 | h1
            · exact hrec mid
                (List.mem_append_right _ (List.mem_append_left _ (List.mem_reverse.2 h1)))
                n' hpath' hfin
            · exact hrec mid (List.mem_append_left _ (List.mem_reverse.2 h1)) n' hpath' hfin
        · exact hrec n (List.mem_append_right _ (List.mem_append_right _ hn)) n' hpath hfin

end Speller

namespace Speller

theorem check_ctx_speller_ctx (T : Transducer) (input : SymbolVector) (lg : LimitingBehaviour)
    (L : Weight) (n : TreeNode) : CheckCtx T input lg L (check_ctx_speller T input lg L n) :=
  ⟨rfl, rfl, rfl, rfl, rfl⟩

/-- In the context of `check` the successor lists depend on the current node
only. -/
theorem successors_of_ctx (T : Transducer) (input : SymbolVector) (lg : LimitingBehaviour)
    (L : Weight) (S : Speller) (hctx : CheckCtx T input lg L S) :
    S.eps_successors = (check_ctx_speller T input lg L S.next_node).eps_successors ∧
      S.consume_successors = (check_ctx_speller T input lg L S.next_node).consume_successors := by
  obtain ⟨hmode, hT, hin, hlg, hL⟩ := hctx
  subst hT hin hlg hL
  constructor
  · unfold eps_successors check_ctx_speller
    simp only [hmode]
  · unfold consume_successors fallback_successors arc_successors check_ctx_speller
    simp only [hmode, ne_eq, not_true_eq_false, and_false, if_false]

theorem exhausts_nil (T : Transducer) (input : SymbolVector) (lg : LimitingBehaviour)
    (L : Weight) : Exhausts T input lg L [] :=
  ⟨0, fun S rest hctx hq fuel => Or.inr ⟨S, hctx, hq, by rw [Nat.zero_add]⟩⟩

theorem exhausts_append (T : Transducer) (input : SymbolVector) (lg : LimitingBehaviour)
    (L : Weight) (l₁ l₂ : List TreeNode) (h₁ : Exhausts T input lg L l₁)
    (h₂ : Exhausts T input lg L l₂) : Exhausts T input lg L (l₁ ++ l₂) := by
  obtain ⟨N₁, h₁⟩ := h₁
  obtain ⟨N₂, h₂⟩ := h₂
  refine ⟨N₁ + N₂, fun S rest hctx hq fuel => ?_⟩
  rw [List.append_assoc] at hq
  rcases h₁ S (l₂ ++ rest) hctx hq (N₂ + fuel) with ⟨S', h⟩ | ⟨S2, hctx2, hq2, h⟩
  · exact Or.inl ⟨S', by rw [Nat.add_assoc]; exact h⟩
  · rcases h₂ S2 rest hctx2 hq2 fuel with ⟨S', h'⟩ | ⟨S3, hctx3, hq3, h'⟩
    · exact Or.inl ⟨S', by rw [Nat.add_assoc, h, h']⟩
    · exact Or.inr ⟨S3, hctx3, hq3, by rw [Nat.add_assoc, h, h']⟩

theorem exhausts_of_forall (T : Transducer) (input : SymbolVector) (lg : LimitingBehaviour)
    (L : Weight) (l : List TreeNode) (h : ∀ n ∈ l, Exhausts T input lg L [n]) :
    Exhausts T input lg L l := by
  induction l with
  | nil => exact exhausts_nil T input lg L
  | cons n l ih =>
    have := exhausts_append T input lg L [n] l (h n (List.mem_cons_self _ _))
      (ih (fun m hm => h m (List.mem_cons_of_mem _ hm)))
    simpa using this

theorem exhausts_node (T : Transducer) (input : SymbolVector) (lg : LimitingBehaviour)
    (L : Weight) (rank : TreeNode → Nat)
    (hrank : ∀ n n', LexStep T input (fun w => under_limit lg L w = true) n n' →
      rank n' < rank n) :
    ∀ (k : Nat) (n : TreeNode), rank n < k → Exhausts T input lg L [n] := by
  intro k
  induction k with
  | zero => intro n hn; omega
  | succ k ih =>
    intro n hn
    -- the successors of `n`, taken from any speller state in the context
    have hsucc : ∀ S : Speller, CheckCtx T input lg L S → S.next_node = n →
        Exhausts T input lg L (S.consume_successors.reverse ++ S.eps_successors.reverse) := by
      intro S hctx hnode
      obtain ⟨hmode, hT, hin, hlg, hL⟩ := hctx
      apply exhausts_of_forall
      intro m hm
      apply ih
      have hstep : LexStep S.lexicon S.input
          (fun w => under_limit S.limiting S.limit w = true) S.next_node m := by
        apply (mem_check_successors S hmode m).1
        rcases List.mem_append.1 hm with h1 | h1
        · exact Or.inr (List.mem_reverse.1 h1)
        · exact Or.inl (List.mem_reverse.1 h1)
      rw [hT, hin, hlg, hL, hnode] at hstep
      have := hrank n m hstep
      omega
    obtain ⟨N, hN⟩ := hsucc (check_ctx_speller T input lg L n)
      (check_ctx_speller_ctx T input lg L n) rfl
    refine ⟨N + 1, fun S rest hctx hq fuel => ?_⟩
    have hq' : S.queue = n :: rest := by simpa using hq
    have hfuel : N + 1 + fuel = (N + fuel) + 1 := by omega
    rw [hfuel, check_loop_succ (N + fuel) S n rest hq']
    split_ifs with hacc
    · exact Or.inl ⟨_, rfl⟩
    · have hctx1 : CheckCtx T input lg L { S with next_node := n, queue := rest } := hctx
      obtain ⟨he, hc⟩ := successors_of_ctx T input lg L _ hctx1
      refine hN _ rest (by exact hctx) ?_ fuel
      show ({ S with next_node := n, queue := rest }).consume_successors.reverse ++
        (({ S with next_node := n, queue := rest }).eps_successors.reverse ++ rest) = _
      rw [he, hc, List.append_assoc]

end Speller

namespace Speller

/-- C1, as amended: `check` answers true exactly when the lexicon has an
accepting path for the input on which, after every transition, the
accumulated weight passes `is_under_weight_limit` against the limit
`WEIGHT_MAX` that `check` sets (`<=`, or `<` when the member `limiting` was
left at `Nbest`): a path from the start node (lexicon state 0, all-zero flag
state) whose arcs read the input symbols in order, with the unknown/identity
fallback only for symbols `>= orig_symbol_count` without transitions, whose
flag transitions succeed under `try_compatible_with`, and which ends with
the input used up in a final state.  The search returns (for some amount of
fuel) whenever the guarded transition relation has a ranking function, in
particular when the lexicon has no cycle of epsilon or flag transitions. -/
theorem check_iff_accepting_path (S : Speller) :
    (∀ fuel b S', S.check fuel = some (b, S') →
      (b = true ↔
        LexAccepts S.lexicon S.input (fun w => under_limit S.limiting WEIGHT_MAX w = true)
          S.start_node)) ∧
    (∀ rank : TreeNode → Nat,
      (∀ n n', LexStep S.lexicon S.input (fun w => under_limit S.limiting WEIGHT_MAX w = true)
        n n' → rank n' < rank n) →
      ∃ fuel b S', S.check fuel = some (b, S')) := by
  constructor
  · intro fuel b S' h
    unfold check at h
    simp only [] at h
    cases b with
    | true =>
      refine ⟨fun _ => ?_, fun _ => rfl⟩
      obtain ⟨n, hn, n', hpath, hfin⟩ := check_loop_sound fuel _ _ rfl h rfl
      rw [List.mem_singleton] at hn
      subst hn
      exact ⟨n', hpath, hfin⟩
    | false =>
      refine ⟨fun hb => (by cases hb), fun hacc => ?_⟩
      exfalso
      obtain ⟨n', hpath, hfin⟩ := hacc
      exact check_loop_complete fuel _ _ rfl h rfl _ (List.mem_singleton.2 rfl) n' hpath hfin
  · intro rank hrank
    obtain ⟨N, hN⟩ := exhausts_node S.lexicon S.input S.limiting WEIGHT_MAX rank hrank
      (rank S.start_node + 1) S.start_node (Nat.lt_succ_self _)
    have hctx : CheckCtx S.lexicon S.input S.limiting WEIGHT_MAX
        { S with mode := Mode.Check, queue := [S.start_node], limit := WEIGHT_MAX } :=
      ⟨rfl, rfl, rfl, rfl, rfl⟩
    rcases hN _ [] hctx rfl 0 with ⟨S', h⟩ | ⟨S2, _, hq2, h⟩
    · exact ⟨N + 0, true, S', h⟩
    · refine ⟨N + 0, false, S2, h.trans ?_⟩
      unfold check_loop
      simp [hq2]

end Speller

namespace Speller

/-- C1 as stated fails: the lexicon `heavy_lexicon` has an accepting path for
the input `aa`, two arcs of weight `WEIGHT_MAX` ending in a final state, but
`check` on that input answers false: the node behind the first arc has
weight `WEIGHT_MAX`, so the second arc fails `is_under_weight_limit`
(`WEIGHT_MAX + WEIGHT_MAX <= limit` with `limit = WEIGHT_MAX`) and is not
pushed. -/
theorem check_misses_heavy_path :
    LexAccepts heavy_lexicon [1, 1] (fun _ => True) (heavy_speller [1, 1]).start_node ∧
      ((heavy_speller [1, 1]).check 100).map (fun r => r.1) = some false := by
  constructor
  · have h1 : LexStep heavy_lexicon [1, 1] (fun _ => True) (heavy_speller [1, 1]).start_node _ :=
      LexStep.arc (heavy_speller [1, 1]).start_node 1 0
        ⟨by decide, by decide, Or.inl (by decide)⟩
        ⟨by decide, fun j _ h2 => by
          have hj : j = 0 := Nat.le_zero.1 h2
          subst hj
          decide⟩
        trivial
    have h2 : LexStep heavy_lexicon [1, 1] (fun _ => True) _ _ :=
      LexStep.arc
        ((heavy_speller [1, 1]).start_node.update
          (if (heavy_lexicon.take_non_epsilons 0 1).symbol = heavy_lexicon.get_identity then
            ([1, 1] : SymbolVector).getD (heavy_speller [1, 1]).start_node.input_state NO_SYMBOL
          else (heavy_lexicon.take_non_epsilons 0 1).symbol)
          ((heavy_speller [1, 1]).start_node.input_state + 1)
          (heavy_speller [1, 1]).start_node.mutator_state
          (heavy_lexicon.take_non_epsilons 0 1).index
          ((heavy_lexicon.take_non_epsilons 0 1).weight + 0)) 1 2
        ⟨by decide, by decide, Or.inl (by decide)⟩
        ⟨by decide, fun j h1 h2 => by
          have hj : j = 2 := le_antisymm h2 (by simpa using h1)
          subst hj
          decide⟩
        trivial
    exact ⟨_, Relation.ReflTransGen.head h1 (Relation.ReflTransGen.single h2),
      by decide, by decide⟩
  · decide!

/-- The flag lexicon accepts `a`: the path sets the feature with `@P.F.V@`,
reads `a`, and passes the requirement `@R.F.V@`. -/
theorem check_flag_lexicon :
    ((flag_speller [1]).check 10).map (fun r => r.1) = some true ∧
      ((flag_speller []).check 10).map (fun r => r.1) = some false := by
  decide!

theorem demo_lexicon_no_epsilons (i : Nat) : demo_lexicon.has_epsilons_or_flags i = false := by
  have h1 : ∀ j, demo_lexicon.transitions_input_symbol j ≠ 0 := by
    intro j
    unfold Transducer.transitions_input_symbol
    rcases j with _ | _ | _ | _ | _ | j <;> simp [demo_lexicon, NO_SYMBOL]
  have h2 : ∀ j, demo_lexicon.indices_input_symbol j ≠ 0 := by
    intro j
    unfold Transducer.indices_input_symbol
    rcases j with _ | _ | _ | _ | _ | _ | _ | _ | j <;> simp [demo_lexicon, NO_SYMBOL]
  have h3 : ∀ s, demo_lexicon.is_flag s = false := by
    intro s
    rfl
  unfold Transducer.has_epsilons_or_flags
  split_ifs
  · simp [h1, h3]
  · simp [h2]

/-- In the concrete lexicon every transition reads an input symbol. -/
theorem demo_lexicon_step (input : SymbolVector) (guard : Weight → Prop) (n n' : TreeNode)
    (h : LexStep demo_lexicon input guard n n') :
    input.length - n'.input_state < input.length - n.input_state := by
  cases h with
  | epsilon p hstate _ _ _ =>
    rw [demo_lexicon_no_epsilons] at hstate
    cases hstate
  | flag p hstate _ _ _ _ =>
    rw [demo_lexicon_no_epsilons] at hstate
    cases hstate
  | arc a p hreads _ _ =>
    have := hreads.1
    show input.length - (n.input_state + 1) < input.length - n.input_state
    omega

/-- Witness of C1 on the concrete lexicon and the input `aa`: the search
returns, and the accepting path exists. -/
theorem check_iff_accepting_path_witness :
    LexAccepts demo_lexicon [1, 1]
        (fun w => under_limit LimitingBehaviour.None WEIGHT_MAX w = true)
        (demo_speller [1, 1]).start_node ∧
      ∃ fuel b S', (demo_speller [1, 1]).check fuel = some (b, S') := by
  constructor
  · have hs : ((demo_speller [1, 1]).check 100).map (fun r => r.1) = some true := by decide!
    cases h : (demo_speller [1, 1]).check 100 with
    | none => rw [h] at hs; cases hs
    | some r =>
      obtain ⟨b, S'⟩ := r
      rw [h] at hs
      have hb : b = true := Option.some.inj hs
      subst hb
      exact ((check_iff_accepting_path (demo_speller [1, 1])).1 100 true S' h).1 rfl
  · exact (check_iff_accepting_path (demo_speller [1, 1])).2
      (fun n => [1, 1].length - n.input_state) (demo_lexicon_step _ _)

end Speller

namespace Speller

/-- A word with a symbol outside both alphabets, the case that C2 (amended)
leaves out: the line `x` is tokenised to the symbol 2, which the error model
prints as `x`.  The lexicon accepts it through its identity arc, so `check`
answers true, all weights are 0 and the error model copies the symbol
through its own identity arc into a final state.  Yet `correct` without
limits returns the single pair `("@_IDENTITY_SYMBOL_@", 0)`: in Correct mode
`queue_lexicon_arcs` appends the symbol it was called with, here the
lexicon's identity symbol, not the symbol of the input. -/
theorem correct_loses_unknown_symbol :
    stringify ident_mutator.get_key_table [2] = "x" ∧
      ((ident_speller [2]).check 10).map (fun r => r.1) = some true ∧
      ((ident_speller [2]).correct 0 (-1) (-1) 0 clock_never 100).map (fun r => r.1)
        = some [("@_IDENTITY_SYMBOL_@", 0)] := by
  decide!

end Speller

namespace Speller

/-! ## The stateful steps of the composed search push successor lists -/

theorem queue_mutator_arcs_loop_eq (m : Transducer) (a : SymbolNumber) (fuel : Nat) :
    ∀ (next : TransitionTableIndex) (S : Speller),
      queue_mutator_arcs_loop m a fuel next S =
        { S with queue :=
                   (mut_arc_nodes m S.lexicon S.alphabet_translator
                     (under_limit S.limiting S.limit) S.next_node
                     (fun ms mw => S.fallback_successors ms mw 1)
                     (fun b ms mw => S.arc_successors b ms mw 1) a fuel next).reverse
                     ++ S.queue } := by
  induction fuel with
  | zero => intro next S; rfl
  | succ fuel ih =>
    intro next S
    unfold queue_mutator_arcs_loop mut_arc_nodes
    simp only [is_under_weight_limit_eq, queue_lexicon_arcs_eq, lexicon_fallback_eq]
    split_ifs
    all_goals first
      | rfl
      | (rw [ih]
         simp only [List.reverse_append, List.reverse_cons, List.reverse_nil, List.nil_append,
           List.append_assoc, List.singleton_append, List.cons_append]
         try rfl)

theorem queue_mutator_arcs_eq (S : Speller) (m : Transducer) (a : SymbolNumber) :
    S.queue_mutator_arcs m a =
      { S with queue := (S.mutator_arc_successors m a).reverse ++ S.queue } := by
  unfold queue_mutator_arcs mutator_arc_successors
  exact queue_mutator_arcs_loop_eq _ _ _ _ _

theorem consume_input_eq (S : Speller) (m : Transducer) :
    S.consume_input m = { S with queue := (S.input_successors m).reverse ++ S.queue } := by
  unfold consume_input input_successors
  simp only [queue_mutator_arcs_eq]
  split_ifs <;>
    (simp only [List.reverse_append, List.reverse_nil, List.nil_append, List.append_nil,
      List.append_assoc]; try rfl)

theorem mutator_epsilons_loop_eq (m : Transducer) (fuel : Nat) :
    ∀ (next : TransitionTableIndex) (S : Speller),
      mutator_epsilons_loop m fuel next S =
        { S with queue :=
                   (mut_eps_nodes m S.lexicon S.alphabet_translator
                     (under_limit S.limiting S.limit) S.next_node
                     (fun ms mw => S.fallback_successors ms mw 0)
                     (fun b ms mw => S.arc_successors b ms mw 0) fuel next).reverse
                     ++ S.queue } := by
  induction fuel with
  | zero => intro next S; rfl
  | succ fuel ih =>
    intro next S
    unfold mutator_epsilons_loop mut_eps_nodes
    simp only [is_under_weight_limit_eq, queue_lexicon_arcs_eq, lexicon_fallback_eq]
    split_ifs
    all_goals first
      | rfl
      | (rw [ih]
         simp only [List.reverse_append, List.reverse_cons, List.reverse_nil, List.nil_append,
           List.append_assoc, List.singleton_append, List.cons_append]
         try rfl)

theorem mutator_epsilons_eq (S : Speller) (m : Transducer) :
    S.mutator_epsilons m =
      { S with queue := (S.mutator_eps_successors m).reverse ++ S.queue } := by
  unfold mutator_epsilons mutator_eps_successors
  split_ifs
  · rfl
  · exact mutator_epsilons_loop_eq _ _ _ _

/-- The nodes pushed by the three expansion steps for the current node. -/
theorem expand_eq (S : Speller) (m : Transducer) :
    S.lexicon_epsilons.mutator_epsilons m =
      { S with queue := (S.mutator_eps_successors m).reverse ++
                 (S.eps_successors.reverse ++ S.queue) } := by
  rw [mutator_epsilons_eq, lexicon_epsilons_eq]
  rfl

end Speller

/-! ## Completeness of the composed search -/

theorem StringWeightMap.covers_insert_self (c : StringWeightMap) (k : String) (w : Weight) :
    (c.insert_if_better k w).covers k w := by
  induction c with
  | nil => exact ⟨w, le_refl _, List.mem_singleton.2 rfl⟩
  | cons e rest ih =>
    obtain ⟨k0, w0⟩ := e
    simp only [StringWeightMap.insert_if_better]
    split_ifs with h1 h2 h3
    · exact ⟨w, le_refl _, List.mem_cons_self _ _⟩
    · subst h2
      exact ⟨w, le_refl _, List.mem_cons_self _ _⟩
    · subst h2
      exact ⟨w0, not_lt.1 h3, List.mem_cons_self _ _⟩
    · obtain ⟨w', hle, hmem⟩ := ih
      exact ⟨w', hle, List.mem_cons_of_mem _ hmem⟩

theorem StringWeightMap.covers_insert_mono (c : StringWeightMap) (k : String) (w : Weight)
    (k' : String) (w' : Weight) (h : c.covers k' w') :
    (c.insert_if_better k w).covers k' w' := by
  induction c with
  | nil =>
    obtain ⟨_, _, hmem⟩ := h
    cases hmem
  | cons e rest ih =>
    obtain ⟨k0, w0⟩ := e
    obtain ⟨v, hle, hmem⟩ := h
    simp only [StringWeightMap.insert_if_better]
    split_ifs with h1 h2 h3
    · exact ⟨v, hle, List.mem_cons_of_mem _ hmem⟩
    · rcases List.mem_cons.1 hmem with h4 | h4
      · have hk : k' = k0 := congrArg Prod.fst h4
        have hv : v = w0 := congrArg Prod.snd h4
        subst hk hv
        exact ⟨w, le_trans (le_of_lt h3) hle, List.mem_cons_self _ _⟩
      · exact ⟨v, hle, List.mem_cons_of_mem _ h4⟩
    · exact ⟨v, hle, hmem⟩
    · rcases List.mem_cons.1 hmem with h4 | h4
      · exact ⟨v, hle, by rw [h4]; exact List.mem_cons_self _ _⟩
      · obtain ⟨v', hle', hmem'⟩ := ih ⟨v, hle, h4⟩
        exact ⟨v', hle', List.mem_cons_of_mem _ hmem'⟩

theorem StringWeightMap.covers_of_not_better (c : StringWeightMap) (k : String) (w : Weight)
    (h : ¬ c.is_better k w = true) : c.covers k w := by
  unfold StringWeightMap.is_better at h
  cases hl : List.lookup k c with
  | none => rw [hl] at h; exact absurd rfl h
  | some w0 =>
    rw [hl] at h
    simp only [decide_eq_true_eq, not_lt] at h
    refine ⟨w0, h, ?_⟩
    clear h
    induction c with
    | nil => cases hl
    | cons e rest ih =>
      obtain ⟨k0, v0⟩ := e
      rw [List.lookup_cons] at hl
      by_cases hk : k = k0
      · subst hk
        simp only [beq_self_eq_true] at hl
        cases hl
        exact List.mem_cons_self _ _
      · have : (k == k0) = false := by simpa using hk
        rw [this] at hl
        exact List.mem_cons_of_mem _ (ih hl)

namespace Speller

theorem collect_results_all (xs : List (String × Weight)) :
    ∀ (S : Speller) (q : CorrectionQueue) (p : String × Weight),
      (p ∈ q ∨ (p ∈ xs ∧ p.2 ≤ S.limit)) → p ∈ (collect_results 0 xs S q).2 := by
  induction xs with
  | nil =>
    intro S q p h
    rcases h with h | ⟨h, _⟩
    · exact h
    · cases h
  | cons it rest ih =>
    intro S q p h
    unfold collect_results
    simp only [ne_eq, not_true_eq_false, if_false, true_or, and_true]
    split_ifs with hc
    · apply ih
      rcases h with h | ⟨h, hl⟩
      · exact Or.inl (List.mem_append_left _ h)
      · rcases List.mem_cons.1 h with h1 | h1
        · exact Or.inl (List.mem_append_right _ (by rw [h1]; exact List.mem_singleton.2 rfl))
        · exact Or.inr ⟨h1, hl⟩
    · apply ih
      rcases h with h | ⟨h, hl⟩
      · exact Or.inl h
      · rcases List.mem_cons.1 h with h1 | h1
        · rw [h1] at hl
          exact absurd hl hc
        · exact Or.inr ⟨h1, hl⟩

end Speller

theorem mem_mut_arc_nodes (m T : Transducer) (tr : SymbolVector) (under : Weight → Bool)
    (n : TreeNode) (fallback : TransitionTableIndex → Weight → List TreeNode)
    (arcs : SymbolNumber → TransitionTableIndex → Weight → List TreeNode)
    (a : SymbolNumber) (x : TreeNode) (p : Nat)
    (hout : (m.take_non_epsilons p a).symbol ≠ 0)
    (hlex : T.has_transitions (u32 (n.lexicon_state + 1))
      (tr.getD (m.take_non_epsilons p a).symbol NO_SYMBOL) = true)
    (hx : x ∈ arcs (tr.getD (m.take_non_epsilons p a).symbol NO_SYMBOL)
      (m.take_non_epsilons p a).index (m.take_non_epsilons p a).weight) (fuel : Nat) :
    ∀ next : Nat, p < next + fuel → m.sym_run a next p →
      x ∈ mut_arc_nodes m T tr under n fallback arcs a fuel next := by
  induction fuel with
  | zero =>
    intro next hp hrun
    have := hrun.1
    omega
  | succ fuel ih =>
    intro next hp hrun
    unfold mut_arc_nodes
    have hstop : ¬ (m.take_non_epsilons next a).symbol = NO_SYMBOL :=
      hrun.2 next (le_refl _) hrun.1
    simp only [hstop, if_false, List.mem_append]
    by_cases hpn : p = next
    · left
      subst hpn
      rw [if_neg hout, if_neg (by rw [hlex]; decide)]
      exact hx
    · right
      have h1 := hrun.1
      exact ih (next + 1) (by omega) ⟨by omega, fun j h1 h2 => hrun.2 j (by omega) h2⟩

namespace Speller

/-- In the context of a call without limits, every step of the composed search
from the current node is pushed by `lexicon_epsilons` or by `consume_input`. -/
theorem corr_step_mem_successors (S : Speller) (m : Transducer)
    (marc : SymbolNumber → SymbolNumber → Weight → Prop)
    (hmode : S.mode = Mode.Correct) (hlg : S.limiting = LimitingBehaviour.None)
    (hlimit : S.limit = WEIGHT_MAX) (n' : TreeNode)
    (h : CorrStep m S.lexicon S.input S.alphabet_translator (fun w => w ≤ WEIGHT_MAX) marc
      S.next_node n') :
    (n' ∈ S.eps_successors ∧ n'.input_state = S.next_node.input_state) ∨
      (n' ∈ S.input_successors m ∧ n'.input_state = S.next_node.input_state + 1) := by
  have hunder : ∀ w : Weight, w ≤ WEIGHT_MAX → under_limit S.limiting S.limit w = true := by
    intro w hw
    unfold under_limit
    rw [hlg, hlimit, if_neg (by decide)]
    exact decide_eq_true hw
  cases h with
  | epsilon p hhas hrun h0 hguard =>
    refine Or.inl ⟨?_, rfl⟩
    unfold eps_successors
    rw [if_neg (by rw [hhas]; decide), mem_eps_nodes]
    refine ⟨p, ?_, hrun, hunder _ hguard, Or.inl ⟨h0, ?_⟩⟩
    · have := take_epsilons_and_flags_in_range S.lexicon p (hrun.2 p hrun.1 (le_refl _))
      omega
    · rw [if_pos hmode]
  | flag p hhas hrun h0 hok hguard =>
    refine Or.inl ⟨?_, ?_⟩
    · unfold eps_successors
      rw [if_neg (by rw [hhas]; decide), mem_eps_nodes]
      refine ⟨p, ?_, hrun, hunder _ hguard, Or.inr ⟨h0, hok, rfl⟩⟩
      have := take_epsilons_and_flags_in_range S.lexicon p (hrun.2 p hrun.1 (le_refl _))
      omega
    · have := congrArg TreeNode.input_state (try_compatible_with_restore S.next_node
        (S.lexicon.get_operations.at (S.lexicon.transitions_input_symbol p)))
      exact this
  | arc a b pm pl hinput ha hsym hmut hmrun hout hmarc hb hlex hlrun hguard =>
    refine Or.inr ⟨?_, rfl⟩
    unfold input_successors
    rw [if_neg (not_le.2 hinput)]
    simp only []
    rw [← ha, if_neg (by rw [hmut]; decide)]
    unfold mutator_arc_successors
    subst hb
    refine mem_mut_arc_nodes _ _ _ _ _ _ _ _ _ pm hout hlex ?_ _ _ ?_ hmrun
    · unfold arc_successors
      rw [mem_arc_nodes]
      refine ⟨pl, ?_, hlrun, hunder _ hguard, ?_⟩
      · have := take_non_epsilons_in_range S.lexicon pl _ (hlrun.2 pl hlrun.1 (le_refl _))
        omega
      · rw [if_pos hmode]
    · have := take_non_epsilons_in_range m pm _ (hmrun.2 pm hmrun.1 (le_refl _))
      omega

end Speller

namespace Speller

theorem build_cache_body_spec (m : Transducer) (fs : SymbolNumber) (S : Speller)
    (c0 c1 : StringWeightMap) (marc : SymbolNumber → SymbolNumber → Weight → Prop)
    (hmode : S.mode = Mode.Correct) (hlg : S.limiting = LimitingBehaviour.None)
    (hlimit : S.limit = WEIGHT_MAX) :
    ∃ l : List TreeNode,
      (build_cache_body m fs S c0 c1).1 =
        { S with queue := l ++ S.queue,
                 cache := if S.next_node.input_state = 1 then
                     cache_update S.cache fs
                       (fun c => { c with nodes := c.nodes ++ [S.next_node] })
                   else S.cache } ∧
      (∀ x ∈ l, x ∈ S.successors m) ∧
      (∀ n', CorrStep m S.lexicon S.input S.alphabet_translator (fun w => w ≤ WEIGHT_MAX) marc
          S.next_node n' → n'.input_state ≤ 1 →
          (n'.input_state = S.next_node.input_state + 1 → fs > 0) → n' ∈ l) ∧
      (build_cache_body m fs S c0 c1).2.1 =
        (if (m.is_final S.next_node.mutator_state &&
              S.lexicon.is_final S.next_node.lexicon_state) = true ∧
            S.next_node.input_state = 0 then
          c0.insert_if_better (stringify S.lexicon.get_key_table S.next_node.string)
            (corr_weight m S.lexicon S.next_node)
        else c0) ∧
      (build_cache_body m fs S c0 c1).2.2 =
        (if (m.is_final S.next_node.mutator_state &&
              S.lexicon.is_final S.next_node.lexicon_state) = true ∧
            S.next_node.input_state ≠ 0 then
          c1.insert_if_better (stringify S.lexicon.get_key_table S.next_node.string)
            (corr_weight m S.lexicon S.next_node)
        else c1) := by
  have key := expand_eq S m
  refine ⟨(if fs > 0 ∧ S.next_node.input_state = 0 then (S.input_successors m).reverse else [])
    ++ ((S.mutator_eps_successors m).reverse ++ S.eps_successors.reverse), ?_, ?_, ?_, ?_, ?_⟩
  · unfold build_cache_body
    simp only [key, consume_input_eq]
    split_ifs <;> simp only [List.nil_append, List.append_assoc] <;> rfl
  · intro x hx
    unfold successors
    rcases List.mem_append.1 hx with h1 | h1
    · split_ifs at h1
      · exact List.mem_append_right _ (List.mem_append_right _ (List.mem_reverse.1 h1))
      · cases h1
    · rcases List.mem_append.1 h1 with h2 | h2
      · exact List.mem_append_right _ (List.mem_append_left _ (List.mem_reverse.1 h2))
      · exact List.mem_append_left _ (List.mem_reverse.1 h2)
  · intro n' hstep hle hfs
    rcases corr_step_mem_successors S m marc hmode hlg hlimit n' hstep with ⟨h1, _⟩ | ⟨h1, h2⟩
    · exact List.mem_append_right _ (List.mem_append_right _ (List.mem_reverse.2 h1))
    · apply List.mem_append_left
      rw [if_pos ⟨hfs h2, by omega⟩]
      exact List.mem_reverse.2 h1
  · unfold build_cache_body
    simp only [key]
    rfl
  · unfold build_cache_body
    simp only [key]
    rfl

end Speller

namespace Speller

theorem limits_without_limit (S : Speller) (maxweight beam : Weight) (hmw : maxweight < 0)
    (hbeam : beam < 0) :
    (S.set_limiting_behaviour 0 maxweight beam).adjust_weight_limits 0 beam = S.unlimited := by
  have h1 : ¬ maxweight ≥ 0 := not_le.2 hmw
  have h2 : ¬ beam ≥ 0 := not_le.2 hbeam
  have h3 : ¬ (0 : Int) > 0 := by decide
  unfold set_limiting_behaviour
  simp only [h1, h2, h3, false_and, and_false, if_false]
  unfold adjust_weight_limits
  simp only [reduceCtorEq, false_and, if_false]
  rfl

set_option maxHeartbeats 4000000 in
theorem correct_body_spec (m : Transducer) (maxweight beam : Weight) (hmw : maxweight < 0)
    (hbeam : beam < 0) (S : Speller) (corr : StringWeightMap)
    (marc : SymbolNumber → SymbolNumber → Weight → Prop)
    (hmode : S.mode = Mode.Correct) (htime : S.max_time = 0) :
    ∃ l : List TreeNode,
      ((correct_body m 0 maxweight beam S corr).1.queue = l ++ S.queue ∧
        CorrCtx S.lexicon S.input S.alphabet_translator
          (correct_body m 0 maxweight beam S corr).1 ∧
        (∀ k w, corr.covers k w → (correct_body m 0 maxweight beam S corr).2.covers k w)) ∧
      (∀ x ∈ l, x ∈ S.unlimited.successors m) ∧
      (S.next_node.weight ≤ WEIGHT_MAX →
        (∀ n', CorrStep m S.lexicon S.input S.alphabet_translator (fun w => w ≤ WEIGHT_MAX) marc
          S.next_node n' → 2 ≤ n'.input_state → n' ∈ l) ∧
        (corr_accepting m S.lexicon S.input S.next_node →
          corr_weight m S.lexicon S.next_node ≤ WEIGHT_MAX →
          (correct_body m 0 maxweight beam S corr).2.covers
            (stringify S.lexicon.get_key_table S.next_node.string)
            (corr_weight m S.lexicon S.next_node))) := by
  have hlim := limits_without_limit S maxweight beam hmw hbeam
  have key : S.unlimited.lexicon_epsilons.mutator_epsilons m =
      { S.unlimited with queue := (S.unlimited.mutator_eps_successors m).reverse ++
                           (S.unlimited.eps_successors.reverse ++ S.queue) } :=
    expand_eq S.unlimited m
  refine ⟨if S.next_node.weight > WEIGHT_MAX then [] else
      (if S.next_node.input_state = S.input.length then []
        else (S.unlimited.input_successors m).reverse) ++
      (if S.next_node.input_state > 1 then
        (S.unlimited.mutator_eps_successors m).reverse ++ S.unlimited.eps_successors.reverse
      else []),
    ?_, ?_, ?_⟩
  · unfold correct_body CorrCtx
    simp only [hlim, key, consume_input_eq]
    simp only [unlimited]
    by_cases h1 : S.next_node.input_state > 1 <;> simp only [h1, if_true, if_false] <;>
      split_ifs <;>
      refine ⟨?_, ⟨rfl, rfl, rfl, hmode, rfl, rfl, htime⟩, fun k w hk => ?_⟩
    all_goals first
      | exact hk
      | exact StringWeightMap.covers_insert_mono _ _ _ _ _ hk
      | rfl
      | (simp only [List.nil_append, List.append_assoc, List.append_nil]; try rfl)
  · intro x hx
    unfold successors
    split_ifs at hx with h1 h2 h3 h3
    · cases hx
    · rcases List.mem_append.1 hx with h4 | h4
      · cases h4
      · rcases List.mem_append.1 h4 with h5 | h5
        · exact List.mem_append_right _ (List.mem_append_left _ (List.mem_reverse.1 h5))
        · exact List.mem_append_left _ (List.mem_reverse.1 h5)
    · rcases List.mem_append.1 hx with h4 | h4
      · cases h4
      · cases h4
    · rcases List.mem_append.1 hx with h4 | h4
      · exact List.mem_append_right _ (List.mem_append_right _ (List.mem_reverse.1 h4))
      · rcases List.mem_append.1 h4 with h5 | h5
        · exact List.mem_append_right _ (List.mem_append_left _ (List.mem_reverse.1 h5))
        · exact List.mem_append_left _ (List.mem_reverse.1 h5)
    · rcases List.mem_append.1 hx with h4 | h4
      · exact List.mem_append_right _ (List.mem_append_right _ (List.mem_reverse.1 h4))
      · cases h4
  · intro hw
    have hw' : ¬ S.next_node.weight > WEIGHT_MAX := not_lt.2 hw
    constructor
    · intro n' hstep hle
      rcases corr_step_mem_successors S.unlimited m marc hmode rfl rfl n' hstep
        with ⟨h1, h2⟩ | ⟨h1, h2⟩
      · rw [if_neg hw']
        apply List.mem_append_right
        have h3 : S.next_node.input_state > 1 := by
          have : n'.input_state = S.next_node.input_state := h2
          omega
        rw [if_pos h3]
        exact List.mem_append_right _ (List.mem_reverse.2 h1)
      · rw [if_neg hw']
        apply List.mem_append_left
        have h3 : S.next_node.input_state ≠ S.input.length := by
          cases hstep with
          | epsilon p _ _ _ _ =>
            have : S.next_node.input_state = S.next_node.input_state + 1 := h2
            omega
          | flag p _ _ _ _ _ =>
            have h4 := congrArg TreeNode.input_state (try_compatible_with_restore S.next_node
              (S.lexicon.get_operations.at (S.lexicon.transitions_input_symbol p)))
            have h5 : (S.next_node.try_compatible_with (S.lexicon.get_operations.at
              (S.lexicon.transitions_input_symbol p))).2.input_state
                = S.next_node.input_state + 1 := h2
            have h6 : (S.next_node.try_compatible_with (S.lexicon.get_operations.at
              (S.lexicon.transitions_input_symbol p))).2.input_state
                = S.next_node.input_state := h4
            omega
          | arc a b pm pl hinput _ _ _ _ _ _ _ _ _ _ => omega
        rw [if_neg h3]
        exact List.mem_reverse.2 h1
    · rintro ⟨hlen, hmf, hlf⟩ hcw
      have hcw' : ¬ S.next_node.weight + S.lexicon.final_weight S.next_node.lexicon_state +
          m.final_weight S.next_node.mutator_state > WEIGHT_MAX := not_lt.2 hcw
      unfold correct_body
      simp only [hlim, key, consume_input_eq]
      simp only [unlimited]
      rw [if_neg hw']
      have hfin : m.is_final S.next_node.mutator_state = true ∧
          S.lexicon.is_final S.next_node.lexicon_state = true := ⟨hmf, hlf⟩
      by_cases h1 : S.next_node.input_state > 1 <;> simp only [h1, if_true, if_false] <;>
        simp only [hlen, hfin, and_self, if_true] <;> rw [if_neg hcw'] <;>
        split_ifs with hb
      all_goals first
        | exact StringWeightMap.covers_insert_self _ _ _
        | exact StringWeightMap.covers_of_not_better _ _ _ hb

end Speller

theorem corr_step_input_state (m T : Transducer) (input tr : SymbolVector)
    (guard : Weight → Prop) (marc : SymbolNumber → SymbolNumber → Weight → Prop)
    (n n' : TreeNode) (h : CorrStep m T input tr guard marc n n') :
    n'.input_state = n.input_state ∨
      (n'.input_state = n.input_state + 1 ∧ n.input_state < input.length ∧
        input.getD n.input_state NO_SYMBOL ≠ 0) := by
  cases h with
  | epsilon p _ _ _ _ => exact Or.inl rfl
  | flag p _ _ _ _ _ =>
    have h1 := congrArg TreeNode.input_state (try_compatible_with_restore n
      (T.get_operations.at (T.transitions_input_symbol p)))
    exact Or.inl h1
  | arc a b pm pl hinput ha hsym _ _ _ _ _ _ _ _ => exact Or.inr ⟨rfl, hinput, ha ▸ hsym⟩

theorem corr_step_guard (m T : Transducer) (input tr : SymbolVector)
    (guard : Weight → Prop) (marc : SymbolNumber → SymbolNumber → Weight → Prop)
    (n n' : TreeNode) (h : CorrStep m T input tr guard marc n n') : guard n'.weight := by
  cases h with
  | epsilon p _ _ _ hg => exact hg
  | flag p _ _ _ _ hg =>
    have h1 := congrArg TreeNode.weight (try_compatible_with_restore n
      (T.get_operations.at (T.transitions_input_symbol p)))
    have h2 : (n.try_compatible_with
      (T.get_operations.at (T.transitions_input_symbol p))).2.weight = n.weight := h1
    show guard ((n.try_compatible_with
      (T.get_operations.at (T.transitions_input_symbol p))).2.weight + _)
    rw [h2]
    exact hg
  | arc a b pm pl _ _ _ _ _ _ _ _ _ _ hg =>
    show guard (n.weight + (_ + _))
    rw [← add_assoc]
    exact hg

namespace Speller

theorem cache_update_length (cache : List CacheContainer) (i : Nat)
    (f : CacheContainer → CacheContainer) : (cache_update cache i f).length = cache.length := by
  unfold cache_update
  split
  · rfl
  · exact List.length_set _ _ _

theorem cache_update_getD (cache : List CacheContainer) (i : Nat)
    (f : CacheContainer → CacheContainer) (h : i < cache.length) (d : CacheContainer) :
    (cache_update cache i f).getD i d = f (cache.getD i d) := by
  unfold cache_update
  have h1 : cache.get? i = some (cache.getD i d) := by
    rw [List.get?_eq_getElem?, List.getD_eq_getElem?_getD, List.getElem?_eq_getElem h]
    rfl
  rw [h1]
  simp only []
  rw [List.getD_eq_getElem?_getD, List.getElem?_set_self h]
  rfl

end Speller

namespace Speller

/-- The loop of `build_cache` reaches every node that the steps of the
composed search lead to from the nodes on its stack: it caches those that
have consumed the first input symbol and records those that are accepting. -/
theorem build_cache_loop_complete (m T : Transducer) (input tr : SymbolVector)
    (fs : SymbolNumber) (marc : SymbolNumber → SymbolNumber → Weight → Prop)
    (hfs : 0 < input.length → input.getD 0 NO_SYMBOL ≠ 0 → fs > 0) (fuel : Nat) :
    ∀ (S : Speller) (c0 c1 : StringWeightMap) (r : Speller × StringWeightMap × StringWeightMap),
      CorrCtx T input tr S → fs < S.cache.length →
      build_cache_loop m fs fuel S c0 c1 = some r →
      CorrCtx T input tr r.1 ∧ fs < r.1.cache.length ∧
      (∀ x ∈ (S.cache.getD fs CacheContainer.fresh).nodes,
        x ∈ (r.1.cache.getD fs CacheContainer.fresh).nodes) ∧
      (∀ k w, c0.covers k w → r.2.1.covers k w) ∧
      (∀ k w, c1.covers k w → r.2.2.covers k w) ∧
      ∀ n ∈ S.queue, ∀ n', Relation.ReflTransGen (CacheStep m T input tr marc) n n' →
        (n'.input_state = 1 → n' ∈ (r.1.cache.getD fs CacheContainer.fresh).nodes) ∧
        (m.is_final n'.mutator_state = true → T.is_final n'.lexicon_state = true →
          (n'.input_state = 0 →
            r.2.1.covers (stringify T.get_key_table n'.string) (corr_weight m T n')) ∧
          (n'.input_state ≠ 0 →
            r.2.2.covers (stringify T.get_key_table n'.string) (corr_weight m T n'))) := by
  induction fuel with
  | zero =>
    intro S c0 c1 r hctx hlen h
    unfold build_cache_loop at h
    split_ifs at h with hq
    cases h
    refine ⟨hctx, hlen, fun x hx => hx, fun k w h => h, fun k w h => h, ?_⟩
    intro n hn
    rw [List.isEmpty_iff.1 hq] at hn
    cases hn
  | succ fuel ih =>
    intro S c0 c1 r hctx hlen h
    cases hq : S.queue with
    | nil =>
      unfold build_cache_loop at h
      simp only [hq] at h
      cases h
      refine ⟨hctx, hlen, fun x hx => hx, fun k w h => h, fun k w h => h, ?_⟩
      intro n hn
      cases hn
    | cons node rest =>
      unfold build_cache_loop at h
      simp only [hq] at h
      have hctx0 := hctx
      obtain ⟨hlex, hinp, htr, hmode, hlg, hlimit, htime⟩ := hctx
      obtain ⟨l, hS, _, hsucc, hc0, hc1⟩ := build_cache_body_spec m fs
        { S with next_node := node, queue := rest } c0 c1 marc hmode hlg hlimit
      generalize build_cache_body m fs { S with next_node := node, queue := rest } c0 c1 = b
        at h hS hc0 hc1
      obtain ⟨S1, d0, d1⟩ := b
      simp only [] at hS hc0 hc1 h
      subst hS hc0 hc1
      have hlen1 : fs < (if node.input_state = 1 then
          cache_update S.cache fs (fun c => { c with nodes := c.nodes ++ [node] })
        else S.cache).length := by
        split_ifs
        · rw [cache_update_length]
          exact hlen
        · exact hlen
      obtain ⟨h1, h2, h3, h4, h5, h6⟩ := ih _ _ _ r (by exact hctx0) (by exact hlen1) h
      refine ⟨h1, h2, ?_, ?_, ?_, ?_⟩
      · intro x hx
        apply h3
        show x ∈ ((if node.input_state = 1 then
          cache_update S.cache fs (fun c => { c with nodes := c.nodes ++ [node] })
          else S.cache).getD fs CacheContainer.fresh).nodes
        split_ifs
        · rw [cache_update_getD _ _ _ hlen]
          exact List.mem_append_left _ hx
        · exact hx
      · intro k w hk
        apply h4
        split_ifs
        · exact StringWeightMap.covers_insert_mono _ _ _ _ _ hk
        · exact hk
      · intro k w hk
        apply h5
        split_ifs
        · exact StringWeightMap.covers_insert_mono _ _ _ _ _ hk
        · exact hk
      · intro n hn n' hpath
        rcases List.mem_cons.1 hn with hnode | hrest
        · subst hnode
          rcases Relation.ReflTransGen.cases_head hpath with hn' | ⟨mid, hstep, hpath'⟩
          · subst hn'
            refine ⟨fun hi => h3 _ ?_, fun hmf hlf => ⟨fun hi => h4 _ _ ?_, fun hi => h5 _ _ ?_⟩⟩
            · show n ∈ ((if n.input_state = 1 then
                cache_update S.cache fs (fun c => { c with nodes := c.nodes ++ [n] })
                else S.cache).getD fs CacheContainer.fresh).nodes
              rw [if_pos hi, cache_update_getD _ _ _ hlen]
              exact List.mem_append_right _ (List.mem_singleton.2 rfl)
            · subst hlex
              have hfin : (m.is_final n.mutator_state && S.lexicon.is_final n.lexicon_state)
                  = true := by rw [hmf, hlf]; rfl
              have := StringWeightMap.covers_insert_self c0
                (stringify S.lexicon.get_key_table n.string) (corr_weight m S.lexicon n)
              rw [if_pos ⟨hfin, hi⟩]
              exact this
            · subst hlex
              have hfin : (m.is_final n.mutator_state && S.lexicon.is_final n.lexicon_state)
                  = true := by rw [hmf, hlf]; rfl
              have := StringWeightMap.covers_insert_self c1
                (stringify S.lexicon.get_key_table n.string) (corr_weight m S.lexicon n)
              rw [if_pos ⟨hfin, hi⟩]
              exact this
          · apply h6 mid ?_ n' hpath'
            apply List.mem_append_left
            obtain ⟨hcs, hle⟩ := hstep
            subst hlex hinp htr
            apply hsucc mid hcs hle
            intro hi
            rcases corr_step_input_state _ _ _ _ _ _ _ _ hcs with h7 | ⟨h7, h8, h9⟩
            · have h10 : mid.input_state = n.input_state + 1 := hi
              omega
            · have h10 : n.input_state = 0 := by omega
              rw [h10] at h8 h9
              exact hfs h8 h9
        · exact h6 n (List.mem_append_right _ hrest) n' hpath

end Speller

namespace Speller

/-- The main loop of `correct`, in a call without limits, records every
accepting node within the weight limit that the steps of the composed search
lead to from the nodes on its stack. -/
theorem correct_loop_complete (m T : Transducer) (input tr : SymbolVector)
    (marc : SymbolNumber → SymbolNumber → Weight → Prop) (maxweight beam : Weight)
    (hmw : maxweight < 0) (hbeam : beam < 0) (clock_exceeded : Nat → Bool) (fuel : Nat) :
    ∀ (S : Speller) (corr : StringWeightMap) (r : Speller × StringWeightMap),
      CorrCtx T input tr S →
      correct_loop m 0 maxweight beam clock_exceeded fuel S corr = some r →
      CorrCtx T input tr r.1 ∧ (∀ k w, corr.covers k w → r.2.covers k w) ∧
      ∀ n ∈ S.queue, n.weight ≤ WEIGHT_MAX →
        ∀ n', Relation.ReflTransGen (SearchStep m T input tr marc) n n' →
          corr_accepting m T input n' → corr_weight m T n' ≤ WEIGHT_MAX →
          r.2.covers (stringify T.get_key_table n'.string) (corr_weight m T n') := by
  induction fuel with
  | zero =>
    intro S corr r hctx h
    unfold correct_loop at h
    split_ifs at h with hq
    cases h
    refine ⟨hctx, fun k w h => h, ?_⟩
    intro n hn
    rw [List.isEmpty_iff.1 hq] at hn
    cases hn
  | succ fuel ih =>
    intro S corr r hctx h
    cases hq : S.queue with
    | nil =>
      unfold correct_loop at h
      simp only [hq] at h
      cases h
      refine ⟨hctx, fun k w h => h, ?_⟩
      intro n hn
      cases hn
    | cons node rest =>
      obtain ⟨hlex, hinp, htr, hmode, hlg, hlimit, htime⟩ := hctx
      have htime' : ¬ S.max_time > 0 := by rw [htime]; decide
      unfold correct_loop at h
      simp only [hq, htime', if_false, false_and] at h
      obtain ⟨l, ⟨hqueue, hctx1, hmono⟩, _, hnode⟩ := correct_body_spec m maxweight beam hmw hbeam
        { S with next_node := node, queue := rest } corr marc hmode htime
      subst hlex hinp htr
      obtain ⟨h1, h2, h3⟩ := ih _ _ r (by exact hctx1) h
      refine ⟨h1, fun k w hk => h2 k w (hmono k w hk), ?_⟩
      intro n hn hw n' hpath hacc hcw
      rcases List.mem_cons.1 hn with hnode' | hrest
      · subst hnode'
        obtain ⟨hsucc, hrecord⟩ := hnode hw
        rcases Relation.ReflTransGen.cases_head hpath with hn' | ⟨mid, hstep, hpath'⟩
        · subst hn'
          exact h2 _ _ (hrecord hacc hcw)
        · obtain ⟨hcs, hle⟩ := hstep
          refine h3 mid ?_ (corr_step_guard _ _ _ _ _ _ _ _ hcs) n' hpath' hacc hcw
          rw [hqueue]
          exact List.mem_append_left _ (hsucc mid hcs hle)
      · refine h3 n ?_ hw n' hpath hacc hcw
        rw [hqueue]
        exact List.mem_append_right _ hrest

end Speller

theorem corr_path_guard (m T : Transducer) (input tr : SymbolVector)
    (guard : Weight → Prop) (marc : SymbolNumber → SymbolNumber → Weight → Prop)
    (n n' : TreeNode) (h : Relation.ReflTransGen (CorrStep m T input tr guard marc) n n')
    (hn : guard n.weight) : guard n'.weight := by
  rcases Relation.ReflTransGen.cases_tail h with h1 | ⟨b, _, hstep⟩
  · rw [h1]
    exact hn
  · exact corr_step_guard _ _ _ _ _ _ _ _ hstep

/-- A path of the composed search from a node that has consumed no input
splits into the part that `build_cache` follows and the part that the main
loop of `correct` follows from a cached node. -/
theorem corr_path_split (m T : Transducer) (input tr : SymbolVector)
    (marc : SymbolNumber → SymbolNumber → Weight → Prop) (n n' : TreeNode)
    (hn : n.input_state = 0)
    (h : Relation.ReflTransGen (CorrStep m T input tr (fun w => w ≤ WEIGHT_MAX) marc) n n') :
    (n'.input_state ≤ 1 → Relation.ReflTransGen (CacheStep m T input tr marc) n n') ∧
      (2 ≤ n'.input_state → ∃ c, c.input_state = 1 ∧
        Relation.ReflTransGen (CacheStep m T input tr marc) n c ∧
        Relation.ReflTransGen (SearchStep m T input tr marc) c n') := by
  induction h with
  | refl =>
    refine ⟨fun _ => Relation.ReflTransGen.refl, fun h2 => ?_⟩
    omega
  | tail hab hbc ih =>
    rename_i b c
    have hstep := corr_step_input_state _ _ _ _ _ _ _ _ hbc
    constructor
    · intro hle
      exact Relation.ReflTransGen.tail (ih.1 (by omega)) ⟨hbc, hle⟩
    · intro h2
      by_cases hb : 2 ≤ b.input_state
      · obtain ⟨x, hx, hcache, hsearch⟩ := ih.2 hb
        exact ⟨x, hx, hcache, Relation.ReflTransGen.tail hsearch ⟨hbc, h2⟩⟩
      · exact ⟨b, by omega, ih.1 (by omega), Relation.ReflTransGen.single ⟨hbc, h2⟩⟩

theorem cache_path_guard (m T : Transducer) (input tr : SymbolVector)
    (marc : SymbolNumber → SymbolNumber → Weight → Prop) (n n' : TreeNode)
    (h : Relation.ReflTransGen (CacheStep m T input tr marc) n n')
    (hn : n.weight ≤ WEIGHT_MAX) : n'.weight ≤ WEIGHT_MAX := by
  rcases Relation.ReflTransGen.cases_tail h with h1 | ⟨b, _, hstep⟩
  · rw [h1]
    exact hn
  · exact corr_step_guard _ _ _ _ (fun w => w ≤ WEIGHT_MAX) _ _ _ hstep.1


namespace Speller

theorem correct_prepare_ctx (S : Speller) (maxweight beam time_cutoff : Weight)
    (hmw : maxweight < 0) (hbeam : beam < 0) (htc : time_cutoff ≤ 0) :
    CorrCtx S.lexicon S.input S.alphabet_translator
        (S.correct_prepare 0 maxweight beam time_cutoff) ∧
      (S.correct_prepare 0 maxweight beam time_cutoff).cache = S.cache := by
  have h1 : ¬ maxweight ≥ 0 := not_le.2 hmw
  have h2 : ¬ beam ≥ 0 := not_le.2 hbeam
  have h3 : ¬ (0 : Int) > 0 := by decide
  have h4 : ¬ time_cutoff > 0 := not_lt.2 htc
  unfold correct_prepare set_limiting_behaviour CorrCtx
  simp only [h1, h2, h3, h4, false_and, and_false, if_false, and_self]

theorem adjust_weight_limits_none (S : Speller) (nbest : Int) (beam : Weight)
    (h : S.limiting = LimitingBehaviour.None) : S.adjust_weight_limits nbest beam = S := by
  unfold adjust_weight_limits
  simp only [h, reduceCtorEq, false_and, if_false]

/-- In a call without limits the branch of `correct` for inputs of at most
one symbol returns every cached result within `WEIGHT_MAX`. -/
theorem correct_cached_all (S : Speller) (maxweight beam : Weight) (hmw : maxweight < 0)
    (hbeam : beam < 0) (p : String × Weight) (hp : p.2 ≤ WEIGHT_MAX)
    (hmem : p ∈ (if S.input.length = 0 then
        (S.cache.getD S.first_input CacheContainer.fresh).results_len_0
      else (S.cache.getD S.first_input CacheContainer.fresh).results_len_1)) :
    p ∈ (S.correct_cached 0 maxweight beam).1 := by
  unfold correct_cached
  simp only []
  rw [limits_without_limit _ maxweight beam hmw hbeam]
  exact collect_results_all _ _ _ _ (Or.inr ⟨hmem, hp⟩)

/-- In a call without limits the branch of `correct` for longer inputs
returns every accepting node within `WEIGHT_MAX` that the steps of the
composed search lead to from the cached nodes. -/
theorem correct_search_all (S : Speller) (m : Transducer)
    (marc : SymbolNumber → SymbolNumber → Weight → Prop) (maxweight beam : Weight)
    (hmw : maxweight < 0) (hbeam : beam < 0) (clock_exceeded : Nat → Bool) (fuel : Nat)
    (r : CorrectionQueue × Speller)
    (hctx : CorrCtx S.lexicon S.input S.alphabet_translator S)
    (h : S.correct_search m 0 maxweight beam clock_exceeded fuel = some r)
    (c n : TreeNode) (hc : c ∈ (S.cache.getD S.first_input CacheContainer.fresh).nodes)
    (hcw : c.weight ≤ WEIGHT_MAX)
    (hpath : Relation.ReflTransGen
      (SearchStep m S.lexicon S.input S.alphabet_translator marc) c n)
    (hacc : corr_accepting m S.lexicon S.input n)
    (hw : corr_weight m S.lexicon n ≤ WEIGHT_MAX) :
    StringWeightMap.covers r.1 (stringify S.lexicon.get_key_table n.string)
      (corr_weight m S.lexicon n) := by
  unfold correct_search at h
  simp only [] at h
  cases hloop : correct_loop m 0 maxweight beam clock_exceeded fuel
      { S with queue := (S.cache.getD S.first_input CacheContainer.fresh).nodes.reverse } []
    with
  | none =>
    rw [hloop] at h
    cases h
  | some r1 =>
    obtain ⟨S1, corr⟩ := r1
    rw [hloop] at h
    simp only [Option.some.injEq] at h
    obtain ⟨h1, _, h3⟩ := correct_loop_complete m S.lexicon S.input S.alphabet_translator marc
      maxweight beam hmw hbeam clock_exceeded fuel _ _ _ (by exact hctx) hloop
    obtain ⟨w, hle, hmem⟩ := h3 c (List.mem_reverse.2 hc) hcw n hpath hacc hw
    refine ⟨w, hle, ?_⟩
    rw [← h]
    rw [adjust_weight_limits_none _ _ _ h1.2.2.2.2.1]
    apply collect_results_all
    refine Or.inr ⟨hmem, ?_⟩
    have hl : S1.limit = WEIGHT_MAX := h1.2.2.2.2.2.1
    rw [hl]
    exact le_trans hle hw

end Speller

namespace Speller

theorem build_cache_some (S : Speller) (m : Transducer) (fs : SymbolNumber) (fuel : Nat)
    (S2 : Speller) (h : S.build_cache m fs fuel = some S2) :
    ∃ S1 c0 c1,
      build_cache_loop m fs fuel { S with queue := [S.start_node], limit := WEIGHT_MAX } [] []
        = some (S1, c0, c1) ∧
      S2 = { S1 with cache := cache_update S1.cache fs (fun c =>
                               { c with results_len_0 := c0, results_len_1 := c1,
                                        empty := false }) } := by
  unfold build_cache at h
  simp only [] at h
  cases hloop : build_cache_loop m fs fuel
      { S with queue := [S.start_node], limit := WEIGHT_MAX } [] [] with
  | none =>
    rw [hloop] at h
    cases h
  | some r1 =>
    obtain ⟨S1, c0, c1⟩ := r1
    rw [hloop] at h
    simp only [Option.some.injEq] at h
    exact ⟨S1, c0, c1, rfl, h.symm⟩

/-- Completeness of `correct` in a call without limits on a speller whose
cache entry for the first input symbol has not been built: the returned
queue holds the string of every accepting node within `WEIGHT_MAX` that the
steps of the composed search lead to from the start node, with a weight not
above that of the node. -/
theorem correct_complete (S : Speller) (m : Transducer)
    (marc : SymbolNumber → SymbolNumber → Weight → Prop)
    (maxweight beam time_cutoff : Weight) (clock_exceeded : Nat → Bool) (fuel : Nat)
    (r : CorrectionQueue × Speller) (n : TreeNode)
    (hmut : S.mutator = some m) (hmw : maxweight < 0) (hbeam : beam < 0)
    (htc : time_cutoff ≤ 0) (hlen : S.first_input < S.cache.length)
    (hempty : (S.cache.getD S.first_input CacheContainer.fresh).empty = true)
    (hpath : Relation.ReflTransGen
      (CorrStep m S.lexicon S.input S.alphabet_translator (fun w => w ≤ WEIGHT_MAX) marc)
      S.start_node n)
    (hacc : corr_accepting m S.lexicon S.input n)
    (hcw : corr_weight m S.lexicon n ≤ WEIGHT_MAX)
    (h : S.correct 0 maxweight beam time_cutoff clock_exceeded fuel = some r) :
    StringWeightMap.covers r.1 (stringify S.lexicon.get_key_table n.string)
      (corr_weight m S.lexicon n) := by
  unfold correct at h
  rw [hmut] at h
  simp only [] at h
  obtain ⟨hctxP, hcacheP⟩ := correct_prepare_ctx S maxweight beam time_cutoff hmw hbeam htc
  generalize S.correct_prepare 0 maxweight beam time_cutoff = P at h hctxP hcacheP
  have hPfirst : P.first_input = S.first_input := by
    unfold first_input
    rw [hctxP.2.1]
  have hPstart : P.start_node = S.start_node := by
    unfold start_node get_state_size
    rw [hctxP.1]
  unfold correct_cache at h
  rw [hPfirst, hcacheP, hempty] at h
  simp only [if_true] at h
  have hfs : 0 < S.input.length → S.input.getD 0 NO_SYMBOL ≠ 0 → S.first_input > 0 := by
    intro h1 h2
    unfold first_input
    rw [if_neg (by omega)]
    exact Nat.pos_of_ne_zero h2
  obtain ⟨hs1, hs2⟩ := corr_path_split m S.lexicon S.input S.alphabet_translator marc
    S.start_node n rfl hpath
  cases hb : P.build_cache m S.first_input fuel with
  | none =>
    rw [hb] at h
    cases h
  | some S2 =>
    rw [hb] at h
    simp only [] at h
    obtain ⟨S1, c0, c1, hloop, hS2⟩ := build_cache_some P m S.first_input fuel S2 hb
    obtain ⟨h1, h2, _, _, _, h6⟩ := build_cache_loop_complete m S.lexicon S.input
      S.alphabet_translator S.first_input marc hfs fuel _ _ _ _
      (by exact ⟨hctxP.1, hctxP.2.1, hctxP.2.2.1, hctxP.2.2.2.1, hctxP.2.2.2.2.1, rfl,
        hctxP.2.2.2.2.2.2⟩)
      (by rw [← hcacheP] at hlen; exact hlen) hloop
    have hentry := cache_update_getD S1.cache S.first_input
      (fun c => { c with results_len_0 := c0, results_len_1 := c1, empty := false }) h2
      CacheContainer.fresh
    have hS2ctx : CorrCtx S.lexicon S.input S.alphabet_translator S2 := by
      rw [hS2]
      exact h1
    have hS2cache : S2.cache.getD S.first_input CacheContainer.fresh =
        { S1.cache.getD S.first_input CacheContainer.fresh with
          results_len_0 := c0, results_len_1 := c1, empty := false } := by
      rw [hS2]
      exact hentry
    have hS2first : S2.first_input = S.first_input := by
      unfold first_input
      rw [hS2ctx.2.1]
    have hstart : S.start_node ∈ [P.start_node] := by
      rw [hPstart]
      exact List.mem_singleton.2 rfl
    split_ifs at h with hshort
    · simp only [Option.some.injEq] at h
      rw [hS2ctx.2.1] at hshort
      have hn1 : n.input_state ≤ 1 := by rw [hacc.1]; exact hshort
      obtain ⟨_, hfin⟩ := h6 S.start_node hstart n (hs1 hn1)
      obtain ⟨hf0, hf1⟩ := hfin hacc.2.1 hacc.2.2
      rw [← h]
      by_cases h0 : S.input.length = 0
      · obtain ⟨w, hle, hmem⟩ := hf0 (by rw [hacc.1]; exact h0)
        refine ⟨w, hle, correct_cached_all _ maxweight beam hmw hbeam _ (le_trans hle hcw) ?_⟩
        rw [hS2first, hS2cache, hS2ctx.2.1, if_pos h0]
        exact hmem
      · obtain ⟨w, hle, hmem⟩ := hf1 (by rw [hacc.1]; exact h0)
        refine ⟨w, hle, correct_cached_all _ maxweight beam hmw hbeam _ (le_trans hle hcw) ?_⟩
        rw [hS2first, hS2cache, hS2ctx.2.1, if_neg h0]
        exact hmem
    · rw [hS2ctx.2.1] at hshort
      have hn2 : 2 ≤ n.input_state := by rw [hacc.1]; omega
      obtain ⟨c, hc1, hcache, hsearch⟩ := hs2 hn2
      obtain ⟨hcached, _⟩ := h6 S.start_node hstart c hcache
      have hcw1 : c.weight ≤ WEIGHT_MAX :=
        cache_path_guard _ _ _ _ _ _ _ hcache (by show (0 : Int) ≤ WEIGHT_MAX; decide)
      have hlex2 : S2.lexicon = S.lexicon := hS2ctx.1
      have hinp2 : S2.input = S.input := hS2ctx.2.1
      have htr2 : S2.alphabet_translator = S.alphabet_translator := hS2ctx.2.2.1
      have := correct_search_all S2 m marc maxweight beam hmw hbeam clock_exceeded fuel r
        (by rw [hlex2, hinp2, htr2]; exact hS2ctx) h c n
        (by rw [hS2first, hS2cache]; exact hcached hc1) hcw1
        (by rw [hlex2, hinp2, htr2]; exact hsearch)
        (by rw [hlex2, hinp2]; exact hacc)
        (by rw [hlex2]; exact hcw)
      rw [hlex2] at this
      exact this

end Speller

/-! ## Termination of the search loops -/

/-- A loop that pops a node and pushes nodes of smaller rank empties its
stack: with enough fuel it returns. -/
theorem dfs_terminates {σ : Type} (loop : Nat → σ → Option σ) (queue : σ → List TreeNode)
    (step : TreeNode → List TreeNode → σ → σ) (Inv : σ → Prop) (rank : TreeNode → Nat)
    (hnil : ∀ fuel s, queue s = [] → loop fuel s = some s)
    (hcons : ∀ fuel s node rest, Inv s → queue s = node :: rest →
      loop (fuel + 1) s = loop fuel (step node rest s))
    (hstep : ∀ s node rest, Inv s → queue s = node :: rest →
      Inv (step node rest s) ∧
        ∃ l, queue (step node rest s) = l ++ rest ∧ ∀ x ∈ l, rank x < rank node) :
    ∀ s, Inv s → ∃ N s', Inv s' ∧ queue s' = [] ∧ ∀ fuel, loop (N + fuel) s = some s' := by
  have hlist : ∀ (l : List TreeNode),
      (∀ x ∈ l, ∀ s rest, Inv s → queue s = x :: rest →
        ∃ N s2, Inv s2 ∧ queue s2 = rest ∧ ∀ fuel, loop (N + fuel) s = loop fuel s2) →
      ∀ s rest, Inv s → queue s = l ++ rest →
        ∃ N s2, Inv s2 ∧ queue s2 = rest ∧ ∀ fuel, loop (N + fuel) s = loop fuel s2 := by
    intro l
    induction l with
    | nil =>
      intro _ s rest hinv hq
      exact ⟨0, s, hinv, hq, fun fuel => by rw [Nat.zero_add]⟩
    | cons x l' ihl =>
      intro hx s rest hinv hq
      obtain ⟨N1, s1, hinv1, hq1, h1⟩ := hx x (List.mem_cons_self _ _) s (l' ++ rest) hinv hq
      obtain ⟨N2, s2, hinv2, hq2, h2⟩ :=
        ihl (fun y hy => hx y (List.mem_cons_of_mem _ hy)) s1 rest hinv1 hq1
      exact ⟨N1 + N2, s2, hinv2, hq2, fun fuel => by rw [Nat.add_assoc, h1, h2]⟩
  have key : ∀ k node, rank node < k → ∀ s rest, Inv s → queue s = node :: rest →
      ∃ N s2, Inv s2 ∧ queue s2 = rest ∧ ∀ fuel, loop (N + fuel) s = loop fuel s2 := by
    intro k
    induction k with
    | zero =>
      intro node hr
      omega
    | succ k ih =>
      intro node hr s rest hinv hq
      obtain ⟨hinv1, l, hl, hranks⟩ := hstep s node rest hinv hq
      obtain ⟨N, s2, hinv2, hq2, h2⟩ := hlist l
        (fun x hx => ih x (by have := hranks x hx; omega)) (step node rest s) rest hinv1 hl
      refine ⟨N + 1, s2, hinv2, hq2, fun fuel => ?_⟩
      rw [show N + 1 + fuel = (N + fuel) + 1 by omega, hcons _ _ _ _ hinv hq, h2]
  intro s hinv
  obtain ⟨N, s2, hinv2, hq2, h2⟩ := hlist (queue s)
    (fun x _ => key (rank x + 1) x (Nat.lt_succ_self _)) s [] hinv (List.append_nil _).symm
  exact ⟨N, s2, hinv2, hq2, fun fuel => by rw [h2, hnil _ _ hq2]⟩

namespace Speller

theorem build_cache_loop_terminates (m T : Transducer) (input tr : SymbolVector)
    (fs : SymbolNumber) (rank : TreeNode → Nat)
    (hrank : ∀ S0 : Speller, CorrCtx T input tr S0 →
      ∀ x ∈ S0.successors m, rank x < rank S0.next_node)
    (S : Speller) (c0 c1 : StringWeightMap) (hctx : CorrCtx T input tr S) :
    ∃ N r, CorrCtx T input tr r.1 ∧
      ∀ fuel, build_cache_loop m fs (N + fuel) S c0 c1 = some r := by
  obtain ⟨N, s', hinv', _, h⟩ := dfs_terminates
    (fun fuel (s : Speller × StringWeightMap × StringWeightMap) =>
      build_cache_loop m fs fuel s.1 s.2.1 s.2.2)
    (fun s => s.1.queue)
    (fun node rest s =>
      build_cache_body m fs { s.1 with next_node := node, queue := rest } s.2.1 s.2.2)
    (fun s => CorrCtx T input tr s.1) rank
    (by
      intro fuel s hq
      cases fuel with
      | zero =>
        unfold build_cache_loop
        simp only [hq, List.isEmpty_nil, if_true]
      | succ fuel =>
        unfold build_cache_loop
        simp only [hq])
    (by
      intro fuel s node rest _ hq
      simp only []
      rw [build_cache_loop]
      simp only [hq])
    (by
      intro s node rest hinv hq
      obtain ⟨hlex, hinp, htr, hmode, hlg, hlimit, htime⟩ := hinv
      obtain ⟨l, hS, hsucc, _⟩ := build_cache_body_spec m fs
        { s.1 with next_node := node, queue := rest } s.2.1 s.2.2 (fun _ _ _ => True)
        hmode hlg hlimit
      simp only []
      rw [hS]
      refine ⟨⟨hlex, hinp, htr, hmode, hlg, hlimit, htime⟩, l, rfl, fun x hx => ?_⟩
      exact hrank { s.1 with next_node := node, queue := rest }
        ⟨hlex, hinp, htr, hmode, hlg, hlimit, htime⟩ x (hsucc x hx))
    (S, c0, c1) hctx
  exact ⟨N, s', hinv', h⟩

theorem correct_loop_terminates (m T : Transducer) (input tr : SymbolVector)
    (maxweight beam : Weight) (hmw : maxweight < 0) (hbeam : beam < 0)
    (clock_exceeded : Nat → Bool) (rank : TreeNode → Nat)
    (hrank : ∀ S0 : Speller, CorrCtx T input tr S0 →
      ∀ x ∈ S0.successors m, rank x < rank S0.next_node)
    (S : Speller) (corr : StringWeightMap) (hctx : CorrCtx T input tr S) :
    ∃ N r, CorrCtx T input tr r.1 ∧ ∀ fuel,
      correct_loop m 0 maxweight beam clock_exceeded (N + fuel) S corr = some r := by
  obtain ⟨N, s', hinv', _, h⟩ := dfs_terminates
    (fun fuel (s : Speller × StringWeightMap) =>
      correct_loop m 0 maxweight beam clock_exceeded fuel s.1 s.2)
    (fun s => s.1.queue)
    (fun node rest s =>
      correct_body m 0 maxweight beam { s.1 with next_node := node, queue := rest } s.2)
    (fun s => CorrCtx T input tr s.1) rank
    (by
      intro fuel s hq
      cases fuel with
      | zero =>
        unfold correct_loop
        simp only [hq, List.isEmpty_nil, if_true]
      | succ fuel =>
        unfold correct_loop
        simp only [hq])
    (by
      intro fuel s node rest hinv hq
      have htime' : ¬ s.1.max_time > 0 := by rw [hinv.2.2.2.2.2.2]; decide
      simp only []
      rw [correct_loop]
      simp only [hq, htime', if_false, false_and])
    (by
      intro s node rest hinv hq
      obtain ⟨hlex, hinp, htr, hmode, hlg, hlimit, htime⟩ := hinv
      obtain ⟨l, ⟨hqueue, hctx1, _⟩, hsucc, _⟩ := correct_body_spec m maxweight beam hmw hbeam
        { s.1 with next_node := node, queue := rest } s.2 (fun _ _ _ => True) hmode htime
      subst hlex hinp htr
      refine ⟨hctx1, l, hqueue, fun x hx => ?_⟩
      exact hrank ({ s.1 with next_node := node, queue := rest } : Speller).unlimited
        ⟨rfl, rfl, rfl, hmode, rfl, rfl, htime⟩ x (hsucc x hx))
    (S, corr) hctx
  exact ⟨N, s', hinv', h⟩

/-- In a call without limits `correct` returns when given enough fuel,
provided the nodes pushed by the expansion steps have a smaller rank than the
node they are pushed for. -/
theorem correct_terminates (S : Speller) (m : Transducer)
    (maxweight beam time_cutoff : Weight) (clock_exceeded : Nat → Bool)
    (rank : TreeNode → Nat) (hmut : S.mutator = some m) (hmw : maxweight < 0)
    (hbeam : beam < 0) (htc : time_cutoff ≤ 0)
    (hrank : ∀ S0 : Speller, CorrCtx S.lexicon S.input S.alphabet_translator S0 →
      ∀ x ∈ S0.successors m, rank x < rank S0.next_node) :
    ∃ fuel r, S.correct 0 maxweight beam time_cutoff clock_exceeded fuel = some r := by
  obtain ⟨hctxP, _⟩ := correct_prepare_ctx S maxweight beam time_cutoff hmw hbeam htc
  have hcache : ∃ N1 S2, CorrCtx S.lexicon S.input S.alphabet_translator S2 ∧
      ∀ fuel, (S.correct_prepare 0 maxweight beam time_cutoff).correct_cache m (N1 + fuel)
        = some S2 := by
    generalize S.correct_prepare 0 maxweight beam time_cutoff = P at hctxP
    unfold correct_cache
    split_ifs with hE
    · obtain ⟨N1, r1, hctx1, h1⟩ := build_cache_loop_terminates m S.lexicon S.input
        S.alphabet_translator P.first_input rank hrank
        { P with queue := [P.start_node], limit := WEIGHT_MAX } [] []
        ⟨hctxP.1, hctxP.2.1, hctxP.2.2.1, hctxP.2.2.2.1, hctxP.2.2.2.2.1, rfl,
          hctxP.2.2.2.2.2.2⟩
      obtain ⟨S1, c0, c1⟩ := r1
      refine ⟨N1, { S1 with cache := cache_update S1.cache P.first_input (fun c =>
                                      { c with results_len_0 := c0, results_len_1 := c1,
                                               empty := false }) }, hctx1, fun fuel => ?_⟩
      unfold build_cache
      simp only []
      rw [h1 fuel]
    · exact ⟨0, P, hctxP, fun _ => rfl⟩
  obtain ⟨N1, S2, hctx2, h2⟩ := hcache
  by_cases hshort : S2.input.length ≤ 1
  · refine ⟨N1 + 0, S2.correct_cached 0 maxweight beam, ?_⟩
    unfold correct
    rw [hmut]
    simp only []
    rw [h2 0]
    simp only [hshort, if_true]
  · obtain ⟨N2, r2, _, h3⟩ := correct_loop_terminates m S.lexicon S.input
      S.alphabet_translator maxweight beam hmw hbeam clock_exceeded rank hrank
      { S2 with queue := (S2.cache.getD S2.first_input CacheContainer.fresh).nodes.reverse } []
      hctx2
    obtain ⟨S3, corr⟩ := r2
    refine ⟨N1 + N2, ((collect_results 0 corr (S3.adjust_weight_limits 0 beam) []).2,
      (collect_results 0 corr (S3.adjust_weight_limits 0 beam) []).1), ?_⟩
    unfold correct
    rw [hmut]
    simp only []
    rw [h2 N2]
    simp only [hshort, if_false]
    unfold correct_search
    simp only []
    rw [Nat.add_comm N1 N2, h3 N1]

end Speller

/-- Along copy arcs the node spells the consumed part of the input, as the
lexicon's symbols. -/
theorem copy_path_string (m T : Transducer) (input tr : SymbolVector) (guard : Weight → Prop)
    (n0 n : TreeNode) (h0 : n0.string = []) (h0' : n0.input_state = 0)
    (h : Relation.ReflTransGen (CorrStep m T input tr guard copy_arc) n0 n) :
    n.input_state ≤ input.length ∧
      n.string = ((input.take n.input_state).map (fun a => tr.getD a NO_SYMBOL)).filter
        (fun b => decide (b ≠ 0)) := by
  induction h with
  | refl =>
    rw [h0, h0']
    exact ⟨Nat.zero_le _, rfl⟩
  | @tail b c _ hstep ih =>
    obtain ⟨ih1, ih2⟩ := ih
    cases hstep with
    | epsilon p _ _ _ _ => exact ⟨ih1, ih2⟩
    | flag p _ _ _ _ _ =>
      have h1 := congrArg TreeNode.input_state (try_compatible_with_restore b
        (T.get_operations.at (T.transitions_input_symbol p)))
      have h2 := congrArg TreeNode.string (try_compatible_with_restore b
        (T.get_operations.at (T.transitions_input_symbol p)))
      have h3 : (b.try_compatible_with
        (T.get_operations.at (T.transitions_input_symbol p))).2.input_state = b.input_state := h1
      have h4 : (b.try_compatible_with
        (T.get_operations.at (T.transitions_input_symbol p))).2.string = b.string := h2
      refine ⟨?_, ?_⟩
      · show (b.try_compatible_with
          (T.get_operations.at (T.transitions_input_symbol p))).2.input_state ≤ _
        rw [h3]
        exact ih1
      · show (b.try_compatible_with
          (T.get_operations.at (T.transitions_input_symbol p))).2.string = List.filter _
            (List.map _ (List.take (b.try_compatible_with
              (T.get_operations.at (T.transitions_input_symbol p))).2.input_state input))
        rw [h3, h4]
        exact ih2
    | arc a s pm pl hinput ha _ _ _ _ hcopy hs _ _ _ =>
      refine ⟨hinput, ?_⟩
      show (if s ≠ 0 then b.string ++ [s] else b.string) = List.filter _
        (List.map _ (List.take (b.input_state + 1) input))
      have hget : input[b.input_state]? = some a := by
        rw [ha, List.getD_eq_getElem?_getD, List.getElem?_eq_getElem hinput]
        rfl
      rw [List.take_succ, hget, List.map_append, List.filter_append, ← ih2, hcopy.1] at *
      rw [hs]
      simp only [Option.toList, List.map_cons, List.map_nil, List.filter_cons, List.filter_nil,
        decide_eq_true_eq]
      split_ifs <;> simp


namespace Speller

/-- C2 as stated fails.  First, `costly_lexicon` accepts `a` (`check` answers
true) with an arc weight and a final weight whose sum exceeds `WEIGHT_MAX`
(infinite in single precision), and `correct` without limits returns the
empty queue although the error model copies `a` at weight 0.  Second, the
weight need not be the one at which the lexicon accepts the symbols of the
word: `split_lexicon` accepts the one-symbol word `ab` at weight 5 and the
symbols `a` `b` at weight 1; with an error model that only copies, `correct`
returns `ab` with weight 5, and with one that may also rewrite `ab` to `a`
`b` at no cost it returns `ab` with weight 1, the same string in both
calls. -/
theorem correct_misses_costly_word :
    (((costly_speller [1]).check 100).map (fun r => r.1) = some true ∧
      ((costly_speller [1]).correct 0 (-1) (-1) 0 clock_never 100).map (fun r => r.1)
        = some []) ∧
    (((split_speller copy_mutator [3]).check 100).map (fun r => r.1) = some true ∧
      ((split_speller copy_mutator [3]).correct 0 (-1) (-1) 0 clock_never 100).map
        (fun r => r.1) = some [("ab", 5)] ∧
      ((split_speller split_mutator [3]).correct 0 (-1) (-1) 0 clock_never 100).map
        (fun r => r.1) = some [("ab", 1)]) := by
  decide!

end Speller

namespace Speller

/-- C2 (amended): let the word `w` be tokenised to `S.input`, and let there be
an accepting path for it in which the lexicon takes epsilon and flag
transitions and reads each symbol of `w` by a direct transition (the state
has transitions for the translated symbol, no unknown/identity fallback),
while the error model copies that symbol with an arc of weight 0 and ends in
a final state with final weight 0; `n` is the node at the end of the path, so
`n.weight` is the weight of the lexicon path.  If the weight accumulated
after every step and the total with the lexicon's final weight are at most
`WEIGHT_MAX`, then `correct` without limits, on a speller whose cache entry
for the first symbol of `w` is still empty, returns a queue that contains
the string of `w` (printed from the lexicon's key table) with a weight of at
most the weight of that path; and it does return when given enough fuel,
provided the pushed nodes have a smaller rank than the node they are pushed
for. -/
theorem correct_contains_word (S : Speller) (m : Transducer)
    (maxweight beam time_cutoff : Weight) (clock_exceeded : Nat → Bool) (n : TreeNode)
    (hmut : S.mutator = some m) (hmw : maxweight < 0) (hbeam : beam < 0)
    (htc : time_cutoff ≤ 0) (hlen : S.first_input < S.cache.length)
    (hempty : (S.cache.getD S.first_input CacheContainer.fresh).empty = true)
    (hpath : Relation.ReflTransGen
      (CorrStep m S.lexicon S.input S.alphabet_translator (fun w => w ≤ WEIGHT_MAX) copy_arc)
      S.start_node n)
    (hacc : corr_accepting m S.lexicon S.input n)
    (hfw : m.final_weight n.mutator_state = 0)
    (hcw : n.weight + S.lexicon.final_weight n.lexicon_state ≤ WEIGHT_MAX) :
    (∀ fuel r, S.correct 0 maxweight beam time_cutoff clock_exceeded fuel = some r →
      ∃ w, w ≤ n.weight + S.lexicon.final_weight n.lexicon_state ∧
        (stringify S.lexicon.get_key_table
          ((S.input.map (fun a => S.alphabet_translator.getD a NO_SYMBOL)).filter
            (fun b => decide (b ≠ 0))), w) ∈ r.1) ∧
    (∀ rank : TreeNode → Nat,
      (∀ S0 : Speller, CorrCtx S.lexicon S.input S.alphabet_translator S0 →
        ∀ x ∈ S0.successors m, rank x < rank S0.next_node) →
      ∃ fuel r, S.correct 0 maxweight beam time_cutoff clock_exceeded fuel = some r) := by
  constructor
  · intro fuel r h
    have hcw' : corr_weight m S.lexicon n ≤ WEIGHT_MAX := by
      unfold corr_weight
      rw [hfw, add_zero]
      exact hcw
    obtain ⟨w, hle, hmem⟩ := correct_complete S m copy_arc maxweight beam time_cutoff
      clock_exceeded fuel r n hmut hmw hbeam htc hlen hempty hpath hacc hcw' h
    have hstr := (copy_path_string m S.lexicon S.input S.alphabet_translator _ S.start_node n
      rfl rfl hpath).2
    rw [hacc.1, List.take_length] at hstr
    refine ⟨w, ?_, ?_⟩
    · unfold corr_weight at hle
      rw [hfw, add_zero] at hle
      exact hle
    · rw [← hstr]
      exact hmem
  · intro rank hrank
    exact correct_terminates S m maxweight beam time_cutoff clock_exceeded rank hmut hmw hbeam
      htc hrank

end Speller

theorem mut_arc_nodes_forall (m T : Transducer) (tr : SymbolVector) (under : Weight → Bool)
    (n : TreeNode) (fallback : TransitionTableIndex → Weight → List TreeNode)
    (arcs : SymbolNumber → TransitionTableIndex → Weight → List TreeNode) (a : SymbolNumber)
    (P : TreeNode → Prop)
    (hdel : ∀ idx w, P (n.update 0 (n.input_state + 1) idx n.lexicon_state w))
    (hfb : ∀ ms mw, ∀ x ∈ fallback ms mw, P x)
    (harcs : ∀ b ms mw, ∀ x ∈ arcs b ms mw, P x) (fuel : Nat) :
    ∀ next, ∀ x ∈ mut_arc_nodes m T tr under n fallback arcs a fuel next, P x := by
  induction fuel with
  | zero =>
    intro next x hx
    cases hx
  | succ fuel ih =>
    intro next x hx
    unfold mut_arc_nodes at hx
    simp only [] at hx
    by_cases h1 : (m.take_non_epsilons next a).symbol = NO_SYMBOL
    · rw [if_pos h1] at hx
      cases hx
    · rw [if_neg h1] at hx
      rcases List.mem_append.1 hx with h2 | h2
      · split_ifs at h2 with h3 h4 h5 h6
        · rw [List.mem_singleton.1 h2]
          exact hdel _ _
        · cases h2
        · exact hfb _ _ x h2
        · cases h2
        · exact harcs _ _ _ x h2
      · exact ih _ x h2

namespace Speller

theorem mem_arc_successors_input_state (S : Speller) (b : SymbolNumber)
    (ms : TransitionTableIndex) (mw : Weight) (inc : Nat) (x : TreeNode)
    (h : x ∈ S.arc_successors b ms mw inc) :
    x.input_state = S.next_node.input_state + inc := by
  unfold arc_successors at h
  obtain ⟨p, _, _, _, hx⟩ := (mem_arc_nodes _ _ _ _ _ _ _ _ _ _ _ _).1 h
  rw [hx]
  rfl

theorem mem_fallback_successors_input_state (S : Speller) (ms : TransitionTableIndex)
    (mw : Weight) (inc : Nat) (x : TreeNode) (h : x ∈ S.fallback_successors ms mw inc) :
    x.input_state = S.next_node.input_state + inc := by
  unfold fallback_successors at h
  rcases List.mem_append.1 h with h1 | h1 <;> split_ifs at h1
  · exact mem_arc_successors_input_state _ _ _ _ _ _ h1
  · cases h1
  · exact mem_arc_successors_input_state _ _ _ _ _ _ h1
  · cases h1

/-- Every node pushed by `consume_input` has consumed one more input symbol. -/
theorem mem_input_successors_input_state (S : Speller) (m : Transducer) (x : TreeNode)
    (h : x ∈ S.input_successors m) :
    S.next_node.input_state < S.input.length ∧
      x.input_state = S.next_node.input_state + 1 := by
  have hmut : ∀ a, ∀ x ∈ S.mutator_arc_successors m a,
      x.input_state = S.next_node.input_state + 1 := by
    intro a x hx
    unfold mutator_arc_successors at hx
    exact mut_arc_nodes_forall _ _ _ _ _ _ _ _
      (fun x => x.input_state = S.next_node.input_state + 1) (fun _ _ => rfl)
      (fun ms mw x hx => mem_fallback_successors_input_state S ms mw 1 x hx)
      (fun b ms mw x hx => mem_arc_successors_input_state S b ms mw 1 x hx) _ _ x hx
  unfold input_successors at h
  by_cases h1 : S.next_node.input_state ≥ S.input.length
  · rw [if_pos h1] at h
    cases h
  · rw [if_neg h1] at h
    refine ⟨not_le.1 h1, ?_⟩
    simp only [] at h
    split_ifs at h
    all_goals try simp only [List.mem_append, List.not_mem_nil, or_false, false_or] at h
    all_goals first
      | exact hmut _ x h
      | (rcases h with h | h <;> exact hmut _ x h)

theorem demo_mutator_no_epsilons (i : Nat) : demo_mutator.has_transitions i 0 = false := by
  have h1 : ∀ j, demo_mutator.transitions_input_symbol j ≠ 0 := by
    intro j
    unfold Transducer.transitions_input_symbol
    rcases j with _ | _ | _ | j <;> simp [demo_mutator, NO_SYMBOL]
  have h2 : ∀ j, demo_mutator.indices_input_symbol j ≠ 0 := by
    intro j
    unfold Transducer.indices_input_symbol
    rcases j with _ | _ | _ | _ | j <;> simp [demo_mutator, NO_SYMBOL]
  unfold Transducer.has_transitions
  split_ifs
  · rfl
  · simp only [beq_eq_false_iff_ne, ne_eq]
    exact h1 _
  · simp only [beq_eq_false_iff_ne, ne_eq]
    exact h2 _

/-- With the concrete transducers every pushed node has consumed one more
input symbol. -/
theorem demo_successors_rank (input tr : SymbolVector) (S0 : Speller)
    (hctx : CorrCtx demo_lexicon input tr S0) (x : TreeNode)
    (hx : x ∈ S0.successors demo_mutator) :
    input.length - x.input_state < input.length - S0.next_node.input_state := by
  obtain ⟨hlex, hinp, _⟩ := hctx
  unfold successors at hx
  rcases List.mem_append.1 hx with h1 | h1
  · unfold eps_successors at h1
    rw [hlex, demo_lexicon_no_epsilons] at h1
    simp only [if_true] at h1
    cases h1
  · rcases List.mem_append.1 h1 with h2 | h2
    · unfold mutator_eps_successors at h2
      rw [demo_mutator_no_epsilons] at h2
      simp only [if_true] at h2
      cases h2
    · obtain ⟨h3, h4⟩ := mem_input_successors_input_state S0 demo_mutator x h2
      rw [hinp] at h3
      omega

end Speller

namespace Speller

/-- Witness of C2 (amended) on the concrete transducers and the word `aa`:
the lexicon reads `a` twice at weights 1 and 0 while the error model copies
it, and the call returns a queue that holds `aa` with a weight of at most
1. -/
theorem correct_contains_word_witness :
    ∃ fuel r, (demo_speller [1, 1]).correct 0 (-1) (-1) 0 clock_never fuel = some r ∧
      ∃ w, w ≤ 1 ∧ ("aa", w) ∈ r.1 := by
  have h1 : CorrStep demo_mutator demo_lexicon [1, 1] [0, 1, 2] (fun w => w ≤ WEIGHT_MAX)
      copy_arc (demo_speller [1, 1]).start_node ⟨[1], 1, 0, 4, [], 1⟩ :=
    CorrStep.arc (demo_speller [1, 1]).start_node 1 1 1 0 (by decide) (by decide) (by decide)
      (by decide)
      ⟨by decide, fun j _ h2 => by
        have hj : j ≤ 1 := h2
        interval_cases j <;> decide⟩
      (by decide) ⟨by decide, by decide⟩ (by decide) (by decide)
      ⟨by decide, fun j _ h2 => by
        have hj : j = 0 := Nat.le_zero.1 h2
        subst hj
        decide⟩
      (by decide)
  have h2 : CorrStep demo_mutator demo_lexicon [1, 1] [0, 1, 2] (fun w => w ≤ WEIGHT_MAX)
      copy_arc ⟨[1], 1, 0, 4, [], 1⟩ ⟨[1, 1], 2, 0, TARGET_TABLE + 4, [], 1⟩ :=
    CorrStep.arc ⟨[1], 1, 0, 4, [], 1⟩ 1 1 1 2 (by decide) (by decide) (by decide)
      (by decide)
      ⟨by decide, fun j _ h2 => by
        have hj : j ≤ 1 := h2
        interval_cases j <;> decide⟩
      (by decide) ⟨by decide, by decide⟩ (by decide) (by decide)
      ⟨by decide, fun j h1 h2 => by
        have hj : j = 2 := le_antisymm h2 (by simpa using h1)
        subst hj
        decide⟩
      (by decide)
  have H := correct_contains_word (demo_speller [1, 1]) demo_mutator (-1) (-1) 0 clock_never
    ⟨[1, 1], 2, 0, TARGET_TABLE + 4, [], 1⟩ rfl (by decide) (by decide) (by decide)
    (by decide) (by decide)
    (Relation.ReflTransGen.head h1 (Relation.ReflTransGen.single h2))
    ⟨by decide, by decide, by decide⟩ (by decide) (by decide)
  obtain ⟨fuel, r, hr⟩ := H.2 (fun n => [1, 1].length - n.input_state)
    (fun S0 hctx x hx => demo_successors_rank [1, 1] [0, 1, 2] S0 hctx x hx)
  obtain ⟨w, hle, hmem⟩ := H.1 fuel r hr
  exact ⟨fuel, r, hr, w, hle, hmem⟩

end Speller

/-! ## The order of the correction queue -/

theorem StringWeightComparison_false_iff (a b : StringWeightPair) :
    StringWeightComparison false a b = false ↔ a.2 ≤ b.2 := by
  simp [StringWeightComparison]

theorem pop_order_perm (comp : StringWeightPair → StringWeightPair → Bool)
    (q : CorrectionQueue) (out : List StringWeightPair) (h : PopOrder comp q out) :
    out.Perm q := by
  induction h with
  | done => exact List.Perm.refl _
  | pop q rest t out _ hperm _ ih => exact (List.Perm.cons t ih).trans hperm.symm

theorem pop_order_pairwise (q : CorrectionQueue) (out : List StringWeightPair)
    (h : PopOrder (StringWeightComparison false) q out) :
    out.Pairwise (fun a b => a.2 ≤ b.2) := by
  induction h with
  | done => exact List.Pairwise.nil
  | pop q rest t out htop hperm hrest ih =>
    refine List.Pairwise.cons (fun b hb => ?_) ih
    have hb1 : b ∈ rest := (pop_order_perm _ _ _ hrest).subset hb
    have hb2 : b ∈ q := hperm.symm.subset (List.mem_cons_of_mem _ hb1)
    exact (StringWeightComparison_false_iff t b).1 (htop.2 b hb2)

theorem CorrectionQueue.top_is_top (q : CorrectionQueue) (t : StringWeightPair)
    (h : CorrectionQueue.top (StringWeightComparison false) q = some t) :
    IsTop (StringWeightComparison false) q t := by
  induction q generalizing t with
  | nil => simp [CorrectionQueue.top] at h
  | cons x xs ih =>
    unfold CorrectionQueue.top at h
    cases hxs : CorrectionQueue.top (StringWeightComparison false) xs with
    | none =>
      rw [hxs] at h
      have hnil : xs = [] := by
        cases xs with
        | nil => rfl
        | cons y ys =>
          unfold CorrectionQueue.top at hxs
          cases hys : CorrectionQueue.top (StringWeightComparison false) ys with
          | none => rw [hys] at hxs; simp at hxs
          | some u => rw [hys] at hxs; simp only [] at hxs; split_ifs at hxs
      simp only [Option.some.injEq] at h
      subst h; subst hnil
      exact ⟨List.mem_singleton_self _, fun y hy => by
        rw [List.mem_singleton.1 hy, StringWeightComparison_false_iff]⟩
    | some u =>
      rw [hxs] at h
      simp only [] at h
      obtain ⟨hu, hmin⟩ := ih u hxs
      by_cases hc : StringWeightComparison false x u = true
      · rw [if_pos hc] at h
        simp only [Option.some.injEq] at h
        subst h
        refine ⟨List.mem_cons_of_mem _ hu, fun y hy => ?_⟩
        rcases List.mem_cons.1 hy with rfl | hy
        · rw [StringWeightComparison_false_iff]
          simp [StringWeightComparison] at hc
          exact le_of_lt hc
        · exact hmin y hy
      · rw [if_neg hc] at h
        simp only [Option.some.injEq] at h
        subst h
        refine ⟨List.mem_cons_self _ _, fun y hy => ?_⟩
        rcases List.mem_cons.1 hy with rfl | hy
        · rw [StringWeightComparison_false_iff]
        · have h1 := (StringWeightComparison_false_iff _ _).1 (hmin y hy)
          have h2 := (StringWeightComparison_false_iff _ _).1 (Bool.eq_false_iff.2 hc)
          exact (StringWeightComparison_false_iff _ _).2 (le_trans h2 h1)

theorem CorrectionQueue.top_isSome (comp : StringWeightPair → StringWeightPair → Bool)
    (q : CorrectionQueue) (h : q ≠ []) : ∃ t, CorrectionQueue.top comp q = some t := by
  cases q with
  | nil => exact absurd rfl h
  | cons x xs =>
    unfold CorrectionQueue.top
    cases CorrectionQueue.top comp xs with
    | none => exact ⟨x, rfl⟩
    | some u =>
      by_cases hc : comp x u = true
      · exact ⟨u, by simp [hc]⟩
      · exact ⟨x, by simp [hc]⟩

theorem CorrectionQueue.perm_cons_remove (t : StringWeightPair) (q : CorrectionQueue)
    (h : t ∈ q) : q.Perm (t :: CorrectionQueue.remove t q) := by
  induction q with
  | nil => cases h
  | cons x xs ih =>
    unfold CorrectionQueue.remove
    by_cases hx : x = t
    · rw [if_pos hx, hx]
    · rw [if_neg hx]
      rcases List.mem_cons.1 h with h1 | h1
      · exact absurd h1.symm hx
      · exact (List.Perm.cons x (ih h1)).trans (List.Perm.swap _ _ _)

/-- The wrapper's loop empties the queue within `length + 1` iterations and
pops the pairs in an order allowed by the queue's contract. -/
theorem py_suggest_loop_spec (n : Nat) (q : CorrectionQueue) (popped : List StringWeightPair)
    (hn : q.length = n) :
    ∃ out, py_suggest_loop (StringWeightComparison false) (n + 1) q popped = some (popped ++ out) ∧
      PopOrder (StringWeightComparison false) q out := by
  induction n generalizing q popped with
  | zero =>
    have hq : q = [] := List.length_eq_zero.1 hn
    subst hq
    exact ⟨[], by simp [py_suggest_loop], PopOrder.done⟩
  | succ n ih =>
    have hne : q ≠ [] := by
      intro h0; rw [h0] at hn; simp at hn
    obtain ⟨t, ht⟩ := CorrectionQueue.top_isSome (StringWeightComparison false) q hne
    have htop := CorrectionQueue.top_is_top q t ht
    have hlen : (CorrectionQueue.pop (StringWeightComparison false) q).length = n := by
      have hp := (CorrectionQueue.perm_cons_remove t q htop.1).length_eq
      simp only [CorrectionQueue.pop, ht]
      rw [List.length_cons, hn] at hp
      omega
    obtain ⟨out, hout, hpo⟩ := ih _ (popped ++ [t]) hlen
    refine ⟨t :: out, ?_, PopOrder.pop q _ t out htop ?_ hpo⟩
    · rw [py_suggest_loop]
      have : q.length > 0 := by omega
      simp only [this, if_true, ht, hout, List.append_assoc, List.singleton_append]
    · simp only [CorrectionQueue.pop, ht]
      exact CorrectionQueue.perm_cons_remove t q htop.1

/-- C11: for a correction queue under the default comparison, every sequence
`out` that repeated `top()`/`pop()` can produce holds exactly the stored
pairs, in non-decreasing weight order; and the loop of the Python wrapper's
`suggest` empties the queue within `length + 1` iterations, its list being
the strings of such a sequence. -/
theorem correction_queue_order (q : CorrectionQueue) (out : List StringWeightPair)
    (h : PopOrder (StringWeightComparison false) q out) :
    out.Perm q ∧ out.Pairwise (fun a b => a.2 ≤ b.2) ∧
    ∃ popped, PopOrder (StringWeightComparison false) q popped ∧
      popped.Pairwise (fun a b => a.2 ≤ b.2) ∧
      py_suggest q (q.length + 1) = some (popped.map Prod.fst) := by
  refine ⟨pop_order_perm _ _ _ h, pop_order_pairwise _ _ h, ?_⟩
  obtain ⟨l, hl, hpo⟩ := py_suggest_loop_spec q.length q [] rfl
  exact ⟨l, hpo, pop_order_pairwise _ _ hpo, by simp [py_suggest, hl]⟩

theorem correction_queue_order_witness :
    PopOrder (StringWeightComparison false) [("b", 2), ("a", 1), ("c", 2)]
        [("a", 1), ("c", 2), ("b", 2)] ∧
      ([("a", 1), ("c", 2), ("b", 2)] : List StringWeightPair).Perm
        [("b", 2), ("a", 1), ("c", 2)] ∧
      py_suggest [("b", 2), ("a", 1), ("c", 2)] 4 = some ["a", "b", "c"] := by
  have hpo : PopOrder (StringWeightComparison false) [("b", 2), ("a", 1), ("c", 2)]
      [("a", 1), ("c", 2), ("b", 2)] := by
    refine PopOrder.pop _ [("b", 2), ("c", 2)] _ _ ⟨by simp, by decide⟩ ?_ ?_
    · exact List.Perm.swap _ _ _
    refine PopOrder.pop _ [("b", 2)] _ _ ⟨by simp, by decide⟩ ?_ ?_
    · exact List.Perm.swap _ _ _
    refine PopOrder.pop _ [] _ _ ⟨by simp, by decide⟩ (List.Perm.refl _) PopOrder.done
  exact ⟨hpo, (correction_queue_order _ _ hpo).1, by decide⟩

/-! ## The limiting behaviour -/

/-- C13: `is_under_weight_limit(w)` is `w < limit` when `limiting` is `Nbest`
and `w ≤ limit` under each of the seven other limiting behaviours. -/
theorem Speller.is_under_weight_limit_cases (S : Speller) (w : Weight) :
    S.is_under_weight_limit w =
      match S.limiting with
      | LimitingBehaviour.Nbest => decide (w < S.limit)
      | LimitingBehaviour.None => decide (w ≤ S.limit)
      | LimitingBehaviour.MaxWeight => decide (w ≤ S.limit)
      | LimitingBehaviour.Beam => decide (w ≤ S.limit)
      | LimitingBehaviour.MaxWeightNbest => decide (w ≤ S.limit)
      | LimitingBehaviour.MaxWeightBeam => decide (w ≤ S.limit)
      | LimitingBehaviour.NbestBeam => decide (w ≤ S.limit)
      | LimitingBehaviour.MaxWeightNbestBeam => decide (w ≤ S.limit) := by
  unfold Speller.is_under_weight_limit
  cases S.limiting <;> simp


/-! ## The cached answers of `correct` -/

namespace Speller

theorem collect_results_filter (xs : List (String × Weight)) :
    ∀ (S : Speller) (q : CorrectionQueue),
      collect_results 0 xs S q = (S, q ++ xs.filter (fun it => decide (it.2 ≤ S.limit))) := by
  induction xs with
  | nil => intro S q; simp [collect_results]
  | cons it rest ih =>
    intro S q
    unfold collect_results
    by_cases h : it.2 ≤ S.limit
    · simp [h, ih, List.filter_cons]
    · simp [h, ih, List.filter_cons]

end Speller

theorem StringWeightMap.insert_if_better_keys (m : StringWeightMap) (k : String) (w : Weight) :
    ∀ p ∈ m.insert_if_better k w, p.1 = k ∨ p ∈ m := by
  induction m with
  | nil =>
    intro p hp
    simp only [StringWeightMap.insert_if_better, List.mem_singleton] at hp
    exact Or.inl (by rw [hp])
  | cons x rest ih =>
    obtain ⟨k0, w0⟩ := x
    intro p hp
    unfold StringWeightMap.insert_if_better at hp
    split_ifs at hp with h1 h2 h3
    · rcases List.mem_cons.1 hp with h | h
      · exact Or.inl (by rw [h])
      · exact Or.inr h
    · rcases List.mem_cons.1 hp with h | h
      · exact Or.inl (by rw [h, h2])
      · exact Or.inr (List.mem_cons_of_mem _ h)
    · exact Or.inr hp
    · rcases List.mem_cons.1 hp with h | h
      · exact Or.inr (by rw [h]; exact List.mem_cons_self _ _)
      · rcases ih p h with h | h
        · exact Or.inl h
        · exact Or.inr (List.mem_cons_of_mem _ h)

theorem StringWeightMap.insert_if_better_sorted (m : StringWeightMap) (k : String) (w : Weight)
    (hm : m.Pairwise (fun a b => a.1 < b.1)) :
    (m.insert_if_better k w).Pairwise (fun a b => a.1 < b.1) := by
  induction m with
  | nil => simp [StringWeightMap.insert_if_better]
  | cons x rest ih =>
    obtain ⟨k0, w0⟩ := x
    rw [List.pairwise_cons] at hm
    unfold StringWeightMap.insert_if_better
    split_ifs with h1 h2 h3
    · refine List.Pairwise.cons (fun b hb => ?_) (List.Pairwise.cons hm.1 hm.2)
      rcases List.mem_cons.1 hb with h | h
      · rw [h]; exact h1
      · exact lt_trans h1 (hm.1 b h)
    · exact List.Pairwise.cons hm.1 hm.2
    · exact List.Pairwise.cons hm.1 hm.2
    · refine List.Pairwise.cons (fun b hb => ?_) (ih hm.2)
      rcases StringWeightMap.insert_if_better_keys rest k w b hb with h | h
      · rw [h]
        exact lt_of_le_of_ne (not_lt.1 h1) (fun h => h2 h.symm)
      · exact hm.1 b h

namespace Speller

theorem build_cache_loop_sorted (m : Transducer) (fs : SymbolNumber) (fuel : Nat) :
    ∀ (S : Speller) (c0 c1 : StringWeightMap)
      (r : Speller × StringWeightMap × StringWeightMap),
      c0.Pairwise (fun a b => a.1 < b.1) → c1.Pairwise (fun a b => a.1 < b.1) →
      build_cache_loop m fs fuel S c0 c1 = some r →
      r.2.1.Pairwise (fun a b => a.1 < b.1) ∧ r.2.2.Pairwise (fun a b => a.1 < b.1) := by
  induction fuel with
  | zero =>
    intro S c0 c1 r h0 h1 h
    unfold build_cache_loop at h
    split_ifs at h
    cases h
    exact ⟨h0, h1⟩
  | succ fuel ih =>
    intro S c0 c1 r h0 h1 h
    unfold build_cache_loop at h
    split at h
    · cases h
      exact ⟨h0, h1⟩
    · refine ih _ _ _ _ ?_ ?_ h
      · unfold build_cache_body
        simp only []
        split_ifs
        · exact StringWeightMap.insert_if_better_sorted _ _ _ h0
        · exact h0
      · unfold build_cache_body
        simp only []
        split_ifs
        · exact StringWeightMap.insert_if_better_sorted _ _ _ h1
        · exact h1

end Speller


namespace Speller

theorem correct_cached_eq (S : Speller) (maxweight beam : Weight) (hmw : maxweight < 0)
    (hbeam : beam < 0) :
    (S.correct_cached 0 maxweight beam).1 =
      S.cached_results.filter (fun it => decide (it.2 ≤ WEIGHT_MAX)) := by
  unfold correct_cached
  simp only []
  rw [limits_without_limit _ maxweight beam hmw hbeam, collect_results_filter]
  simp only [List.nil_append]
  rfl

theorem SearchFrame.cache_eq {S S' : Speller} (h : SearchFrame S S') : S'.cache = S.cache := by
  obtain ⟨q, n, h⟩ := h
  rw [h]

theorem build_cache_body_cache_length (m : Transducer) (fs : SymbolNumber) (S : Speller)
    (c0 c1 : StringWeightMap) :
    (build_cache_body m fs S c0 c1).1.cache.length = S.cache.length := by
  have h1 : (S.lexicon_epsilons.mutator_epsilons m).cache = S.cache :=
    ((lexicon_epsilons_frame S).sf_trans (mutator_epsilons_frame _ m)).cache_eq
  unfold build_cache_body
  simp only []
  split_ifs
  · rw [(consume_input_frame _ m).cache_eq]
    simp only [cache_update_length, h1]
  · simp only [cache_update_length, h1]
  · rw [(consume_input_frame _ m).cache_eq, h1]
  · rw [h1]

theorem build_cache_loop_cache_length (m : Transducer) (fs : SymbolNumber) (fuel : Nat) :
    ∀ (S : Speller) (c0 c1 : StringWeightMap)
      (r : Speller × StringWeightMap × StringWeightMap),
      build_cache_loop m fs fuel S c0 c1 = some r → r.1.cache.length = S.cache.length := by
  induction fuel with
  | zero =>
    intro S c0 c1 r h
    unfold build_cache_loop at h
    split_ifs at h
    cases h
    rfl
  | succ fuel ih =>
    intro S c0 c1 r h
    unfold build_cache_loop at h
    split at h
    · cases h
      rfl
    · rw [ih _ _ _ _ h, build_cache_body_cache_length]

theorem build_cache_sorted (S : Speller) (m : Transducer) (fs : SymbolNumber) (fuel : Nat)
    (S2 : Speller) (h : S.build_cache m fs fuel = some S2) (hfs : fs < S.cache.length) :
    (S2.cache.getD fs CacheContainer.fresh).results_len_0.Pairwise (fun a b => a.1 < b.1) ∧
    (S2.cache.getD fs CacheContainer.fresh).results_len_1.Pairwise (fun a b => a.1 < b.1) := by
  obtain ⟨S1, c0, c1, hloop, hS2⟩ := build_cache_some S m fs fuel S2 h
  have hsorted := build_cache_loop_sorted m fs fuel _ [] [] _ List.Pairwise.nil
    List.Pairwise.nil hloop
  have hlen : S1.cache.length = S.cache.length :=
    build_cache_loop_cache_length m fs fuel _ [] [] _ hloop
  subst hS2
  simp only []
  rw [cache_update_getD _ _ _ (by rw [hlen]; exact hfs)]
  exact hsorted

theorem pairwise_lt_nodup_keys (l : List (String × Weight))
    (h : l.Pairwise (fun a b => a.1 < b.1)) : (l.map Prod.fst).Nodup := by
  rw [List.Nodup, List.pairwise_map]
  exact h.imp (fun hab => ne_of_lt hab)

/-- C14 (amended): for an input of at most one symbol, `correct` without
limits returns whenever the look-up of the first-symbol cache does (which
runs `build_cache` when the entry is still empty), and the queue then holds,
in the order of the cached vector, exactly the cached entries whose weight is
at most `WEIGHT_MAX`: those of `results_len_0` for the empty input and of
`results_len_1` for a single symbol.  When the entry was built in this call
and the first symbol indexes the cache, no string occurs twice in it. -/
theorem correct_returns_cached (S : Speller) (m : Transducer)
    (maxweight beam time_cutoff : Weight) (clock_exceeded : Nat → Bool) (fuel : Nat)
    (hm : S.mutator = some m) (hlen : S.input.length ≤ 1)
    (hmw : maxweight < 0) (hbeam : beam < 0) :
    (S.correct 0 maxweight beam time_cutoff clock_exceeded fuel).map Prod.fst =
        ((S.correct_prepare 0 maxweight beam time_cutoff).correct_cache m fuel).map
          (fun S1 => S1.cached_results.filter (fun it => decide (it.2 ≤ WEIGHT_MAX))) ∧
      ∀ S1, (S.correct_prepare 0 maxweight beam time_cutoff).correct_cache m fuel = some S1 →
        (S.cache.getD S.first_input CacheContainer.fresh).empty = true →
        S.first_input < S.cache.length →
        (S1.cached_results.map Prod.fst).Nodup := by
  have hP : (S.correct_prepare 0 maxweight beam time_cutoff).input = S.input ∧
      (S.correct_prepare 0 maxweight beam time_cutoff).cache = S.cache := by
    unfold correct_prepare set_limiting_behaviour
    simp only []
    split_ifs <;> exact ⟨rfl, rfl⟩
  constructor
  · unfold correct
    rw [hm]
    simp only []
    cases hc : (S.correct_prepare 0 maxweight beam time_cutoff).correct_cache m fuel with
    | none => rfl
    | some S1 =>
      obtain ⟨q, n, l, c, hS1⟩ := correct_cache_frame _ m fuel S1 hc
      have hin : S1.input = S.input := by rw [hS1]; exact hP.1
      simp only [hin, hlen, if_true, Option.map_some']
      rw [correct_cached_eq S1 maxweight beam hmw hbeam]
  · intro S1 hc hempty hfs
    obtain ⟨q, n, l, c, hS1⟩ := correct_cache_frame _ m fuel S1 hc
    have hin : S1.input = S.input := by rw [hS1]; exact hP.1
    have hfi : (S.correct_prepare 0 maxweight beam time_cutoff).first_input = S.first_input := by
      unfold first_input; rw [hP.1]
    have hfi1 : S1.first_input = S.first_input := by
      unfold first_input; rw [hin]
    unfold correct_cache at hc
    rw [hfi, hP.2, hempty] at hc
    simp only [if_true] at hc
    have hs := build_cache_sorted _ m _ fuel S1 hc (by rw [hP.2]; exact hfs)
    unfold cached_results
    rw [hfi1]
    split_ifs
    · exact pairwise_lt_nodup_keys _ hs.1
    · exact pairwise_lt_nodup_keys _ hs.2

theorem correct_returns_cached_witness :
    ((demo_speller [1]).correct 0 (-1) (-1) 0 clock_never 100).map Prod.fst
      = some [("a", 1), ("b", 2)] :=
  (correct_returns_cached (demo_speller [1]) demo_mutator (-1) (-1) 0 clock_never 100 rfl
    (by decide) (by decide) (by decide)).1.trans (by decide!)

/-- C14 as stated fails: for the one-symbol input `a`, `build_cache` stores
the entry `a` in `results_len_1` of the cache of `costly_speller` with a
weight above `WEIGHT_MAX` (infinite in single precision), and `correct`
without limits returns the empty queue. -/
theorem correct_drops_cached_entry :
    ((costly_speller [1]).correct 0 (-1) (-1) 0 clock_never 100).map
      (fun r => (r.1, (r.2.cache.getD 1 CacheContainer.fresh).results_len_1))
      = some ([], [("a", 2 * WEIGHT_MAX)]) := by
  decide!

end Speller


/-! ## The tokeniser: the trie and the table of one-byte symbols -/

theorem LetterTrie.add_string_letters (t : LetterTrie) (c : Char) (rest : List Char)
    (key : SymbolNumber) (b : Char) (h : b ≠ c ∨ rest = []) :
    (t.add_string c rest key).letters b = t.letters b := by
  obtain ⟨l, s⟩ := t
  cases rest with
  | nil => rfl
  | cons c1 rest =>
    rcases h with h | h
    · simp only [LetterTrie.add_string, LetterTrie.letters, if_neg h]
    · cases h

theorem LetterTrie.add_string_letters_self (t : LetterTrie) (c c1 : Char) (rest : List Char)
    (key : SymbolNumber) : ((t.add_string c (c1 :: rest) key).letters c).isSome = true := by
  obtain ⟨l, s⟩ := t
  simp only [LetterTrie.add_string, LetterTrie.letters, if_true, Option.isSome_some]

theorem LetterTrie.add_string_symbols (t : LetterTrie) (c : Char) (rest : List Char)
    (key : SymbolNumber) (b : Char) :
    (t.add_string c rest key).symbols b =
      if b = c ∧ rest = [] then key else t.symbols b := by
  obtain ⟨l, s⟩ := t
  cases rest with
  | nil => simp only [LetterTrie.add_string, LetterTrie.symbols, and_true]
  | cons c1 rest =>
    simp only [LetterTrie.add_string, LetterTrie.symbols, reduceCtorEq, and_false, if_false]

theorem Encoder.shortcut_fresh : Encoder.fresh.Shortcut := by
  intro b hb
  exact absurd rfl hb

theorem Encoder.read_input_symbol_shortcut (e : Encoder) (s : List Char) (s_num : Int)
    (h : e.Shortcut) : (e.read_input_symbol s s_num).Shortcut := by
  cases s with
  | nil => exact h
  | cons c rest =>
    intro b hb
    unfold Encoder.read_input_symbol at hb ⊢
    simp only [] at hb ⊢
    split_ifs at hb ⊢ with h1 h2
    · -- the one-byte symbol goes to the shortcut table
      obtain ⟨hrest, hc, hk⟩ := h1
      subst hrest
      have hk : e.letters.letters c = none := by
        cases hx : e.letters.letters c with
        | none => rfl
        | some t =>
          rw [LetterTrie.has_key_starting_with, hx] at hk
          cases hk
      rw [LetterTrie.add_string_letters _ _ _ _ _ (Or.inr rfl), LetterTrie.add_string_symbols]
      by_cases hbc : b = c
      · subst hbc
        simp only [if_true, and_self] at hb ⊢
        exact ⟨hc, hk, trivial⟩
      · simp only [if_neg hbc, hbc, false_and, if_false] at hb ⊢
        exact h b hb
    · -- the shortcut entry is removed
      by_cases hbc : b = c
      · subst hbc
        simp only [if_true, ne_eq, not_true_eq_false] at hb
      · simp only [if_neg hbc] at hb ⊢
        rw [LetterTrie.add_string_letters _ _ _ _ _ (Or.inl hbc), LetterTrie.add_string_symbols]
        simp only [hbc, false_and, if_false]
        exact h b hb
    · -- the table is left alone
      by_cases hbc : b = c
      · subst hbc
        exfalso
        exact h2 ⟨(h b hb).1, hb⟩
      · rw [LetterTrie.add_string_letters _ _ _ _ _ (Or.inl hbc), LetterTrie.add_string_symbols]
        simp only [hbc, false_and, if_false]
        exact h b hb

theorem Encoder.foldl_shortcut (calls : List (List Char × Int)) :
    ∀ e : Encoder, e.Shortcut →
      (calls.foldl (fun e c => e.read_input_symbol c.1 c.2) e).Shortcut := by
  induction calls with
  | nil => intro e h; exact h
  | cons c cs ih =>
    intro e h
    exact ih _ (Encoder.read_input_symbol_shortcut e c.1 c.2 h)

theorem Encoder.of_calls_shortcut (calls : List (List Char × Int)) :
    (Encoder.of_calls calls).Shortcut :=
  Encoder.foldl_shortcut calls _ Encoder.shortcut_fresh

theorem Encoder.read_input_symbol_letters_none (e : Encoder) (s : List Char) (s_num : Int)
    (b : Char) (h : (e.read_input_symbol s s_num).letters.letters b = none) :
    e.letters.letters b = none ∧ (s.head? = some b → s.length = 1) := by
  cases s with
  | nil => exact ⟨h, fun h0 => by cases h0⟩
  | cons c rest =>
    have key : ∀ e1 : Encoder, e1.letters = e.letters →
        (e1.letters.add_string c rest (s_num % 65536).toNat).letters b = none →
        e.letters.letters b = none ∧ ((c :: rest).head? = some b → (c :: rest).length = 1) := by
      intro e1 he1 h1
      rw [he1] at h1
      cases rest with
      | nil =>
        rw [LetterTrie.add_string_letters _ _ _ _ _ (Or.inr rfl)] at h1
        exact ⟨h1, fun _ => rfl⟩
      | cons c1 rest =>
        by_cases hbc : b = c
        · subst hbc
          have := LetterTrie.add_string_letters_self e.letters b c1 rest (s_num % 65536).toNat
          rw [h1] at this
          cases this
        · rw [LetterTrie.add_string_letters _ _ _ _ _ (Or.inl hbc)] at h1
          refine ⟨h1, fun h0 => ?_⟩
          simp only [List.head?_cons, Option.some.injEq] at h0
          exact absurd h0.symm hbc
    unfold Encoder.read_input_symbol at h
    simp only [] at h
    split_ifs at h
    · exact key _ rfl h
    · exact key _ rfl h
    · exact key _ rfl h

theorem Encoder.foldl_letters_none (calls : List (List Char × Int)) (b : Char) :
    ∀ e : Encoder,
      (calls.foldl (fun e c => e.read_input_symbol c.1 c.2) e).letters.letters b = none →
      e.letters.letters b = none ∧ ∀ c ∈ calls, c.1.head? = some b → c.1.length = 1 := by
  induction calls with
  | nil => intro e h; exact ⟨h, fun c hc => by cases hc⟩
  | cons c cs ih =>
    intro e h
    obtain ⟨h1, h2⟩ := ih _ h
    obtain ⟨h3, h4⟩ := Encoder.read_input_symbol_letters_none e c.1 c.2 b h1
    refine ⟨h3, fun c' hc' => ?_⟩
    rcases List.mem_cons.1 hc' with rfl | hc'
    · exact h4
    · exact h2 c' hc'

/-- C20: after any sequence of `read_input_symbol` calls on a new encoder,
a byte `b` with `ascii_symbols[b] != NO_SYMBOL` (such a byte is at most 127)
has `letters.has_key_starting_with(b)` false, and every registered string
that begins with `b` is one byte long. -/
theorem Encoder.ascii_symbol_not_shadowing (calls : List (List Char × Int)) (b : Char)
    (h : (Encoder.of_calls calls).ascii_symbols b ≠ NO_SYMBOL) :
    b.toNat ≤ 127 ∧ (Encoder.of_calls calls).letters.has_key_starting_with b = false ∧
      ∀ c ∈ calls, c.1.head? = some b → c.1.length = 1 := by
  have h1 := (Encoder.of_calls_shortcut calls b h).2.1
  refine ⟨(Encoder.of_calls_shortcut calls b h).1, ?_,
    (Encoder.foldl_letters_none calls b _ h1).2⟩
  simp only [LetterTrie.has_key_starting_with, h1, Option.isSome_none]

theorem Encoder.ascii_symbol_not_shadowing_witness :
    (Encoder.of_calls [(['a'], 1), (['b', 'c'], 2), (['b'], 3)]).ascii_symbols 'a' = 1 ∧
      (Encoder.of_calls [(['a'], 1), (['b', 'c'], 2), (['b'], 3)]).ascii_symbols 'b'
        = NO_SYMBOL ∧
      (Encoder.of_calls [(['a'], 1), (['b', 'c'], 2), (['b'], 3)]).letters.has_key_starting_with
        'a' = false :=
  ⟨by decide, by decide,
   (Encoder.ascii_symbol_not_shadowing [(['a'], 1), (['b', 'c'], 2), (['b'], 3)] 'a'
      (by decide)).2.1⟩


theorem LetterTrie.lookup_fresh (s : List Char) : LetterTrie.fresh.lookup s = NO_SYMBOL := by
  cases s with
  | nil => rfl
  | cons c rest =>
    cases rest with
    | nil => rfl
    | cons c1 rest => rfl

theorem LetterTrie.lookup_add_string (rest : List Char) :
    ∀ (t : LetterTrie) (c : Char) (key : SymbolNumber) (s : List Char),
      (t.add_string c rest key).lookup s = if s = c :: rest then key else t.lookup s := by
  induction rest with
  | nil =>
    intro t c key s
    obtain ⟨l, sy⟩ := t
    cases s with
    | nil => simp [LetterTrie.lookup]
    | cons b r =>
      cases r with
      | nil =>
        simp only [LetterTrie.add_string, LetterTrie.lookup, LetterTrie.symbols,
          List.cons.injEq, and_true]
      | cons b1 r =>
        simp only [LetterTrie.add_string, LetterTrie.lookup, LetterTrie.letters,
          List.cons.injEq, reduceCtorEq, and_false, if_false]
  | cons c1 rest ih =>
    intro t c key s
    obtain ⟨l, sy⟩ := t
    cases s with
    | nil => simp [LetterTrie.lookup]
    | cons b r =>
      cases r with
      | nil =>
        simp only [LetterTrie.add_string, LetterTrie.lookup, LetterTrie.symbols,
          List.cons.injEq, reduceCtorEq, and_false, if_false]
      | cons b1 r =>
        simp only [LetterTrie.add_string, LetterTrie.lookup, LetterTrie.letters]
        by_cases hbc : b = c
        · subst hbc
          simp only [if_true, ih, List.cons.injEq, true_and]
          cases hl : l b with
          | none => simp only [LetterTrie.lookup_fresh]
          | some child => rfl
        · simp only [if_neg hbc, List.cons.injEq, hbc, false_and, if_false]

theorem LetterTrie.nulFree_fresh : LetterTrie.fresh.NulFree :=
  LetterTrie.NulFree.mk _ _ rfl rfl (fun c t h => by cases h)

theorem LetterTrie.nulFree_add_string (rest : List Char) :
    ∀ (t : LetterTrie) (c : Char) (key : SymbolNumber), t.NulFree → c ≠ Char.ofNat 0 →
      Char.ofNat 0 ∉ rest → (t.add_string c rest key).NulFree := by
  induction rest with
  | nil =>
    intro t c key ht hc _
    cases ht with
    | mk l sy h1 h2 h3 =>
      refine LetterTrie.NulFree.mk _ _ h1 ?_ h3
      simp only [if_neg (Ne.symm hc), h2]
  | cons c1 rest ih =>
    intro t c key ht hc hrest
    cases ht with
    | mk l sy h1 h2 h3 =>
      have hc1 : c1 ≠ Char.ofNat 0 := fun h => hrest (by rw [h]; exact List.mem_cons_self _ _)
      have hr : Char.ofNat 0 ∉ rest := fun h => hrest (List.mem_cons_of_mem _ h)
      refine LetterTrie.NulFree.mk _ _ ?_ h2 ?_
      · simp only [if_neg (Ne.symm hc), h1]
      · intro b t' hb
        by_cases hbc : b = c
        · subst hbc
          simp only [if_true, Option.some.injEq] at hb
          subst hb
          cases hl : l b with
          | none => exact ih _ _ _ LetterTrie.nulFree_fresh hc1 hr
          | some child => exact ih _ _ _ (h3 b child hl) hc1 hr
        · simp only [if_neg hbc] at hb
          exact h3 b t' hb

theorem LetterTrie.lookup_cons_some (t child : LetterTrie) (c : Char) (r : List Char)
    (h : t.letters c = some child) (hr : r ≠ []) : t.lookup (c :: r) = child.lookup r := by
  cases r with
  | nil => exact absurd rfl hr
  | cons c1 r => simp only [LetterTrie.lookup, h]

theorem LetterTrie.lookup_cons_none (t : LetterTrie) (c : Char) (r : List Char)
    (h : t.letters c = none) (hr : r ≠ []) : t.lookup (c :: r) = NO_SYMBOL := by
  cases r with
  | nil => exact absurd rfl hr
  | cons c1 r => simp only [LetterTrie.lookup, h]

theorem take_ne_nil_of_pos (r : List Char) (n : Nat) (hn : 1 ≤ n) (hr : 1 ≤ r.length) :
    r.take n ≠ [] := by
  intro h
  have := congrArg List.length h
  simp only [List.length_take, List.length_nil] at this
  omega

/-- The trie's `find_key` returns the symbol of the longest prefix of the
line that the trie has a symbol for, and the length of that prefix; when
there is none it returns `NO_SYMBOL`, having advanced by one byte. -/
theorem LetterTrie.find_key_spec (line : List Char) :
    ∀ t : LetterTrie, t.NulFree →
      ∃ s advanced, t.find_key line = some (s, advanced) ∧
        (s ≠ NO_SYMBOL → 1 ≤ advanced ∧ advanced ≤ line.length ∧
          t.lookup (line.take advanced) = s) ∧
        (s = NO_SYMBOL → advanced = 1) ∧
        (∀ n, n ≤ line.length → (s = NO_SYMBOL ∨ advanced < n) →
          t.lookup (line.take n) = NO_SYMBOL) := by
  induction line with
  | nil =>
    intro t ht
    cases ht with
    | mk l sy h1 h2 h3 =>
      refine ⟨NO_SYMBOL, 1, ?_, fun h => absurd rfl h, fun _ => rfl, fun n _ _ => ?_⟩
      · simp only [LetterTrie.find_key, LetterTrie.letters, h1, LetterTrie.symbols, h2]
      · simp only [List.take_nil, LetterTrie.lookup]
  | cons c rest ih =>
    intro t ht
    cases ht with
    | mk l sy h1 h2 h3 =>
      have hone : (LetterTrie.mk l sy).lookup ((c :: rest).take 1) = sy c := rfl
      cases hl : l c with
      | none =>
        refine ⟨sy c, 1, ?_, fun _ => ⟨le_refl _, by simp, hone⟩, fun _ => rfl,
          fun n hn hc => ?_⟩
        · simp only [LetterTrie.find_key, LetterTrie.letters, hl, LetterTrie.symbols]
        · match n, hn, hc with
          | 0, _, _ => rfl
          | 1, _, hc =>
            rcases hc with hc | hc
            · rw [hone]; exact hc
            · omega
          | n + 2, hn, _ =>
            simp only [List.length_cons] at hn
            rw [List.take_succ_cons]
            exact LetterTrie.lookup_cons_none (LetterTrie.mk l sy) c _ hl
              (take_ne_nil_of_pos rest (n + 1) (by omega) (by omega))
      | some child =>
        obtain ⟨s, adv, hfk, hs1, hs2, hs3⟩ := ih child (h3 c child hl)
        by_cases hs : s = NO_SYMBOL
        · subst hs
          have hadv := hs2 rfl
          subst hadv
          refine ⟨sy c, 1, ?_, fun _ => ⟨le_refl _, by simp, hone⟩, fun _ => rfl,
            fun n hn hc => ?_⟩
          · simp only [LetterTrie.find_key, LetterTrie.letters, hl, hfk, LetterTrie.symbols,
              if_true]
          · match n, hn, hc with
            | 0, _, _ => rfl
            | 1, _, hc =>
              rcases hc with hc | hc
              · rw [hone]; exact hc
              · omega
            | n + 2, hn, _ =>
              simp only [List.length_cons] at hn
              rw [List.take_succ_cons, LetterTrie.lookup_cons_some (LetterTrie.mk l sy) child c _ hl
                (take_ne_nil_of_pos rest (n + 1) (by omega) (by omega))]
              exact hs3 (n + 1) (by omega) (Or.inl rfl)
        · obtain ⟨ha1, ha2, ha3⟩ := hs1 hs
          refine ⟨s, 1 + adv, ?_, fun _ => ⟨by omega, by simp only [List.length_cons]; omega, ?_⟩,
            fun h => absurd h hs, fun n hn hc => ?_⟩
          · simp only [LetterTrie.find_key, LetterTrie.letters, hl, hfk, if_neg hs]
          · rw [Nat.add_comm 1 adv, List.take_succ_cons, LetterTrie.lookup_cons_some (LetterTrie.mk l sy) child c _ hl
              (take_ne_nil_of_pos rest adv ha1 (by omega))]
            exact ha3
          · match n, hn, hc with
            | 0, _, hc =>
              rcases hc with hc | hc
              · exact absurd hc hs
              · omega
            | n + 1, hn, hc =>
              simp only [List.length_cons] at hn
              have hlt : adv < n := by
                rcases hc with hc | hc
                · exact absurd hc hs
                · omega
              rw [List.take_succ_cons, LetterTrie.lookup_cons_some (LetterTrie.mk l sy) child c _ hl
                (take_ne_nil_of_pos rest n (by omega) (by omega))]
              exact hs3 n (by omega) (Or.inr hlt)
theorem Encoder.find_key_eq_trie (e : Encoder) (h : e.Shortcut) (line : List Char) :
    e.find_key line = e.letters.find_key line := by
  unfold Encoder.find_key
  by_cases hc : e.ascii_symbols (line.headD (Char.ofNat 0)) = NO_SYMBOL
  · rw [if_pos hc]
  · rw [if_neg hc]
    obtain ⟨_, h2, h3⟩ := h _ hc
    cases line with
    | nil =>
      simp only [List.headD_nil] at h2 h3 ⊢
      simp only [LetterTrie.find_key, h2, h3]
    | cons c rest =>
      simp only [List.headD_cons] at h2 h3 ⊢
      simp only [LetterTrie.find_key, h2, h3]

theorem Encoder.read_input_symbol_letters (e : Encoder) (c : Char) (rest : List Char)
    (s_num : Int) :
    (e.read_input_symbol (c :: rest) s_num).letters =
      e.letters.add_string c rest (s_num % 65536).toNat := by
  unfold Encoder.read_input_symbol
  simp only []
  split_ifs <;> rfl

theorem Encoder.foldl_nulFree (calls : List (List Char × Int)) :
    ∀ e : Encoder, e.letters.NulFree → (∀ c ∈ calls, Char.ofNat 0 ∉ c.1) →
      (calls.foldl (fun e c => e.read_input_symbol c.1 c.2) e).letters.NulFree := by
  induction calls with
  | nil => intro e h _; exact h
  | cons c cs ih =>
    intro e h hnul
    refine ih _ ?_ (fun c' hc' => hnul c' (List.mem_cons_of_mem _ hc'))
    have hc := hnul c (List.mem_cons_self _ _)
    obtain ⟨s, n⟩ := c
    cases s with
    | nil => exact h
    | cons b rest =>
      simp only [] at hc ⊢
      rw [Encoder.read_input_symbol_letters]
      exact LetterTrie.nulFree_add_string rest _ b _ h
        (fun hb => hc (by rw [hb]; exact List.mem_cons_self _ _))
        (fun hr => hc (List.mem_cons_of_mem _ hr))

theorem Encoder.read_input_symbol_lookup (e : Encoder) (c : List Char × Int) (s : List Char) :
    (e.read_input_symbol c.1 c.2).letters.lookup s =
      if c.1 ≠ [] ∧ s = c.1 then Encoder.key_of c else e.letters.lookup s := by
  obtain ⟨s0, n⟩ := c
  cases s0 with
  | nil => simp [Encoder.read_input_symbol]
  | cons b rest =>
    simp only [Encoder.read_input_symbol_letters, LetterTrie.lookup_add_string, ne_eq,
      reduceCtorEq, not_false_eq_true, true_and, Encoder.key_of]

theorem Encoder.foldl_lookup_other (calls : List (List Char × Int)) (s : List Char) :
    ∀ e : Encoder, (∀ c ∈ calls, c.1 ≠ s) →
      (calls.foldl (fun e c => e.read_input_symbol c.1 c.2) e).letters.lookup s
        = e.letters.lookup s := by
  induction calls with
  | nil => intro e _; rfl
  | cons c cs ih =>
    intro e h
    simp only [List.foldl_cons]
    rw [ih _ (fun c' hc' => h c' (List.mem_cons_of_mem _ hc')), Encoder.read_input_symbol_lookup]
    have := h c (List.mem_cons_self _ _)
    rw [if_neg]
    rintro ⟨_, h'⟩
    exact this h'.symm

theorem Encoder.foldl_lookup_mem (calls : List (List Char × Int)) :
    ∀ e : Encoder, (calls.map Prod.fst).Nodup → ∀ c ∈ calls, c.1 ≠ [] →
      (calls.foldl (fun e c => e.read_input_symbol c.1 c.2) e).letters.lookup c.1
        = Encoder.key_of c := by
  induction calls with
  | nil => intro e _ c hc; cases hc
  | cons c0 cs ih =>
    intro e hd c hc hne
    simp only [List.map_cons, List.nodup_cons] at hd
    simp only [List.foldl_cons]
    rcases List.mem_cons.1 hc with rfl | hc
    · rw [Encoder.foldl_lookup_other cs c.1 _ (fun c' hc' h' =>
        hd.1 (by rw [← h']; exact List.mem_map_of_mem _ hc')),
        Encoder.read_input_symbol_lookup]
      simp only [hne, ne_eq, not_false_eq_true, and_self, if_true]
    · exact ih _ hd.2 c hc hne

/-- C19 (amended): let an encoder be built by `read_input_symbol` calls on
distinct non-empty C strings with symbol numbers whose 16-bit value is not
`NO_SYMBOL`.  On every line `find_key` either returns the symbol number of
the longest registered string that is a prefix of the line and advances by
the length of that string, or, when no registered string is a prefix of the
line, returns `NO_SYMBOL`. -/
theorem Encoder.find_key_longest_match (calls : List (List Char × Int)) (line : List Char)
    (hne : ∀ c ∈ calls, c.1 ≠ []) (hnul : ∀ c ∈ calls, Char.ofNat 0 ∉ c.1)
    (hd : (calls.map Prod.fst).Nodup) (hnum : ∀ c ∈ calls, Encoder.key_of c ≠ NO_SYMBOL) :
    ((∀ c ∈ calls, ¬ c.1 <+: line) ∧
        ∃ advanced, (Encoder.of_calls calls).find_key line = some (NO_SYMBOL, advanced)) ∨
      (∃ c ∈ calls, c.1 <+: line ∧ (∀ c' ∈ calls, c'.1 <+: line → c'.1.length ≤ c.1.length) ∧
        (Encoder.of_calls calls).find_key line = some (Encoder.key_of c, c.1.length)) := by
  have hnf : (Encoder.of_calls calls).letters.NulFree :=
    Encoder.foldl_nulFree calls _ LetterTrie.nulFree_fresh hnul
  have hreg : ∀ c ∈ calls, c.1 <+: line →
      (Encoder.of_calls calls).letters.lookup (line.take c.1.length) = Encoder.key_of c := by
    intro c hc hp
    rw [← List.prefix_iff_eq_take.1 hp]
    exact Encoder.foldl_lookup_mem calls _ hd c hc (hne c hc)
  obtain ⟨s, adv, hfk, hs1, hs2, hs3⟩ := LetterTrie.find_key_spec line _ hnf
  rw [Encoder.find_key_eq_trie _ (Encoder.of_calls_shortcut calls), hfk]
  by_cases hs : s = NO_SYMBOL
  · left
    subst hs
    refine ⟨fun c hc hp => ?_, adv, rfl⟩
    have h1 := hs3 c.1.length hp.length_le (Or.inl rfl)
    rw [hreg c hc hp] at h1
    exact hnum c hc h1
  · right
    obtain ⟨ha1, ha2, ha3⟩ := hs1 hs
    have hex : ∃ c ∈ calls, c.1 = line.take adv := by
      by_contra hno
      have hno' : ∀ c ∈ calls, c.1 ≠ line.take adv := fun c hc h' => hno ⟨c, hc, h'⟩
      have := Encoder.foldl_lookup_other calls (line.take adv) Encoder.fresh hno'
      rw [show Encoder.fresh.letters.lookup (line.take adv) = NO_SYMBOL from
        LetterTrie.lookup_fresh _] at this
      exact hs (ha3.symm.trans this)
    obtain ⟨c, hc, hc1⟩ := hex
    have hlen : c.1.length = adv := by
      rw [hc1, List.length_take]
      omega
    have hp : c.1 <+: line := by
      rw [hc1]
      exact List.take_prefix _ _
    refine ⟨c, hc, hp, fun c' hc' hp' => ?_, ?_⟩
    · by_contra hlt
      have h1 := hs3 c'.1.length hp'.length_le (Or.inr (by omega))
      rw [hreg c' hc' hp'] at h1
      exact hnum c' hc' h1
    · have h2 := hreg c hc hp
      rw [hlen, ha3] at h2
      rw [hlen, h2]

theorem Encoder.find_key_longest_match_witness :
    ((∀ c ∈ [(['a'], (1 : Int)), (['a', 'b'], 2)], ¬ c.1 <+: ['a', 'b', 'c']) ∧
        ∃ advanced, (Encoder.of_calls [(['a'], 1), (['a', 'b'], 2)]).find_key ['a', 'b', 'c']
          = some (NO_SYMBOL, advanced)) ∨
      (∃ c ∈ [(['a'], (1 : Int)), (['a', 'b'], 2)], c.1 <+: ['a', 'b', 'c'] ∧
        (∀ c' ∈ [(['a'], (1 : Int)), (['a', 'b'], 2)], c'.1 <+: ['a', 'b', 'c'] →
          c'.1.length ≤ c.1.length) ∧
        (Encoder.of_calls [(['a'], 1), (['a', 'b'], 2)]).find_key ['a', 'b', 'c']
          = some (Encoder.key_of c, c.1.length)) :=
  Encoder.find_key_longest_match [(['a'], 1), (['a', 'b'], 2)] ['a', 'b', 'c']
    (by decide) (by decide) (by decide) (by decide)

/-- C19 as stated fails for a symbol number equal to `NO_SYMBOL`: with `a`
registered under 65535, `find_key` returns `NO_SYMBOL` on the line `a`
although a registered string is a prefix of it; and with `a` registered
under 1 and `ab` under 65535, it returns 1 and advances by one byte on the
line `ab`, not the symbol of the longest registered prefix. -/
theorem Encoder.find_key_sentinel_symbol :
    (Encoder.of_calls [(['a'], 65535)]).find_key ['a'] = some (NO_SYMBOL, 1) ∧
      (Encoder.of_calls [(['a'], 1), (['a', 'b'], 65535)]).find_key ['a', 'b'] = some (1, 1) := by
  decide


/-! ## Lines that cannot be tokenised -/

theorem Encoder.read_input_symbol_other_byte (e : Encoder) (s : List Char) (s_num : Int)
    (b : Char) (h : s.head? ≠ some b) :
    (e.read_input_symbol s s_num).ascii_symbols b = e.ascii_symbols b ∧
      (e.read_input_symbol s s_num).letters.letters b = e.letters.letters b ∧
      (e.read_input_symbol s s_num).letters.symbols b = e.letters.symbols b := by
  cases s with
  | nil => exact ⟨rfl, rfl, rfl⟩
  | cons c rest =>
    have hbc : b ≠ c := fun h' => h (by rw [h']; rfl)
    rw [Encoder.read_input_symbol_letters, LetterTrie.add_string_letters _ _ _ _ _ (Or.inl hbc),
      LetterTrie.add_string_symbols]
    refine ⟨?_, rfl, by simp only [hbc, false_and, if_false]⟩
    unfold Encoder.read_input_symbol
    simp only []
    split_ifs <;> simp only [if_neg hbc]

theorem Encoder.foldl_other_byte (calls : List (List Char × Int)) (b : Char) :
    ∀ e : Encoder, (∀ c ∈ calls, c.1.head? ≠ some b) →
      (calls.foldl (fun e c => e.read_input_symbol c.1 c.2) e).ascii_symbols b
          = e.ascii_symbols b ∧
        (calls.foldl (fun e c => e.read_input_symbol c.1 c.2) e).letters.letters b
          = e.letters.letters b ∧
        (calls.foldl (fun e c => e.read_input_symbol c.1 c.2) e).letters.symbols b
          = e.letters.symbols b := by
  induction calls with
  | nil => intro e _; exact ⟨rfl, rfl, rfl⟩
  | cons c cs ih =>
    intro e h
    obtain ⟨h1, h2, h3⟩ := ih (e.read_input_symbol c.1 c.2)
      (fun c' hc' => h c' (List.mem_cons_of_mem _ hc'))
    obtain ⟨h4, h5, h6⟩ := Encoder.read_input_symbol_other_byte e c.1 c.2 b
      (h c (List.mem_cons_self _ _))
    exact ⟨h1.trans h4, h2.trans h5, h3.trans h6⟩

/-- On a line whose first byte begins no registered string `find_key`
returns `NO_SYMBOL`. -/
theorem Encoder.find_key_unregistered_byte (calls : List (List Char × Int)) (b : Char)
    (rest : List Char) (h : ∀ c ∈ calls, c.1.head? ≠ some b) :
    (Encoder.of_calls calls).find_key (b :: rest) = some (NO_SYMBOL, 1) := by
  obtain ⟨h1, h2, h3⟩ := Encoder.foldl_other_byte calls b Encoder.fresh h
  have h1 : (Encoder.of_calls calls).ascii_symbols b = NO_SYMBOL := h1
  have h2 : (Encoder.of_calls calls).letters.letters b = none := h2
  have h3 : (Encoder.of_calls calls).letters.symbols b = NO_SYMBOL := h3
  simp only [Encoder.find_key, List.headD_cons, h1, if_true, LetterTrie.find_key, h2, h3]

namespace Speller

theorem init_input_reject (S : Speller) (c : Char) (rest : List Char) (advanced : Nat)
    (hk : S.input_encoder.find_key (c :: rest) = some (NO_SYMBOL, advanced))
    (hb : nByte_utf8 c = 0) :
    S.init_input (c :: rest) = some (false, { S with input := [] }) := by
  have hk' : ({ S with input := [] } : Speller).input_encoder.find_key (c :: rest)
      = some (NO_SYMBOL, advanced) := hk
  simp only [init_input, List.length_cons, init_input_loop, hk', hb, if_true]

theorem input_encoder_find_key_unregistered (S : Speller) (b : Char) (rest : List Char)
    (callsL : List (List Char × Int)) (hL : S.lexicon.encoder = Encoder.of_calls callsL)
    (hL0 : ∀ c ∈ callsL, c.1.head? ≠ some b)
    (hM : ∀ m, S.mutator = some m → ∃ callsM, m.encoder = Encoder.of_calls callsM ∧
      ∀ c ∈ callsM, c.1.head? ≠ some b) :
    S.input_encoder.find_key (b :: rest) = some (NO_SYMBOL, 1) := by
  unfold input_encoder
  cases hm : S.mutator with
  | none =>
    simp only [hL]
    exact Encoder.find_key_unregistered_byte callsL b rest hL0
  | some m =>
    obtain ⟨callsM, hM1, hM2⟩ := hM m hm
    simp only []
    split_ifs
    · rw [hM1]
      exact Encoder.find_key_unregistered_byte callsM b rest hM2
    · rw [hL]
      exact Encoder.find_key_unregistered_byte callsL b rest hL0

/-- C15: let the encoders of the lexicon and (when there is one) of the
error model hold no string that begins with the byte `0x80`.  On every line
whose first byte is `0x80`, `check` returns false, `correct` returns an empty
queue and `analyse` returns an empty queue, and the speller is left as it
was but for the member `mode` and the cleared `input`: the key tables, the
string-to-symbol maps and the encoders of both transducers, the alphabet
translator and the cache are unchanged. -/
theorem untokenisable_line_rejected (S : Speller) (rest : List Char) (nbest : Int)
    (maxweight beam time_cutoff : Weight) (clock_exceeded : Nat → Bool) (fuel : Nat)
    (callsL : List (List Char × Int)) (hL : S.lexicon.encoder = Encoder.of_calls callsL)
    (hL0 : ∀ c ∈ callsL, c.1.head? ≠ some (Char.ofNat 128))
    (hM : ∀ m, S.mutator = some m → ∃ callsM, m.encoder = Encoder.of_calls callsM ∧
      ∀ c ∈ callsM, c.1.head? ≠ some (Char.ofNat 128)) :
    S.check_line (Char.ofNat 128 :: rest) fuel
        = some (false, { S with mode := Mode.Check, input := [] }) ∧
      S.correct_line (Char.ofNat 128 :: rest) nbest maxweight beam time_cutoff clock_exceeded fuel
        = some ([], { S with mode := Mode.Correct, input := [] }) ∧
      S.analyse_line (Char.ofNat 128 :: rest) fuel
        = some ([], { S with mode := Mode.Lookup, input := [] }) := by
  have hb : nByte_utf8 (Char.ofNat 128) = 0 := by decide
  have key : ∀ mode : Mode, ({ S with mode := mode } : Speller).init_input (Char.ofNat 128 :: rest)
      = some (false, { S with mode := mode, input := [] }) := fun mode =>
    init_input_reject _ _ rest 1
      (input_encoder_find_key_unregistered { S with mode := mode } _ rest callsL hL hL0 hM) hb
  refine ⟨?_, ?_, ?_⟩
  · simp only [check_line, key]
  · simp only [correct_line, key]
  · simp only [analyse_line, key]

theorem untokenisable_line_rejected_witness :
    tok_speller.check_line [Char.ofNat 128, 'a'] 10
        = some (false, { tok_speller with mode := Mode.Check, input := [] }) ∧
      tok_speller.correct_line [Char.ofNat 128, 'a'] 0 (-1) (-1) 0 clock_never 10
        = some ([], { tok_speller with mode := Mode.Correct, input := [] }) ∧
      tok_speller.analyse_line [Char.ofNat 128, 'a'] 10
        = some ([], { tok_speller with mode := Mode.Lookup, input := [] }) :=
  untokenisable_line_rejected tok_speller ['a'] 0 (-1) (-1) 0 clock_never 10
    [([], 0), ("@_IDENTITY_SYMBOL_@".toList, 1)] rfl (by decide)
    (fun m hm => by cases hm)

/-- C16 fails on the byte `F8` (`11111000`), which matches none of the four
leading-byte patterns: `nByte_utf8` answers 4 for it, `init_input` registers
the four bytes `F8 80 80 80` as a new symbol of the lexicon and returns true,
and `check` accepts the line through the identity arc of `tok_lexicon`;
`analyse` returns one analysis. -/
theorem check_accepts_bad_utf8 :
    nByte_utf8 (Char.ofNat 248) = 4 ∧
      (({ tok_speller with mode := Mode.Check } : Speller).init_input bad_utf8_line).map
          (fun r => (r.1, r.2.input, r.2.lexicon.alphabet.kt.length)) = some (true, [65535], 3) ∧
      (tok_speller.check_line bad_utf8_line 100).map (fun r => r.1) = some true ∧
      (tok_speller.analyse_line bad_utf8_line 100).map (fun r => r.1) = some [("", 0)] := by
  decide

/-- The bytes at which `nByte_utf8` answers 0 are exactly `80` to `BF`. -/
theorem nByte_utf8_eq_zero_iff (n : Nat) (hn : n < 256) :
    nByte_utf8 (Char.ofNat n) = 0 ↔ 128 ≤ n ∧ n < 192 := by
  interval_cases n <;> decide

end Speller


/-! ## The symbol numbers of an alphabet -/

theorem StringSymbolMap.lookup_assign (m : StringSymbolMap) (key : String) (v : SymbolNumber)
    (s : String) : (m.assign key v).lookup s = if s = key then some v else m.lookup s := by
  induction m with
  | nil =>
    by_cases h : s = key
    · simp only [StringSymbolMap.assign, List.lookup, beq_iff_eq.2 h, if_pos h]
    · simp only [StringSymbolMap.assign, List.lookup, beq_false_of_ne h, if_neg h]
  | cons p rest ih =>
    obtain ⟨k0, v0⟩ := p
    unfold StringSymbolMap.assign
    by_cases h0 : k0 = key
    · subst h0
      by_cases h : s = k0
      · simp only [if_true, List.lookup, beq_iff_eq.2 h, if_pos h]
      · simp only [if_true, List.lookup, beq_false_of_ne h, if_neg h]
    · rw [if_neg h0]
      by_cases h : s = k0
      · have h1 : ¬ s = key := fun h' => h0 (h.symm.trans h')
        simp only [List.lookup, beq_iff_eq.2 h, if_neg h1]
      · simp only [List.lookup, beq_false_of_ne h, ih]

theorem StringSymbolMap.mem_assign (m : StringSymbolMap) (key : String) (v : SymbolNumber)
    (p : String × SymbolNumber) (h : p ∈ m.assign key v) : p ∈ m ∨ p = (key, v) := by
  induction m with
  | nil =>
    simp only [StringSymbolMap.assign, List.mem_singleton] at h
    exact Or.inr h
  | cons q rest ih =>
    obtain ⟨k0, v0⟩ := q
    unfold StringSymbolMap.assign at h
    split_ifs at h with h0
    · rcases List.mem_cons.1 h with h | h
      · exact Or.inr (by rw [h, h0])
      · exact Or.inl (List.mem_cons_of_mem _ h)
    · rcases List.mem_cons.1 h with h | h
      · exact Or.inl (by rw [h]; exact List.mem_cons_self _ _)
      · rcases ih h with h | h
        · exact Or.inl (List.mem_cons_of_mem _ h)
        · exact Or.inr h

namespace TransducerAlphabet

/-- What one round of the loop of `read` does to the key table, the symbol
count and the numbers in use. -/
theorem read_symbol_spec (from_file : Bool) (k : Nat) (line : String) (st : ReadState) :
    (read_symbol from_file k line st).alphabet.kt.length = st.alphabet.kt.length + 1 ∧
      (read_symbol from_file k line st).alphabet.orig_symbol_count
        = st.alphabet.orig_symbol_count ∧
      (∀ p ∈ (read_symbol from_file k line st).alphabet.string_to_symbol,
        p ∈ st.alphabet.string_to_symbol ∨ k = p.2) ∧
      (∀ p ∈ (read_symbol from_file k line st).alphabet.operations,
        p ∈ st.alphabet.operations ∨ k = p.1) := by
  unfold read_symbol
  simp only []
  split_ifs <;>
    refine ⟨by simp only [List.length_append, List.length_singleton], rfl, fun p hp => ?_,
      fun p hp => ?_⟩ <;>
    first
    | exact Or.inl hp
    | (rcases List.mem_append.1 hp with hp | hp
       · exact Or.inl hp
       · exact Or.inr (by rw [List.mem_singleton.1 hp]))
    | (rcases StringSymbolMap.mem_assign _ _ _ _ hp with hp | hp
       · exact Or.inl hp
       · exact Or.inr (by rw [hp]))

theorem read_loop_spec (from_file : Bool) (raw : List String) :
    ∀ (k count : Nat) (st st1 : ReadState),
      read_loop from_file raw k count st = some st1 →
      st1.alphabet.kt.length = st.alphabet.kt.length + count ∧
        st1.alphabet.orig_symbol_count = st.alphabet.orig_symbol_count ∧
        (∀ p ∈ st1.alphabet.string_to_symbol,
          p ∈ st.alphabet.string_to_symbol ∨ (k ≤ (p.2 : Nat) ∧ (p.2 : Nat) < k + count)) ∧
        (∀ p ∈ st1.alphabet.operations,
          p ∈ st.alphabet.operations ∨ (k ≤ (p.1 : Nat) ∧ (p.1 : Nat) < k + count)) := by
  induction raw with
  | nil =>
    intro k count st st1 h
    cases count with
    | zero =>
      simp only [read_loop, Option.some.injEq] at h
      subst h
      exact ⟨rfl, rfl, fun p hp => Or.inl hp, fun p hp => Or.inl hp⟩
    | succ count => simp only [read_loop] at h; cases h
  | cons line raw ih =>
    intro k count st st1 h
    cases count with
    | zero =>
      simp only [read_loop, Option.some.injEq] at h
      subst h
      exact ⟨rfl, rfl, fun p hp => Or.inl hp, fun p hp => Or.inl hp⟩
    | succ count =>
      simp only [read_loop] at h
      obtain ⟨h1, h2, h3, h4⟩ := ih (k + 1) count _ st1 h
      obtain ⟨g1, g2, g3, g4⟩ := read_symbol_spec from_file k line st
      refine ⟨by rw [h1, g1]; omega, h2.trans g2, fun p hp => ?_, fun p hp => ?_⟩
      · rcases h3 p hp with hp | hp
        · rcases g3 p hp with hp | hp
          · exact Or.inl hp
          · exact Or.inr (by dsimp only [SymbolNumber] at *; omega)
        · exact Or.inr (by dsimp only [SymbolNumber] at *; omega)
      · rcases h4 p hp with hp | hp
        · rcases g4 p hp with hp | hp
          · exact Or.inl hp
          · exact Or.inr (by dsimp only [SymbolNumber] at *; omega)
        · exact Or.inr (by dsimp only [SymbolNumber] at *; omega)

/-- A loaded alphabet: the key table has `max number_of_symbols 1` entries
and the numbers in the maps are those of the symbols read. -/
theorem create_spec (from_file : Bool) (raw : List String) (n : Nat)
    (a : TransducerAlphabet) (h : create from_file raw n = some a) :
    a.kt.length = 1 + (n - 1) ∧ a.orig_symbol_count = n ∧
      (∀ p ∈ a.string_to_symbol, 1 ≤ (p.2 : Nat) ∧ (p.2 : Nat) < 1 + (n - 1)) ∧
      (∀ p ∈ a.operations, 1 ≤ (p.1 : Nat) ∧ (p.1 : Nat) < 1 + (n - 1)) := by
  unfold create read at h
  cases raw with
  | nil => cases h
  | cons eps raw =>
    simp only [] at h
    split at h
    · cases h
    · rename_i st hst
      simp only [Option.some.injEq] at h
      subst h
      obtain ⟨h1, h2, h3, h4⟩ := read_loop_spec from_file raw 1 (n - 1) _ st hst
      refine ⟨by rw [h1]; simp, h2, fun p hp => ?_, fun p hp => ?_⟩
      · rcases h3 p hp with hp | hp
        · cases hp
        · exact hp
      · rcases h4 p hp with hp | hp
        · cases hp
        · exact hp

theorem add_symbol_kt_length (a : TransducerAlphabet) (sym : String) :
    (a.add_symbol sym).kt.length = a.kt.length + 1 := by
  simp only [add_symbol, List.length_append, List.length_singleton]

theorem foldl_add_symbol_spec (syms : List String) :
    ∀ a : TransducerAlphabet,
      (syms.foldl add_symbol a).kt.length = a.kt.length + syms.length ∧
        (syms.foldl add_symbol a).orig_symbol_count = a.orig_symbol_count := by
  induction syms with
  | nil => intro a; exact ⟨rfl, rfl⟩
  | cons s syms ih =>
    intro a
    obtain ⟨h1, h2⟩ := ih (a.add_symbol s)
    refine ⟨?_, h2⟩
    simp only [List.foldl_cons, h1, add_symbol_kt_length, List.length_cons]
    omega

theorem add_symbol_value (a : TransducerAlphabet) (sym : String) :
    (a.add_symbol sym).string_to_symbol.value_at sym = a.kt.length % 65536 ∧
      (a.add_symbol sym).kt.get? a.kt.length = some sym := by
  constructor
  · simp only [add_symbol, StringSymbolMap.value_at, StringSymbolMap.lookup_assign, if_true,
      Option.getD_some]
  · simp only [add_symbol, List.get?_eq_getElem?, List.getElem?_concat_length]

/-- C18 (amended): an alphabet loaded with `number_of_symbols >= 1` has
exactly `orig_symbol_count` entries in its key table, and the numbers in its
maps are below `orig_symbol_count`.  After any further `add_symbol` calls, as
long as the key table has fewer than 65536 entries, the next `add_symbol`
assigns the number `kt.size()`, which is at least `orig_symbol_count`, and
stores the string at that position of the key table. -/
theorem add_symbol_number (from_file : Bool) (raw : List String) (n : Nat)
    (a0 : TransducerAlphabet) (syms : List String) (sym : String) (hn : 1 ≤ n)
    (hload : create from_file raw n = some a0)
    (hlen : (syms.foldl add_symbol a0).kt.length < 65536) :
    a0.kt.length = a0.orig_symbol_count ∧ a0.orig_symbol_count = n ∧
      (∀ p ∈ a0.string_to_symbol, (p.2 : Nat) < a0.orig_symbol_count) ∧
      (∀ p ∈ a0.operations, (p.1 : Nat) < a0.orig_symbol_count) ∧
      (syms.foldl add_symbol a0).orig_symbol_count = a0.orig_symbol_count ∧
      ((syms.foldl add_symbol a0).add_symbol sym).string_to_symbol.value_at sym
        = (syms.foldl add_symbol a0).kt.length ∧
      a0.orig_symbol_count ≤ (syms.foldl add_symbol a0).kt.length ∧
      ((syms.foldl add_symbol a0).add_symbol sym).kt.get? (syms.foldl add_symbol a0).kt.length
        = some sym := by
  obtain ⟨h1, h2, h3, h4⟩ := create_spec from_file raw n a0 hload
  obtain ⟨g1, g2⟩ := foldl_add_symbol_spec syms a0
  obtain ⟨f1, f2⟩ := add_symbol_value (syms.foldl add_symbol a0) sym
  have h5 : a0.kt.length = n := by omega
  refine ⟨by rw [h5, h2], h2, fun p hp => ?_, fun p hp => ?_, g2, ?_, ?_, f2⟩
  · have := h3 p hp; dsimp only [SymbolNumber] at *; omega
  · have := h4 p hp; dsimp only [SymbolNumber] at *; omega
  · rw [f1, Nat.mod_eq_of_lt hlen]
  · rw [g1, h5, h2]; exact Nat.le_add_right _ _

theorem add_symbol_number_witness :
    (["a"].foldl add_symbol tok_alphabet).orig_symbol_count = tok_alphabet.orig_symbol_count ∧
      ((["a"].foldl add_symbol tok_alphabet).add_symbol "b").string_to_symbol.value_at "b"
        = (["a"].foldl add_symbol tok_alphabet).kt.length :=
  ⟨(add_symbol_number true ["", "@_IDENTITY_SYMBOL_@"] 2 tok_alphabet ["a"] "b" (by decide) rfl
      (by decide)).2.2.2.2.1,
   (add_symbol_number true ["", "@_IDENTITY_SYMBOL_@"] 2 tok_alphabet ["a"] "b" (by decide) rfl
      (by decide)).2.2.2.2.2.1⟩

/-- C18 as stated fails once the key table has 65536 entries: after 65534
`add_symbol` calls on the alphabet loaded with two symbols, the next
`add_symbol` assigns the number 0, which is below `orig_symbol_count`. -/
theorem add_symbol_wraps :
    (((List.range 65534).map (fun i => String.mk ('x' :: List.replicate i 'y'))).foldl
        add_symbol tok_alphabet).orig_symbol_count = 2 ∧
      ((((List.range 65534).map (fun i => String.mk ('x' :: List.replicate i 'y'))).foldl
        add_symbol tok_alphabet).add_symbol "z").string_to_symbol.value_at "z" = 0 := by
  obtain ⟨g1, g2⟩ := foldl_add_symbol_spec
    ((List.range 65534).map (fun i => String.mk ('x' :: List.replicate i 'y'))) tok_alphabet
  refine ⟨g2, ?_⟩
  rw [(add_symbol_value _ "z").1, g1]
  simp only [List.length_map, List.length_range]
  rfl

end TransducerAlphabet


/-! ## The alphabet translator -/

theorem prefix_get?_some {α : Type} (l1 l2 : List α) (h : l1 <+: l2) (k : Nat) (x : α)
    (hx : l1.get? k = some x) : l2.get? k = some x := by
  obtain ⟨t, rfl⟩ := h
  have hk : k < l1.length := by
    rw [List.get?_eq_getElem?] at hx
    exact (List.getElem?_eq_some_iff.1 hx).1
  rw [List.get?_eq_getElem?] at hx ⊢
  rw [List.getElem?_append_left hk]
  exact hx

theorem StringSymbolMap.count_ne_one (m : StringSymbolMap) (s : String) :
    m.count s ≠ 1 ↔ m.lookup s = none := by
  unfold StringSymbolMap.count
  cases m.lookup s <;> simp

namespace TransducerAlphabet

theorem add_symbol_consistent (a : TransducerAlphabet) (sym : String) (h : a.Consistent)
    (hlen : a.kt.length < 65536) : (a.add_symbol sym).Consistent := by
  intro s k hs
  simp only [add_symbol, StringSymbolMap.lookup_assign, Nat.mod_eq_of_lt hlen] at hs ⊢
  by_cases hsym : s = sym
  · rw [if_pos hsym] at hs
    simp only [Option.some.injEq] at hs
    rw [← hs, hsym, List.get?_eq_getElem?, List.getElem?_concat_length]
  · rw [if_neg hsym] at hs
    exact prefix_get?_some _ _ (List.prefix_append _ _) k s (h s k hs)

end TransducerAlphabet

namespace Speller

/-- The loop of `build_alphabet_translator` from the counter `i` on: it
returns, pushes one entry per remaining symbol of the error model, and only
appends to the lexicon's key table and map; when the key table ends with at
most 65536 entries, each entry pushed is the number of the lexicon's key that
equals the error model's. -/
theorem build_alphabet_translator_loop_spec (from_keys : KeyTable)
    (hlen : from_keys.length ≤ 65535) :
    ∀ (fuel i : Nat) (S : Speller), i ≤ from_keys.length → from_keys.length - i ≤ fuel →
      ∃ S1, build_alphabet_translator_loop from_keys fuel i S = some S1 ∧
        S1.alphabet_translator.length = S.alphabet_translator.length + (from_keys.length - i) ∧
        S.alphabet_translator <+: S1.alphabet_translator ∧
        S.lexicon.alphabet.kt <+: S1.lexicon.alphabet.kt ∧
        (∀ s k, S.lexicon.alphabet.string_to_symbol.lookup s = some k →
          S1.lexicon.alphabet.string_to_symbol.lookup s = some k) ∧
        S1.mutator = S.mutator ∧ S1.cache = S.cache ∧
        (S1.lexicon.alphabet.kt.length ≤ 65536 → S.lexicon.alphabet.Consistent →
          S.alphabet_translator.length = i →
          ∀ j, i ≤ j → j < from_keys.length →
            ∃ k, S1.alphabet_translator.get? j = some k ∧
              S1.lexicon.alphabet.kt.get? k = from_keys.get? j) := by
  intro fuel
  induction fuel with
  | zero =>
    intro i S hi hf
    have hil : ¬ i < from_keys.length := by omega
    refine ⟨S, by simp only [build_alphabet_translator_loop, if_neg hil], by omega,
      List.prefix_refl _, List.prefix_refl _, fun s k h => h, rfl, rfl,
      fun _ _ _ j h1 h2 => by omega⟩
  | succ fuel ih =>
    intro i S hi hf
    by_cases hil : i < from_keys.length
    · have hmod : (i + 1) % 65536 = i + 1 := Nat.mod_eq_of_lt (by omega)
      have hsym : from_keys.get? i = some (from_keys.getD i "") := by
        rw [List.get?_eq_getElem?, List.getD_eq_getElem?_getD, List.getElem?_eq_getElem hil]
        rfl
      unfold build_alphabet_translator_loop
      simp only [if_pos hil, hmod, StringSymbolMap.count_ne_one]
      cases hlook : S.lexicon.alphabet.string_to_symbol.lookup (from_keys.getD i "") with
      | none =>
        simp only [if_true]
        obtain ⟨S1, h1, h2, h3, h4, h5, h6, h7, h8⟩ := ih (i + 1) _ (by omega) (by omega)
        refine ⟨S1, h1, ?_, ?_, ?_, ?_, h6, h7, ?_⟩
        · rw [h2]
          simp only [List.length_append, List.length_singleton]
          omega
        · exact (List.prefix_append _ _).trans h3
        · exact (List.prefix_append _ _).trans h4
        · intro s k hs
          refine h5 s k ?_
          simp only [TransducerAlphabet.add_symbol, StringSymbolMap.lookup_assign]
          rw [if_neg]
          · exact hs
          · intro h'
            rw [h', hlook] at hs
            cases hs
        · intro hfin hwf htr j hj1 hj2
          have hkt : S.lexicon.alphabet.kt.length < 65536 := by
            have := h4.length_le
            simp only [TransducerAlphabet.add_symbol, List.length_append,
              List.length_singleton] at this
            omega
          by_cases hji : j = i
          · subst hji
            refine ⟨S.lexicon.alphabet.kt.length, ?_, ?_⟩
            · refine prefix_get?_some _ _ h3 _ _ ?_
              simp only [Nat.mod_eq_of_lt hkt]
              rw [List.get?_eq_getElem?, ← htr, List.getElem?_concat_length]
            · rw [hsym]
              exact prefix_get?_some _ _ h4 _ _ (TransducerAlphabet.add_symbol_value _ _).2
          · exact h8 hfin (TransducerAlphabet.add_symbol_consistent _ _ hwf hkt)
              (by simp only [List.length_append, List.length_singleton, htr]) j (by omega) hj2
      | some k0 =>
        simp only [reduceCtorEq, if_false]
        obtain ⟨S1, h1, h2, h3, h4, h5, h6, h7, h8⟩ := ih (i + 1) _ (by omega) (by omega)
        refine ⟨S1, h1, ?_, ?_, h4, h5, h6, h7, ?_⟩
        · rw [h2]
          simp only [List.length_append, List.length_singleton]
          omega
        · exact (List.prefix_append _ _).trans h3
        · intro hfin hwf htr j hj1 hj2
          by_cases hji : j = i
          · subst hji
            refine ⟨k0, ?_, ?_⟩
            · refine prefix_get?_some _ _ h3 _ _ ?_
              simp only [StringSymbolMap.value_at, hlook, Option.getD_some]
              rw [List.get?_eq_getElem?, ← htr, List.getElem?_concat_length]
            · rw [hsym]
              exact prefix_get?_some _ _ h4 _ _ (hwf _ _ hlook)
          · exact h8 hfin hwf
              (by simp only [List.length_append, List.length_singleton, htr]) j (by omega) hj2
    · have hil' : i = from_keys.length := by omega
      refine ⟨S, by simp only [build_alphabet_translator_loop, if_neg hil], by omega,
        List.prefix_refl _, List.prefix_refl _, fun s k h => h, rfl, rfl,
        fun _ _ _ j h1 h2 => by omega⟩

end Speller
theorem head?_get?_zero {α : Type} (l : List α) (x : α) (h : l.head? = some x) :
    l.get? 0 = some x := by
  cases l with
  | nil => cases h
  | cons y ys => exact h

namespace TransducerAlphabet

theorem read_symbol_consistent (from_file : Bool) (k : Nat) (line : String) (st : ReadState)
    (h : st.alphabet.Consistent) (hk : st.alphabet.kt.length = k) :
    (read_symbol from_file k line st).alphabet.Consistent := by
  have happ : ∀ x : String, ∀ s j, st.alphabet.string_to_symbol.lookup s = some j →
      (st.alphabet.kt ++ [x]).get? j = some s := fun x s j hs =>
    prefix_get?_some _ _ (List.prefix_append _ _) j s (h s j hs)
  unfold read_symbol
  simp only []
  split_ifs <;> intro s j hs <;> first
    | exact happ _ s j hs
    | (simp only [StringSymbolMap.lookup_assign] at hs
       by_cases hsl : s = line
       · rw [if_pos hsl] at hs
         simp only [Option.some.injEq] at hs
         show (st.alphabet.kt ++ [line]).get? j = some s
         rw [← hs, hsl, ← hk, List.get?_eq_getElem?, List.getElem?_concat_length]
       · rw [if_neg hsl] at hs
         exact happ _ s j hs)

theorem read_loop_consistent (from_file : Bool) (raw : List String) :
    ∀ (k count : Nat) (st st1 : ReadState),
      read_loop from_file raw k count st = some st1 → st.alphabet.Consistent →
      st.alphabet.kt.length = k → st1.alphabet.Consistent := by
  induction raw with
  | nil =>
    intro k count st st1 h hc _
    cases count with
    | zero =>
      simp only [read_loop, Option.some.injEq] at h
      subst h
      exact hc
    | succ count => simp only [read_loop] at h; cases h
  | cons line raw ih =>
    intro k count st st1 h hc hk
    cases count with
    | zero =>
      simp only [read_loop, Option.some.injEq] at h
      subst h
      exact hc
    | succ count =>
      simp only [read_loop] at h
      exact ih (k + 1) count _ st1 h (read_symbol_consistent from_file k line st hc hk)
        (by rw [(read_symbol_spec from_file k line st).1, hk])

theorem read_symbol_kt_grows (from_file : Bool) (k : Nat) (line : String) (st : ReadState) :
    st.alphabet.kt <+: (read_symbol from_file k line st).alphabet.kt := by
  unfold read_symbol
  simp only []
  split_ifs <;> exact List.prefix_append _ _

theorem read_loop_kt_grows (from_file : Bool) (raw : List String) :
    ∀ (k count : Nat) (st st1 : ReadState),
      read_loop from_file raw k count st = some st1 → st.alphabet.kt <+: st1.alphabet.kt := by
  induction raw with
  | nil =>
    intro k count st st1 h
    cases count with
    | zero =>
      simp only [read_loop, Option.some.injEq] at h
      subst h
      exact List.prefix_refl _
    | succ count => simp only [read_loop] at h; cases h
  | cons line raw ih =>
    intro k count st st1 h
    cases count with
    | zero =>
      simp only [read_loop, Option.some.injEq] at h
      subst h
      exact List.prefix_refl _
    | succ count =>
      simp only [read_loop] at h
      exact (read_symbol_kt_grows from_file k line st).trans (ih (k + 1) count _ st1 h)

/-- A loaded alphabet is consistent and its key table begins with the empty
string of epsilon. -/
theorem create_consistent (from_file : Bool) (raw : List String) (n : Nat)
    (a : TransducerAlphabet) (h : create from_file raw n = some a) :
    a.Consistent ∧ a.kt.head? = some "" := by
  unfold create read at h
  cases raw with
  | nil => cases h
  | cons eps raw =>
    simp only [] at h
    split at h
    · cases h
    · rename_i st hst
      simp only [Option.some.injEq] at h
      subst h
      have h0 := read_loop_consistent from_file raw 1 (n - 1) _ st hst
        (fun s k hs => by cases hs) rfl
      refine ⟨h0, ?_⟩
      obtain ⟨rest, hrest⟩ := read_loop_kt_grows from_file raw 1 (n - 1) _ st hst
      show st.alphabet.kt.head? = some ""
      rw [← hrest]
      rfl

end TransducerAlphabet

namespace Speller

/-- C17 (amended): let the constructor call `build_alphabet_translator` for
an error model whose key table begins with the empty string and has at most
65535 entries, on a lexicon whose key table begins with the empty string and
agrees with its string-to-symbol map.  The call returns; `alphabet_translator`
has one entry per symbol of the error model and entry 0 is 0; the lexicon's
key table and map are only appended to, so no symbol of the lexicon is
renumbered.  When the lexicon's key table ends with at most 65536 entries,
the lexicon's key at `alphabet_translator[i]` is the error model's key at
`i`, for every symbol `i` of the error model. -/
theorem build_alphabet_translator_spec (S : Speller) (m : Transducer) (fuel : Nat)
    (htr : S.alphabet_translator = []) (hm : m.alphabet.kt.length ≤ 65535)
    (hfuel : m.alphabet.kt.length ≤ fuel) (hm0 : m.alphabet.kt.head? = some "")
    (hl0 : S.lexicon.alphabet.kt.head? = some "") (hwf : S.lexicon.alphabet.Consistent) :
    ∃ S1, S.build_alphabet_translator m fuel = some S1 ∧
      S1.alphabet_translator.length = m.alphabet.kt.length ∧
      S1.alphabet_translator.get? 0 = some 0 ∧
      S.lexicon.alphabet.kt <+: S1.lexicon.alphabet.kt ∧
      (∀ s k, S.lexicon.alphabet.string_to_symbol.lookup s = some k →
        S1.lexicon.alphabet.string_to_symbol.lookup s = some k) ∧
      S1.mutator = S.mutator ∧
      (S1.lexicon.alphabet.kt.length ≤ 65536 →
        ∀ i, i < m.alphabet.kt.length →
          ∃ k, S1.alphabet_translator.get? i = some k ∧
            S1.lexicon.alphabet.kt.get? k = m.alphabet.kt.get? i) := by
  have hpos : 1 ≤ m.alphabet.kt.length := by
    cases hk : m.alphabet.kt with
    | nil => rw [hk] at hm0; cases hm0
    | cons x xs => simp
  obtain ⟨S1, h1, h2, h3, h4, h5, h6, _, h8⟩ :=
    build_alphabet_translator_loop_spec m.alphabet.kt hm fuel 1
      { S with alphabet_translator := S.alphabet_translator ++ [0] } hpos (by omega)
  have hz : S1.alphabet_translator.get? 0 = some 0 :=
    prefix_get?_some _ _ h3 0 0 (by simp only [htr]; rfl)
  refine ⟨S1, h1, ?_, hz, h4, h5, h6, fun hfin i hi => ?_⟩
  · rw [h2]
    simp only [htr, List.nil_append, List.length_singleton]
    omega
  · by_cases hi0 : i = 0
    · subst hi0
      refine ⟨0, hz, ?_⟩
      rw [head?_get?_zero _ _ hm0]
      exact prefix_get?_some _ _ h4 0 "" (head?_get?_zero _ _ hl0)
    · exact h8 hfin hwf (by simp only [htr, List.nil_append, List.length_singleton]) i
        (by omega) hi

theorem build_alphabet_translator_spec_witness :
    ∃ S1, tok_speller.build_alphabet_translator demo_mutator 3 = some S1 ∧
      S1.alphabet_translator.length = demo_mutator.alphabet.kt.length ∧
      S1.alphabet_translator.get? 0 = some 0 ∧
      tok_speller.lexicon.alphabet.kt <+: S1.lexicon.alphabet.kt ∧
      (∀ s k, tok_speller.lexicon.alphabet.string_to_symbol.lookup s = some k →
        S1.lexicon.alphabet.string_to_symbol.lookup s = some k) ∧
      S1.mutator = tok_speller.mutator ∧
      (S1.lexicon.alphabet.kt.length ≤ 65536 →
        ∀ i, i < demo_mutator.alphabet.kt.length →
          ∃ k, S1.alphabet_translator.get? i = some k ∧
            S1.lexicon.alphabet.kt.get? k = demo_mutator.alphabet.kt.get? i) :=
  build_alphabet_translator_spec tok_speller demo_mutator 3 rfl (by decide) (by decide) rfl rfl
    (fun s k hs => by cases hs)

end Speller
namespace TransducerAlphabet

theorem foldl_add_symbol_lookup (syms : List String) (s : String) :
    ∀ a : TransducerAlphabet, s ∉ syms →
      (syms.foldl add_symbol a).string_to_symbol.lookup s = a.string_to_symbol.lookup s := by
  induction syms with
  | nil => intro a _; rfl
  | cons x syms ih =>
    intro a hs
    simp only [List.foldl_cons]
    rw [ih _ (fun h => hs (List.mem_cons_of_mem _ h))]
    simp only [add_symbol, StringSymbolMap.lookup_assign]
    rw [if_neg (fun h => hs (by rw [h]; exact List.mem_cons_self _ _))]

theorem foldl_add_symbol_kt_grows (syms : List String) :
    ∀ a : TransducerAlphabet, a.kt <+: (syms.foldl add_symbol a).kt := by
  induction syms with
  | nil => intro a; exact List.prefix_refl _
  | cons x syms ih =>
    intro a
    exact (List.prefix_append _ _).trans (ih (a.add_symbol x))

end TransducerAlphabet

theorem filler_symbols_length : filler_symbols.length = 65533 := by
  simp only [filler_symbols, List.length_map, List.length_range]

theorem full_alphabet_length_eq :
    full_alphabet.kt.length = tok_alphabet.kt.length + filler_symbols.length := by
  rw [full_alphabet, (TransducerAlphabet.foldl_add_symbol_spec _ _).1]

theorem full_alphabet_length : full_alphabet.kt.length = 65535 := by
  rw [full_alphabet_length_eq, filler_symbols_length]
  rfl

theorem full_alphabet_lookup (s : String) (hs : s.data.head? ≠ some 'x') :
    full_alphabet.string_to_symbol.lookup s = none := by
  rw [full_alphabet, TransducerAlphabet.foldl_add_symbol_lookup]
  · rfl
  · intro h
    simp only [filler_symbols, List.mem_map, List.mem_range] at h
    obtain ⟨i, _, hi⟩ := h
    rw [← hi] at hs
    exact hs rfl

namespace Speller

theorem build_alphabet_translator_loop_add (from_keys : KeyTable) (fuel i : Nat) (S : Speller)
    (hi : i < from_keys.length)
    (hlook : S.lexicon.alphabet.string_to_symbol.lookup (from_keys.getD i "") = none) :
    build_alphabet_translator_loop from_keys (fuel + 1) i S =
      build_alphabet_translator_loop from_keys fuel ((i + 1) % 65536)
        { S with
            lexicon :=
              { S.lexicon with
                  encoder := S.lexicon.encoder.read_input_symbol (from_keys.getD i "").toList
                    ((S.lexicon.alphabet.kt.length % 65536 : Nat) : Int)
                  alphabet := S.lexicon.alphabet.add_symbol (from_keys.getD i "") }
            alphabet_translator :=
              S.alphabet_translator ++ [S.lexicon.alphabet.kt.length % 65536] } := by
  rw [build_alphabet_translator_loop]
  simp only [if_pos hi, StringSymbolMap.count_ne_one, hlook, if_true]

theorem build_alphabet_translator_loop_done (from_keys : KeyTable) (fuel i : Nat) (S : Speller)
    (hi : ¬ i < from_keys.length) :
    build_alphabet_translator_loop from_keys fuel i S = some S := by
  cases fuel with
  | zero => simp only [build_alphabet_translator_loop, if_neg hi]
  | succ fuel => simp only [build_alphabet_translator_loop, if_neg hi]

theorem build_alphabet_translator_overflow (S : Speller) (a b : String) (hab : b ≠ a)
    (hlen : S.lexicon.alphabet.kt.length = 65535)
    (ha : S.lexicon.alphabet.string_to_symbol.lookup a = none)
    (hb : S.lexicon.alphabet.string_to_symbol.lookup b = none)
    (htr : S.alphabet_translator = []) :
    ∃ S1, build_alphabet_translator_loop ["", a, b] 3 1
        { S with alphabet_translator := S.alphabet_translator ++ [0] } = some S1 ∧
      S1.alphabet_translator = [0, 65535, 0] ∧
      S.lexicon.alphabet.kt <+: S1.lexicon.alphabet.kt := by
  have hb1 : (S.lexicon.alphabet.add_symbol a).string_to_symbol.lookup b = none := by
    simp only [TransducerAlphabet.add_symbol, StringSymbolMap.lookup_assign]
    rw [if_neg hab]
    exact hb
  have hl2 : (S.lexicon.alphabet.add_symbol a).kt.length % 65536 = 0 := by
    rw [TransducerAlphabet.add_symbol_kt_length, hlen]
  have hrun := build_alphabet_translator_loop_add ["", a, b] 2 1
    { S with alphabet_translator := S.alphabet_translator ++ [0] }
    (by simp) ha
  rw [build_alphabet_translator_loop_add ["", a, b] 1 2 _ (by simp)] at hrun
  swap
  · exact hb1
  rw [build_alphabet_translator_loop_done ["", a, b] 1 3 _ (by simp)] at hrun
  refine ⟨_, hrun, ?_, ?_⟩
  · show ((S.alphabet_translator ++ [0]) ++ [S.lexicon.alphabet.kt.length % 65536]) ++
      [(S.lexicon.alphabet.add_symbol a).kt.length % 65536] = [0, 65535, 0]
    rw [hl2, hlen, htr]
    rfl
  · exact (List.prefix_append _ _).trans (List.prefix_append _ _)

/-- C17 as stated fails when the lexicon's key table outgrows the 16-bit
symbol numbers: for a lexicon whose key table has 65535 entries and the
error model with the keys `a` and `b`, both missing from the lexicon,
`build_alphabet_translator` gives `a` the number 65535 and `b` the number 0,
so `alphabet_translator[2]` is 0, where the lexicon's key is the empty
string and not `b`. -/
theorem build_alphabet_translator_wraps :
    ∃ S1, full_speller.build_alphabet_translator demo_mutator 3 = some S1 ∧
      S1.alphabet_translator = [0, 65535, 0] ∧
      S1.lexicon.alphabet.kt.get? 0 = some "" ∧
      demo_mutator.alphabet.kt.get? 2 = some "b" := by
  have h0 : full_alphabet.kt.get? 0 = some "" :=
    prefix_get?_some _ _ (TransducerAlphabet.foldl_add_symbol_kt_grows _ _) 0 "" rfl
  obtain ⟨S1, h1, h2, h3⟩ := build_alphabet_translator_overflow full_speller "a" "b"
    (by decide) full_alphabet_length (full_alphabet_lookup "a" (by decide))
    (full_alphabet_lookup "b" (by decide)) rfl
  exact ⟨S1, h1, h2, prefix_get?_some _ _ h3 0 "" h0, rfl⟩

end Speller


/-! ## Printing a symbol vector -/

theorem string_join_foldl (l : List String) :
    ∀ acc : String, l.foldl (fun r s => r ++ s) acc = acc ++ String.join l := by
  induction l with
  | nil => intro acc; simp [String.join]
  | cons a l ih =>
    intro acc
    have h1 := ih (acc ++ a)
    have h2 := ih ("" ++ a)
    simp only [List.foldl_cons, String.join] at h1 h2 ⊢
    rw [h1, h2, String.empty_append, String.append_assoc]

theorem string_join_cons (a : String) (l : List String) :
    String.join (a :: l) = a ++ String.join l := by
  have h := string_join_foldl l ("" ++ a)
  rw [String.empty_append] at h
  simp only [String.join, List.foldl_cons, String.empty_append]
  exact h

theorem stringify_foldl (kt : KeyTable) (v : SymbolVector) :
    ∀ acc : String,
      v.foldl (fun s it => if it < kt.length then s ++ kt.getD it "" else s) acc =
        acc ++ stringify_by_spec kt v := by
  induction v with
  | nil =>
    intro acc
    simp [stringify_by_spec, String.join]
  | cons s v ih =>
    intro acc
    simp only [List.foldl_cons, ih]
    by_cases h : s < kt.length
    · simp only [h, if_true, stringify_by_spec, List.filter_cons, decide_True, List.map_cons,
        string_join_cons, String.append_assoc]
    · simp only [h, if_false, stringify_by_spec, List.filter_cons, decide_False]
      rfl

/-- C21: `stringify(kt, v)` is the concatenation, in order, of `kt[s]` for
exactly those `s` in `v` with `s < kt.size()`; the other symbols contribute
nothing. -/
theorem stringify_eq_by_spec (kt : KeyTable) (v : SymbolVector) :
    stringify kt v = stringify_by_spec kt v := by
  unfold stringify
  rw [stringify_foldl]
  simp

namespace Transducer

/-! ## The accessors of the tables -/

/-- C22: `next(i, sym)` is `i - TARGET_TABLE + 1` (which does not wrap) when
`i >= TARGET_TABLE`, and otherwise the difference
`indices.target(i + 1 + sym) - TARGET_TABLE` reduced modulo `2 ^ 32`; the
index `i + 1 + sym` itself does not wrap. -/
theorem next_cases (t : Transducer) (i : TransitionTableIndex) (sym : SymbolNumber)
    (hi : i < 4294967296) (hs : sym < 65536) :
    (TARGET_TABLE ≤ i → t.next i sym = i - TARGET_TABLE + 1 ∧ i - TARGET_TABLE + 1 < 4294967296) ∧
      (i < TARGET_TABLE →
        ((t.next i sym : Nat) : Int) =
          (((t.indices_target (i + 1 + sym) : Nat) : Int) - ((TARGET_TABLE : Nat) : Int))
            % 4294967296) := by
  have k1 : ∀ a b : Nat, a < 2147483648 → b < 65536 → (a + 1 + b) % 4294967296 = a + 1 + b := by
    intro a b ha hb
    omega
  have k2 : ∀ a : Nat, 2147483648 ≤ a → a < 4294967296 → a - 2147483648 + 1 < 4294967296 := by
    intro a h1 h2
    omega
  have k3 : ∀ a : Nat, (((a + 4294967296 - 2147483648) % 4294967296 : Nat) : Int) =
      ((a : Int) - ((2147483648 : Nat) : Int)) % 4294967296 := by
    intro a
    omega
  unfold next
  constructor
  · intro h
    have h' : i ≥ TARGET_TABLE := h
    simp only [h', if_true, true_and]
    exact k2 i h hi
  · intro h
    have h' : ¬ i ≥ TARGET_TABLE := not_le.2 h
    simp only [h', if_false]
    unfold u32
    rw [k1 i sym h hs]
    exact k3 _

theorem next_cases_witness :
    (TARGET_TABLE ≤ TARGET_TABLE + 2 →
        demo_lexicon.next (TARGET_TABLE + 2) 1 = TARGET_TABLE + 2 - TARGET_TABLE + 1 ∧
          TARGET_TABLE + 2 - TARGET_TABLE + 1 < 4294967296) ∧
      (TARGET_TABLE + 2 < TARGET_TABLE →
        ((demo_lexicon.next (TARGET_TABLE + 2) 1 : Nat) : Int) =
          (((demo_lexicon.indices_target (TARGET_TABLE + 2 + 1 + 1) : Nat) : Int)
            - ((TARGET_TABLE : Nat) : Int)) % 4294967296) :=
  next_cases demo_lexicon (TARGET_TABLE + 2) 1 (by decide) (by decide)

/-- C23 (amended): for `i < TARGET_TABLE`, `is_final(i)` holds if and only if
the index table gives `NO_SYMBOL` for the input symbol of cell `i` and a
target other than `NO_TABLE_INDEX`; a cell outside the table is not final. -/
theorem is_final_index_cell (t : Transducer) (i : TransitionTableIndex)
    (hi : i < TARGET_TABLE) :
    t.is_final i = true ↔
      ∃ c, t.indices.get? i = some c ∧ c.input_symbol = NO_SYMBOL ∧
        c.first_transition_index ≠ NO_TABLE_INDEX := by
  have h' : ¬ i ≥ TARGET_TABLE := not_le.2 hi
  unfold is_final indices_final indices_input_symbol indices_target
  simp only [h', if_false]
  cases t.indices.get? i with
  | none => simp
  | some c => simp

theorem is_final_index_cell_witness :
    demo_lexicon.is_final 4 = true ∧ demo_lexicon.indices.get? 4 = some ⟨NO_SYMBOL, 0⟩ :=
  ⟨(is_final_index_cell demo_lexicon 4 (by decide)).2 ⟨⟨NO_SYMBOL, 0⟩, rfl, rfl, by decide⟩, rfl⟩

/-- C23 as stated fails: cell 0 of the index table of `demo_lexicon` has the
input symbol `NO_SYMBOL` and the target `NO_TABLE_INDEX`, and `is_final(0)`
is false; cell 4 has the input symbol `NO_SYMBOL` and the target 0, and
`is_final(4)` is true. -/
theorem is_final_index_no_target :
    demo_lexicon.indices.get? 0 = some ⟨NO_SYMBOL, NO_TABLE_INDEX⟩ ∧
      demo_lexicon.is_final 0 = false ∧
      demo_lexicon.indices.get? 4 = some ⟨NO_SYMBOL, 0⟩ ∧
      demo_lexicon.is_final 4 = true := by
  decide

/-- C24 (amended): for `i >= TARGET_TABLE`, `is_final(i)` holds if and only
if cell `i - TARGET_TABLE` of the transition table has the input symbol
`NO_SYMBOL`, the output symbol `NO_SYMBOL` and the target 1; a cell outside
the table is not final. -/
theorem is_final_transition_cell (t : Transducer) (i : TransitionTableIndex)
    (hi : i ≥ TARGET_TABLE) :
    t.is_final i = true ↔
      ∃ c, t.transitions.get? (i - TARGET_TABLE) = some c ∧ c.input_symbol = NO_SYMBOL ∧
        c.output_symbol = NO_SYMBOL ∧ c.target_index = 1 := by
  unfold is_final transitions_final transitions_input_symbol transitions_output_symbol
    transitions_target
  simp only [hi, if_true]
  cases t.transitions.get? (i - TARGET_TABLE) with
  | none => simp [NO_TABLE_INDEX]
  | some c => simp [and_assoc]

theorem is_final_transition_cell_witness :
    demo_lexicon.is_final (TARGET_TABLE + 4) = true ∧
      demo_lexicon.transitions.get? 4 = some ⟨NO_SYMBOL, NO_SYMBOL, 1, 0⟩ :=
  ⟨(is_final_transition_cell demo_lexicon (TARGET_TABLE + 4) (by decide)).2
    ⟨⟨NO_SYMBOL, NO_SYMBOL, 1, 0⟩, rfl, rfl, rfl, rfl⟩, rfl⟩

/-- C24 as stated fails: transition cell 0 of `half_final_transducer` has the
input symbol `NO_SYMBOL` and the target 1, and `is_final(TARGET_TABLE)` is
false, because the output symbol of the cell is not `NO_SYMBOL`. -/
theorem is_final_transition_output :
    half_final_transducer.transitions_input_symbol 0 = NO_SYMBOL ∧
      half_final_transducer.transitions_target 0 = 1 ∧
      half_final_transducer.is_final (TARGET_TABLE + 0) = false := by
  decide

/-- C25 (amended): for `i < TARGET_TABLE`, when the (32-bit) target field of
index cell `i + 1` is `TARGET_TABLE + p` for a position `p` of the transition
table, `next(i, 0)` is `p`, a position inside the transition table. -/
theorem next_epsilon_in_table (t : Transducer) (i : TransitionTableIndex)
    (c : TransitionIndex) (p : Nat) (hi : i < TARGET_TABLE)
    (hc : t.indices.get? (i + 1) = some c)
    (ht : c.first_transition_index = TARGET_TABLE + p) (hp : p < t.transitions.length)
    (h32 : c.first_transition_index < 4294967296) :
    t.next i 0 = p ∧ t.next i 0 < t.transitions.length := by
  have k1 : ∀ a : Nat, a < 2147483648 → (a + 1 + 0) % 4294967296 = a + 1 := by
    intro a ha
    omega
  have k2 : ∀ q : Nat, q < 2147483648 →
      (2147483648 + q + 4294967296 - 2147483648) % 4294967296 = q := by
    intro q hq
    omega
  have h' : ¬ i ≥ TARGET_TABLE := not_le.2 hi
  have hn : t.next i 0 = p := by
    unfold next indices_target u32
    simp only [h', if_false]
    rw [k1 i hi, hc]
    simp only [ht]
    have k3 : ∀ x q : Nat, x = 2147483648 + q → x < 4294967296 → q < 2147483648 := by
      intro x q h1 h2
      omega
    exact k2 p (k3 _ p ht h32)
  exact ⟨hn, by rw [hn]; exact hp⟩

theorem next_epsilon_in_table_witness :
    flag_lexicon.next 0 0 = 0 ∧ flag_lexicon.next 0 0 < flag_lexicon.transitions.length :=
  next_epsilon_in_table flag_lexicon 0 ⟨0, TARGET_TABLE + 0⟩ 0 (by decide) (by decide)
    rfl (by decide) (by decide)

/-- C25 as stated fails: cell 1 of the index table of `demo_lexicon` is
inside the table (which has 8 cells) and holds the target `NO_TABLE_INDEX`,
so `next(0, 0)` is `2 ^ 31 - 1`, far outside the transition table of 5
cells. -/
theorem next_epsilon_outside_table :
    (0 : Nat) + 1 < demo_lexicon.indices.length ∧
      demo_lexicon.next 0 0 = 2147483647 ∧
      ¬ demo_lexicon.next 0 0 < demo_lexicon.transitions.length := by
  decide

end Transducer

namespace Speller

/-! ## The symbol written for an identity arc -/

/-- In Correct mode every node that `queue_lexicon_arcs` pushes has the
symbol it was called with appended to its string, whatever the output symbol
of the arc. -/
theorem arc_successors_correct_string (S : Speller) (a : SymbolNumber)
    (ms : TransitionTableIndex) (mw : Weight) (inc : Nat) (hmode : S.mode = Mode.Correct)
    (n : TreeNode) (hn : n ∈ S.arc_successors a ms mw inc) :
    n.string = if a ≠ 0 then S.next_node.string ++ [a] else S.next_node.string := by
  unfold arc_successors at hn
  rw [mem_arc_nodes] at hn
  obtain ⟨p, _, _, _, hn⟩ := hn
  rw [hn, hmode]
  rfl

/-- C30 fails in Correct mode.  The line `x` is tokenised to the symbol 2;
the lexicon has no transition for it and reads it through its identity arc,
whose output symbol is the identity symbol 1.  In Lookup mode
`lexicon_consume` pushes a node whose string is the input symbol 2; in
Correct mode `lexicon_consume` and `consume_input` (through
`queue_mutator_arcs`) push a node whose string is the identity symbol 1,
which `correct` prints as `@_IDENTITY_SYMBOL_@`. -/
theorem identity_arc_symbol_in_correct_mode :
    (ident_speller [2]).input.getD 0 NO_SYMBOL = 2 ∧ ident_lexicon.get_identity = 1 ∧
      ((ident_speller_at_start Mode.Lookup).lexicon_consume.queue.map (fun n => n.string))
        = [[2]] ∧
      ((ident_speller_at_start Mode.Correct).lexicon_consume.queue.map (fun n => n.string))
        = [[1]] ∧
      (((ident_speller_at_start Mode.Correct).consume_input ident_mutator).queue.map
          (fun n => n.string)) = [[1]] ∧
      ((ident_speller [2]).correct 0 (-1) (-1) 0 clock_never 100).map (fun r => r.1)
        = some [("@_IDENTITY_SYMBOL_@", 0)] := by
  decide!

end Speller


/-! ## The HFST3 wrapper -/

/-- The in-memory reader leaves the cursor one byte before its start
whenever the marker is missing. -/
theorem skip_hfst3_header_raw_no_marker (buf : List Char) (hlen : 5 ≤ buf.length)
    (h : ¬ hfst3_marker <+: buf) : skip_hfst3_header_raw buf 0 = some (-1) := by
  match buf, hlen with
  | c0 :: c1 :: c2 :: c3 :: c4 :: rest, _ =>
    have hne : ¬ (c0 = 'H' ∧ c1 = 'F' ∧ c2 = 'S' ∧ c3 = 'T' ∧ c4 = Char.ofNat 0) := by
      rintro ⟨rfl, rfl, rfl, rfl, rfl⟩
      exact h ⟨rest, rfl⟩
    have r0 : raw_byte (c0 :: c1 :: c2 :: c3 :: c4 :: rest) 0 = some c0 := rfl
    have r1 : raw_byte (c0 :: c1 :: c2 :: c3 :: c4 :: rest) (0 + 1) = some c1 := rfl
    have r2 : raw_byte (c0 :: c1 :: c2 :: c3 :: c4 :: rest) (0 + 1 + 1) = some c2 := rfl
    have r3 : raw_byte (c0 :: c1 :: c2 :: c3 :: c4 :: rest) (0 + 1 + 1 + 1) = some c3 := rfl
    have r4 : raw_byte (c0 :: c1 :: c2 :: c3 :: c4 :: rest) (0 + 1 + 1 + 1 + 1) = some c4 := rfl
    unfold skip_hfst3_header_raw hfst3_marker
    simp only [skip_hfst3_loop_raw, r0, r1, r2, r3, r4]
    by_cases h0 : c0 = 'H'
    · by_cases h1 : c1 = 'F'
      · by_cases h2 : c2 = 'S'
        · by_cases h3 : c3 = 'T'
          · have h4 : c4 ≠ Char.ofNat 0 := fun h4 => hne ⟨h0, h1, h2, h3, h4⟩
            simp [h0, h1, h2, h3, h4]
          · simp [h0, h1, h2, h3]
        · simp [h0, h1, h2]
      · simp [h0, h1]
    · simp [h0]

/-- The stream reader puts back what it has read whenever the marker is
missing. -/
theorem skip_hfst3_loop_file_restore (marker : List Char) :
    ∀ (header_loc : Nat) (c : Option Char) (f : List Char) (done : List Char),
      ¬ marker <+: f → done.length = header_loc →
      (skip_hfst3_loop_file marker header_loc c f).1 ≠ header_loc + marker.length ∧
      ((done ++ marker).take (skip_hfst3_loop_file marker header_loc c f).1 ++
        (match (skip_hfst3_loop_file marker header_loc c f).2.1 with
          | some ch => ch :: (skip_hfst3_loop_file marker header_loc c f).2.2
          | none => (skip_hfst3_loop_file marker header_loc c f).2.2)) = done ++ f := by
  induction marker with
  | nil =>
    intro header_loc c f done h
    exact absurd (List.nil_prefix) h
  | cons m marker ih =>
    intro header_loc c f done h hd
    cases f with
    | nil =>
      simp only [skip_hfst3_loop_file, List.length_cons]
      refine ⟨by omega, ?_⟩
      rw [← hd, List.take_left]
    | cons x f =>
      simp only [skip_hfst3_loop_file]
      by_cases hx : x = m
      · subst hx
        simp only [ne_eq, not_true_eq_false, if_false]
        have hrest : ¬ marker <+: f := fun hp => h ((List.prefix_cons_inj x).2 hp)
        obtain ⟨h1, h2⟩ := ih (header_loc + 1) (some x) f (done ++ [x]) hrest
          (by simp only [List.length_append, List.length_singleton, hd])
        refine ⟨by simp only [List.length_cons]; omega, ?_⟩
        simp only [List.append_assoc, List.singleton_append] at h2
        exact h2
      · simp only [ne_eq, hx, not_false_eq_true, if_true, List.length_cons]
        refine ⟨by omega, ?_⟩
        rw [← hd, List.take_left]

theorem skip_hfst3_header_file_no_marker (f : List Char) (h : ¬ hfst3_marker <+: f) :
    skip_hfst3_header_file f = Except.ok f := by
  obtain ⟨h1, h2⟩ := skip_hfst3_loop_file_restore hfst3_marker 0 (some (Char.ofNat 0)) f [] h rfl
  unfold skip_hfst3_header_file
  simp only [Nat.zero_add] at h1
  simp only [h1, if_false]
  simp only [List.nil_append] at h2
  exact congrArg Except.ok h2

/-- C26 fails for every buffer that does not begin with the marker: on the
56 bytes of a header without wrapper, `skip_hfst3_header(char **)` leaves
the cursor at position -1, one byte before the buffer, so the constructor
`TransducerHeader(char **)` reads its fields from there and not from offset
0; the stream reader puts the bytes back and decodes the header from the
first byte. -/
theorem skip_hfst3_header_raw_before_buffer :
    skip_hfst3_header_raw plain_header_bytes 0 = some (-1) ∧
      TransducerHeader.create_raw plain_header_bytes 0 = none ∧
      (skip_hfst3_header_file plain_header_bytes).toOption = some plain_header_bytes ∧
      (TransducerHeader.create_file plain_header_bytes).toOption = some (plain_header, []) := by
  decide

/-- C27 fails for the in-memory reader, which does not look at the
properties of the wrapper: for a wrapper whose `type` is `FOO` the
constructor `TransducerHeader(char **)` skips its 17 bytes and decodes the
header that follows, while the stream reader throws
`TransducerTypeException`.  The stream reader in turn accepts the type
`HFST_OLX`, which only begins with `HFST_OL`. -/
theorem hfst3_type_not_checked :
    TransducerHeader.create_raw (hfst3_wrapper "FOO" ++ plain_header_bytes) 0
        = some (plain_header, 73) ∧
      (match TransducerHeader.create_file (hfst3_wrapper "FOO" ++ plain_header_bytes) with
        | Except.error e => some e
        | Except.ok _ => none) = some HeaderError.TransducerTypeException ∧
      (TransducerHeader.create_file (hfst3_wrapper "HFST_OLX" ++ plain_header_bytes)).toOption
        = some (plain_header, []) := by
  decide


theorem StringSymbolMap.assign_absent (m : StringSymbolMap) (key : String) (v : SymbolNumber)
    (h : m.lookup key = none) : m.assign key v = m ++ [(key, v)] := by
  induction m with
  | nil => rfl
  | cons p rest ih =>
    obtain ⟨k0, v0⟩ := p
    simp only [List.lookup] at h
    split at h
    · cases h
    · rename_i hne
      have hk : ¬ k0 = key := by
        intro e
        subst e
        simp at hne
      simp only [StringSymbolMap.assign, if_neg hk, ih h, List.cons_append]

theorem lookup_isSome_iff_mem_keys {α β : Type} [DecidableEq α] (m : List (α × β)) (key : α) :
    (m.lookup key).isSome = true ↔ key ∈ m.map Prod.fst := by
  induction m with
  | nil => simp
  | cons p rest ih =>
    obtain ⟨k0, v0⟩ := p
    simp only [List.lookup, List.map_cons, List.mem_cons]
    by_cases e : key = k0
    · subst e
      simp
    · have : (key == k0) = false := by simpa using e
      rw [this]
      simp only [ih]
      constructor
      · exact Or.inr
      · rintro (h | h)
        · exact absurd h e
        · exact h

theorem lookup_none_iff_not_mem_keys {α β : Type} [DecidableEq α] (m : List (α × β)) (key : α) :
    m.lookup key = none ↔ key ∉ m.map Prod.fst := by
  rw [← lookup_isSome_iff_mem_keys]
  cases m.lookup key <;> simp

theorem lookup_append_left {α β : Type} [DecidableEq α] (m m2 : List (α × β)) (key : α) (v : β)
    (h : m.lookup key = some v) : (m ++ m2).lookup key = some v := by
  rw [List.lookup_append, h]
  rfl

theorem lookup_append_right {α β : Type} [DecidableEq α] (m m2 : List (α × β)) (key : α)
    (h : m.lookup key = none) : (m ++ m2).lookup key = m2.lookup key := by
  rw [List.lookup_append, h]
  rfl

theorem lookup_singleton_self {α β : Type} [DecidableEq α] (key : α) (v : β) :
    [(key, v)].lookup key = some v := by
  simp [List.lookup]

theorem lookup_singleton_some {α β : Type} [DecidableEq α] (key k : α) (v w : β)
    (h : [(k, v)].lookup key = some w) : key = k ∧ w = v := by
  simp only [List.lookup] at h
  split at h
  · rename_i e
    simp only [Option.some.injEq] at h
    exact ⟨by simpa using e, h.symm⟩
  · cases h

/-- In a map whose values number its keys from `s` on, the value of a key is
its position. -/
theorem keys_get?_of_lookup (m : StringSymbolMap) :
    ∀ (s : Nat) (f : String) (i : Nat),
      m.map Prod.snd = List.range' s m.length → m.lookup f = some i →
      s ≤ i ∧ (m.map Prod.fst).get? (i - s) = some f := by
  induction m with
  | nil => intro s f i _ h; cases h
  | cons p rest ih =>
    intro s f i hr h
    obtain ⟨k0, v0⟩ := p
    simp only [List.map_cons, List.length_cons, List.range'_succ, List.cons.injEq] at hr
    simp only [List.lookup] at h
    split at h
    · rename_i e
      simp only [Option.some.injEq] at h
      have e2 : f = k0 := by simpa using e
      subst h
      subst e2
      rw [hr.1]
      exact ⟨Nat.le_refl _, by simp⟩
    · obtain ⟨h1, h2⟩ := ih (s + 1) f i hr.2 h
      have e1 : ∀ a b : Nat, a + 1 ≤ b → b - a = (b - (a + 1)) + 1 := by intro a b; omega
      refine ⟨Nat.le_of_succ_le h1, ?_⟩
      rw [e1 s i h1]
      simpa using h2

namespace TransducerAlphabet

theorem read_symbol_not_flag (from_file : Bool) (k : Nat) (line : String) (st : ReadState)
    (hf : ¬ is_flag_string line) :
    (read_symbol from_file k line st).feature_bucket = st.feature_bucket ∧
      (read_symbol from_file k line st).feat_num = st.feat_num ∧
      (read_symbol from_file k line st).alphabet.operations = st.alphabet.operations := by
  unfold read_symbol
  simp only []
  split_ifs with h1 h2 <;>
    first
    | exact ⟨rfl, rfl, rfl⟩
    | exact absurd ⟨h1, h2⟩ hf

theorem read_symbol_flag (from_file : Bool) (k : Nat) (line : String) (st : ReadState)
    (hf : is_flag_string line) :
    (read_symbol from_file k line st).feature_bucket
        = (if st.feature_bucket.count (feature_name line) = 0
            then st.feature_bucket.assign (feature_name line) st.feat_num
            else st.feature_bucket) ∧
      (read_symbol from_file k line st).feat_num
        = (if st.feature_bucket.count (feature_name line) = 0
            then (st.feat_num + 1) % 65536 else st.feat_num) ∧
      ∃ v, (read_symbol from_file k line st).alphabet.operations
        = (if (st.alphabet.operations.lookup k).isSome then st.alphabet.operations
            else st.alphabet.operations ++
              [(k, ⟨flag_operator (line.toList.get? 1),
                (read_symbol from_file k line st).feature_bucket.value_at (feature_name line),
                v⟩)]) := by
  unfold read_symbol feature_name
  dsimp only
  rw [if_pos hf.1, if_pos hf.2]
  split_ifs <;> first | exact ⟨rfl, rfl, _, rfl⟩ | exact ⟨rfl, rfl, 0, rfl⟩


theorem count_eq_zero_iff (m : StringSymbolMap) (key : String) :
    m.count key = 0 ↔ m.lookup key = none := by
  unfold StringSymbolMap.count
  cases m.lookup key <;> simp

/-- One round of the loop of `read` keeps the invariant. -/
theorem read_symbol_inv (from_file : Bool) (k : Nat) (line : String) (st : ReadState)
    (done : List (Nat × String)) (hinv : ReadInv st done) (hk : ∀ p ∈ done, p.1 ≠ k)
    (hlen : done.length < 65535) :
    ReadInv (read_symbol from_file k line st) (done ++ [(k, line)]) := by
  obtain ⟨i1, i2, i3, i4, i5, i6, i7⟩ := hinv
  by_cases hf : is_flag_string line
  · obtain ⟨b1, b2, v, b3⟩ := read_symbol_flag from_file k line st hf
    have hnk : st.alphabet.operations.lookup k = none := by
      cases hl : st.alphabet.operations.lookup k with
      | none => rfl
      | some op =>
        obtain ⟨p, hp, hpk, _⟩ := i7 k op hl
        exact absurd hpk (hk p hp)
    rw [hnk] at b3
    simp only [Option.isSome_none, Bool.false_eq_true, if_false] at b3
    have h7 : ∀ k1 op, (read_symbol from_file k line st).alphabet.operations.lookup k1 = some op →
        ∃ p ∈ done ++ [(k, line)], p.1 = k1 ∧ is_flag_string p.2 := by
      intro k1 op h
      rw [b3] at h
      cases hl : st.alphabet.operations.lookup k1 with
      | some x =>
        obtain ⟨p, hp, hp1, hp2⟩ := i7 k1 x hl
        exact ⟨p, List.mem_append_left _ hp, hp1, hp2⟩
      | none =>
        rw [lookup_append_right _ _ _ hl] at h
        obtain ⟨e, _⟩ := lookup_singleton_some _ _ _ _ h
        exact ⟨(k, line), List.mem_append_right _ (List.mem_singleton.2 rfl), e.symm, hf⟩
    have h6 : ∀ j, (read_symbol from_file k line st).feature_bucket.lookup (feature_name line)
          = some j →
        (∀ f i, st.feature_bucket.lookup f = some i →
          (read_symbol from_file k line st).feature_bucket.lookup f = some i) →
        ∀ p ∈ done ++ [(k, line)], is_flag_string p.2 →
          ∃ op, (read_symbol from_file k line st).alphabet.operations.lookup p.1 = some op ∧
            op.operation = flag_operator (p.2.toList.get? 1) ∧
            (read_symbol from_file k line st).feature_bucket.lookup (feature_name p.2)
              = some op.feature := by
      intro j hj hmono p hp hpf
      rcases List.mem_append.1 hp with hp | hp
      · obtain ⟨op, o1, o2, o3⟩ := i6 p hp hpf
        exact ⟨op, by rw [b3]; exact lookup_append_left _ _ _ _ o1, o2, hmono _ _ o3⟩
      · rw [List.mem_singleton.1 hp]
        refine ⟨_, by rw [b3, lookup_append_right _ _ _ hnk]; exact lookup_singleton_self _ _,
          rfl, ?_⟩
        simp only [StringSymbolMap.value_at, hj, Option.getD_some]
    by_cases hc : st.feature_bucket.lookup (feature_name line) = none
    · have hc0 := (count_eq_zero_iff _ _).2 hc
      rw [if_pos hc0, StringSymbolMap.assign_absent _ _ _ hc, i1] at b1
      rw [if_pos hc0, i1] at b2
      have hsmall : ∀ a b : Nat, a ≤ b → b < 65535 → (a + 1) % 65536 = a + 1 := by
        intro a b h1 h2
        omega
      rw [hsmall _ _ i2 hlen] at b2
      have hj : (read_symbol from_file k line st).feature_bucket.lookup (feature_name line)
          = some st.feature_bucket.length := by
        rw [b1, lookup_append_right _ _ _ hc]
        exact lookup_singleton_self _ _
      refine ⟨?_, ?_, ?_, ?_, ?_, h6 _ hj ?_, h7⟩
      · rw [b2, b1, List.length_append, List.length_singleton]
      · rw [b1, List.length_append, List.length_append, List.length_singleton,
          List.length_singleton]
        exact Nat.succ_le_succ i2
      · rw [b1, List.map_append, i3, List.length_append, List.length_singleton,
          List.range_succ]
        rfl
      · rw [b1, List.map_append]
        refine List.Nodup.append i4 (List.nodup_singleton _) ?_
        intro f hf1 hf2
        rw [List.map_singleton, List.mem_singleton] at hf2
        subst hf2
        exact (lookup_none_iff_not_mem_keys _ _).1 hc hf1
      · intro f
        rw [b1, List.map_append, List.mem_append]
        constructor
        · rintro (h | h)
          · obtain ⟨p, hp, hp1, hp2⟩ := (i5 f).1 h
            exact ⟨p, List.mem_append_left _ hp, hp1, hp2⟩
          · rw [List.map_singleton, List.mem_singleton] at h
            exact ⟨(k, line), List.mem_append_right _ (List.mem_singleton.2 rfl), hf, h.symm⟩
        · rintro ⟨p, hp, hp1, hp2⟩
          rcases List.mem_append.1 hp with hp | hp
          · exact Or.inl ((i5 f).2 ⟨p, hp, hp1, hp2⟩)
          · rw [List.mem_singleton.1 hp] at hp2
            exact Or.inr (by rw [List.map_singleton, List.mem_singleton]; exact hp2.symm)
      · intro f i h
        rw [b1]
        exact lookup_append_left _ _ _ _ h
    · have hc0 : ¬ st.feature_bucket.count (feature_name line) = 0 :=
        fun h => hc ((count_eq_zero_iff _ _).1 h)
      rw [if_neg hc0] at b1 b2
      obtain ⟨j, hj⟩ := Option.ne_none_iff_exists'.1 hc
      refine ⟨by rw [b2, b1]; exact i1, ?_, by rw [b1]; exact i3, by rw [b1]; exact i4, ?_,
        h6 j (by rw [b1]; exact hj) (fun f i h => by rw [b1]; exact h), h7⟩
      · rw [b1, List.length_append]
        exact Nat.le_trans i2 (Nat.le_add_right _ _)
      · intro f
        rw [b1]
        constructor
        · intro h
          obtain ⟨p, hp, hp1, hp2⟩ := (i5 f).1 h
          exact ⟨p, List.mem_append_left _ hp, hp1, hp2⟩
        · rintro ⟨p, hp, hp1, hp2⟩
          rcases List.mem_append.1 hp with hp | hp
          · exact (i5 f).2 ⟨p, hp, hp1, hp2⟩
          · rw [List.mem_singleton.1 hp] at hp2
            rw [← hp2]
            exact (lookup_isSome_iff_mem_keys _ _).1 (by rw [hj]; rfl)
  · obtain ⟨b1, b2, b3⟩ := read_symbol_not_flag from_file k line st hf
    refine ⟨by rw [b2, b1]; exact i1, ?_, by rw [b1]; exact i3, by rw [b1]; exact i4, ?_, ?_, ?_⟩
    · rw [b1, List.length_append]
      exact Nat.le_trans i2 (Nat.le_add_right _ _)
    · intro f
      rw [b1]
      constructor
      · intro h
        obtain ⟨p, hp, hp1, hp2⟩ := (i5 f).1 h
        exact ⟨p, List.mem_append_left _ hp, hp1, hp2⟩
      · rintro ⟨p, hp, hp1, hp2⟩
        rcases List.mem_append.1 hp with hp | hp
        · exact (i5 f).2 ⟨p, hp, hp1, hp2⟩
        · rw [List.mem_singleton.1 hp] at hp1
          exact absurd hp1 hf
    · intro p hp hpf
      rcases List.mem_append.1 hp with hp | hp
      · rw [b3, b1]
        exact i6 p hp hpf
      · rw [List.mem_singleton.1 hp] at hpf
        exact absurd hpf hf
    · intro k1 op h
      rw [b3] at h
      obtain ⟨p, hp, hp1, hp2⟩ := i7 k1 op h
      exact ⟨p, List.mem_append_left _ hp, hp1, hp2⟩

end TransducerAlphabet

namespace TransducerAlphabet

/-- The loop of `read` keeps the invariant: after it the symbols read are
those before it and the next `count` strings, numbered from `k` on. -/
theorem read_loop_inv (from_file : Bool) (raw : List String) :
    ∀ (k count : Nat) (st st1 : ReadState) (done : List (Nat × String)),
      read_loop from_file raw k count st = some st1 → ReadInv st done →
      (∀ p ∈ done, p.1 < k) → done.length + count ≤ 65535 →
      ReadInv st1 (done ++ (raw.take count).enumFrom k) := by
  induction raw with
  | nil =>
    intro k count st st1 done h hinv _ _
    cases count with
    | zero =>
      simp only [read_loop, Option.some.injEq] at h
      subst h
      simpa using hinv
    | succ count => simp only [read_loop] at h; cases h
  | cons line raw ih =>
    intro k count st st1 done h hinv hk hlen
    cases count with
    | zero =>
      simp only [read_loop, Option.some.injEq] at h
      subst h
      simpa using hinv
    | succ count =>
      simp only [read_loop] at h
      have hl1 : ∀ a b : Nat, a + (b + 1) ≤ 65535 → a < 65535 := by intro a b; omega
      have hl2 : ∀ a b : Nat, a + (b + 1) ≤ 65535 → a + 1 + b ≤ 65535 := by intro a b; omega
      have h1 := read_symbol_inv from_file k line st done hinv
        (fun p hp => Nat.ne_of_lt (hk p hp)) (hl1 _ _ hlen)
      have h2 := ih (k + 1) count _ st1 (done ++ [(k, line)]) h h1
        (fun p hp => by
          rcases List.mem_append.1 hp with hp | hp
          · exact Nat.lt_succ_of_lt (hk p hp)
          · rw [List.mem_singleton.1 hp]
            exact Nat.lt_succ_self k)
        (by rw [List.length_append, List.length_singleton]; exact hl2 _ _ hlen)
      rw [List.take_succ_cons, List.enumFrom_cons]
      rw [List.append_assoc] at h2
      exact h2

/-- The symbols that the loop of `read` has seen, by number. -/
theorem mem_symbols_read (eps : String) (rest : List String) (n : Nat) (p : Nat × String) :
    p ∈ (rest.take (n - 1)).enumFrom 1 ↔
      1 ≤ p.1 ∧ p.1 < n ∧ (eps :: rest).get? p.1 = some p.2 := by
  obtain ⟨k, line⟩ := p
  rw [List.mk_mem_enumFrom_iff_le_and_getElem?_sub, List.getElem?_take]
  constructor
  · rintro ⟨h1, h2⟩
    split_ifs at h2 with h3
    · refine ⟨h1, by omega, ?_⟩
      obtain ⟨j, rfl⟩ : ∃ j, k = j + 1 := ⟨k - 1, by omega⟩
      simpa using h2
  · rintro ⟨h1, h2, h3⟩
    obtain ⟨j, rfl⟩ : ∃ j, k = j + 1 := ⟨k - 1, by omega⟩
    refine ⟨h1, ?_⟩
    rw [if_pos (by omega)]
    simpa using h3

/-- A loaded alphabet comes from a state of the loop that satisfies the
invariant for the symbols 1 to `n - 1`. -/
theorem create_inv (from_file : Bool) (raw : List String) (n : Nat) (a : TransducerAlphabet)
    (hn : n < 65536) (h : create from_file raw n = some a) :
    ∃ (eps : String) (rest : List String) (st : ReadState), raw = eps :: rest ∧
      a.operations = st.alphabet.operations ∧
      a.flag_state_size = st.feature_bucket.length ∧
      ReadInv st ((rest.take (n - 1)).enumFrom 1) := by
  unfold create read at h
  cases raw with
  | nil => cases h
  | cons eps raw =>
    simp only [] at h
    split at h
    · cases h
    · rename_i st hst
      simp only [Option.some.injEq] at h
      subst h
      have h0 : ReadInv
          { alphabet :=
              { kt := ([] : KeyTable) ++ [""], operations := [], unknown_symbol := NO_SYMBOL,
                identity_symbol := NO_SYMBOL, flag_state_size := 0, orig_symbol_count := n,
                string_to_symbol := [] },
            feature_bucket := [], value_bucket := [("", 0)], val_num := 1, feat_num := 0 } [] := by
        refine ⟨rfl, Nat.le_refl _, rfl, List.nodup_nil, ?_, ?_, ?_⟩
        · intro f
          simp
        · intro p hp
          cases hp
        · intro k op hk
          cases hk
      have h1 := read_loop_inv from_file raw 1 (n - 1) _ st [] hst h0
        (fun p hp => by cases hp) (by simp only [List.length_nil]; omega)
      rw [List.nil_append] at h1
      refine ⟨eps, raw, st, rfl, rfl, ?_, h1⟩
      have hle := h1.2.1
      rw [List.enumFrom_length, List.length_take] at hle
      show st.feature_bucket.length % 65536 = st.feature_bucket.length
      apply Nat.mod_eq_of_lt
      omega


theorem mem_flag_feature_names (eps : String) (rest : List String) (n : Nat) (f : String) :
    f ∈ flag_feature_names (eps :: rest) n ↔
      ∃ p ∈ (rest.take (n - 1)).enumFrom 1, is_flag_string p.2 ∧ feature_name p.2 = f := by
  unfold flag_feature_names
  simp only [List.drop_succ_cons, List.drop_zero, List.mem_map, List.mem_filter,
    decide_eq_true_eq]
  constructor
  · rintro ⟨line, ⟨h1, h2⟩, h3⟩
    obtain ⟨j, hj⟩ := List.getElem?_of_mem h1
    exact ⟨(1 + j, line),
      List.mk_mem_enumFrom_iff_le_and_getElem?_sub.2 ⟨Nat.le_add_right _ _, by simpa using hj⟩,
      h2, h3⟩
  · rintro ⟨⟨k, line⟩, hp, h2, h3⟩
    exact ⟨line, ⟨List.getElem?_mem (List.mk_mem_enumFrom_iff_le_and_getElem?_sub.1 hp).2, h2⟩,
      h3⟩

/-- C29: after `TransducerAlphabet::read` of at most 65535 symbols,
`flag_state_size` is the number of distinct feature names of the flag
diacritics read, and the feature numbers in `operations` index a list
`features` of these names without repetition: every flag diacritic has an
operation whose feature number is the position of its feature name, every
feature number in `operations` is below `flag_state_size`, and every number
below `flag_state_size` is the feature number of some operation. -/
theorem flag_state_size_counts_features (from_file : Bool) (raw : List String) (n : Nat)
    (a : TransducerAlphabet) (hn : n < 65536) (h : create from_file raw n = some a) :
    a.flag_state_size = (flag_feature_names raw n).dedup.length ∧
      ∃ features : List String, features.Nodup ∧ features.length = a.flag_state_size ∧
        (∀ f, f ∈ features ↔ f ∈ flag_feature_names raw n) ∧
        (∀ k line, 1 ≤ k → k < n → raw.get? k = some line → is_flag_string line →
          ∃ op, a.operations.lookup k = some op ∧
            features.get? op.feature = some (feature_name line)) ∧
        (∀ k op, a.operations.lookup k = some op → op.feature < a.flag_state_size) ∧
        (∀ i, i < a.flag_state_size → ∃ k op, a.operations.lookup k = some op ∧ op.feature = i) := by
  obtain ⟨eps, rest, st, hraw, hops, hsize, i1, i2, i3, i4, i5, i6, i7⟩ :=
    create_inv from_file raw n a hn h
  subst hraw
  rw [List.range_eq_range'] at i3
  have hmem : ∀ f, f ∈ st.feature_bucket.map Prod.fst ↔ f ∈ flag_feature_names (eps :: rest) n :=
    fun f => (i5 f).trans (mem_flag_feature_names eps rest n f).symm
  have hlenkeys : (st.feature_bucket.map Prod.fst).length = a.flag_state_size := by
    rw [List.length_map, hsize]
  have hpos : ∀ f i, st.feature_bucket.lookup f = some i →
      (st.feature_bucket.map Prod.fst).get? i = some f := by
    intro f i hl
    simpa using (keys_get?_of_lookup st.feature_bucket 0 f i i3 hl).2
  refine ⟨?_, st.feature_bucket.map Prod.fst, i4, hlenkeys, hmem, ?_, ?_, ?_⟩
  · rw [← hlenkeys]
    apply List.Perm.length_eq
    rw [List.perm_ext_iff_of_nodup i4 (List.nodup_dedup _)]
    intro f
    rw [List.mem_dedup]
    exact hmem f
  · intro k line hk1 hk2 hget hflag
    obtain ⟨op, o1, _, o3⟩ :=
      i6 (k, line) ((mem_symbols_read eps rest n (k, line)).2 ⟨hk1, hk2, hget⟩) hflag
    exact ⟨op, by rw [hops]; exact o1, hpos _ _ o3⟩
  · intro k op hl
    rw [hops] at hl
    obtain ⟨p, hp, hpk, hpf⟩ := i7 k op hl
    obtain ⟨op1, o1, _, o3⟩ := i6 p hp hpf
    rw [hpk, hl, Option.some.injEq] at o1
    subst o1
    have h1 := hpos _ _ o3
    rw [← hlenkeys]
    exact (List.get?_eq_some.1 h1).1
  · intro i hi
    rw [← hlenkeys] at hi
    have hfi : (st.feature_bucket.map Prod.fst).get? i
        = some ((st.feature_bucket.map Prod.fst).get ⟨i, hi⟩) := List.get?_eq_get hi
    obtain ⟨p, hp, hpf, hpn⟩ := (i5 _).1 (List.get_mem _ i hi)
    obtain ⟨op, o1, _, o3⟩ := i6 p hp hpf
    refine ⟨p.1, op, by rw [hops]; exact o1, ?_⟩
    have h1 := hpos _ _ o3
    rw [hpn, ← hfi] at h1
    have h2 : op.feature < (st.feature_bucket.map Prod.fst).length := by
      rw [hpn] at o3
      exact (List.get?_eq_some.1 (hpos _ _ o3)).1
    exact List.getElem?_inj h2 i4 (by simpa using h1)

theorem flag_state_size_counts_features_witness :
    5 < 65536 ∧ create false flag_symbol_strings 5 = some loaded_flag_alphabet ∧
      (loaded_flag_alphabet.flag_state_size = (flag_feature_names flag_symbol_strings 5).dedup.length ∧
      ∃ features : List String, features.Nodup ∧
        features.length = loaded_flag_alphabet.flag_state_size ∧
        (∀ f, f ∈ features ↔ f ∈ flag_feature_names flag_symbol_strings 5) ∧
        (∀ k line, 1 ≤ k → k < 5 → flag_symbol_strings.get? k = some line → is_flag_string line →
          ∃ op, loaded_flag_alphabet.operations.lookup k = some op ∧
            features.get? op.feature = some (feature_name line)) ∧
        (∀ k op, loaded_flag_alphabet.operations.lookup k = some op →
          op.feature < loaded_flag_alphabet.flag_state_size) ∧
        (∀ i, i < loaded_flag_alphabet.flag_state_size →
          ∃ k op, loaded_flag_alphabet.operations.lookup k = some op ∧ op.feature = i)) :=
  ⟨by decide, rfl,
    flag_state_size_counts_features false flag_symbol_strings 5 loaded_flag_alphabet (by decide)
      rfl⟩


/-- After `read` of at most 65535 symbols the keys of `operations` are the
numbers of the strings that begin and end with `@`, have at least five bytes
and a `.` as third byte, and the stored operator is the one that
`switch (line[1])` selects, `P` when the byte is none of `PNRDCU`. -/
theorem is_flag_iff_flag_string (from_file : Bool) (raw : List String) (n : Nat)
    (a : TransducerAlphabet) (hn : n < 65536) (h : create from_file raw n = some a) (k : Nat) :
    (a.is_flag k = true ↔
        ∃ line, 1 ≤ k ∧ k < n ∧ raw.get? k = some line ∧ is_flag_string line) ∧
      (∀ line op, 1 ≤ k → k < n → raw.get? k = some line → is_flag_string line →
        a.operations.lookup k = some op → op.operation = flag_operator (line.toList.get? 1)) := by
  obtain ⟨eps, rest, st, hraw, hops, _, _, _, _, _, _, i6, i7⟩ :=
    create_inv from_file raw n a hn h
  subst hraw
  unfold is_flag
  rw [hops]
  refine ⟨⟨fun hk => ?_, ?_⟩, ?_⟩
  · obtain ⟨op, hop⟩ := Option.isSome_iff_exists.1 hk
    obtain ⟨p, hp, hpk, hpf⟩ := i7 k op hop
    obtain ⟨h1, h2, h3⟩ := (mem_symbols_read eps rest n p).1 hp
    rw [hpk] at h1 h2 h3
    exact ⟨p.2, h1, h2, h3, hpf⟩
  · rintro ⟨line, h1, h2, h3, hf⟩
    obtain ⟨op, o1, _, _⟩ := i6 (k, line) ((mem_symbols_read eps rest n (k, line)).2 ⟨h1, h2, h3⟩) hf
    rw [o1]
    rfl
  · intro line op h1 h2 h3 hf hl
    obtain ⟨op1, o1, o2, _⟩ :=
      i6 (k, line) ((mem_symbols_read eps rest n (k, line)).2 ⟨h1, h2, h3⟩) hf
    rw [hl, Option.some.injEq] at o1
    rw [o1]
    exact o2

/-- C28: `TransducerAlphabet::read` does not look at the operator letter when
it decides whether a symbol is a flag diacritic.  On an alphabet whose symbol
1 is `@X.A@` both overloads make 1 a key of `operations`, with the operator
`P` that the variable was initialised with, although `X` is none of
`PNRDCU`. -/
theorem flag_operator_letter_not_checked :
    (create false ["", "@X.A@"] 2).map (fun a => (a.is_flag 1, a.operations))
        = some (true, [(1, ⟨FlagDiacriticOperator.P, 0, 0⟩)]) ∧
      (create true ["", "@X.A@"] 2).map (fun a => (a.is_flag 1, a.operations))
        = some (true, [(1, ⟨FlagDiacriticOperator.P, 0, 0⟩)]) := by
  decide

end TransducerAlphabet

namespace WeightQueue

theorem push_perm (q : WeightQueue) (w : Weight) : (q.push w).Perm (w :: q) := by
  induction q with
  | nil => exact List.Perm.refl _
  | cons x xs ih =>
    unfold push
    split_ifs
    · exact List.Perm.refl _
    · exact (List.Perm.cons x ih).trans (List.Perm.swap w x xs)

end WeightQueue

namespace Speller

/-- What `adjust_weight_limits` does under `NbestBeam` when a best suggestion
is known and `nbest` results have been found: the limit is the smaller of
`best_suggestion + beam` and the lowest weight in `nbest_queue`. -/
theorem adjust_weight_limits_nbest_beam_lowest (S : Speller) (nbest : Int) (beam : Weight)
    (hl : S.limiting = LimitingBehaviour.NbestBeam) (hb : S.best_suggestion < WEIGHT_MAX)
    (hn : S.nbest_queue.length ≥ size_t_of_int nbest) :
    (S.adjust_weight_limits nbest beam).limit
      = min (S.best_suggestion + beam) S.nbest_queue.get_lowest := by
  unfold adjust_weight_limits
  simp only [hl, hb, hn]
  simp

/-- C32 fails.  In `correct` on the input `aa` with `nbest = 2` and
`beam = 5` the main loop ends under `NbestBeam` with the best suggestion 2
(from its last iteration) and the two weights 1 and 2 in `nbest_queue`; the
call of `adjust_weight_limits` that follows sets `limit` to 1, the smaller of
`best_suggestion + beam = 7` and `get_lowest() = 1`, while the minimum with
`get_highest() = 2` is 2. -/
theorem adjust_weight_limits_takes_lowest :
    ((((demo_speller [1, 1]).correct_prepare 2 (-1) 5 0).correct_cache demo_mutator 100).bind
        (fun S => (correct_loop demo_mutator 2 (-1) 5 clock_never 100
          { S with queue := (S.cache.getD S.first_input CacheContainer.fresh).nodes.reverse }
          []).map
          (fun r => (r.1.limiting, r.1.best_suggestion, r.1.nbest_queue,
            (r.1.adjust_weight_limits 2 5).limit))))
        = some (LimitingBehaviour.NbestBeam, 2, [1, 2], 1) ∧
      WeightQueue.get_lowest [1, 2] = 1 ∧ WeightQueue.get_highest [1, 2] = 2 ∧
      min ((2 : Weight) + 5) (WeightQueue.get_highest [1, 2]) = 2 := by
  decide!

end Speller

namespace Speller

/-- C33: `lexicon_epsilons` changes nothing but `queue`: `next_node`, with
its flag state, is afterwards what it was on entry, whether the flag
operations met succeed or fail.  The nodes pushed are computed from the
entry node: for an epsilon transition the entry node moved along it, for a
flag transition whose operation succeeds on the entry node the result of
that one operation moved along the transition; a failing operation pushes
nothing. -/
theorem lexicon_epsilons_keeps_next_node (S : Speller) :
    S.lexicon_epsilons.next_node = S.next_node ∧
      S.lexicon_epsilons = { S with queue := S.eps_successors.reverse ++ S.queue } ∧
      ∀ n' ∈ S.eps_successors, ∃ p : Nat,
        (S.lexicon.transitions_input_symbol p = 0 ∧
          n' = S.next_node.update_lexicon
            (if S.mode = Mode.Correct then 0 else (S.lexicon.take_epsilons_and_flags p).symbol)
            (S.lexicon.take_epsilons_and_flags p).index
            (S.lexicon.take_epsilons_and_flags p).weight) ∨
        (S.lexicon.transitions_input_symbol p ≠ 0 ∧
          (S.next_node.try_compatible_with
            (S.lexicon.get_operations.at (S.lexicon.transitions_input_symbol p))).1 = true ∧
          n' = (S.next_node.try_compatible_with
              (S.lexicon.get_operations.at
                (S.lexicon.transitions_input_symbol p))).2.update_lexicon 0
            (S.lexicon.take_epsilons_and_flags p).index
            (S.lexicon.take_epsilons_and_flags p).weight) := by
  refine ⟨by rw [lexicon_epsilons_eq], lexicon_epsilons_eq S, fun n' hn => ?_⟩
  unfold eps_successors at hn
  split_ifs at hn
  · cases hn
  · obtain ⟨p, _, _, _, h⟩ := (mem_eps_nodes _ _ _ _ _ _ _).1 hn
    exact ⟨p, h⟩

end Speller

/-- C34: `try_compatible_with(op)` leaves every entry of `flag_state` other
than the one at index `op.Feature()` as it was, and the length of the vector
and the other members of the node as well; when it returns false the flag
state is unchanged altogether. -/
theorem try_compatible_with_frame (n : TreeNode) (op : FlagDiacriticOperation) :
    (∀ i : Nat, i ≠ op.feature →
        (n.try_compatible_with op).2.flag_state.get? i = n.flag_state.get? i) ∧
      (n.try_compatible_with op).2.flag_state.length = n.flag_state.length ∧
      { (n.try_compatible_with op).2 with flag_state := n.flag_state } = n ∧
      ((n.try_compatible_with op).1 = false →
        (n.try_compatible_with op).2.flag_state = n.flag_state) := by
  refine ⟨fun i hi => ?_, ?_, try_compatible_with_restore n op, fun h => ?_⟩
  · unfold TreeNode.try_compatible_with
    cases op.operation <;> simp only [] <;> (try split_ifs) <;>
      simp [List.getElem?_set, Ne.symm hi]
  · unfold TreeNode.try_compatible_with
    cases op.operation <;> simp only [] <;> (try split_ifs) <;> simp
  · rw [try_compatible_with_failure n op h]

namespace Speller

/-- C35 fails: `analyse` does not reset `limit` and `limiting`, and
`lexicon_epsilons` and `queue_lexicon_arcs` prune with them.  On a new
speller `analyse` of the line `ab` returns the analysis `ab` of weight 2.
After `correct` of the line `aa` with `maxweight = 1`, which leaves
`limit = 1` under `MaxWeight`, `analyse` of `ab` returns nothing, while
`check`, which sets `limit` to the maximum, still accepts `ab`; after
`correct` with `nbest = 1`, which leaves `limit = 1` under `Nbest`,
`analyse` of `aa` itself (weight 1) returns nothing. -/
theorem analyse_depends_on_limit :
    ((demo_speller [1, 2]).analyse 100).map (fun r => r.1) = some [("ab", 2)] ∧
      ((demo_speller [1, 1]).correct 0 1 (-1) 0 clock_never 100).map
          (fun r => (r.1, r.2.limit, r.2.limiting))
        = some ([("aa", 1)], 1, LimitingBehaviour.MaxWeight) ∧
      ((demo_speller [1, 1]).correct 0 1 (-1) 0 clock_never 100).bind
          (fun r => ((r.2.with_input [1, 2]).analyse 100).map (fun r => r.1)) = some [] ∧
      ((demo_speller [1, 1]).correct 0 1 (-1) 0 clock_never 100).bind
          (fun r => ((r.2.with_input [1, 2]).check 100).map (fun r => r.1)) = some true ∧
      ((demo_speller [1, 1]).analyse 100).map (fun r => r.1) = some [("aa", 1)] ∧
      ((demo_speller [1, 1]).correct 1 (-1) (-1) 0 clock_never 100).bind
          (fun r => ((r.2.with_input [1, 1]).analyse 100).map
            (fun r => (r.1, r.2.limit, r.2.limiting)))
        = some ([], 1, LimitingBehaviour.Nbest) := by
  decide!

end Speller

namespace Speller

/-- C36 fails for a speller without error model.  On the line `x`, which the
encoder of `tok_lexicon` does not know, `init_input` returns true, appends
`x` to the key table of the lexicon as symbol 2 and registers it in the
encoder under that number, but stores in `input` the value `NO_SYMBOL` that
the failed `find_key` left in `k`: the key table has no entry 65535 and
`stringify` prints nothing for it.  On the speller left by that call the same
line is tokenised to the symbol 2, whose key is `x`. -/
theorem init_input_stores_no_symbol :
    (({ tok_speller with mode := Mode.Lookup } : Speller).init_input ['x']).map
        (fun r => (r.1, r.2.input, r.2.lexicon.alphabet.kt,
          r.2.lexicon.alphabet.kt.get? 65535, stringify r.2.lexicon.alphabet.kt r.2.input))
        = some (true, [65535], ["", "@_IDENTITY_SYMBOL_@", "x"], none, "") ∧
      ((({ tok_speller with mode := Mode.Lookup } : Speller).init_input ['x']).bind
          (fun r => r.2.init_input ['x'])).map
        (fun r => (r.1, r.2.input, r.2.lexicon.alphabet.kt,
          stringify r.2.lexicon.alphabet.kt r.2.input))
        = some (true, [2], ["", "@_IDENTITY_SYMBOL_@", "x"], "x") := by
  decide

end Speller

namespace Speller

/-- When `find_key` fails at a byte for which `nByte_utf8` asks for more
bytes than the line has left, `init_input` has no result: `memcpy` and the
cursor pass the terminating NUL. -/
theorem init_input_loop_past_terminator (S : Speller) (c : Char) (rest : List Char)
    (fuel advanced : Nat)
    (hk : S.input_encoder.find_key (c :: rest) = some (NO_SYMBOL, advanced))
    (hb : (c :: rest).length < nByte_utf8 c) :
    init_input_loop (fuel + 1) S (c :: rest) = none := by
  have h0 : ¬ nByte_utf8 c = 0 := by
    intro h
    rw [h] at hb
    exact absurd hb (Nat.not_lt_zero _)
  simp only [init_input_loop, hk, if_true, h0, if_false, hb]

/-- C37 fails on a line that ends inside a multi-byte character.  The line
is the one byte `E2` (`11100010`, the first of three bytes) before the NUL;
no symbol begins with it, `nByte_utf8` answers 3, and `init_input` copies
three bytes from a line that has one byte and a terminator and moves the
cursor two bytes past the terminator: the embedding has no result for such
a read.  With the two continuation bytes in place the same call returns
true. -/
theorem init_input_reads_past_terminator :
    nByte_utf8 (Char.ofNat 226) = 3 ∧
      tok_speller.input_encoder.find_key [Char.ofNat 226] = some (NO_SYMBOL, 1) ∧
      (tok_speller.init_input [Char.ofNat 226]).map (fun r => r.1) = none ∧
      (tok_speller.init_input [Char.ofNat 226, Char.ofNat 130, Char.ofNat 172]).map
        (fun r => (r.1, r.2.lexicon.alphabet.kt.length)) = some (true, 3) := by
  decide

end Speller

namespace Speller

/-- The first iteration of the loop of `build_cache` pops the start node and
runs the body on it. -/
theorem build_cache_loop_first (m : Transducer) (first_sym : SymbolNumber) (fuel : Nat)
    (S : Speller) :
    build_cache_loop m first_sym (fuel + 1)
        { S with queue := [S.start_node], limit := WEIGHT_MAX } [] []
      = build_cache_loop m first_sym fuel
          (build_cache_body m first_sym
            { S with queue := [], limit := WEIGHT_MAX, next_node := S.start_node } [] []).1
          (build_cache_body m first_sym
            { S with queue := [], limit := WEIGHT_MAX, next_node := S.start_node } [] []).2.1
          (build_cache_body m first_sym
            { S with queue := [], limit := WEIGHT_MAX, next_node := S.start_node } [] []).2.2 :=
  rfl

/-- C38 fails in `mutator_epsilons`, which calls `queue_lexicon_arcs` without
the test `input_state < input.size()` that `lexicon_consume` and
`consume_input` make.  The speller is constructed over `tok_lexicon`, which
has an identity arc at its start state, and an error model that inserts `z`,
a letter that the lexicon gets only from the alphabet translator.  In
`correct` of the empty line `input` is empty; `build_cache` calls
`mutator_epsilons` on the start node, the inserted `z` has no transition in
the lexicon, the fallback calls `queue_lexicon_arcs` for the identity symbol,
and the identity arc makes it read `input[0]`.  The call returns the
suggestion pushed for that arc. -/
theorem mutator_epsilons_reads_past_input :
    (Speller.create (some insert_mutator) tok_lexicon 10).map
        (fun S => (S.alphabet_translator, S.lexicon.alphabet.kt,
          S.lexicon.alphabet.orig_symbol_count, S.lexicon.get_identity))
        = some ([0, 2], ["", "@_IDENTITY_SYMBOL_@", "z"], 2, 1) ∧
      (Speller.create (some insert_mutator) tok_lexicon 10).map
        (fun S =>
          ((({ S with mode := Mode.Correct } : Speller).init_input []).map
            (fun r => (r.1, r.2.input)),
            ((S.with_input []).correct_prepare 0 (-1) (-1) 0).build_cache_first.input.length,
            ((S.with_input []).correct_prepare 0 (-1) (-1) 0).build_cache_first.next_node.input_state,
            ((S.with_input []).correct_prepare 0 (-1) (-1) 0).build_cache_first.mutator_epsilons_reads
              insert_mutator))
        = some (some (true, []), 0, 0, [0]) ∧
      (Speller.create (some insert_mutator) tok_lexicon 10).bind
        (fun S => (S.correct_line [] 0 (-1) (-1) 0 clock_never 100).map (fun r => r.1))
        = some [("@_IDENTITY_SYMBOL_@", 1)] := by
  decide

end Speller

namespace TransducerAlphabet

theorem read_symbol_without_kt (k : Nat) (line : String) (st1 st2 : ReadState)
    (h : st1.without_kt = st2.without_kt) :
    (read_symbol true k line st1).without_kt = (read_symbol false k line st2).without_kt := by
  obtain ⟨a1, fb1, vb1, vn1, fn1⟩ := st1
  obtain ⟨a2, fb2, vb2, vn2, fn2⟩ := st2
  obtain ⟨kt1, o1, u1, i1, f1, c1, s1⟩ := a1
  obtain ⟨kt2, o2, u2, i2, f2, c2, s2⟩ := a2
  simp only [ReadState.without_kt, without_kt, ReadState.mk.injEq,
    TransducerAlphabet.mk.injEq, true_and] at h
  obtain ⟨⟨ho, hu, hi, hf, hc, hs⟩, hfb, hvb, hvn, hfn⟩ := h
  subst ho hu hi hf hc hs hfb hvb hvn hfn
  unfold read_symbol ReadState.without_kt without_kt
  simp only []
  split_ifs <;> rfl

theorem read_loop_without_kt (raw : List String) :
    ∀ (k count : Nat) (st1 st2 : ReadState), st1.without_kt = st2.without_kt →
      (read_loop true raw k count st1).map ReadState.without_kt
        = (read_loop false raw k count st2).map ReadState.without_kt := by
  induction raw with
  | nil =>
    intro k count st1 st2 h
    cases count with
    | zero => simp only [read_loop, Option.map_some', h]
    | succ count => simp only [read_loop, Option.map_none']
  | cons line raw ih =>
    intro k count st1 st2 h
    cases count with
    | zero => simp only [read_loop, Option.map_some', h]
    | succ count =>
      simp only [read_loop]
      exact ih (k + 1) count _ _ (read_symbol_without_kt k line st1 st2 h)

/-- The two readers agree on every member of the alphabet but the key
table. -/
theorem create_without_kt (raw : List String) (n : Nat) :
    (create true raw n).map without_kt = (create false raw n).map without_kt := by
  unfold create read
  cases raw with
  | nil => rfl
  | cons eps raw =>
    simp only []
    have h := read_loop_without_kt raw 1 (n - 1)
      { alphabet :=
          { kt := ([] : KeyTable) ++ [""], operations := [], unknown_symbol := NO_SYMBOL,
            identity_symbol := NO_SYMBOL, flag_state_size := 0, orig_symbol_count := n,
            string_to_symbol := [] },
        feature_bucket := [], value_bucket := [("", 0)], val_num := 1, feat_num := 0 }
      { alphabet :=
          { kt := ([] : KeyTable) ++ [""], operations := [], unknown_symbol := NO_SYMBOL,
            identity_symbol := NO_SYMBOL, flag_state_size := 0, orig_symbol_count := n,
            string_to_symbol := [] },
        feature_bucket := [], value_bucket := [("", 0)], val_num := 1, feat_num := 0 } rfl
    revert h
    cases read_loop true raw 1 (n - 1) _ <;> cases read_loop false raw 1 (n - 1) _ <;>
      intro h <;> simp only [Option.map_some', Option.map_none', Option.some.injEq] at h ⊢
    · cases h
    · cases h
    · simp only [ReadState.without_kt, ReadState.mk.injEq] at h
      rename_i st1 st2
      obtain ⟨h1, h2, _, _, _⟩ := h
      simp only [without_kt, TransducerAlphabet.mk.injEq, true_and] at h1 ⊢
      obtain ⟨g1, g2, g3, g4, g5, g6⟩ := h1
      exact ⟨g1, g2, g3, by rw [h2], g5, g6⟩

/-- C40 fails on the key table.  For the alphabet of epsilon,
`@_IDENTITY_SYMBOL_@` and `@_UNKNOWN_SYMBOL_@` the stream reader stores the
two strings as the keys of the symbols 1 and 2 and the in-memory reader
stores the empty string for both; the other members are the same. -/
theorem readers_differ_on_special_keys :
    (create true ["", "@_IDENTITY_SYMBOL_@", "@_UNKNOWN_SYMBOL_@"] 3).map
        (fun a => (a.kt, a.identity_symbol, a.unknown_symbol, a.string_to_symbol,
          a.operations, a.flag_state_size))
        = some (["", "@_IDENTITY_SYMBOL_@", "@_UNKNOWN_SYMBOL_@"], 1, 2, [], [], 0) ∧
      (create false ["", "@_IDENTITY_SYMBOL_@", "@_UNKNOWN_SYMBOL_@"] 3).map
        (fun a => (a.kt, a.identity_symbol, a.unknown_symbol, a.string_to_symbol,
          a.operations, a.flag_state_size))
        = some (["", "", ""], 1, 2, [], [], 0) :=
  ⟨rfl, rfl⟩

end TransducerAlphabet

namespace TransducerAlphabet

theorem read_symbol_kt (from_file : Bool) (k : Nat) (line : String) (st : ReadState) :
    (read_symbol from_file k line st).alphabet.kt
      = st.alphabet.kt ++ [key_of_line from_file line] := by
  unfold read_symbol key_of_line
  simp only []
  split_ifs <;> rfl

theorem key_of_line_blank (line : String) :
    key_of_line false line = blank_special (key_of_line true line) := by
  have hb : blank_special "" = "" := by decide
  simp only [key_of_line, Bool.false_eq_true, if_false, if_true]
  by_cases h1 : line.toList.head? = some '@' ∧ line.toList.getLast? = some '@'
  · rw [if_pos h1, if_pos h1]
    by_cases h2 : line.toList.length ≥ 5 ∧ line.toList.get? 2 = some '.'
    · rw [if_pos h2, if_pos h2, hb]
    · rw [if_neg h2, if_neg h2]
      by_cases h3 : line = "@_UNKNOWN_SYMBOL_@"
      · rw [if_pos h3, if_pos h3, h3]
        decide
      · rw [if_neg h3, if_neg h3]
        by_cases h4 : line = "@_IDENTITY_SYMBOL_@"
        · rw [if_pos h4, if_pos h4, h4]
          decide
        · rw [if_neg h4, if_neg h4, hb]
  · rw [if_neg h1, if_neg h1]
    unfold blank_special
    rw [if_neg]
    rintro (e | e)
    · exact h1 (by rw [e]; decide)
    · exact h1 (by rw [e]; decide)

theorem read_symbol_kt_blank (k : Nat) (line : String) (st1 st2 : ReadState)
    (h : st2.alphabet.kt = st1.alphabet.kt.map blank_special) :
    (read_symbol false k line st2).alphabet.kt
      = (read_symbol true k line st1).alphabet.kt.map blank_special := by
  rw [read_symbol_kt, read_symbol_kt, List.map_append, List.map_singleton, h,
    key_of_line_blank]

theorem read_loop_kt_blank (raw : List String) :
    ∀ (k count : Nat) (st1 st2 : ReadState),
      st2.alphabet.kt = st1.alphabet.kt.map blank_special →
      (read_loop false raw k count st2).map (fun st => st.alphabet.kt)
        = (read_loop true raw k count st1).map
            (fun st => st.alphabet.kt.map blank_special) := by
  induction raw with
  | nil =>
    intro k count st1 st2 h
    cases count with
    | zero => simp only [read_loop, Option.map_some', h]
    | succ count => simp only [read_loop, Option.map_none']
  | cons line raw ih =>
    intro k count st1 st2 h
    cases count with
    | zero => simp only [read_loop, Option.map_some', h]
    | succ count =>
      simp only [read_loop]
      exact ih (k + 1) count _ _ (read_symbol_kt_blank k line st1 st2 h)

/-- The key table of the in-memory reader is the one of the stream reader
with the keys `@_UNKNOWN_SYMBOL_@` and `@_IDENTITY_SYMBOL_@` replaced by the
empty string. -/
theorem create_kt_blank (raw : List String) (n : Nat) :
    (create false raw n).map (fun a => a.kt)
      = (create true raw n).map (fun a => a.kt.map blank_special) := by
  unfold create read
  cases raw with
  | nil => rfl
  | cons eps raw =>
    simp only []
    have h := read_loop_kt_blank raw 1 (n - 1)
      { alphabet :=
          { kt := ([] : KeyTable) ++ [""], operations := [], unknown_symbol := NO_SYMBOL,
            identity_symbol := NO_SYMBOL, flag_state_size := 0, orig_symbol_count := n,
            string_to_symbol := [] },
        feature_bucket := [], value_bucket := [("", 0)], val_num := 1, feat_num := 0 }
      { alphabet :=
          { kt := ([] : KeyTable) ++ [""], operations := [], unknown_symbol := NO_SYMBOL,
            identity_symbol := NO_SYMBOL, flag_state_size := 0, orig_symbol_count := n,
            string_to_symbol := [] },
        feature_bucket := [], value_bucket := [("", 0)], val_num := 1, feat_num := 0 }
      (by
        show ([] : KeyTable) ++ [""] = (([] : KeyTable) ++ [""]).map blank_special
        decide)
    revert h
    cases read_loop true raw 1 (n - 1) _ <;> cases read_loop false raw 1 (n - 1) _ <;>
      intro h <;> simp only [Option.map_some', Option.map_none', Option.some.injEq] at h ⊢
    · cases h
    · cases h
    · exact h

end TransducerAlphabet


namespace Speller

theorem SizeFrame.of_refl (S : Speller) : SizeFrame S S := ⟨rfl, rfl, rfl, rfl, rfl⟩

theorem SizeFrame.of_trans {S1 S2 S3 : Speller} (h1 : SizeFrame S1 S2) (h2 : SizeFrame S2 S3) :
    SizeFrame S1 S3 :=
  ⟨h2.1.trans h1.1, h2.2.1.trans h1.2.1, h2.2.2.1.trans h1.2.2.1, h2.2.2.2.1.trans h1.2.2.2.1,
    h2.2.2.2.2.trans h1.2.2.2.2⟩

theorem SearchFrame.sf_sizeFrame {S S' : Speller} (h : SearchFrame S S') : SizeFrame S S' := by
  obtain ⟨q, n, rfl⟩ := h
  exact ⟨rfl, rfl, rfl, rfl, rfl⟩

theorem CacheFrame.cf_sizeFrame {S S' : Speller} (h : CacheFrame S S')
    (hc : S'.cache.length = S.cache.length) : SizeFrame S S' := by
  obtain ⟨q, n, l, c, rfl⟩ := h
  exact ⟨rfl, rfl, rfl, hc, rfl⟩

theorem SizeFrame.lexicon_step (S X : Speller) (h : SizeFrame S X) :
    SizeFrame S X.lexicon_epsilons.lexicon_consume :=
  SizeFrame.of_trans h
    ((lexicon_epsilons_frame _).sf_trans (lexicon_consume_frame _)).sf_sizeFrame

theorem check_loop_sizeFrame (fuel : Nat) :
    ∀ (S : Speller) (r : Bool × Speller), check_loop fuel S = some r → SizeFrame S r.2 := by
  induction fuel with
  | zero =>
    intro S r h
    unfold check_loop at h
    split_ifs at h
    cases h
    exact SizeFrame.of_refl S
  | succ fuel ih =>
    intro S r h
    unfold check_loop at h
    split at h
    · cases h
      exact SizeFrame.of_refl S
    · simp only [] at h
      split_ifs at h
      · cases h
        exact ⟨rfl, rfl, rfl, rfl, rfl⟩
      · have h1 := ih _ r h
        refine SizeFrame.of_trans ?_ h1
        exact SizeFrame.lexicon_step S _ ⟨rfl, rfl, rfl, rfl, rfl⟩

theorem check_sizeFrame (S : Speller) (fuel : Nat) (r : Bool × Speller)
    (h : S.check fuel = some r) : SizeFrame S r.2 := by
  unfold check at h
  simp only [] at h
  have h1 := check_loop_sizeFrame fuel _ r h
  refine SizeFrame.of_trans ?_ h1
  exact ⟨rfl, rfl, rfl, rfl, rfl⟩

theorem analyse_loop_sizeFrame (fuel : Nat) :
    ∀ (S : Speller) (o : StringWeightMap) (r : Speller × StringWeightMap),
      analyse_loop fuel S o = some r → SizeFrame S r.1 := by
  induction fuel with
  | zero =>
    intro S o r h
    unfold analyse_loop at h
    split_ifs at h
    cases h
    exact SizeFrame.of_refl S
  | succ fuel ih =>
    intro S o r h
    unfold analyse_loop at h
    split at h
    · cases h
      exact SizeFrame.of_refl S
    · simp only [] at h
      have h1 := ih _ _ r h
      refine SizeFrame.of_trans ?_ h1
      exact SizeFrame.lexicon_step S _ ⟨rfl, rfl, rfl, rfl, rfl⟩

theorem analyse_sizeFrame (S : Speller) (fuel : Nat) (r : AnalysisQueue × Speller)
    (h : S.analyse fuel = some r) : SizeFrame S r.2 := by
  unfold analyse at h
  simp only [] at h
  split at h
  · cases h
  · rename_i S1 o heq
    cases h
    have h1 := analyse_loop_sizeFrame fuel _ _ _ heq
    refine SizeFrame.of_trans ?_ h1
    exact ⟨rfl, rfl, rfl, rfl, rfl⟩

end Speller

namespace Speller

theorem set_limiting_behaviour_sizeFrame (S : Speller) (nbest : Int) (maxweight beam : Weight) :
    SizeFrame S (S.set_limiting_behaviour nbest maxweight beam) := by
  obtain ⟨lg, l, e⟩ := set_limiting_behaviour_frame S nbest maxweight beam
  rw [e]
  exact ⟨rfl, rfl, rfl, rfl, rfl⟩

theorem adjust_weight_limits_sizeFrame (S : Speller) (nbest : Int) (beam : Weight) :
    SizeFrame S (S.adjust_weight_limits nbest beam) := by
  obtain ⟨l, e⟩ := adjust_weight_limits_frame S nbest beam
  rw [e]
  exact ⟨rfl, rfl, rfl, rfl, rfl⟩

theorem correct_body_sizeFrame (m : Transducer) (nbest : Int) (maxweight beam : Weight)
    (S : Speller) (corr : StringWeightMap) :
    SizeFrame S (correct_body m nbest maxweight beam S corr).1 := by
  have h2 : SizeFrame S
      ((S.set_limiting_behaviour nbest maxweight beam).adjust_weight_limits nbest beam) :=
    SizeFrame.of_trans (set_limiting_behaviour_sizeFrame S nbest maxweight beam)
      (adjust_weight_limits_sizeFrame _ nbest beam)
  generalize hS2 : (S.set_limiting_behaviour nbest maxweight beam).adjust_weight_limits nbest beam
    = S2 at h2
  have hexp := SizeFrame.of_trans h2 (correct_expand_frame S2 m).sf_sizeFrame
  have hcons := SizeFrame.of_trans hexp (consume_input_frame
    (if S2.next_node.input_state > 1 then S2.lexicon_epsilons.mutator_epsilons m else S2)
    m).sf_sizeFrame
  unfold correct_body
  simp only [hS2]
  generalize hS3 : (if S2.next_node.input_state > 1 then S2.lexicon_epsilons.mutator_epsilons m
      else S2) = S3 at hexp hcons
  split_ifs
  all_goals first
    | exact h2
    | exact hexp
    | exact hcons

theorem correct_loop_sizeFrame (m : Transducer) (nbest : Int) (maxweight beam : Weight)
    (clock_exceeded : Nat → Bool) (fuel : Nat) :
    ∀ (S : Speller) (corr : StringWeightMap) (r : Speller × StringWeightMap),
      correct_loop m nbest maxweight beam clock_exceeded fuel S corr = some r →
        SizeFrame S r.1 := by
  induction fuel with
  | zero =>
    intro S corr r h
    unfold correct_loop at h
    split_ifs at h
    cases h
    exact SizeFrame.of_refl S
  | succ fuel ih =>
    intro S corr r h
    unfold correct_loop at h
    split at h
    · cases h
      exact SizeFrame.of_refl S
    · simp only [] at h
      split_ifs at h
      all_goals first
        | (cases h
           exact ⟨rfl, rfl, rfl, rfl, rfl⟩)
        | (have h1 := ih _ _ r h
           refine SizeFrame.of_trans ?_ h1
           refine SizeFrame.of_trans ?_ (correct_body_sizeFrame m nbest maxweight beam _ _)
           exact ⟨rfl, rfl, rfl, rfl, rfl⟩)

theorem collect_results_sizeFrame (nbest : Int) (xs : List (String × Weight)) :
    ∀ (S : Speller) (q : CorrectionQueue), SizeFrame S (collect_results nbest xs S q).1 := by
  induction xs with
  | nil => intro S q; exact SizeFrame.of_refl S
  | cons it rest ih =>
    intro S q
    unfold collect_results
    split_ifs
    all_goals exact ih _ _

theorem correct_sizeFrame (S : Speller) (nbest : Int) (maxweight beam time_cutoff : Weight)
    (clock_exceeded : Nat → Bool) (fuel : Nat) (r : CorrectionQueue × Speller)
    (h : S.correct nbest maxweight beam time_cutoff clock_exceeded fuel = some r) :
    SizeFrame S r.2 := by
  obtain ⟨m, S1, _, hS1, hcase⟩ := correct_cases S nbest maxweight beam time_cutoff
    clock_exceeded fuel r h
  have hprep : SizeFrame S (S.correct_prepare nbest maxweight beam time_cutoff) := by
    unfold correct_prepare
    simp only []
    split_ifs
    all_goals
      (refine SizeFrame.of_trans ?_ (SizeFrame.of_trans
          (set_limiting_behaviour_sizeFrame _ nbest maxweight beam) ⟨rfl, rfl, rfl, rfl, rfl⟩)
       exact ⟨rfl, rfl, rfl, rfl, rfl⟩)
  have hcache : SizeFrame (S.correct_prepare nbest maxweight beam time_cutoff) S1 := by
    refine (correct_cache_frame _ m fuel S1 hS1).cf_sizeFrame ?_
    unfold correct_cache at hS1
    split_ifs at hS1
    · obtain ⟨S0, c0, c1, hloop, hS2⟩ := build_cache_some _ m _ fuel S1 hS1
      rw [hS2]
      simp only [cache_update_length]
      exact build_cache_loop_cache_length m _ fuel _ [] [] _ hloop
    · cases hS1
      rfl
  have h01 := SizeFrame.of_trans hprep hcache
  rcases hcase with ⟨_, hr⟩ | ⟨_, hr⟩
  · rw [hr]
    unfold correct_cached
    simp only []
    obtain ⟨b, q, hnote⟩ := note_results_frame nbest
      (if S1.input.length = 0 then (S1.cache.getD S1.first_input CacheContainer.fresh).results_len_0
        else (S1.cache.getD S1.first_input CacheContainer.fresh).results_len_1) S1
    refine SizeFrame.of_trans h01 ?_
    refine SizeFrame.of_trans ?_ (collect_results_sizeFrame nbest _ _ _)
    refine SizeFrame.of_trans ?_ (adjust_weight_limits_sizeFrame _ nbest beam)
    refine SizeFrame.of_trans ?_ (set_limiting_behaviour_sizeFrame _ nbest maxweight beam)
    rw [hnote]
    exact ⟨rfl, rfl, rfl, rfl, rfl⟩
  · unfold correct_search at hr
    simp only [] at hr
    split at hr
    · cases hr
    · rename_i S2 corr heq
      cases hr
      have h2 := correct_loop_sizeFrame m nbest maxweight beam clock_exceeded fuel _ _ _ heq
      refine SizeFrame.of_trans h01 ?_
      refine SizeFrame.of_trans ?_ (collect_results_sizeFrame nbest _ _ _)
      refine SizeFrame.of_trans ?_ (adjust_weight_limits_sizeFrame _ nbest beam)
      refine SizeFrame.of_trans ?_ h2
      exact ⟨rfl, rfl, rfl, rfl, rfl⟩

end Speller

theorem Encoder.find_key_bounded (e : Encoder) (n : Nat) (line : List Char) (k : SymbolNumber)
    (advanced : Nat) (h : e.Bounded n) (hk : e.find_key line = some (k, advanced))
    (hne : k ≠ NO_SYMBOL) : (k : Nat) < n := by
  rw [Encoder.find_key_eq_trie e h.1] at hk
  obtain ⟨s, a, hs, h1, _, _⟩ := LetterTrie.find_key_spec line e.letters h.2.1
  rw [hs] at hk
  simp only [Option.some.injEq, Prod.mk.injEq] at hk
  obtain ⟨hsk, _⟩ := hk
  subst hsk
  have h2 := (h1 hne).2.2
  have h3 := h.2.2 (line.take a) (by rw [h2]; exact hne)
  rw [h2] at h3
  exact h3

theorem Encoder.read_input_symbol_bounded (e : Encoder) (n n1 : Nat) (c : Char)
    (rest : List Char) (k : Nat) (h : e.Bounded n) (hn : n ≤ n1) (hk : k < n1)
    (hk2 : k < 65536) (hc : c ≠ Char.ofNat 0) (hrest : Char.ofNat 0 ∉ rest) :
    (e.read_input_symbol (c :: rest) (k : Int)).Bounded n1 := by
  have hkey : ((k : Int) % 65536).toNat = k := by omega
  refine ⟨Encoder.read_input_symbol_shortcut e _ _ h.1, ?_, fun s hs => ?_⟩
  · rw [Encoder.read_input_symbol_letters]
    exact LetterTrie.nulFree_add_string rest _ c _ h.2.1 hc hrest
  · rw [Encoder.read_input_symbol_letters, LetterTrie.lookup_add_string, hkey] at hs ⊢
    split_ifs at hs ⊢
    · exact hk
    · exact Nat.lt_of_lt_of_le (h.2.2 s hs) hn

theorem StringSymbolMap.lookup_some_mem (m : StringSymbolMap) (s : String) (v : SymbolNumber)
    (h : m.lookup s = some v) : (s, v) ∈ m := by
  induction m with
  | nil => cases h
  | cons p rest ih =>
    obtain ⟨k0, v0⟩ := p
    simp only [List.lookup] at h
    split at h
    · rename_i e
      simp only [Option.some.injEq] at h
      have e2 : s = k0 := by simpa using e
      rw [e2, ← h]
      exact List.mem_cons_self _ _
    · exact List.mem_cons_of_mem _ (ih h)

theorem TransducerAlphabet.add_symbol_bounded (a : TransducerAlphabet) (s : String)
    (h : a.Bounded) (hlen : a.kt.length < 65536) : (a.add_symbol s).Bounded := by
  intro p hp
  unfold TransducerAlphabet.add_symbol at hp ⊢
  simp only [List.length_append, List.length_singleton] at hp ⊢
  rcases StringSymbolMap.mem_assign _ _ _ _ hp with hp | hp
  · exact Nat.lt_succ_of_lt (h p hp)
  · rw [hp, Nat.mod_eq_of_lt hlen]
    exact Nat.lt_succ_self _

namespace Speller

theorem add_input_symbol_eq (S : Speller) (m : Transducer) (k0 : SymbolNumber)
    (new_symbol : List Char) (hm : S.mutator = some m) :
    (S.add_input_symbol k0 new_symbol).mode = S.mode ∧
    (S.add_input_symbol k0 new_symbol).cache = S.cache ++ [CacheContainer.fresh] ∧
    (S.add_input_symbol k0 new_symbol).mutator
      = some { m with
          alphabet := (if ¬ m.alphabet.has_string (String.mk new_symbol) then
              m.alphabet.add_symbol (String.mk new_symbol) else m.alphabet)
          encoder := m.encoder.read_input_symbol new_symbol
            ((if ¬ m.alphabet.has_string (String.mk new_symbol) then
              m.alphabet.add_symbol (String.mk new_symbol)
              else m.alphabet).string_to_symbol.value_at (String.mk new_symbol)) } ∧
    (S.add_input_symbol k0 new_symbol).input
      = S.input ++ [(if ¬ m.alphabet.has_string (String.mk new_symbol) then
              m.alphabet.add_symbol (String.mk new_symbol)
              else m.alphabet).string_to_symbol.value_at (String.mk new_symbol)] ∧
    ∃ kl, (S.add_input_symbol k0 new_symbol).alphabet_translator
      = if (if ¬ m.alphabet.has_string (String.mk new_symbol) then
              m.alphabet.add_symbol (String.mk new_symbol)
              else m.alphabet).string_to_symbol.value_at (String.mk new_symbol)
            ≥ S.alphabet_translator.length
        then S.alphabet_translator ++ [kl] else S.alphabet_translator := by
  unfold add_input_symbol
  simp only [hm]
  split_ifs <;>
    first
    | exact ⟨rfl, rfl, rfl, rfl, _, rfl⟩
    | exact ⟨rfl, rfl, rfl, rfl, 0, rfl⟩

end Speller

namespace Speller

theorem has_string_value (a : TransducerAlphabet) (s : String) (h : a.has_string s = true)
    (hb : a.Bounded) : (a.string_to_symbol.value_at s : Nat) < a.kt.length := by
  unfold TransducerAlphabet.has_string StringSymbolMap.count at h
  unfold StringSymbolMap.value_at
  cases hl : a.string_to_symbol.lookup s with
  | none =>
    rw [hl] at h
    simp at h
  | some v =>
    exact hb (s, v) (StringSymbolMap.lookup_some_mem _ _ _ hl)

/-- The branch of `init_input` for a new symbol keeps the invariant of the
sizes. -/
theorem add_input_symbol_sizedInput (md : Mode) (S : Speller) (k0 : SymbolNumber) (c : Char)
    (rest : List Char) (h : SizedInput md S) (hc : c ≠ Char.ofNat 0)
    (hrest : Char.ofNat 0 ∉ rest) : SizedInput md (S.add_input_symbol k0 (c :: rest)) := by
  obtain ⟨hmode, m, hm, hgood⟩ := h
  obtain ⟨e1, e2, e3, e4, kl, e5⟩ := add_input_symbol_eq S m k0 (c :: rest) hm
  refine ⟨e1.trans hmode, _, e3, ?_⟩
  by_cases hhas : m.alphabet.has_string (String.mk (c :: rest)) = true
  · simp only [hhas, not_true_eq_false, if_false] at e4 e5 ⊢
    intro hlen
    obtain ⟨⟨g1, g2, g3, g4, g5⟩, g6⟩ := hgood hlen
    have hv := has_string_value m.alphabet _ hhas g4
    have hnot : ¬ m.alphabet.string_to_symbol.value_at (String.mk (c :: rest))
        ≥ S.alphabet_translator.length := by
      rw [g1]
      exact Nat.not_le.2 hv
    rw [if_neg hnot] at e5
    rw [e5, e2, e4]
    refine ⟨⟨g1, g2, ?_, g4, ?_⟩, fun hmd k hk => ?_⟩
    · rw [List.length_append]
      exact Nat.le_trans g3 (Nat.le_add_right _ _)
    · exact Encoder.read_input_symbol_bounded m.encoder _ _ c rest _ g5 (Nat.le_refl _) hv
        (Nat.lt_of_lt_of_le hv hlen) hc hrest
    · rcases List.mem_append.1 hk with hk | hk
      · exact g6 hmd k hk
      · rw [List.mem_singleton.1 hk, g1]
        exact hv
  · simp only [hhas, Bool.false_eq_true, not_false_eq_true, if_true] at e4 e5 ⊢
    intro hlen
    have hlen1 : m.alphabet.kt.length + 1 ≤ 65536 := by
      simpa [TransducerAlphabet.add_symbol] using hlen
    have hlt : m.alphabet.kt.length < 65536 := hlen1
    obtain ⟨⟨g1, g2, g3, g4, g5⟩, g6⟩ := hgood (Nat.le_of_lt hlt)
    have hval : (m.alphabet.add_symbol (String.mk (c :: rest))).string_to_symbol.value_at
        (String.mk (c :: rest)) = m.alphabet.kt.length := by
      rw [(TransducerAlphabet.add_symbol_value _ _).1, Nat.mod_eq_of_lt hlt]
    have hkt : (m.alphabet.add_symbol (String.mk (c :: rest))).kt.length
        = m.alphabet.kt.length + 1 := by
      simp [TransducerAlphabet.add_symbol]
    rw [hval] at e4 e5 ⊢
    rw [if_pos (by rw [g1])] at e5
    rw [e5, e2, e4, hkt]
    refine ⟨⟨?_, Nat.le_add_left _ _, ?_, TransducerAlphabet.add_symbol_bounded _ _ g4 hlt, ?_⟩,
      fun hmd k hk => ?_⟩
    · rw [List.length_append, g1]
      rfl
    · rw [List.length_append]
      exact Nat.add_le_add_right g3 1
    · exact Encoder.read_input_symbol_bounded m.encoder _ _ c rest _ g5 (Nat.le_succ _)
        (Nat.lt_succ_self _) hlt hc hrest
    · rw [List.length_append, g1]
      rcases List.mem_append.1 hk with hk | hk
      · exact Nat.lt_succ_of_lt (by rw [← g1]; exact g6 hmd k hk)
      · rw [List.mem_singleton.1 hk]
        exact Nat.lt_succ_self _

end Speller

theorem Encoder.foldl_lookup_bounded (calls : List (List Char × Int)) (n : Nat)
    (hkey : ∀ c ∈ calls, (Encoder.key_of c : Nat) < n) :
    ∀ e : Encoder, (∀ s, e.letters.lookup s ≠ NO_SYMBOL → (e.letters.lookup s : Nat) < n) →
      ∀ s, (calls.foldl (fun e c => e.read_input_symbol c.1 c.2) e).letters.lookup s
          ≠ NO_SYMBOL →
        ((calls.foldl (fun e c => e.read_input_symbol c.1 c.2) e).letters.lookup s : Nat)
          < n := by
  induction calls with
  | nil => intro e h; exact h
  | cons c cs ih =>
    intro e h
    refine ih (fun c' hc' => hkey c' (List.mem_cons_of_mem _ hc')) _ (fun s hs => ?_)
    rw [Encoder.read_input_symbol_lookup] at hs ⊢
    split_ifs at hs ⊢
    · exact hkey c (List.mem_cons_self _ _)
    · exact h s hs

/-- An encoder built by `read_input_symbol` calls on C strings with symbol
numbers below `n` is bounded by `n`. -/
theorem Encoder.of_calls_bounded (calls : List (List Char × Int)) (n : Nat)
    (hnul : ∀ c ∈ calls, Char.ofNat 0 ∉ c.1)
    (hkey : ∀ c ∈ calls, (Encoder.key_of c : Nat) < n) : (Encoder.of_calls calls).Bounded n :=
  ⟨Encoder.of_calls_shortcut calls,
    Encoder.foldl_nulFree calls _ LetterTrie.nulFree_fresh hnul,
    Encoder.foldl_lookup_bounded calls n hkey _
      (fun s hs => absurd (LetterTrie.lookup_fresh s) hs)⟩

namespace Speller

theorem SizedInput.sized {md : Mode} {S : Speller} (h : SizedInput md S) : Sized S := by
  obtain ⟨_, m, hm, hgood⟩ := h
  exact ⟨m, hm, fun hlen => (hgood hlen).1⟩

theorem Sized.of_sizeFrame {S S1 : Speller} (h : Sized S) (hf : SizeFrame S S1) : Sized S1 := by
  obtain ⟨m, hm, hgood⟩ := h
  obtain ⟨f1, _, f3, f4, _⟩ := hf
  refine ⟨m, f1.trans hm, fun hlen => ?_⟩
  rw [f3, f4]
  exact hgood hlen

/-- The loop of `init_input` keeps the invariant of the sizes on a line
without a NUL byte. -/
theorem init_input_loop_sizedInput (md : Mode) (fuel : Nat) :
    ∀ (S : Speller) (line : List Char) (r : Bool × Speller), Char.ofNat 0 ∉ line →
      SizedInput md S → init_input_loop fuel S line = some r → SizedInput md r.2 := by
  induction fuel with
  | zero =>
    intro S line r _ hS h
    cases line with
    | nil =>
      simp only [init_input_loop, Option.some.injEq] at h
      rw [← h]
      exact hS
    | cons c rest => simp only [init_input_loop] at h; cases h
  | succ fuel ih =>
    intro S line r hnul hS h
    cases line with
    | nil =>
      simp only [init_input_loop, Option.some.injEq] at h
      rw [← h]
      exact hS
    | cons c rest =>
      have hc : c ≠ Char.ofNat 0 := fun e => hnul (by rw [e]; exact List.mem_cons_self _ _)
      simp only [init_input_loop] at h
      cases hfk : S.input_encoder.find_key (c :: rest) with
      | none =>
        rw [hfk] at h
        cases h
      | some p =>
        obtain ⟨k, advanced⟩ := p
        rw [hfk] at h
        simp only [] at h
        split_ifs at h with hk hb hl
        · cases h
          exact hS
        · refine ih _ _ r (fun hmem => hnul (List.mem_of_mem_drop hmem)) ?_ h
          have hpos : 1 ≤ nByte_utf8 c := Nat.one_le_iff_ne_zero.2 hb
          obtain ⟨j, hj⟩ : ∃ j, nByte_utf8 c = j + 1 := ⟨nByte_utf8 c - 1, by omega⟩
          rw [hj, List.take_succ_cons]
          exact add_input_symbol_sizedInput md S k c (rest.take j) hS hc
            (fun hmem => hnul (List.mem_cons_of_mem _ (List.mem_of_mem_take hmem)))
        · refine ih _ _ r (fun hmem => hnul (List.mem_of_mem_drop hmem)) ?_ h
          obtain ⟨hmode, m, hm, hgood⟩ := hS
          refine ⟨hmode, m, hm, fun hlen => ⟨(hgood hlen).1, fun hmd x hx => ?_⟩⟩
          rcases List.mem_append.1 hx with hx | hx
          · exact (hgood hlen).2 hmd x hx
          · rw [List.mem_singleton.1 hx, (hgood hlen).1.1]
            have henc : S.input_encoder = m.encoder := by
              unfold input_encoder
              rw [hm]
              simp only []
              rw [if_pos (by rw [hmode]; exact hmd)]
            rw [henc] at hfk
            exact Encoder.find_key_bounded _ _ _ _ _ (hgood hlen).1.2.2.2.2 hfk hk

theorem init_input_sizedInput (md : Mode) (S : Speller) (line : List Char) (r : Bool × Speller)
    (hnul : Char.ofNat 0 ∉ line) (hS : Sized S) (hmode : S.mode = md)
    (h : S.init_input line = some r) : SizedInput md r.2 := by
  unfold init_input at h
  refine init_input_loop_sizedInput md _ _ line r hnul ?_ h
  obtain ⟨m, hm, hgood⟩ := hS
  exact ⟨hmode, m, hm, fun hlen => ⟨hgood hlen, fun _ k hk => by cases hk⟩⟩

end Speller

namespace Speller

/-- The constructor returns a speller with the invariant of the sizes. -/
theorem create_sized (m0 lex0 : Transducer) (fuel : Nat) (hpos : 1 ≤ m0.alphabet.kt.length)
    (hlen : m0.alphabet.kt.length ≤ 65535) (hfuel : m0.alphabet.kt.length ≤ fuel)
    (hal : m0.alphabet.Bounded) (henc : m0.encoder.Bounded m0.alphabet.kt.length) :
    ∃ S0, Speller.create (some m0) lex0 fuel = some S0 ∧ Sized S0 := by
  have hf : ∀ a b : Nat, a ≤ b → a - 1 ≤ b := by
    intro a b h
    omega
  have hl : ∀ a : Nat, 1 ≤ a → 1 + (a - 1) = a := by
    intro a h
    omega
  obtain ⟨S1, h1, h2, _, _, _, h6, h7, _⟩ :=
    build_alphabet_translator_loop_spec m0.alphabet.kt hlen fuel 1
      { mutator := some m0, lexicon := lex0, input := [], queue := [],
        next_node := TreeNode.start (List.replicate (lex0.get_state_size % 65536) 0),
        limit := WEIGHT_MAX, best_suggestion := WEIGHT_MAX, nbest_queue := [],
        alphabet_translator := [] ++ [0], cache := [], limiting := LimitingBehaviour.None,
        mode := Mode.Correct, max_time := -1, call_counter := 0, limit_reached := false }
      hpos (hf _ _ hfuel)
  refine ⟨{ S1 with cache := List.replicate m0.alphabet.kt.length CacheContainer.fresh }, ?_,
    m0, h6, fun _ => ⟨?_, hpos, ?_, hal, henc⟩⟩
  · unfold Speller.create build_alphabet_translator
    simp only []
    rw [h1]
  · rw [h2]
    exact hl _ hpos
  · simp only [List.length_replicate]
    exact Nat.le_refl _

theorem Sized.with_mode {S : Speller} (h : Sized S) (md : Mode) :
    Sized { S with mode := md } := h

theorem call_sized (S S1 : Speller) (c : SpellerCall) (hnul : Char.ofNat 0 ∉ c.line)
    (hS : Sized S) (h : S.call c = some S1) : Sized S1 := by
  cases c with
  | check line fuel =>
    simp only [call, check_line, Option.map_eq_some'] at h
    obtain ⟨r, hr, rfl⟩ := h
    cases hi : init_input { S with mode := Mode.Check } line with
    | none =>
      rw [hi] at hr
      cases hr
    | some p =>
      have hp := (init_input_sizedInput Mode.Check { S with mode := Mode.Check } line p hnul
        (hS.with_mode Mode.Check) rfl hi).sized
      obtain ⟨ok, S2⟩ := p
      rw [hi] at hr
      cases ok with
      | false =>
        simp only [Option.some.injEq] at hr
        rw [← hr]
        exact hp
      | true => exact hp.of_sizeFrame (check_sizeFrame S2 fuel r hr)
  | analyse line fuel =>
    simp only [call, analyse_line, Option.map_eq_some'] at h
    obtain ⟨r, hr, rfl⟩ := h
    cases hi : init_input { S with mode := Mode.Lookup } line with
    | none =>
      rw [hi] at hr
      cases hr
    | some p =>
      have hp := (init_input_sizedInput Mode.Lookup { S with mode := Mode.Lookup } line p hnul
        (hS.with_mode Mode.Lookup) rfl hi).sized
      obtain ⟨ok, S2⟩ := p
      rw [hi] at hr
      cases ok with
      | false =>
        simp only [Option.some.injEq] at hr
        rw [← hr]
        exact hp
      | true => exact hp.of_sizeFrame (analyse_sizeFrame S2 fuel r hr)
  | correct line nbest maxweight beam time_cutoff clock_exceeded fuel =>
    simp only [call, correct_line, Option.map_eq_some'] at h
    obtain ⟨r, hr, rfl⟩ := h
    cases hi : init_input { S with mode := Mode.Correct } line with
    | none =>
      rw [hi] at hr
      cases hr
    | some p =>
      have hp := (init_input_sizedInput Mode.Correct { S with mode := Mode.Correct } line p hnul
        (hS.with_mode Mode.Correct) rfl hi).sized
      obtain ⟨ok, S2⟩ := p
      rw [hi] at hr
      cases ok with
      | false =>
        simp only [Option.some.injEq] at hr
        rw [← hr]
        exact hp
      | true =>
        exact hp.of_sizeFrame
          (correct_sizeFrame S2 nbest maxweight beam time_cutoff clock_exceeded fuel r hr)

theorem run_calls_sized (calls : List SpellerCall) :
    ∀ S S1 : Speller, (∀ c ∈ calls, Char.ofNat 0 ∉ c.line) → Sized S →
      S.run_calls calls = some S1 → Sized S1 := by
  induction calls with
  | nil =>
    intro S S1 _ hS h
    simp only [run_calls, Option.some.injEq] at h
    rw [← h]
    exact hS
  | cons c cs ih =>
    intro S S1 hnul hS h
    simp only [run_calls] at h
    cases hc : S.call c with
    | none =>
      rw [hc] at h
      cases h
    | some S2 =>
      rw [hc] at h
      exact ih S2 S1 (fun c' hc' => hnul c' (List.mem_cons_of_mem _ hc'))
        (call_sized S S2 c (hnul c (List.mem_cons_self _ _)) hS hc) h

/-- C39 (amended): a speller constructed with an error model whose key
table has between 1 and 65535 entries, with a map and an encoder that hold
only numbers of keys, stays sized through every sequence of `check`,
`analyse` and `correct` calls on lines without a NUL byte: it has its error
model and, as long as the key table of the error model has at most 65536
entries, `alphabet_translator` has one entry per key and `cache` at least
one container per key.  For the symbol vector that `init_input` then
produces in Correct mode, while the key table still has at most 65536
entries, `cache[first_input]` and `alphabet_translator[input[j]]` are in
bounds. -/
theorem translator_and_cache_sized (m0 lex0 : Transducer) (fuel : Nat)
    (calls : List SpellerCall) (hpos : 1 ≤ m0.alphabet.kt.length)
    (hlen : m0.alphabet.kt.length ≤ 65535) (hfuel : m0.alphabet.kt.length ≤ fuel)
    (hal : m0.alphabet.Bounded) (henc : m0.encoder.Bounded m0.alphabet.kt.length)
    (hlines : ∀ c ∈ calls, Char.ofNat 0 ∉ c.line) :
    ∃ S0, Speller.create (some m0) lex0 fuel = some S0 ∧
      ∀ S, S0.run_calls calls = some S →
        ∃ m, S.mutator = some m ∧
          (m.alphabet.kt.length ≤ 65536 →
            S.alphabet_translator.length = m.alphabet.kt.length ∧
            m.alphabet.kt.length ≤ S.cache.length) ∧
          ∀ (line : List Char) (r : Bool × Speller), Char.ofNat 0 ∉ line →
            init_input { S with mode := Mode.Correct } line = some r →
            ∃ m1, r.2.mutator = some m1 ∧
              (m1.alphabet.kt.length ≤ 65536 →
                r.2.alphabet_translator.length = m1.alphabet.kt.length ∧
                m1.alphabet.kt.length ≤ r.2.cache.length ∧
                r.2.first_input < r.2.cache.length ∧
                ∀ k ∈ r.2.input, (k : Nat) < r.2.alphabet_translator.length) := by
  obtain ⟨S0, hS0, hsized⟩ := create_sized m0 lex0 fuel hpos hlen hfuel hal henc
  refine ⟨S0, hS0, fun S hrun => ?_⟩
  have hS := run_calls_sized calls S0 S hlines hsized hrun
  obtain ⟨m, hm, hgood⟩ := hS
  refine ⟨m, hm, fun hl => ⟨(hgood hl).1, (hgood hl).2.2.1⟩, fun line r hnul hi => ?_⟩
  obtain ⟨_, m1, hm1, hgood1⟩ :=
    init_input_sizedInput Mode.Correct { S with mode := Mode.Correct } line r hnul
      (Sized.with_mode ⟨m, hm, hgood⟩ Mode.Correct) rfl hi
  refine ⟨m1, hm1, fun hl => ?_⟩
  obtain ⟨⟨g1, g2, g3, _, _⟩, g6⟩ := hgood1 hl
  have hin := g6 (by decide)
  refine ⟨g1, g3, ?_, hin⟩
  unfold first_input
  split_ifs with h0
  · exact Nat.lt_of_lt_of_le g2 g3
  · cases hinp : r.2.input with
    | nil => rw [hinp] at h0; exact absurd rfl h0
    | cons k rest =>
      have hk := hin k (by rw [hinp]; exact List.mem_cons_self _ _)
      simp only [List.getD_cons_zero]
      rw [g1] at hk
      exact Nat.lt_of_lt_of_le hk g3

end Speller

namespace Speller

/-- Once the key table of the error model has 65536 entries, a new
character is given the number 0 and `alphabet_translator` does not grow with
the key table. -/
theorem init_input_translator_lags (S : Speller) (m : Transducer) (c : Char) (advanced : Nat)
    (hm : S.mutator = some m) (hkt : m.alphabet.kt.length = 65536)
    (htr : S.alphabet_translator.length = 65536)
    (hfk : S.input_encoder.find_key [c] = some (NO_SYMBOL, advanced))
    (hb : nByte_utf8 c = 1) (hhas : m.alphabet.has_string (String.mk [c]) = false) :
    ∃ S1 m1, S.init_input [c] = some (true, S1) ∧ S1.mutator = some m1 ∧
      m1.alphabet.kt.length = 65537 ∧ S1.alphabet_translator.length = 65536 ∧
      S1.cache.length = S.cache.length + 1 ∧ S1.input = [0] := by
  have hfk1 : ({ S with input := [] } : Speller).input_encoder.find_key [c]
      = some (NO_SYMBOL, advanced) := hfk
  have hinit : S.init_input [c]
      = some (true, ({ S with input := [] } : Speller).add_input_symbol NO_SYMBOL [c]) := by
    simp only [init_input, List.length_singleton, init_input_loop, hfk1, hb, if_true]
    simp
  obtain ⟨_, e2, e3, e4, kl, e5⟩ :=
    add_input_symbol_eq ({ S with input := [] } : Speller) m NO_SYMBOL [c] hm
  simp only [hhas, Bool.false_eq_true, not_false_eq_true, if_true] at e3 e4 e5
  have hval : (m.alphabet.add_symbol (String.mk [c])).string_to_symbol.value_at (String.mk [c])
      = 0 := by
    rw [(TransducerAlphabet.add_symbol_value _ _).1, hkt]
  rw [hval] at e4 e5
  have hnot : ¬ (0 : Nat) ≥ S.alphabet_translator.length := by
    rw [htr]
    decide
  rw [if_neg hnot] at e5
  refine ⟨_, _, hinit, e3, ?_, by rw [e5]; exact htr, ?_, by rw [e4]; rfl⟩
  · simp only [TransducerAlphabet.add_symbol, List.length_append, List.length_singleton, hkt]
  · rw [e2, List.length_append]
    rfl

theorem has_string_add_symbol_other (a : TransducerAlphabet) (x s : String) (hne : x ≠ s)
    (hl : a.string_to_symbol.lookup s = none) : (a.add_symbol x).has_string s = false := by
  simp only [TransducerAlphabet.has_string, StringSymbolMap.count,
    TransducerAlphabet.add_symbol, StringSymbolMap.lookup_assign]
  rw [if_neg (Ne.symm hne), hl]
  rfl

theorem translator_and_cache_sized_witness :
    (∃ S0, Speller.create (some insert_mutator) tok_lexicon 10 = some S0 ∧
      ∀ S, S0.run_calls sized_calls = some S →
        ∃ m, S.mutator = some m ∧
          (m.alphabet.kt.length ≤ 65536 →
            S.alphabet_translator.length = m.alphabet.kt.length ∧
            m.alphabet.kt.length ≤ S.cache.length) ∧
          ∀ (line : List Char) (r : Bool × Speller), Char.ofNat 0 ∉ line →
            init_input { S with mode := Mode.Correct } line = some r →
            ∃ m1, r.2.mutator = some m1 ∧
              (m1.alphabet.kt.length ≤ 65536 →
                r.2.alphabet_translator.length = m1.alphabet.kt.length ∧
                m1.alphabet.kt.length ≤ r.2.cache.length ∧
                r.2.first_input < r.2.cache.length ∧
                ∀ k ∈ r.2.input, (k : Nat) < r.2.alphabet_translator.length)) ∧
      ((Speller.create (some insert_mutator) tok_lexicon 10).bind
          (fun S0 => S0.run_calls sized_calls)).map
        (fun S => (S.alphabet_translator.length, S.cache.length,
          S.mutator.map (fun m => m.alphabet.kt))) = some (3, 3, some ["", "z", "q"]) :=
  ⟨translator_and_cache_sized insert_mutator tok_lexicon 10 sized_calls (by decide) (by decide)
      (by decide)
      (fun p hp => by
        rw [List.mem_singleton.1 hp]
        decide)
      (Encoder.of_calls_bounded [([], 0), (['z'], 1)] 2 (by decide) (by decide))
      (by decide),
    by decide⟩

/-- C39 as stated fails once the key table of the error model has 65536
entries.  In `wide_speller` the alphabet translator and the cache have 65536
entries, one per key.  `init_input` of the line `q`, a character that the
error model does not know, appends `q` to the key table, whose number
`static_cast<SymbolNumber>(65536)` is 0: the test `k >= alphabet_translator.size()`
fails, nothing is pushed, and the translator has 65536 entries for 65537
keys. -/
theorem translator_lags_behind_key_table :
    ∃ S1 m1, wide_mutator.alphabet.kt.length = 65536 ∧
      wide_speller.alphabet_translator.length = 65536 ∧
      wide_speller.cache.length = 65536 ∧
      wide_speller.init_input ['q'] = some (true, S1) ∧ S1.mutator = some m1 ∧
      m1.alphabet.kt.length = 65537 ∧ S1.alphabet_translator.length = 65536 ∧
      S1.input = [0] := by
  have hkt : wide_mutator.alphabet.kt.length = 65536 := by
    show (full_alphabet.add_symbol "z").kt.length = 65536
    rw [TransducerAlphabet.add_symbol_kt_length, full_alphabet_length]
  have hhas : wide_mutator.alphabet.has_string (String.mk ['q']) = false := by
    exact has_string_add_symbol_other full_alphabet "z" (String.mk ['q']) (by decide)
      (full_alphabet_lookup _ (by decide))
  obtain ⟨S1, m1, h1, h2, h3, h4, _, h6⟩ := init_input_translator_lags wide_speller wide_mutator
    'q' 1 rfl hkt (List.length_replicate _ _) (by decide) (by decide) hhas
  exact ⟨S1, m1, hkt, List.length_replicate _ _, List.length_replicate _ _, h1, h2, h3, h4, h6⟩

end Speller

namespace TransducerAlphabet

theorem takeWhile_replicate_v (p : Char → Bool) (hv : p 'v' = true) (rest : List Char) :
    ∀ j : Nat, (List.replicate j 'v' ++ rest).takeWhile p
      = List.replicate j 'v' ++ rest.takeWhile p
  | 0 => rfl
  | j + 1 => by
    simp only [List.replicate_succ, List.cons_append, List.takeWhile_cons, hv, if_true]
    rw [takeWhile_replicate_v p hv rest j]

theorem value_flag_is_flag_string (j : Nat) : is_flag_string (value_flag j) := by
  unfold is_flag_string value_flag
  refine ⟨⟨rfl, ?_⟩, ?_, rfl⟩
  · show ('@' :: 'N' :: '.' :: 'F' :: '.' :: (List.replicate j 'v' ++ ['@'])).getLast? = some '@'
    have h : ('@' :: 'N' :: '.' :: 'F' :: '.' :: (List.replicate j 'v' ++ ['@']))
        = ('@' :: 'N' :: '.' :: 'F' :: '.' :: List.replicate j 'v') ++ ['@'] := rfl
    rw [h, List.getLast?_concat]
  · show 5 ≤ ('@' :: 'N' :: '.' :: 'F' :: '.' :: (List.replicate j 'v' ++ ['@'])).length
    simp

theorem value_flag_feature_name (j : Nat) : feature_name (value_flag j) = "F" := by
  unfold feature_name value_flag flag_feature
  show String.mk (List.takeWhile (fun c => c != '.' && c != '@')
    ('F' :: '.' :: (List.replicate j 'v' ++ ['@']))) = "F"
  simp [List.takeWhile_cons]

theorem value_flag_value_name (j : Nat) : value_name (value_flag j) = letters_v j := by
  unfold value_name value_flag flag_value letters_v
  show String.mk (match List.dropWhile (fun c => c != '.' && c != '@')
      ('F' :: '.' :: (List.replicate j 'v' ++ ['@'])) with
    | '.' :: rest => rest.takeWhile (fun c => c != '@')
    | _ => []) = String.mk (List.replicate j 'v')
  have h : List.dropWhile (fun c => c != '.' && c != '@')
      ('F' :: '.' :: (List.replicate j 'v' ++ ['@'])) = '.' :: (List.replicate j 'v' ++ ['@']) := by
    simp [List.dropWhile_cons]
  rw [h]
  show String.mk ((List.replicate j 'v' ++ ['@']).takeWhile (fun c => c != '@')) = _
  rw [takeWhile_replicate_v _ (by decide) ['@'] j]
  simp [List.takeWhile_cons]

theorem value_flag_operator (j : Nat) :
    flag_operator ((value_flag j).toList.get? 1) = FlagDiacriticOperator.N := rfl

theorem letters_v_injective (i j : Nat) (h : letters_v i = letters_v j) : i = j := by
  unfold letters_v at h
  have h2 := congrArg (fun s : String => s.data.length) h
  simpa using h2

end TransducerAlphabet

namespace TransducerAlphabet

/-- The round of the loop of `read` on a flag diacritic. -/
theorem read_symbol_flag_eq (from_file : Bool) (k : Nat) (line : String) (st : ReadState)
    (hf : is_flag_string line) :
    read_symbol from_file k line st =
      (let st1 : ReadState :=
        if st.feature_bucket.count (feature_name line) = 0 then
          { st with feature_bucket := st.feature_bucket.assign (feature_name line) st.feat_num,
                    feat_num := (st.feat_num + 1) % 65536 }
        else st
      let st2 : ReadState :=
        if (st1.value_bucket.lookup (value_name line)).isNone then
          { st1 with value_bucket := st1.value_bucket ++ [(value_name line, st1.val_num)],
                     val_num := i16 (st1.val_num + 1) }
        else st1
      let operation : FlagDiacriticOperation :=
        ⟨flag_operator (line.toList.get? 1), st2.feature_bucket.value_at (feature_name line),
          (st2.value_bucket.lookup (value_name line)).getD 0⟩
      let operations :=
        if (st2.alphabet.operations.lookup k).isSome then st2.alphabet.operations
        else st2.alphabet.operations ++ [(k, operation)]
      { st2 with alphabet := { st2.alphabet with operations := operations,
                                                 kt := st2.alphabet.kt ++ [""] } }) := by
  unfold read_symbol feature_name value_name
  dsimp only
  rw [if_pos hf.1, if_pos hf.2]

/-- A round of the loop of `read` on a string that is no flag diacritic
leaves the value numbers and the operations as they are. -/
theorem read_symbol_not_flag_values (from_file : Bool) (k : Nat) (line : String)
    (st : ReadState) (hf : ¬ is_flag_string line) :
    (read_symbol from_file k line st).val_num = st.val_num ∧
      (read_symbol from_file k line st).value_bucket = st.value_bucket ∧
      (read_symbol from_file k line st).alphabet.operations = st.alphabet.operations := by
  unfold read_symbol
  simp only []
  split_ifs with h1 h2 <;>
    first
    | exact ⟨rfl, rfl, rfl⟩
    | exact absurd ⟨h1, h2⟩ hf

theorem inRange_zero : ValueNumber.InRange 0 := ⟨by decide, by decide⟩

theorem inRange_one : ValueNumber.InRange 1 := ⟨by decide, by decide⟩

theorem lookup_getD_inRange (m : List (String × ValueNumber))
    (h : ∀ p ∈ m, ValueNumber.InRange p.2) (key : String) :
    ValueNumber.InRange ((m.lookup key).getD 0) := by
  induction m with
  | nil => exact inRange_zero
  | cons p rest ih =>
    obtain ⟨k0, v0⟩ := p
    simp only [List.lookup]
    split
    · exact h (k0, v0) (List.mem_cons_self _ _)
    · exact ih (fun q hq => h q (List.mem_cons_of_mem _ hq))

/-- One round of the loop of `read` keeps the value numbers within 16 bits. -/
theorem read_symbol_valueInv (from_file : Bool) (k : Nat) (line : String) (st : ReadState)
    (h : ValueInv st) : ValueInv (read_symbol from_file k line st) := by
  by_cases hf : is_flag_string line
  · rw [read_symbol_flag_eq from_file k line st hf]
    obtain ⟨h1, h2, h3⟩ := h
    dsimp only
    have hb : ∀ p ∈ st.value_bucket ++ [(value_name line, st.val_num)],
        ValueNumber.InRange p.2 := by
      intro p hp
      rcases List.mem_append.1 hp with hp | hp
      · exact h2 p hp
      · rw [List.mem_singleton.1 hp]
        exact h1
    split_ifs <;> refine ⟨?_, ?_, ?_⟩ <;>
      first
      | exact h1
      | exact h2
      | exact h3
      | exact hb
      | exact i16_inRange _
      | (intro p hp
         rcases List.mem_append.1 hp with hp | hp
         · exact h3 p hp
         · rw [List.mem_singleton.1 hp]
           first
           | exact lookup_getD_inRange _ h2 _
           | exact lookup_getD_inRange _ hb _)
  · obtain ⟨e1, e2, e3⟩ := read_symbol_not_flag_values from_file k line st hf
    unfold ValueInv
    rw [e1, e2, e3]
    exact h

theorem read_loop_valueInv (from_file : Bool) (raw : List String) :
    ∀ (k count : Nat) (st st2 : ReadState), ValueInv st →
      read_loop from_file raw k count st = some st2 → ValueInv st2 := by
  induction raw with
  | nil =>
    intro k count st st2 h hr
    cases count with
    | zero =>
      simp only [read_loop, Option.some.injEq] at hr
      rw [← hr]
      exact h
    | succ c => simp [read_loop] at hr
  | cons line raw ih =>
    intro k count st st2 h hr
    cases count with
    | zero =>
      simp only [read_loop, Option.some.injEq] at hr
      rw [← hr]
      exact h
    | succ c =>
      simp only [read_loop] at hr
      exact ih (k + 1) c _ st2 (read_symbol_valueInv from_file k line st h) hr

/-- Every operation of a loaded alphabet has a 16-bit value. -/
theorem create_values_inRange (from_file : Bool) (raw : List String) (n : Nat)
    (a : TransducerAlphabet) (h : create from_file raw n = some a) :
    ∀ p ∈ a.operations, ValueNumber.InRange p.2.value := by
  unfold create read at h
  cases raw with
  | nil => simp at h
  | cons r raw =>
    simp only [] at h
    split at h
    · cases h
    · rename_i st hst
      simp only [Option.some.injEq] at h
      rw [← h]
      refine (read_loop_valueInv from_file raw 1 (n - 1) _ st ?_ hst).2.2
      refine ⟨inRange_one, ?_, ?_⟩
      · intro p hp
        rw [List.mem_singleton.1 hp]
        exact inRange_zero
      · intro p hp
        cases hp

end TransducerAlphabet

namespace TransducerAlphabet

theorem i16_succ (a : Int) : i16 (i16 a + 1) = i16 (a + 1) := by
  have h : ((a + 32768) % 65536 - 32768 + 1 + 32768) % 65536 - 32768
      = (a + 1 + 32768) % 65536 - 32768 := by omega
  exact h

theorem lookup_singleton_ne {α β : Type} [DecidableEq α] (key k : α) (v : β) (h : key ≠ k) :
    [(k, v)].lookup key = none := by
  have e : (key == k) = false := beq_false_of_ne h
  simp only [List.lookup, e]

/-- Reading the flag diacritic `value_flag (m + 1)` as symbol `m + 1` after
the first `m` of them. -/
theorem read_symbol_value_flag (from_file : Bool) (m : Nat) (st : ReadState)
    (h : ValueFlagsInv m st) :
    ValueFlagsInv (m + 1) (read_symbol from_file (m + 1) (value_flag (m + 1)) st) := by
  obtain ⟨h1, h2, h3, h4, h5⟩ := h
  have hv : st.value_bucket.lookup (letters_v (m + 1)) = none := h2 (m + 1) (Nat.lt_succ_self m)
  have ho : st.alphabet.operations.lookup (m + 1) = none := h3 (m + 1) (Nat.lt_succ_self m)
  have hval : ((st.value_bucket ++ [(letters_v (m + 1), st.val_num)]).lookup
      (letters_v (m + 1))).getD 0 = i16 ((m + 1 : Nat) : Int) := by
    rw [lookup_append_right _ _ _ hv, lookup_singleton_self, h1]
    simp
  have hfeat : ∃ fn : SymbolNumber,
      read_symbol from_file (m + 1) (value_flag (m + 1)) st =
        { st with feature_bucket := [("F", 0)], feat_num := fn,
                  value_bucket := st.value_bucket ++ [(letters_v (m + 1), st.val_num)],
                  val_num := i16 (st.val_num + 1),
                  alphabet := { st.alphabet with
                    operations := st.alphabet.operations ++
                      [(m + 1, ⟨FlagDiacriticOperator.N, 0, i16 ((m + 1 : Nat) : Int)⟩)],
                    kt := st.alphabet.kt ++ [""] } } := by
    rw [read_symbol_flag_eq from_file (m + 1) (value_flag (m + 1)) st
      (value_flag_is_flag_string (m + 1)), value_flag_feature_name, value_flag_value_name,
      value_flag_operator]
    rcases h5 with ⟨_, hb, hn⟩ | ⟨_, hb⟩
    · refine ⟨(0 + 1) % 65536, ?_⟩
      have hc : st.feature_bucket.count "F" = 0 := by rw [hb]; rfl
      dsimp only
      rw [if_pos hc]
      dsimp only
      rw [hv]
      simp only [Option.isNone_none, if_true]
      rw [ho, hval, hb, hn]
      rfl
    · refine ⟨st.feat_num, ?_⟩
      have hc : ¬ st.feature_bucket.count "F" = 0 := by rw [hb]; decide
      dsimp only
      rw [if_neg hc]
      rw [hv]
      simp only [Option.isNone_none, if_true]
      rw [ho, hval, hb]
      rfl
  obtain ⟨fn, hr⟩ := hfeat
  rw [hr]
  refine ⟨?_, ?_, ?_, ?_, Or.inr ⟨Nat.succ_le_succ (Nat.zero_le m), rfl⟩⟩
  · show i16 (st.val_num + 1) = i16 (((m + 1 : Nat) : Int) + 1)
    rw [h1, i16_succ]
    simp
  · intro j hj
    show (st.value_bucket ++ [(letters_v (m + 1), st.val_num)]).lookup (letters_v j) = none
    rw [lookup_append_right _ _ _ (h2 j (Nat.lt_of_succ_lt hj))]
    refine lookup_singleton_ne _ _ _ (fun e => ?_)
    have := letters_v_injective _ _ e
    omega
  · intro k hk
    show (st.alphabet.operations ++ [(m + 1, _)]).lookup k = none
    rw [lookup_append_right _ _ _ (h3 k (Nat.lt_of_succ_lt hk))]
    exact lookup_singleton_ne _ _ _ (by omega)
  · intro k hk1 hk2
    show (st.alphabet.operations ++ [(m + 1, _)]).lookup k = _
    by_cases hkm : k ≤ m
    · exact lookup_append_left _ _ _ _ (h4 k hk1 hkm)
    · have hk : k = m + 1 := by omega
      rw [hk, lookup_append_right _ _ _ ho, lookup_singleton_self]

/-- Reading `count` flag diacritics `value_flag (m + 1)`, ... as the symbols
from `m + 1` on after the first `m` of them. -/
theorem read_loop_value_flags (from_file : Bool) :
    ∀ (count m : Nat) (st : ReadState), ValueFlagsInv m st →
      ∃ st2, read_loop from_file (value_flags (m + 1) count) (m + 1) count st = some st2 ∧
        ValueFlagsInv (m + count) st2 := by
  intro count
  induction count with
  | zero =>
    intro m st h
    exact ⟨st, rfl, h⟩
  | succ c ih =>
    intro m st h
    obtain ⟨st2, hr, hinv⟩ := ih (m + 1) _ (read_symbol_value_flag from_file m st h)
    refine ⟨st2, ?_, ?_⟩
    · show read_loop from_file (value_flags (m + 1 + 1) c) (m + 1 + 1) c
        (read_symbol from_file (m + 1) (value_flag (m + 1)) st) = some st2
      exact hr
    · have e : m + (c + 1) = m + 1 + c := by omega
      rw [e]
      exact hinv

/-- An alphabet of epsilon and `count` flag diacritics with pairwise
different value names: the reader returns, there is one feature, and symbol
`k` is the negative set of feature 0 to the value `k` narrowed to 16 bits. -/
theorem create_value_flags (from_file : Bool) (count : Nat) :
    ∃ a, create from_file ("" :: value_flags 1 count) (count + 1) = some a ∧
      (1 ≤ count → a.flag_state_size = 1) ∧
      ∀ k, 1 ≤ k → k ≤ count →
        a.operations.lookup k = some ⟨FlagDiacriticOperator.N, 0, i16 k⟩ := by
  have h0 : ValueFlagsInv 0
      { alphabet := { kt := ([] : KeyTable) ++ [""], operations := [],
                      unknown_symbol := NO_SYMBOL, identity_symbol := NO_SYMBOL,
                      flag_state_size := 0, orig_symbol_count := count + 1,
                      string_to_symbol := [] },
        feature_bucket := [], value_bucket := [("", 0)], val_num := 1, feat_num := 0 } := by
    have hone : (1 : ValueNumber) = i16 (((0 : Nat) : Int) + 1) := by decide
    refine ⟨hone, ?_, ?_, ?_, Or.inl ⟨rfl, rfl, rfl⟩⟩
    · intro j hj
      refine lookup_singleton_ne _ _ _ (fun e => ?_)
      have := letters_v_injective j 0 e
      omega
    · intro k _
      rfl
    · intro k hk1 hk2
      omega
  obtain ⟨st2, hr, hinv⟩ := read_loop_value_flags from_file count 0 _ h0
  refine ⟨{ st2.alphabet with flag_state_size := st2.feature_bucket.length % 65536 },
    ?_, ?_, ?_⟩
  · unfold create read
    simp only [Nat.add_sub_cancel]
    rw [hr]
  · intro hc
    rcases hinv.2.2.2.2 with ⟨h0, _⟩ | ⟨_, hb⟩
    · omega
    · show st2.feature_bucket.length % 65536 = 1
      rw [hb]
      rfl
  · intro k hk1 hk2
    exact hinv.2.2.2.1 k hk1 (by omega)

end TransducerAlphabet

/-- C6 as stated fails for `N` at the value `-32768`, which a `ValueNumber`
can hold and which the reader gives: in the alphabet `many_values_strings`
the flag diacritic read as symbol 32768 carries the 32768th new value name,
and `++val_num` after 32767 leaves `-32768`.  The alphabet has one feature,
so the flag state of the start node is `[0]`; on it the operation computes
`-1 * -32768`, which is `32768` in `int`, and the store in the 16-bit element
of the flag state leaves `-32768`, which is not `-V`. -/
theorem try_compatible_with_negative_set_wraps :
    (∃ a, TransducerAlphabet.create true many_values_strings 32769 = some a ∧
        a.flag_state_size = 1 ∧
        a.operations.lookup 32768 = some ⟨FlagDiacriticOperator.N, 0, -32768⟩) ∧
      ValueNumber.InRange (-32768) ∧
      (TreeNode.start [0]).try_compatible_with ⟨FlagDiacriticOperator.N, 0, -32768⟩
        = (true, TreeNode.start [-32768]) ∧
      ((TreeNode.start [0]).try_compatible_with
          ⟨FlagDiacriticOperator.N, 0, -32768⟩).2.flag_state.getD 0 0 = -32768 ∧
      -(-32768 : ValueNumber) = 32768 ∧ ¬ ValueNumber.InRange 32768 := by
  refine ⟨?_, ⟨by decide, by decide⟩, by decide, by decide, by decide, fun h => ?_⟩
  · obtain ⟨a, h1, h2, h3⟩ := TransducerAlphabet.create_value_flags true 32768
    refine ⟨a, h1, h2 (by decide), ?_⟩
    have h4 := h3 32768 (by decide) (Nat.le_refl _)
    have e : i16 ((32768 : Nat) : Int) = -32768 := by decide
    rw [e] at h4
    exact h4
  · exact absurd h.2 (by decide)

end hfst_ospell
